import Mathlib

/-!
# Margo: lexer and parser of the component markup

A shallow embedding of `lexer/lexer.go` and `parser/parser.go`.

* Go strings are byte strings; a string is modelled as a `List Char`, one
  element per byte.  The code only ever compares a byte with an ASCII constant.
* The lexer is a record that the functions pass along explicitly;
  `Lexer.pos` indexes the input like the source does.
* A Go `panic` and a returned `error` are kept apart: see `Fault`.
* Loops are recursions on a fuel argument.  The loops of the lexer get the
  number of bytes left, which they cannot exceed; the parser takes its
  fuel as an argument and reports `Fault.fuel` when it runs out.
-/

namespace Margo

/-! ## lexer/lexer.go -/

/-- The token kinds, in the order of the source's `iota` block. -/
inductive TokenType
  | EOF
  | LineBreak
  | Indent
  | Component
  | Property
  | Text
  | Number
  | Bool
  | Colon
  | Quote
  deriving DecidableEq, Repr

/-- A token; `type` is the field `Type` of the source. -/
structure Token where
  type : TokenType
  Value : List Char
  Line : Int
  Column : Int
  deriving DecidableEq, Repr

/-- The zero value of `Token`, also what `Token{Type: EOF}` denotes. -/
def Token.zero : Token := ⟨TokenType.EOF, [], 0, 0⟩

/-- The lexer state. -/
structure Lexer where
  input : List Char
  pos : Nat
  line : Int
  column : Int
  prev : Token
  deriving DecidableEq, Repr

/-- The ways a call can fail to return a value. -/
inductive Fault
  /-- The panic of `lexIndent`: "invalid indent at line %d, column %d". -/
  | invalidIndent (line column : Int)
  /-- The panic of `parseBlock` and `parseComponentNode`: "unexpected %v: %v". -/
  | unexpected (type : TokenType) (value : List Char)
  /-- The panic of a failed type assertion `node.(*TextNode)`. -/
  | typeAssertion
  /-- An `error` value: "%d:%d expected opening quote got %v". -/
  | expectedOpeningQuote (line column : Int) (got : List Char)
  /-- An `error` value: "malformed string at %d:%d". -/
  | malformedString (line column : Int)
  /-- An `error` value: "%d:%d expected closing quote got %v". -/
  | expectedClosingQuote (line column : Int) (got : List Char)
  /-- An `error` value: "%d:%d a property value can only contain one component got %d". -/
  | onlyOneComponent (line column : Int) (count : Nat)
  /-- An `error` value: "%d:%d expected \" or newline got %v". -/
  | expectedQuoteOrNewline (line column : Int) (got : List Char)
  /-- An `error` value: "%d:%d expected colon after property name got %v". -/
  | expectedColon (line column : Int) (got : List Char)
  /-- The model ran out of fuel; no behaviour of the source. -/
  | fuel
  deriving DecidableEq, Repr

/-- Whether the fault is a Go panic, as opposed to a returned `error`. -/
def Fault.isPanic : Fault → Bool
  | .invalidIndent _ _ => true
  | .unexpected _ _ => true
  | .typeAssertion => true
  | _ => false

/-- Whether the fault is a returned, non-nil `error` value. -/
def Fault.isError : Fault → Bool
  | .expectedOpeningQuote _ _ _ => true
  | .malformedString _ _ => true
  | .expectedClosingQuote _ _ _ => true
  | .onlyOneComponent _ _ _ => true
  | .expectedQuoteOrNewline _ _ _ => true
  | .expectedColon _ _ _ => true
  | _ => false

/-- The byte 0, which `current` returns past the end of the input. -/
def nul : Char := Char.ofNat 0

/-- The slice `input[a:b]`. -/
def slice (input : List Char) (a b : Nat) : List Char :=
  (input.drop a).take (b - a)

/-- The function `New`. -/
def New (input : List Char) : Lexer :=
  { input := input, pos := 0, line := 1, column := 1, prev := Token.zero }

/-- The method `current`. -/
def Lexer.current (l : Lexer) : Char :=
  if l.pos ≥ l.input.length then nul else l.input.getD l.pos nul

/-- The method `advance`. -/
def Lexer.advance (l : Lexer) : Lexer :=
  if l.pos ≥ l.input.length then l
  else if l.input.getD l.pos nul = '\n' then
    { l with line := l.line + 1, column := 1, pos := l.pos + 1 }
  else
    { l with column := l.column + 1, pos := l.pos + 1 }

/-- The function `isAlphaNumeric`. -/
def isAlphaNumeric (ch : Char) : Bool :=
  ('a' ≤ ch && ch ≤ 'z') || ('A' ≤ ch && ch ≤ 'Z') || ('0' ≤ ch && ch ≤ '9') || ch == '_'

/-- The method `isEOF`. -/
def Lexer.isEOF (l : Lexer) : Bool := l.pos ≥ l.input.length

/-- The loop of `lookAhead` over the bytes from index `i` on: the index of the
first `v`, unless a `t` or the end of the input comes first (`none` is the
source's `-1`). -/
def lookAheadFrom (v t : Char) : List Char → Nat → Option Nat
  | [], _ => none
  | c :: cs, i =>
    if c = v then some i
    else if c = t then none
    else lookAheadFrom v t cs (i + 1)

/-- The method `lookAhead`. -/
def Lexer.lookAhead (l : Lexer) (v t : Char) : Option Nat :=
  lookAheadFrom v t (l.input.drop l.pos) l.pos

/-- The loop `for l.pos < len(l.input) && cond(l.current()) { l.advance() }`;
the fuel is the number of bytes left. -/
def Lexer.advanceWhile (cond : Char → Bool) : Nat → Lexer → Lexer
  | 0, l => l
  | fuel + 1, l =>
    if l.pos < l.input.length ∧ cond l.current = true then
      Lexer.advanceWhile cond fuel l.advance
    else l

/-- The method `lexComponent`. -/
def Lexer.lexComponent (l : Lexer) : Token × Lexer :=
  let column := l.column
  let l1 := l.advance
  let start := l1.pos
  let l2 := l1.advanceWhile isAlphaNumeric (l1.input.length - l1.pos)
  (⟨TokenType.Component, slice l2.input start l2.pos, l2.line, column⟩, l2)

/-- The method `lexBoolProperty`. -/
def Lexer.lexBoolProperty (l : Lexer) : Token × Lexer :=
  let l1 := l.advance
  let start := l1.pos
  let l2 := l1.advanceWhile isAlphaNumeric (l1.input.length - l1.pos)
  (⟨TokenType.Bool, slice l2.input start l2.pos, l2.line, l2.column⟩, l2)

/-- The method `isIndent`. -/
def Lexer.isIndent (l : Lexer) : Bool :=
  if l.pos = 0 then false
  else if l.current ≠ ' ' ∧ l.current ≠ '\t' then false
  else l.prev.type = TokenType.Indent || l.prev.type = TokenType.LineBreak

/-- The method `isProperty`. -/
def Lexer.isProperty (l : Lexer) : Bool :=
  match l.lookAhead ':' '\n' with
  | none => false
  | some e => (slice l.input l.pos e).all isAlphaNumeric

/-- The method `lexProperty`. -/
def Lexer.lexProperty (l : Lexer) : Token × Lexer :=
  let start := l.pos
  let l1 := l.advanceWhile (fun c => c ≠ ':') (l.input.length - l.pos)
  (⟨TokenType.Property, slice l1.input start l1.pos, l.line, l.column⟩, l1)

/-- The loop of `lexIndent` over spaces; the argument counts the spaces that
are still missing to four.  `none` is the loop left before `size == 4`. -/
def Lexer.lexIndentSpaces : Nat → Lexer → Option Lexer
  | 0, l => some l
  | missing + 1, l =>
    if l.current = ' ' then Lexer.lexIndentSpaces missing l.advance else none

/-- The method `lexIndent`. -/
def Lexer.lexIndent (l : Lexer) : Except Fault (Token × Lexer) :=
  let token : Token := ⟨TokenType.Indent, ['\t'], l.line, l.column⟩
  if l.current = '\t' then .ok (token, l.advance)
  else
    match l.lexIndentSpaces 4 with
    | some l1 => .ok (token, l1)
    | none => .error (Fault.invalidIndent l.line l.column)

/-- The method `lexNewline`. -/
def Lexer.lexNewline (l : Lexer) : Token × Lexer :=
  (⟨TokenType.LineBreak, ['\n'], l.line, l.column - 1⟩, l.advance)

/-- The call `strings.Replace(s, "\\\"", "\"", -1)`: every occurrence of
backslash-quote, from the left and without overlap, becomes a quote. -/
def unescapeQuotes : List Char → List Char
  | [] => []
  | '\\' :: '"' :: rest => '"' :: unescapeQuotes rest
  | c :: rest => c :: unescapeQuotes rest

/-- The loop of `lexString`; `prev` is the loop's local byte of that name. -/
def Lexer.lexStringLoop : Nat → Char → Lexer → Lexer
  | 0, _, l => l
  | fuel + 1, prev, l =>
    if l.pos < l.input.length ∧ l.current ≠ '"' ∧ prev ≠ '\\' then
      Lexer.lexStringLoop fuel l.current l.advance
    else l

/-- The method `lexString`. -/
def Lexer.lexString (l : Lexer) : Token × Lexer :=
  let start := l.pos
  let l1 := l.lexStringLoop (l.input.length - l.pos) nul
  (⟨TokenType.Text, unescapeQuotes (slice l1.input start l1.pos), l.line, l.column⟩, l1)

/-- The last case of the method `next`: the text up to the end of the line. -/
def Lexer.lexText (l : Lexer) : Token × Lexer :=
  let l1 := l.advanceWhile (fun c => c ≠ '\n') (l.input.length - l.pos)
  (⟨TokenType.Text, slice l1.input l.pos l1.pos, l.line, l.column⟩, l1)

/-- The loop of the method `next`.  Only the case of a space goes round
again, after one `advance`, so the bytes left plus one are fuel enough.  The
locals `start`, `line` and `column` are `l.pos`, `l.line` and `l.column`: no
case changes the lexer before it reads them. -/
def Lexer.nextLoop : Nat → Lexer → Except Fault (Token × Lexer)
  | 0, _ => .error Fault.fuel
  | fuel + 1, l =>
    if l.isEOF then .ok (Token.zero, l)
    else if l.isIndent then l.lexIndent
    else if l.prev.type = TokenType.Quote ∧ (l.lookAhead '"' '\n').isSome then
      .ok l.lexString
    else if l.current = ' ' then Lexer.nextLoop fuel l.advance
    else if l.current = '\\' then .ok l.lexComponent
    else if l.current = '"' then
      .ok (⟨TokenType.Quote, ['"'], l.line, l.column⟩, l.advance)
    else if l.current = ':' then
      .ok (⟨TokenType.Colon, [':'], l.line, l.column⟩, l.advance)
    else if l.current = '\n' then .ok l.lexNewline
    else if l.current = '!' then .ok l.lexBoolProperty
    else if l.isProperty then .ok l.lexProperty
    else .ok l.lexText

/-- The method `next`. -/
def Lexer.next (l : Lexer) : Except Fault (Token × Lexer) :=
  Lexer.nextLoop (l.input.length - l.pos + 1) l

/-- The method `Prev`. -/
def Lexer.Prev (l : Lexer) : Token := l.prev

/-- The method `Next`. -/
def Lexer.Next (l : Lexer) : Except Fault (Token × Lexer) :=
  match l.next with
  | .ok (t, l1) => .ok (t, { l1 with prev := t })
  | .error f => .error f

/-- The method `Peek`. -/
def Lexer.Peek (l : Lexer) : Except Fault (Token × Lexer) :=
  match l.next with
  | .ok (t, l1) => .ok (t, { l1 with pos := l.pos, line := l.line, column := l.column })
  | .error f => .error f

/-- The tokens that repeated calls of `Next` return, up to and including the
first `EOF`, as the loop of `TestLexer` collects them. -/
def Lexer.tokens : Nat → Lexer → Except Fault (List Token)
  | 0, _ => .error Fault.fuel
  | fuel + 1, l =>
    match l.Next with
    | .error f => .error f
    | .ok (t, l1) =>
      if t.type = TokenType.EOF then .ok [t]
      else
        match Lexer.tokens fuel l1 with
        | .ok ts => .ok (t :: ts)
        | .error f => .error f

/-! ## parser/node.go -/

mutual
/-- The interface `Node` with its two implementations.  The attributes of a
component are the `ast.Attribute` pairs of a name and a value. -/
inductive Node
  | ComponentNode (Name : List Char) (attributes : List (List Char × Value))
      (children : List Node)
  | TextNode (Value : List Char)
/-- The dynamic values (`any`) that the parser stores in `ast.Attribute.Value`. -/
inductive Value
  | str (s : List Char)
  | bool (b : Bool)
  | node (n : Node)
end

/-- The type test `node.(*ComponentNode)`. -/
def Node.isComponent : Node → Bool
  | .ComponentNode _ _ _ => true
  | .TextNode _ => false

/-- The method `Children`. -/
def Node.Children : Node → List Node
  | .ComponentNode _ _ children => children
  | .TextNode _ => []

/-- The method `Attributes` of a component node (a text node has none). -/
def Node.Attributes : Node → List (List Char × Value)
  | .ComponentNode _ attributes _ => attributes
  | .TextNode _ => []

/-! ## parser/parser.go -/

/-- The parser state. -/
structure Parser where
  lexer : Lexer
  indent : Nat
  deriving DecidableEq

/-- The function `NewMargoParser`. -/
def NewMargoParser (content : List Char) : Parser :=
  { lexer := New content, indent := 0 }

/-- The method `parseString`. -/
def Parser.parseString (p : Parser) : Except Fault (List Char × Parser) :=
  match p.lexer.Next with
  | .error f => .error f
  | .ok (open_, l1) =>
    if open_.type ≠ TokenType.Quote then
      .error (Fault.expectedOpeningQuote open_.Line open_.Column open_.Value)
    else
      match l1.Next with
      | .error f => .error f
      | .ok (token, l2) =>
        if token.type ≠ TokenType.Text then
          .error (Fault.malformedString token.Line token.Column)
        else
          match l2.Next with
          | .error f => .error f
          | .ok (next, l3) =>
            if next.type ≠ TokenType.Quote then
              .error (Fault.expectedClosingQuote next.Line next.Column next.Value)
            else .ok (token.Value, { p with lexer := l3 })

/-- The loop `for _, node := range nodes { text = append(text, node.(*TextNode).Value) }`. -/
def textValues : List Node → Except Fault (List (List Char))
  | [] => .ok []
  | .TextNode v :: rest =>
    match textValues rest with
    | .ok vs => .ok (v :: vs)
    | .error f => .error f
  | .ComponentNode _ _ _ :: _ => .error Fault.typeAssertion

/-- The call `strings.Join(text, "\n")`. -/
def joinLines : List (List Char) → List Char
  | [] => []
  | [a] => a
  | a :: b :: rest => a ++ '\n' :: joinLines (b :: rest)

/-- The tail of `parsePropertyValue`, from the count of the component nodes
on: what the nodes of the nested block become.  `next` is the peeked line
break. -/
def propertyValueOf (next : Token) (nodes : List Node) : Except Fault Value :=
  let componentNodes := nodes.countP Node.isComponent
  if componentNodes > 1 then
    .error (Fault.onlyOneComponent next.Line next.Column componentNodes)
  else if componentNodes = 0 then
    match textValues nodes with
    | .ok text => .ok (Value.str (joinLines text))
    | .error f => .error f
  else
    match nodes with
    | n :: _ => .ok (Value.node n)
    | [] => .error Fault.typeAssertion

mutual
/-- The loop of `parseBlock`. -/
def Parser.parseBlockLoop : Nat → Nat → List Node → Parser →
    Except Fault (List Node × Parser)
  | 0, _, _, _ => .error Fault.fuel
  | fuel + 1, baseIndent, nodes, p =>
    match p.lexer.Peek with
    | .error f => .error f
    | .ok (token, l0) =>
      if token.type = TokenType.EOF then .ok (nodes, { p with lexer := l0 })
      else if token.type = TokenType.Indent then
        match l0.Next with
        | .error f => .error f
        | .ok (_, l1) =>
          Parser.parseBlockLoop fuel baseIndent nodes { lexer := l1, indent := p.indent + 1 }
      else if token.type = TokenType.LineBreak then
        match l0.Next with
        | .error f => .error f
        | .ok (_, l1) =>
          Parser.parseBlockLoop fuel baseIndent nodes { lexer := l1, indent := 0 }
      else if p.indent ≤ baseIndent ∧ baseIndent ≠ 0 then
        .ok (nodes, { p with lexer := l0 })
      else if token.type = TokenType.Component then
        match Parser.parseComponentNode fuel { p with lexer := l0 } with
        | .error f => .error f
        | .ok (node, p1) => Parser.parseBlockLoop fuel baseIndent (nodes ++ [node]) p1
      else if token.type = TokenType.Text then
        match l0.Next with
        | .error f => .error f
        | .ok (_, l1) =>
          Parser.parseBlockLoop fuel baseIndent (nodes ++ [Node.TextNode token.Value])
            { p with lexer := l1 }
      else .error (Fault.unexpected token.type token.Value)
/-- The method `parseBlock`. -/
def Parser.parseBlock : Nat → Parser → Except Fault (List Node × Parser)
  | 0, _ => .error Fault.fuel
  | fuel + 1, p => Parser.parseBlockLoop fuel p.indent [] { p with indent := 0 }
/-- The method `parsePropertyValue`. -/
def Parser.parsePropertyValue : Nat → Parser → Except Fault (Value × Parser)
  | 0, _ => .error Fault.fuel
  | fuel + 1, p =>
    match p.lexer.Peek with
    | .error f => .error f
    | .ok (next, l0) =>
      if next.type = TokenType.Quote then
        match Parser.parseString { p with lexer := l0 } with
        | .ok (s, p1) => .ok (Value.str s, p1)
        | .error f => .error f
      else if next.type = TokenType.LineBreak then
        match l0.Next with
        | .error f => .error f
        | .ok (_, l1) =>
          match Parser.parseBlock fuel { p with lexer := l1 } with
          | .error f => .error f
          | .ok (nodes, p1) =>
            match propertyValueOf next nodes with
            | .ok v => .ok (v, p1)
            | .error f => .error f
      else .error (Fault.expectedQuoteOrNewline next.Line next.Column next.Value)
/-- The method `parseProperty`. -/
def Parser.parseProperty : Nat → Parser → Except Fault ((List Char × Value) × Parser)
  | 0, _ => .error Fault.fuel
  | fuel + 1, p =>
    match p.lexer.Next with
    | .error f => .error f
    | .ok (nameToken, l1) =>
      match l1.Next with
      | .error f => .error f
      | .ok (next, l2) =>
        if next.type ≠ TokenType.Colon then
          .error (Fault.expectedColon next.Line next.Column next.Value)
        else
          match Parser.parsePropertyValue fuel { p with lexer := l2 } with
          | .error f => .error f
          | .ok (v, p1) => .ok ((nameToken.Value, v), p1)
/-- The loop of `parseComponentNode`; `name`, `attributes` and `children` are
the fields of the node under construction. -/
def Parser.parseComponentNodeLoop : Nat → Nat → List Char → List (List Char × Value) →
    List Node → Parser → Except Fault (Node × Parser)
  | 0, _, _, _, _, _ => .error Fault.fuel
  | fuel + 1, baseIndent, name, attributes, children, p =>
    match p.lexer.Peek with
    | .error f => .error f
    | .ok (token, l0) =>
      if token.type = TokenType.EOF then
        .ok (Node.ComponentNode name attributes children, { p with lexer := l0 })
      else if token.type = TokenType.Indent then
        match l0.Next with
        | .error f => .error f
        | .ok (_, l1) =>
          Parser.parseComponentNodeLoop fuel baseIndent name attributes children
            { lexer := l1, indent := p.indent + 1 }
      else if token.type = TokenType.LineBreak then
        match l0.Next with
        | .error f => .error f
        | .ok (_, l1) =>
          Parser.parseComponentNodeLoop fuel baseIndent name attributes children
            { lexer := l1, indent := 0 }
      else if p.indent ≤ baseIndent then
        .ok (Node.ComponentNode name attributes children, { p with lexer := l0 })
      else if token.type = TokenType.Text then
        match l0.Next with
        | .error f => .error f
        | .ok (_, l1) =>
          Parser.parseComponentNodeLoop fuel baseIndent name attributes
            (children ++ [Node.TextNode token.Value]) { p with lexer := l1 }
      else if token.type = TokenType.Component then
        match Parser.parseComponentNode fuel { p with lexer := l0 } with
        | .error f => .error f
        | .ok (child, p1) =>
          Parser.parseComponentNodeLoop fuel baseIndent name attributes
            (children ++ [child]) p1
      else if token.type = TokenType.Bool then
        match l0.Next with
        | .error f => .error f
        | .ok (_, l1) =>
          Parser.parseComponentNodeLoop fuel baseIndent name
            (attributes ++ [(token.Value, Value.bool true)]) children { p with lexer := l1 }
      else if token.type = TokenType.Property then
        match Parser.parseProperty fuel { p with lexer := l0 } with
        | .error f => .error f
        | .ok (kv, p1) =>
          Parser.parseComponentNodeLoop fuel baseIndent name (attributes ++ [kv]) children p1
      else .error (Fault.unexpected token.type token.Value)
/-- The method `parseComponentNode`. -/
def Parser.parseComponentNode : Nat → Parser → Except Fault (Node × Parser)
  | 0, _ => .error Fault.fuel
  | fuel + 1, p =>
    match p.lexer.Next with
    | .error f => .error f
    | .ok (marker, l1) =>
      Parser.parseComponentNodeLoop fuel p.indent marker.Value [] [] { p with lexer := l1 }
end

/-- Fuel that lets `Parse` finish on the input: every call of the parser that
goes one level deeper comes after a token of its own, and there are at most
two tokens to a byte. -/
def parseFuel (content : List Char) : Nat := 4 * content.length + 8

/-- The method `Parse` of a parser that `NewMargoParser` made for `content`:
the root nodes, or the fault. -/
def Parse (content : List Char) : Except Fault (List Node) :=
  match Parser.parseBlock (parseFuel content) (NewMargoParser content) with
  | .ok (nodes, _) => .ok nodes
  | .error f => .error f

/-! ## Comparing results

The comparisons below recurse on a depth bound and only take the nodes
apart, so that they evaluate quickly. -/

mutual
/-- Whether two nodes are equal, looking at most `fuel` levels deep. -/
def Node.eqb : Nat → Node → Node → Bool
  | 0, _, _ => false
  | fuel + 1, .ComponentNode n1 a1 c1, .ComponentNode n2 a2 c2 =>
    decide (n1 = n2) && Node.eqbAttrs fuel a1 a2 && Node.eqbList fuel c1 c2
  | _ + 1, .TextNode v1, .TextNode v2 => decide (v1 = v2)
  | _ + 1, _, _ => false
/-- Whether two property values are equal, looking at most `fuel` levels deep. -/
def Value.eqb : Nat → Value → Value → Bool
  | 0, _, _ => false
  | _ + 1, .str s1, .str s2 => decide (s1 = s2)
  | _ + 1, .bool b1, .bool b2 => decide (b1 = b2)
  | fuel + 1, .node n1, .node n2 => Node.eqb fuel n1 n2
  | _ + 1, _, _ => false
/-- Whether two lists of nodes are equal, looking at most `fuel` levels deep. -/
def Node.eqbList : Nat → List Node → List Node → Bool
  | 0, _, _ => false
  | _ + 1, [], [] => true
  | fuel + 1, x :: xs, y :: ys => Node.eqb fuel x y && Node.eqbList fuel xs ys
  | _ + 1, _, _ => false
/-- Whether two attribute lists are equal, looking at most `fuel` levels deep. -/
def Node.eqbAttrs : Nat → List (List Char × Value) → List (List Char × Value) → Bool
  | 0, _, _ => false
  | _ + 1, [], [] => true
  | fuel + 1, (k1, v1) :: xs, (k2, v2) :: ys =>
    decide (k1 = k2) && Value.eqb fuel v1 v2 && Node.eqbAttrs fuel xs ys
  | _ + 1, _, _ => false
end

/-- Whether a result of `Parse` is the expected one. -/
def resultEqb (fuel : Nat) : Except Fault (List Node) → Except Fault (List Node) → Bool
  | .ok a, .ok b => Node.eqbList fuel a b
  | .error e, .error f => decide (e = f)
  | _, _ => false

/-- Whether two pairs are equal, by a comparison for either side. -/
def pairEqb {α β : Type} (ea : α → α → Bool) (eb : β → β → Bool) (x y : α × β) : Bool :=
  ea x.1 y.1 && eb x.2 y.2

/-- Whether two results of a call are equal, by a comparison for the values. -/
def exceptEqb {α : Type} (ea : α → α → Bool) : Except Fault α → Except Fault α → Bool
  | .ok a, .ok b => ea a b
  | .error e, .error f => decide (e = f)
  | _, _ => false

/-- The comparison that decides the equality of the type. -/
def decEqb {α : Type} [DecidableEq α] (a b : α) : Bool := decide (a = b)

/-- Equality of results is decidable when it is for the values and the faults. -/
instance instDecidableEqResult {ε α : Type} [DecidableEq ε] [DecidableEq α] :
    DecidableEq (Except ε α)
  | .ok a, .ok b =>
    if h : a = b then isTrue (by rw [h]) else isFalse (fun h1 => h (by cases h1; rfl))
  | .error a, .error b =>
    if h : a = b then isTrue (by rw [h]) else isFalse (fun h1 => h (by cases h1; rfl))
  | .ok _, .error _ => isFalse (fun h => by cases h)
  | .error _, .ok _ => isFalse (fun h => by cases h)

/-- The tokens of `n` calls of `Peek` in a row, and the lexer they leave. -/
def Lexer.peeks : Nat → Lexer → Except Fault (List Token × Lexer)
  | 0, l => .ok ([], l)
  | n + 1, l =>
    match l.Peek with
    | .error f => .error f
    | .ok (t, l1) =>
      match Lexer.peeks n l1 with
      | .error f => .error f
      | .ok (ts, l2) => .ok (t :: ts, l2)


/-! ## Notions for the statements -/

/-- The lexer stands behind the bytes `pre` and before the bytes `rest` of
its input. -/
def Lexer.At (l : Lexer) (pre rest : List Char) : Prop :=
  l.input = pre ++ rest ∧ l.pos = pre.length

/-- The method `next` returns a token of kind `ty` with the value `v` and
leaves the lexer behind `pre` and before `rest`. -/
def Lexer.Lexes (l : Lexer) (ty : TokenType) (v pre rest : List Char) : Prop :=
  ∃ t l1, l.next = .ok (t, l1) ∧ t.type = ty ∧ t.Value = v ∧ l1.At pre rest

/-- The lexer is not about to read the inside of a quoted string: the
condition of `next` for calling `lexString` fails. -/
def Lexer.Plain (l : Lexer) : Prop :=
  ¬ (l.prev.type = TokenType.Quote ∧ (l.lookAhead '"' '\n').isSome = true)

/-- The byte can start a text token: it starts no other kind of token. -/
def startsText (c : Char) : Bool :=
  c != ' ' && c != '\t' && c != '\\' && c != '"' && c != ':' && c != '\n' && c != '!'

/-- The bytes, taken as the rest of a line, pass the test of `isProperty`:
there is a colon, and only letters, digits and underscores before it. -/
def propertyLike (txt : List Char) : Bool :=
  match lookAheadFrom ':' '\n' txt 0 with
  | none => false
  | some e => (txt.take e).all isAlphaNumeric

/-- A line of plain text: what the lexer returns as one text token.  It is
not empty, has no line break, starts no other kind of token and does not
look like a property name. -/
def plainLine (txt : List Char) : Bool :=
  match txt with
  | [] => false
  | c :: _ => startsText c && !txt.contains '\n' && !propertyLike txt

/-- A run of letters, digits and underscores ends where `rest` starts. -/
def runEnds (rest : List Char) : Prop := ∀ c r, rest = c :: r → isAlphaNumeric c = false

/-- A line ends where `rest` starts: at a line break or at the end of the input. -/
def lineEnds (rest : List Char) : Prop := rest = [] ∨ ∃ r, rest = '\n' :: r

/-- The bytes can stand between two quotes and come back as they are: no
quote, no line break, and a backslash at most as the last byte. -/
def quotable (body : List Char) : Bool :=
  !body.contains '"' && !body.contains '\n' && !body.dropLast.contains '\\'

/-- Calls of `Next` take the lexer `l` to the lexer `l1` and return the
tokens `ts`, in this order. -/
def Lexer.Consumes : Lexer → List Token → Lexer → Prop
  | l, [], l1 => l1 = l
  | l, t :: ts, l1 => ∃ l2, l.Next = .ok (t, l2) ∧ Lexer.Consumes l2 ts l1

/-- The token is an indentation unit or a line break. -/
def Token.isBlank (t : Token) : Bool :=
  t.type = TokenType.Indent || t.type = TokenType.LineBreak

/-- The indentation counter of the parser behind the tokens, when it was `c`
before them: an `Indent` adds one, a `LineBreak` sets it to zero. -/
def counterAfter : Nat → List Token → Nat
  | c, [] => c
  | c, t :: ts =>
    if t.type = TokenType.Indent then counterAfter (c + 1) ts
    else if t.type = TokenType.LineBreak then counterAfter 0 ts
    else counterAfter c ts

/-- Every token of the list that is neither an `Indent` nor a `LineBreak`
stands where the indentation counter is at least `m`; the counter is `c`
before the list. -/
def allAtLeast (m : Nat) : Nat → List Token → Prop
  | _, [] => True
  | c, t :: ts =>
    if t.type = TokenType.Indent then allAtLeast m (c + 1) ts
    else if t.type = TokenType.LineBreak then allAtLeast m 0 ts
    else m ≤ c ∧ allAtLeast m c ts

/-- Where a component opened at indentation `k` ends: the parser stands at
the end of the input, or before a token that is neither an `Indent` nor a
`LineBreak` while its indentation counter is at most `k`. -/
def Parser.endsComponent (k : Nat) (p : Parser) : Prop :=
  ∃ t, p.lexer.Peek = .ok (t, p.lexer) ∧
    (t.type = TokenType.EOF ∨ (t.isBlank = false ∧ p.indent ≤ k))

/-- From `p` to `p1` the parser takes tokens off the lexer with `Next`, its
indentation counter follows their `Indent`s and `LineBreak`s, and every
other token among them stands at indentation `m` or deeper. -/
def Parser.Extent (m : Nat) (p p1 : Parser) : Prop :=
  ∃ toks, p.lexer.Consumes toks p1.lexer ∧ allAtLeast m p.indent toks ∧
    p1.indent = counterAfter p.indent toks

/-- The bytes of a run of indentation units: a tab for `true`, four spaces
for `false`. -/
def indentUnits : List Bool → List Char
  | [] => []
  | true :: us => '\t' :: indentUnits us
  | false :: us => ' ' :: ' ' :: ' ' :: ' ' :: indentUnits us

/-- The bytes of a run of lines, each one a line break, its indentation units
and its text. -/
def textBlock : List (List Bool × List Char) → List Char
  | [] => []
  | (u, txt) :: lines => '\n' :: (indentUnits u ++ (txt ++ textBlock lines))

/-- The bytes start with something that is neither white space nor a line
break, or there are none. -/
def startsToken (rest : List Char) : Prop :=
  rest = [] ∨ ∃ c r, rest = c :: r ∧ c ≠ ' ' ∧ c ≠ '\t' ∧ c ≠ '\n'

/-- What may follow a nested block of a property at indentation `k`: the end
of the input, or a line break and a line with at most `k` indentation units
that is not blank (or is the end of the input). -/
def blockEnds (k : Nat) (tail : List Char) : Prop :=
  tail = [] ∨ ∃ u rest, tail = '\n' :: (indentUnits u ++ rest) ∧ u.length ≤ k ∧
    startsToken rest

/-- The bytes of the lines `Name: "value"`, one for every pair, each behind a
line break and one indentation unit of four spaces. -/
def propertyLines : List (List Char × List Char) → List Char
  | [] => []
  | (name, value) :: props =>
    '\n' :: ' ' :: ' ' :: ' ' :: ' ' :: (name ++ ':' :: ' ' :: '"' ::
      (value ++ '"' :: propertyLines props))

/-- A component written back as markup: the marker and, under it, the
properties as lines `Name: "value"`. -/
def serialize (component : List Char) (props : List (List Char × List Char)) : List Char :=
  '\\' :: (component ++ propertyLines props)

/-- The name of a property: letters, digits and underscores, at least one. -/
def validName (name : List Char) : Bool :=
  !name.isEmpty && name.all isAlphaNumeric

/-- The bytes written between the quotes of a single-line string: no quote
and no line break. -/
def singleLine (value : List Char) : Bool :=
  !value.contains '"' && !value.contains '\n'

/-- What `parseString` makes of the bytes between the quotes of a
single-line string: the bytes themselves when no backslash is among them;
otherwise the bytes up to the first backslash and this backslash, when
nothing but spaces stands between it and the closing quote, and nothing at
all (`parseString` fails) when something else does. -/
def cutValue : List Char → Option (List Char)
  | [] => some []
  | c :: rest =>
    if c = '\\' then (if rest.all (fun x => x == ' ') then some ['\\'] else none)
    else (cutValue rest).map (fun v => c :: v)

/-- The values that `parseString` makes of the lines, when it fails on none. -/
def cutValues : List (List Char × List Char) → Option (List (List Char × List Char))
  | [] => some []
  | (name, value) :: props =>
    match cutValue value, cutValues props with
    | some v, some vs => some ((name, v) :: vs)
    | _, _ => none

/-- The attribute of a component for a property with a string value. -/
def stringAttribute (kv : List Char × List Char) : List Char × Value :=
  (kv.1, Value.str kv.2)

/-- The string-valued properties of an attribute list, as pairs of a name and
a string. -/
def stringProps : List (List Char × Value) → List (List Char × List Char)
  | [] => []
  | (name, Value.str s) :: rest => (name, s) :: stringProps rest
  | _ :: rest => stringProps rest

/-- Calls of `Next` (for `true`) and of `Peek` (for `false`), one after the
other in the order of the list: the tokens they return and the lexer they
leave. -/
def Lexer.calls : List Bool → Lexer → Except Fault (List Token × Lexer)
  | [], l => .ok ([], l)
  | b :: bs, l =>
    match (if b then l.Next else l.Peek) with
    | .error f => .error f
    | .ok (t, l1) =>
      match Lexer.calls bs l1 with
      | .error f => .error f
      | .ok (ts, l2) => .ok (t :: ts, l2)

/-! ## registry/registry.go

The source handles layouts through pointers: the layout that `Register`
returns is the one that the new item keeps, and a later `Register` on it
changes what `Namespace` finds.  The model keeps all layouts in a heap, a
list, and a pointer `*layout` is an index into it.  A map
`map[string]*item` is a list of pairs with one pair for a key; the order of
the pairs is not an order of the map.  Strings are lists of bytes as in the
lexer, and `ToLower` lower-cases the letters of ASCII. -/

/-- What `reflect.TypeOf(component)` lets `Register` see of a value. -/
inductive GoType
  /-- A function type.  `ins` tells for every input whether its kind is
  `reflect.Struct`, `outs` for every output whether its type is
  `templ.Component`. -/
  | func (ins : List Bool) (outs : List Bool)
  /-- A type of any other kind. -/
  | other
  /-- No type at all: the value is the untyped `nil`. -/
  | untyped
  deriving DecidableEq, Repr

/-- A value of type `any` that is passed as a component: its dynamic type and
a number that tells the value from other values. -/
structure Component where
  type : GoType
  ident : Nat
  deriving DecidableEq, Repr

/-- The panics of the package. -/
inductive Panic
  /-- The panic "component must be a function". -/
  | notAFunction
  /-- The panic "component must take in a single struct". -/
  | notASingleStruct
  /-- The panic "component must return a single value". -/
  | notASingleValue
  /-- The panic "component must return templ.Component". -/
  | notAComponent
  /-- The panic of the runtime for a method of a nil interface or a field of
  a pointer to no layout. -/
  | nilDereference
  /-- The model ran out of fuel; no behaviour of the source. -/
  | fuel
  deriving DecidableEq, Repr

/-- The struct `item`; `subLayout` points into the heap. -/
structure item where
  value : Component
  subLayout : Nat
  deriving DecidableEq, Repr

/-- The struct `layout`. -/
structure layout where
  name : List Char
  components : List (List Char × item)
  deriving DecidableEq, Repr

/-- The call `strings.ToLower`. -/
def ToLower (s : List Char) : List Char := s.map Char.toLower

/-- The map read `v, ok := m[k]`. -/
def mapGet {α : Type} : List (List Char × α) → List Char → Option α
  | [], _ => none
  | (k1, v) :: rest, k => if k1 = k then some v else mapGet rest k

/-- The map write `m[k] = v`. -/
def mapSet {α : Type} : List (List Char × α) → List Char → α → List (List Char × α)
  | [], k, v => [(k, v)]
  | (k1, v1) :: rest, k, v =>
    if k1 = k then (k, v) :: rest else (k1, v1) :: mapSet rest k v

/-- The function `NewLayout`, without the allocation: the layout it makes. -/
def NewLayout (name : List Char) : layout := { name := name, components := [] }

/-- The method `Get` of the layout at `r`; `none` is the pair `(nil, false)`. -/
def layout.Get (heap : List layout) (r : Nat) (name : List Char) :
    Except Panic (Option Component) :=
  match heap[r]? with
  | none => .error Panic.nilDereference
  | some lay =>
    match mapGet lay.components (ToLower name) with
    | none => .ok none
    | some v => .ok (some v.value)

/-- The method `Register` of the layout at `r`: the pointer to the new
sub-layout, which is put behind the layouts of the heap, and the heap with
the item stored. -/
def layout.Register (heap : List layout) (r : Nat) (name : List Char) (component : Component) :
    Except Panic (Nat × List layout) :=
  let n := ToLower name
  match component.type with
  | .untyped => .error Panic.nilDereference
  | .other => .error Panic.notAFunction
  | .func ins outs =>
    if ins.length = 1 ∧ ins.head? ≠ some true then .error Panic.notASingleStruct
    else if outs.length ≠ 1 then .error Panic.notASingleValue
    else if outs.head? ≠ some true then .error Panic.notAComponent
    else
      let subLayout := heap.length
      match heap[r]? with
      | none => .error Panic.nilDereference
      | some lay =>
        .ok (subLayout, (heap ++ [NewLayout name]).set r
          { lay with components := mapSet lay.components n ⟨component, subLayout⟩ })

/-- Calls of `Register`, one after the other in the order of the list; an entry
names the layout, the name and the component of a call. -/
def registerAll : List (Nat × List Char × Component) → List layout →
    Except Panic (List layout)
  | [], heap => .ok heap
  | (r, name, component) :: calls, heap =>
    match layout.Register heap r name component with
    | .error e => .error e
    | .ok (_, heap1) => registerAll calls heap1

/-- The component of the last call of the list that registers, with the layout
at `r`, a name whose lower-casing is the lower-casing of `m`. -/
def lastRegistered (r : Nat) (m : List Char) :
    List (Nat × List Char × Component) → Option Component
  | [] => none
  | (r1, name, component) :: calls =>
    match lastRegistered r m calls with
    | some u => some u
    | none => if r1 = r ∧ ToLower name = ToLower m then some component else none

/-- The method `Name` of the layout at `r`. -/
def layout.Name (heap : List layout) (r : Nat) : Except Panic (List Char) :=
  match heap[r]? with
  | none => .error Panic.nilDereference
  | some lay => .ok lay.name

/-- The method `Namespace` of the layout at `r`; `none` is the pair of `nil`
and the error "namespace not found". -/
def layout.Namespace (heap : List layout) (r : Nat) (name : List Char) :
    Except Panic (Option Nat) :=
  match heap[r]? with
  | none => .error Panic.nilDereference
  | some lay =>
    match mapGet lay.components (ToLower name) with
    | none => .ok none
    | some v => .ok (some v.subLayout)

/-- The method `List` of the layout at `r`: the keys of the map, here in the
order of the pairs (the source gives no order).  The name is in lower case
because `List` is the type of lists. -/
def layout.list (heap : List layout) (r : Nat) : Except Panic (List (List Char)) :=
  match heap[r]? with
  | none => .error Panic.nilDereference
  | some lay => .ok (lay.components.map Prod.fst)

/-- The loop of `Clone` over the items of the map: every item is copied with
its value and with the clone of its sub-layout, which `clone` makes.  The keys
of a map are distinct, so the writes `components[k] = ...` make one pair for
every pair of the source. -/
def cloneItems (clone : List layout → Nat → Except Panic (Nat × List layout)) :
    List layout → List (List Char × item) → Except Panic (List (List Char × item) × List layout)
  | heap, [] => .ok ([], heap)
  | heap, (k, v) :: rest =>
    match clone heap v.subLayout with
    | .error e => .error e
    | .ok (sub, heap1) =>
      match cloneItems clone heap1 rest with
      | .error e => .error e
      | .ok (items, heap2) => .ok ((k, ⟨v.value, sub⟩) :: items, heap2)

/-- The method `Clone` of the layout at `r`: the pointer to the copy, which is
put behind the copies of the sub-layouts, and the heap with all the copies.
The fuel bounds the depth of the calls. -/
def layout.Clone : Nat → List layout → Nat → Except Panic (Nat × List layout)
  | 0, _, _ => .error Panic.fuel
  | fuel + 1, heap, r =>
    match heap[r]? with
    | none => .error Panic.nilDereference
    | some lay =>
      match cloneItems (layout.Clone fuel) heap lay.components with
      | .error e => .error e
      | .ok (components, heap1) => .ok (heap1.length, heap1 ++ [⟨lay.name, components⟩])

/-- The shape of a component that `Register` accepts: a function that does
not have exactly one input of a kind other than `reflect.Struct`, with exactly
one output, of the type `templ.Component`. -/
def GoType.accepted : GoType → Bool
  | .func ins outs =>
    !(decide (ins.length = 1) && decide (ins.head? ≠ some true)) &&
      decide (outs.length = 1) && decide (outs.head? = some true)
  | _ => false

/-- The sub-layout that calls of `Namespace` with the names of the path reach
from the layout at `r`; `none` when a name is not found on the way. -/
def layout.descend (heap : List layout) : Nat → List (List Char) → Option Nat
  | r, [] => some r
  | r, name :: path =>
    match layout.Namespace heap r name with
    | .ok (some sub) => layout.descend heap sub path
    | _ => none

/-- Calls of `Register`, one after the other, on sub-layouts of the layout at
`root`: an entry names the path from `root` to the layout of the call, the
name and the component.  A call on the `nil` that `Namespace` returns for a
name it does not find panics. -/
def registerPaths (root : Nat) :
    List (List (List Char) × List Char × Component) → List layout → Except Panic (List layout)
  | [], heap => .ok heap
  | (path, name, component) :: calls, heap =>
    match layout.descend heap root path with
    | none => .error Panic.nilDereference
    | some r =>
      match layout.Register heap r name component with
      | .error e => .error e
      | .ok (_, heap1) => registerPaths root calls heap1

/-- No item of the heap points outside the heap. -/
def heapClosed (heap : List layout) : Prop :=
  ∀ (x : Nat) (lay : layout), heap[x]? = some lay →
    ∀ kv ∈ lay.components, kv.2.subLayout < heap.length

/-- The layout at `r` and its sub-layouts exist and are nested less than `d`
deep. -/
def layout.Finite : Nat → List layout → Nat → Prop
  | 0, _, _ => False
  | d + 1, heap, r =>
    ∃ lay, heap[r]? = some lay ∧ ∀ kv ∈ lay.components, layout.Finite d heap kv.2.subLayout

/-- The layout at `y` of the heap `heap1` is a copy of the layout at `x` of
the heap `heap`: the same name, the same keys with the same values in the same
order, and sub-layouts that are copies in turn, down to the depth `d`. -/
def layout.Copy : Nat → List layout → List layout → Nat → Nat → Prop
  | 0, _, _, _, _ => False
  | d + 1, heap, heap1, x, y =>
    ∃ lay lay1, heap[x]? = some lay ∧ heap1[y]? = some lay1 ∧ lay1.name = lay.name ∧
      List.Forall₂ (fun kv kv1 => kv1.1 = kv.1 ∧ kv1.2.value = kv.2.value ∧
        layout.Copy d heap heap1 kv.2.subLayout kv1.2.subLayout) lay.components lay1.components

/-! ## renderer/component_builder.go

The builder reads a component and the struct of its first input through
`reflect`.  The model has the kinds and type names that the code tests, the
values that the parser and the markdown library put into an attribute, and
the values that a field can get.  What the model does not compute it takes as
given, in the record of the builder: the fields that `reflect` finds in the
struct of a component, and whether `strconv.ParseFloat` accepts a string.
`strings.EqualFold` compares the lower-casings of ASCII, and an `int` has 64
bits. -/

/-- The kinds of `reflect.Kind` that the code tells apart. -/
inductive Kind
  | String
  | Bool
  | Int
  | Int8
  | Int16
  | Int32
  | Int64
  | Uint
  | Uint8
  | Uint16
  | Uint32
  | Uint64
  | Float32
  | Float64
  | Interface
  | Map
  | Other
  deriving DecidableEq, Repr

/-- A field of the struct of a component, as `reflect` shows it: the name, the
kind, the text of `field.Type().String()`, and `field.CanSet()`, which holds
for the exported fields.  A field of the kind `Bool` has the type `bool`. -/
structure StructField where
  Name : List Char
  kind : Kind
  typeString : List Char
  canSet : Bool
  deriving DecidableEq, Repr

/-- The dynamic values of `ast.Attribute.Value`: a string, bytes, a boolean, a
node of the parser, or anything else. -/
inductive Dyn
  | str (s : List Char)
  | bytes (b : List Char)
  | bool (b : Bool)
  | node (n : Node)
  | other

/-- The attribute value for a value that the parser stored. -/
def Dyn.ofValue : Value → Dyn
  | .str s => .str s
  | .bool b => .bool b
  | .node n => .node n

/-- The two errors of `strconv`. -/
inductive NumError
  | ErrSyntax
  | ErrRange
  deriving DecidableEq, Repr

/-- The ways a call of the builder can fail to return a value: the `error`
values first, then the panics. -/
inductive BindFault
  /-- An `error` value: "unsupported value type for string: %T". -/
  | unsupportedValueForString
  /-- An `error` value: "unsupported field type: %s". -/
  | unsupportedFieldType (kind : Kind)
  /-- An `error` value: "failed to parse int: %w". -/
  | failedToParseInt (cause : NumError)
  /-- An `error` value: "failed to parse uint: %w". -/
  | failedToParseUint (cause : NumError)
  /-- An `error` value: "failed to parse float: %w". -/
  | failedToParseFloat
  /-- An `error` value: "unknown prop: " and the names, each with a blank
  behind it. -/
  | unknownProp (names : List (List Char))
  /-- An `error` value: "unsupported interface type: %s". -/
  | unsupportedInterfaceType (typeString : List Char)
  /-- An `error` value: "unsupported value type for interface: %T". -/
  | unsupportedValueForInterface
  /-- An `error` value: "component %s not found in namespace: %s". -/
  | notFoundInNamespace (name ns : List Char)
  /-- An `error` value: "component %s not found in layout %s". -/
  | notFoundInLayout (name layoutName : List Char)
  /-- An `error` value: "failed to build component %s: %w". -/
  | failedToBuild (name : List Char) (cause : BindFault)
  /-- The panic of `reflect` for `Set` with a value that is not assignable to
  the field. -/
  | notAssignable
  /-- The panic of a failed type assertion `value.(string)` or
  `attr.Value.([]byte)`. -/
  | typeAssertion
  /-- The panic of `reflect` for a component that is no function, for an
  input that is no struct, or for a call with the wrong number of
  arguments. -/
  | reflectMisuse
  /-- A panic of the registry. -/
  | registry (p : Panic)
  /-- The model ran out of fuel; no behaviour of the source. -/
  | fuel
  deriving DecidableEq, Repr

/-- Whether the fault is a returned, non-nil `error` value. -/
def BindFault.isError : BindFault → Bool
  | .notAssignable => false
  | .typeAssertion => false
  | .reflectMisuse => false
  | .registry _ => false
  | .fuel => false
  | _ => true

/-- Whether the fault is a Go panic. -/
def BindFault.isPanic : BindFault → Bool
  | .notAssignable => true
  | .typeAssertion => true
  | .reflectMisuse => true
  | .registry _ => true
  | _ => false

mutual
/-- What a field of the struct holds. -/
inductive FieldValue
  /-- The zero value of the type of the field. -/
  | zero
  | string (s : List Char)
  | bool (b : Bool)
  | int (i : Int)
  | uint (n : Nat)
  /-- The number that `strconv.ParseFloat` returned for the text, converted to
  the type of the field. -/
  | float (text : List Char)
  | component (c : Built)
  /-- A `templ.Attributes` map, all of whose values are strings. -/
  | attributes (m : List (List Char × List Char))
/-- A `templ.Component` that the builder makes: what the call of a component
with arguments returned, or the conversion of a text by `margo.New(cb.layout)`. -/
inductive Built
  | call (component : Component) (args : List (List FieldValue))
  | text (s : List Char)
end

/-- The struct `ComponentBuilder`: the pointer to its layout, with the heap
that the pointer refers to, and what the model takes as given. -/
structure ComponentBuilder where
  heap : List layout
  layout : Nat
  /-- The fields of the struct type that is the first input of a component. -/
  fields : Component → List StructField
  /-- Whether `strconv.ParseFloat(s, 64)` returns no error. -/
  ParseFloat : List Char → Bool

/-- The call `strings.EqualFold`. -/
def EqualFold (s t : List Char) : Bool := decide (ToLower s = ToLower t)

/-- The loop of `strconv.ParseUint` for the base 10 and 64 bits; `n` is the
number read so far. -/
def parseDigits : List Char → Nat → Except NumError Nat
  | [], n => .ok n
  | c :: cs, n =>
    if '0' ≤ c ∧ c ≤ '9' then
      if n * 10 + (c.toNat - '0'.toNat) ≥ 2 ^ 64 then .error NumError.ErrRange
      else parseDigits cs (n * 10 + (c.toNat - '0'.toNat))
    else .error NumError.ErrSyntax

/-- The call `strconv.ParseUint(s, 10, 64)`. -/
def ParseUint (s : List Char) : Except NumError Nat :=
  if s = [] then .error NumError.ErrSyntax else parseDigits s 0

/-- The call `strconv.ParseInt(s, 10, 64)`. -/
def ParseInt (s : List Char) : Except NumError Int :=
  match s with
  | [] => .error NumError.ErrSyntax
  | c :: rest =>
    match ParseUint (if c = '+' ∨ c = '-' then rest else s) with
    | .error e => .error e
    | .ok un =>
      if c ≠ '-' ∧ un ≥ 2 ^ 63 then .error NumError.ErrRange
      else if c = '-' ∧ un > 2 ^ 63 then .error NumError.ErrRange
      else .ok (if c = '-' then - (un : Int) else (un : Int))

/-- The number of bits of the integers of a kind. -/
def Kind.bits : Kind → Nat
  | .Int8 => 8
  | .Uint8 => 8
  | .Int16 => 16
  | .Uint16 => 16
  | .Int32 => 32
  | .Uint32 => 32
  | _ => 64

/-- The conversion of an `int64` to a signed integer of `bits` bits, which
`reflect.Value.SetInt` makes: the bits above are cut off. -/
def wrapInt (bits : Nat) (i : Int) : Int :=
  (i + 2 ^ (bits - 1)) % 2 ^ bits - 2 ^ (bits - 1)

/-- The method `setIntValue`. -/
def setIntValue (kind : Kind) (value : Dyn) : Except BindFault FieldValue :=
  match value with
  | .str s =>
    match ParseInt s with
    | .error e => .error (BindFault.failedToParseInt e)
    | .ok i => .ok (FieldValue.int (wrapInt kind.bits i))
  | _ => .error BindFault.typeAssertion

/-- The method `setUintValue`. -/
def setUintValue (kind : Kind) (value : Dyn) : Except BindFault FieldValue :=
  match value with
  | .str s =>
    match ParseUint s with
    | .error e => .error (BindFault.failedToParseUint e)
    | .ok n => .ok (FieldValue.uint (n % 2 ^ kind.bits))
  | _ => .error BindFault.typeAssertion

/-- The method `setFloatValue`. -/
def ComponentBuilder.setFloatValue (cb : ComponentBuilder) (value : Dyn) :
    Except BindFault FieldValue :=
  match value with
  | .str s => if cb.ParseFloat s then .ok (FieldValue.float s) else .error BindFault.failedToParseFloat
  | _ => .error BindFault.typeAssertion

/-- The method `SetTypedValue`: the value that the field gets. -/
def ComponentBuilder.SetTypedValue (cb : ComponentBuilder) (kind : Kind) (value : Dyn) :
    Except BindFault FieldValue :=
  match kind with
  | .String =>
    match value with
    | .str v => .ok (FieldValue.string v)
    | .bytes v => .ok (FieldValue.string v)
    | _ => .error BindFault.unsupportedValueForString
  | .Bool =>
    match value with
    | .bool b => .ok (FieldValue.bool b)
    | _ => .error BindFault.notAssignable
  | .Int => setIntValue kind value
  | .Int8 => setIntValue kind value
  | .Int16 => setIntValue kind value
  | .Int32 => setIntValue kind value
  | .Int64 => setIntValue kind value
  | .Uint => setUintValue kind value
  | .Uint8 => setUintValue kind value
  | .Uint16 => setUintValue kind value
  | .Uint32 => setUintValue kind value
  | .Uint64 => setUintValue kind value
  | .Float32 => cb.setFloatValue value
  | .Float64 => cb.setFloatValue value
  | _ => .error (BindFault.unsupportedFieldType kind)

/-- The method `GetComponent`; `none` is the `nil` namespace. -/
def ComponentBuilder.GetComponent (cb : ComponentBuilder) (name : List Char) (ns : Option Nat) :
    Except BindFault Component :=
  match (match ns with
    | some n => layout.Get cb.heap n name
    | none => .ok none) with
  | .error p => .error (BindFault.registry p)
  | .ok (some c) => .ok c
  | .ok none =>
    match layout.Get cb.heap cb.layout name with
    | .error p => .error (BindFault.registry p)
    | .ok (some c) => .ok c
    | .ok none =>
      match ns with
      | some n =>
        match layout.Name cb.heap n with
        | .error p => .error (BindFault.registry p)
        | .ok nsName => .error (BindFault.notFoundInNamespace name nsName)
      | none =>
        match layout.Name cb.heap cb.layout with
        | .error p => .error (BindFault.registry p)
        | .ok layoutName => .error (BindFault.notFoundInLayout name layoutName)

/-- The method `setComponentNodeValue`; `build` is the method `Build`. -/
def ComponentBuilder.setComponentNodeValue (cb : ComponentBuilder)
    (build : Component → List (List Char × Dyn) → Except BindFault Built)
    (name : List Char) (attributes : List (List Char × Value)) : Except BindFault FieldValue :=
  match cb.GetComponent name none with
  | .error e => .error e
  | .ok cmpFunc =>
    match build cmpFunc (attributes.map (fun kv => (kv.1, Dyn.ofValue kv.2))) with
    | .error e => if e.isError then .error (BindFault.failedToBuild name e) else .error e
    | .ok cmp => .ok (FieldValue.component cmp)

/-- The method `setInterfaceValue`, with `setTextNodeValue` and
`setStringValue`. -/
def ComponentBuilder.setInterfaceValue (cb : ComponentBuilder)
    (build : Component → List (List Char × Dyn) → Except BindFault Built)
    (field : StructField) (value : Dyn) : Except BindFault FieldValue :=
  if field.typeString ≠ "templ.Component".toList then
    .error (BindFault.unsupportedInterfaceType field.typeString)
  else
    match value with
    | .node (.ComponentNode name attributes _) =>
      cb.setComponentNodeValue build name attributes
    | .node (.TextNode v) => .ok (FieldValue.component (Built.text v))
    | .str v => .ok (FieldValue.component (Built.text v))
    | _ => .error BindFault.unsupportedValueForInterface

/-- The body of the loop over the attributes in `buildProps`, for one field:
the value that the field gets from an attribute. -/
def ComponentBuilder.setField (cb : ComponentBuilder)
    (build : Component → List (List Char × Dyn) → Except BindFault Built)
    (field : StructField) (value : Dyn) : Except BindFault FieldValue :=
  if field.kind = Kind.Interface then cb.setInterfaceValue build field value
  else cb.SetTypedValue field.kind value

/-- The loop over the attributes in `buildProps`, for one field: the names
used and the value of the field. -/
def bindAttrs (set : Dyn → Except BindFault FieldValue) (fieldName : List Char) :
    List (List Char × Dyn) → List (List Char) → FieldValue →
      Except BindFault (List (List Char) × FieldValue)
  | [], used, v => .ok (used, v)
  | (k, value) :: attrs, used, v =>
    if EqualFold k fieldName then
      match set value with
      | .error e => .error e
      | .ok v1 => bindAttrs set fieldName attrs (used ++ [k]) v1
    else bindAttrs set fieldName attrs used v

/-- The first loop over the fields in `buildProps`: the names used and the
values of the fields. -/
def bindFields (set : StructField → Dyn → Except BindFault FieldValue)
    (attrs : List (List Char × Dyn)) :
    List StructField → List (List Char) → Except BindFault (List (List Char) × List FieldValue)
  | [], used => .ok (used, [])
  | f :: fields, used =>
    if f.canSet = false then
      match bindFields set attrs fields used with
      | .error e => .error e
      | .ok (used1, values) => .ok (used1, FieldValue.zero :: values)
    else
      match bindAttrs (set f) f.Name attrs used FieldValue.zero with
      | .error e => .error e
      | .ok (used1, v) =>
        match bindFields set attrs fields used1 with
        | .error e => .error e
        | .ok (used2, values) => .ok (used2, v :: values)

/-- The loop in `buildProps` that fills `componentAttrs`. -/
def collectAttrs (used : List (List Char)) :
    List (List Char × Dyn) → List (List Char × List Char) →
      Except BindFault (List (List Char × List Char))
  | [], componentAttrs => .ok componentAttrs
  | (k, value) :: attrs, componentAttrs =>
    if used.contains k then collectAttrs used attrs componentAttrs
    else
      match value with
      | .str v => collectAttrs used attrs (mapSet componentAttrs k v)
      | .bytes v => collectAttrs used attrs (mapSet componentAttrs k v)
      | _ => .error BindFault.typeAssertion

/-- The second loop over the fields in `buildProps`: every field for a
`templ.Attributes` map gets `componentAttrs`, and the keys count as used.  The
keys are added in the order of the pairs; the source ranges over the map in
no fixed order, and the code only asks how many names are used and whether a
name is among them. -/
def fillBags (componentAttrs : List (List Char × List Char)) :
    List StructField → List FieldValue → List (List Char) →
      List FieldValue × List (List Char)
  | [], values, used => (values, used)
  | _ :: _, [], used => ([], used)
  | f :: fields, v :: values, used =>
    if f.canSet = true ∧ f.kind = Kind.Map ∧ f.typeString = "templ.Attributes".toList then
      ((FieldValue.attributes componentAttrs ::
        (fillBags componentAttrs fields values (used ++ componentAttrs.map Prod.fst)).1),
        (fillBags componentAttrs fields values (used ++ componentAttrs.map Prod.fst)).2)
    else
      (v :: (fillBags componentAttrs fields values used).1,
        (fillBags componentAttrs fields values used).2)

/-- The method `buildProps`: the arguments for the call of the component. -/
def ComponentBuilder.buildProps (cb : ComponentBuilder)
    (build : Component → List (List Char × Dyn) → Except BindFault Built)
    (component : Component) (attrs : List (List Char × Dyn)) :
    Except BindFault (List (List FieldValue)) :=
  match component.type with
  | .func [] _ => .ok []
  | .func (false :: _) _ => .error BindFault.reflectMisuse
  | .func (true :: _) _ =>
    match bindFields (cb.setField build) attrs (cb.fields component) [] with
    | .error e => .error e
    | .ok (used, values) =>
      match collectAttrs used attrs [] with
      | .error e => .error e
      | .ok componentAttrs =>
        if (fillBags componentAttrs (cb.fields component) values used).2.length < attrs.length then
          .error (BindFault.unknownProp
            ((attrs.filter (fun a =>
              !(fillBags componentAttrs (cb.fields component) values used).2.contains a.1)).map
              Prod.fst))
        else .ok [(fillBags componentAttrs (cb.fields component) values used).1]
  | _ => .error BindFault.reflectMisuse

/-- The method `Build`.  The fuel bounds the depth of the components in
attributes. -/
def ComponentBuilder.Build : Nat → ComponentBuilder → Component → List (List Char × Dyn) →
    Except BindFault Built
  | 0, _, _, _ => .error BindFault.fuel
  | fuel + 1, cb, component, attrs =>
    match cb.buildProps (ComponentBuilder.Build fuel cb) component attrs with
    | .error e => .error e
    | .ok props =>
      match component.type with
      | .func ins (true :: _) =>
        if props.length = ins.length then .ok (Built.call component props)
        else .error BindFault.reflectMisuse
      | _ => .error BindFault.reflectMisuse

mutual
/-- Whether two field values are equal, looking at most `fuel` levels deep. -/
def FieldValue.eqb : Nat → FieldValue → FieldValue → Bool
  | 0, _, _ => false
  | _ + 1, .zero, .zero => true
  | _ + 1, .string a, .string b => decide (a = b)
  | _ + 1, .bool a, .bool b => decide (a = b)
  | _ + 1, .int a, .int b => decide (a = b)
  | _ + 1, .uint a, .uint b => decide (a = b)
  | _ + 1, .float a, .float b => decide (a = b)
  | fuel + 1, .component a, .component b => Built.eqb fuel a b
  | _ + 1, .attributes a, .attributes b => decide (a = b)
  | _ + 1, _, _ => false
/-- Whether two built components are equal, looking at most `fuel` levels deep. -/
def Built.eqb : Nat → Built → Built → Bool
  | 0, _, _ => false
  | fuel + 1, .call c1 a1, .call c2 a2 => decide (c1 = c2) && Built.eqbArgs fuel a1 a2
  | _ + 1, .text a, .text b => decide (a = b)
  | _ + 1, _, _ => false
/-- Whether two lists of arguments are equal, looking at most `fuel` levels deep. -/
def Built.eqbArgs : Nat → List (List FieldValue) → List (List FieldValue) → Bool
  | 0, _, _ => false
  | _ + 1, [], [] => true
  | fuel + 1, x :: xs, y :: ys => Built.eqbProps fuel x y && Built.eqbArgs fuel xs ys
  | _ + 1, _, _ => false
/-- Whether two structs are equal, looking at most `fuel` levels deep. -/
def Built.eqbProps : Nat → List FieldValue → List FieldValue → Bool
  | 0, _, _ => false
  | _ + 1, [], [] => true
  | fuel + 1, x :: xs, y :: ys => FieldValue.eqb fuel x y && Built.eqbProps fuel xs ys
  | _ + 1, _, _ => false
end

/-- Whether a result of `Build` is the expected one. -/
def builtEqb (fuel : Nat) : Except BindFault Built → Except BindFault Built → Bool
  | .ok a, .ok b => Built.eqb fuel a b
  | .error e, .error f => decide (e = f)
  | _, _ => false

/-! ## renderer/renderer.go

A `context.Context` is the chain of the values that `context.WithValue` has
put in front of one another; `Value` returns the value of the nearest entry
whose key is equal (`==`) to the key asked for.  What a component writes when
it is rendered is outside the model: a function that ends with
`return component.Render(ctx, w)` returns, in the model, the call that it
hands over to. -/

/-- The keys of the entries of a context: the value `ContextKey{}` of the
struct type without fields that this package declares, and the keys of the
other packages. -/
inductive CtxKey
  | ContextKey
  | foreign (ident : Nat)
  deriving DecidableEq, Repr

/-- The variable `slotKey`, which is `ContextKey{}`. -/
def slotKey : CtxKey := CtxKey.ContextKey

/-- The variable `layoutKey`, which is `ContextKey{}`. -/
def layoutKey : CtxKey := CtxKey.ContextKey

/-- A non-nil `templ.Component`, as far as the renderer makes or passes one. -/
inductive Templ
  /-- What `Build` returned. -/
  | built (c : Built)
  /-- The call `templ.Join(components...)`. -/
  | joined (components : List Templ)
  /-- The `templ.ComponentFunc` of `renderChildren` that calls
  `nr.renderComponent(ctx, w, c, ns)`. -/
  | child (c : Node) (ns : Option Nat)
  /-- The `templ.ComponentFunc` of `renderChildren` that converts the text
  with `margo.New(nr.layout)`. -/
  | convert (text : List Char)
  /-- Any other component, such as the page that `Load` passes to `WithSlot`. -/
  | given (ident : Nat)

/-- The values (`any`) of the entries of a context. -/
inductive CtxValue
  | null
  | string (s : List Char)
  | component (c : Templ)
  | other (ident : Nat)

/-- A `context.Context`: the entries, the nearest first. -/
abbrev Context := List (CtxKey × CtxValue)

/-- The call `context.WithValue(ctx, key, val)`. -/
def Context.WithValue (ctx : Context) (key : CtxKey) (val : CtxValue) : Context :=
  (key, val) :: ctx

/-- The call `ctx.Value(key)`; `null` is `nil`. -/
def Context.Value : Context → CtxKey → CtxValue
  | [], _ => CtxValue.null
  | (k, val) :: parent, key => if k = key then val else Context.Value parent key

/-- The function `WithLayout`. -/
def WithLayout (ctx : Context) (layout : List Char) : Context :=
  ctx.WithValue layoutKey (CtxValue.string layout)

/-- The function `GetLayout`. -/
def GetLayout (ctx : Context) : List Char × Bool :=
  match ctx.Value layoutKey with
  | .string layout => (layout, true)
  | _ => ([], false)

/-- The function `WithSlot`. -/
def WithSlot (ctx : Context) (component : Templ) : Context :=
  ctx.WithValue slotKey (CtxValue.component component)

/-- The function `GetSlot`; `none` is the `nil` component. -/
def GetSlot (ctx : Context) : Option Templ × Bool :=
  match ctx.Value slotKey with
  | .component c => (some c, true)
  | _ => (none, false)

/-- The call `templ.WithChildren(ctx, children)` of the library, taken as an
entry under a key of that package. -/
def WithChildren (ctx : Context) (children : Templ) : Context :=
  ctx.WithValue (CtxKey.foreign 0) (CtxValue.component children)

/-- The struct `NodeRenderer`, without the field `parent`. -/
structure NodeRenderer where
  builder : ComponentBuilder
  layout : Nat

/-- The ways `renderComponent` can fail before it hands over to a
component. -/
inductive RenderFault
  /-- An `error` value: "slot not found". -/
  | slotNotFound
  /-- The error of `GetComponent`, returned as it is, or a panic of the
  builder. -/
  | builder (e : BindFault)
  /-- An `error` value: "failed to build component %s: %w". -/
  | failedToBuild (name : List Char) (cause : BindFault)
  /-- A panic of the registry. -/
  | registry (p : Panic)

/-- The call that a function of the renderer ends with. -/
inductive Rendering
  /-- The call `component.Render(ctx, w)`. -/
  | render (component : Templ) (ctx : Context)
  /-- The call `goldmark.Convert([]byte(n.Value), w)`. -/
  | goldmark (text : List Char)

/-- The method `renderSlot`. -/
def NodeRenderer.renderSlot (_nr : NodeRenderer) (ctx : Context) :
    Except RenderFault Rendering :=
  match GetSlot ctx with
  | (some component, true) => .ok (Rendering.render component ctx)
  | _ => .error RenderFault.slotNotFound

/-- The body of the loop of `renderChildren`: the component for one child. -/
def childComponent (ns : Option Nat) : Node → Templ
  | .ComponentNode name attributes children =>
    Templ.child (Node.ComponentNode name attributes children) ns
  | .TextNode v => Templ.convert v

/-- The method `renderChildren` for the node with the name `name` and the
children `children`.  It returns no error. -/
def NodeRenderer.renderChildren (nr : NodeRenderer) (name : List Char) (children : List Node)
    (namespace_ : Nat) : Except RenderFault Templ :=
  match layout.Namespace nr.builder.heap namespace_ name with
  | .error p => .error (RenderFault.registry p)
  | .ok (some ns) => .ok (Templ.joined (children.map (childComponent (some ns))))
  | .ok none =>
    match layout.Namespace nr.builder.heap nr.layout name with
    | .error p => .error (RenderFault.registry p)
    | .ok ns => .ok (Templ.joined (children.map (childComponent ns)))

/-- The method `renderComponentNode` for the node with the name `name`, the
attributes `attributes` and the children `children`; the fuel is the fuel of
`Build`. -/
def NodeRenderer.renderComponentNode (nr : NodeRenderer) (fuel : Nat) (ctx : Context)
    (name : List Char) (attributes : List (List Char × Value)) (children : List Node)
    (parentNS : Option Nat) : Except RenderFault Rendering :=
  if name = "Slot".toList then nr.renderSlot ctx
  else
    match nr.builder.GetComponent name parentNS with
    | .error e => .error (RenderFault.builder e)
    | .ok cmpFunc =>
      match ComponentBuilder.Build fuel nr.builder cmpFunc
          (attributes.map (fun kv => (kv.1, Dyn.ofValue kv.2))) with
      | .error e =>
        if e.isError then .error (RenderFault.failedToBuild name e)
        else .error (RenderFault.builder e)
      | .ok component =>
        match nr.renderChildren name children (parentNS.getD nr.layout) with
        | .error e => .error e
        | .ok children1 =>
          .ok (Rendering.render (Templ.built component) (WithChildren ctx children1))

/-- The method `renderComponent`. -/
def NodeRenderer.renderComponent (nr : NodeRenderer) (fuel : Nat) (ctx : Context)
    (node : Node) (parentNS : Option Nat) : Except RenderFault Rendering :=
  match node with
  | .ComponentNode name attributes children =>
    nr.renderComponentNode fuel ctx name attributes children parentNS
  | .TextNode v => .ok (Rendering.goldmark v)

/-! ## server/path.go

The functions `filepath.Split` and `filepath.Ext` are those of a system whose
path separator is `/` and whose paths have no volume name. -/

/-- The loop of `filepath.Split`: the length of the directory part.  The
argument is one more than the index `i` of the source. -/
def splitIndex (path : List Char) : Nat → Nat
  | 0 => 0
  | i + 1 => if path.getD i nul = '/' then i + 1 else splitIndex path i

/-- The call `filepath.Split(path)`. -/
def Split (path : List Char) : List Char × List Char :=
  (path.take (splitIndex path path.length), path.drop (splitIndex path path.length))

/-- The loop of `filepath.Ext`: the index of the dot that starts the
extension.  The argument is one more than the index `i` of the source. -/
def extIndex (path : List Char) : Nat → Option Nat
  | 0 => none
  | i + 1 =>
    if path.getD i nul = '/' then none
    else if path.getD i nul = '.' then some i
    else extIndex path i

/-- The call `filepath.Ext(path)`. -/
def Ext (path : List Char) : List Char :=
  match extIndex path path.length with
  | some i => path.drop i
  | none => []

/-- The call `strings.HasSuffix(s, suffix)`. -/
def HasSuffix (s suffix : List Char) : Bool :=
  decide (s.length ≥ suffix.length ∧ s.drop (s.length - suffix.length) = suffix)

/-- The call `strings.TrimSuffix(s, suffix)`. -/
def TrimSuffix (s suffix : List Char) : List Char :=
  if HasSuffix s suffix = true then s.take (s.length - suffix.length) else s

/-- The function `StripExt`. -/
def StripExt (fileName : List Char) : List Char :=
  TrimSuffix fileName (Ext fileName)

/-- The function `PathToUrl`. -/
def PathToUrl (path ext : List Char) : List Char :=
  if StripExt (Split path).2 = "index".toList then
    '/' :: TrimSuffix (Split path).1 "/".toList
  else if Ext path = ext then '/' :: ((Split path).1 ++ StripExt (Split path).2)
  else '/' :: path

/-! ## registry/registry.go: the registry of the layouts -/

/-- The struct `registry`: the map from the names in lower case to the
pointers to the layouts. -/
structure registry where
  layouts : List (List Char × Nat)

/-- The function `New` of the package `registry`. -/
def registry.New : registry := { layouts := [] }

/-- The method `RegisterLayout`: the registry with the layout stored.  The
call of `layout.Name()` panics for a pointer to no layout. -/
def registry.RegisterLayout (heap : List layout) (r : registry) (l : Nat) :
    Except Panic registry :=
  match layout.Name heap l with
  | .error p => .error p
  | .ok name => .ok { layouts := mapSet r.layouts (ToLower name) l }

/-- The method `Use`; `none` is the pair `(nil, false)`. -/
def registry.Use (r : registry) (name : List Char) : Option Nat :=
  mapGet r.layouts (ToLower name)

/-- The method `Layouts`: the keys of the map, here in the order of the
pairs (the source gives no order). -/
def registry.Layouts (r : registry) : List (List Char) :=
  r.layouts.map Prod.fst

/-- The calls of `RegisterLayout` for the layouts of a list, one after the
other. -/
def registerLayouts (heap : List layout) : List Nat → registry → Except Panic registry
  | [], r => .ok r
  | l :: ls, r =>
    match r.RegisterLayout heap l with
    | .error p => .error p
    | .ok r1 => registerLayouts heap ls r1

/-- The layout that was registered last under a name equal to `name` up to
the case of the letters. -/
def lastLayout (heap : List layout) (name : List Char) : List Nat → Option Nat
  | [] => none
  | l :: ls =>
    match lastLayout heap name ls with
    | some found => some found
    | none =>
      match heap[l]? with
      | some lay => if ToLower lay.name = ToLower name then some l else none
      | none => none

/-! ## server/load.go -/

/-- The values (`any`) of the metadata of a page: a string or anything else. -/
inductive MetaValue
  | str (s : List Char)
  | other (ident : Nat)
  deriving DecidableEq, Repr

/-- The errors of `useLayout`. -/
inductive LoadError
  /-- The error `&ErrMissingLayout{AvailableLayouts: ...}`. -/
  | ErrMissingLayout (AvailableLayouts : List (List Char))
  /-- The error `ErrInvalidLayoutType`: "layout must be a string". -/
  | ErrInvalidLayoutType
  /-- The error `&ErrLayoutNotFound{Layout: ..., AvailableLayouts: ...}`. -/
  | ErrLayoutNotFound (Layout : List Char) (AvailableLayouts : List (List Char))
  deriving DecidableEq, Repr

/-- The method `useLayout`. -/
def useLayout (reg : registry) (fileMeta : List (List Char × MetaValue)) :
    Except LoadError Nat :=
  match mapGet fileMeta "layout".toList with
  | none => .error (LoadError.ErrMissingLayout reg.Layouts)
  | some (.other _) => .error LoadError.ErrInvalidLayoutType
  | some (.str layoutName) =>
    match reg.Use layoutName with
    | none => .error (LoadError.ErrLayoutNotFound layoutName reg.Layouts)
    | some l => .ok l

/-! ## Measures for the termination of the lexer and the parser -/

/-- A bound on the number of tokens other than `EOF` that `Next` can still
return: two for every byte left, and one more behind a quote, where the next
token can be an empty text. -/
def Lexer.left (l : Lexer) : Nat :=
  if l.pos ≥ l.input.length then 0
  else 2 * (l.input.length - l.pos) + (if l.prev.type = TokenType.Quote then 1 else 0)

/-! ## Theorems -/


/-- The bounded comparisons only accept equal arguments. -/
theorem eqb_sound (fuel : Nat) :
    (∀ a b, Node.eqb fuel a b = true → a = b) ∧
    (∀ a b, Value.eqb fuel a b = true → a = b) ∧
    (∀ a b, Node.eqbList fuel a b = true → a = b) ∧
    (∀ a b, Node.eqbAttrs fuel a b = true → a = b) := by
  induction fuel with
  | zero =>
    refine ⟨?_, ?_, ?_, ?_⟩ <;> intro a b h
    · simp [Node.eqb] at h
    · simp [Value.eqb] at h
    · simp [Node.eqbList] at h
    · simp [Node.eqbAttrs] at h
  | succ n ih =>
    obtain ⟨ih1, ih2, ih3, ih4⟩ := ih
    refine ⟨?_, ?_, ?_, ?_⟩
    · intro a b h
      cases a <;> cases b <;> simp [Node.eqb] at h
      · obtain ⟨⟨h1, h2⟩, h3⟩ := h
        rw [h1, ih4 _ _ h2, ih3 _ _ h3]
      · rw [h]
    · intro a b h
      cases a <;> cases b <;> simp [Value.eqb] at h
      · rw [h]
      · rw [h]
      · rw [ih1 _ _ h]
    · intro a b h
      cases a <;> cases b <;> simp [Node.eqbList] at h
      · rfl
      · rw [ih1 _ _ h.1, ih3 _ _ h.2]
    · intro a b h
      rcases a with _ | ⟨⟨k1, v1⟩, xs⟩ <;> rcases b with _ | ⟨⟨k2, v2⟩, ys⟩ <;>
        simp [Node.eqbAttrs] at h
      · rfl
      · obtain ⟨⟨h1, h2⟩, h3⟩ := h
        rw [h1, ih2 _ _ h2, ih4 _ _ h3]

/-- A result that compares equal to the expected one is the expected one. -/
theorem eq_of_resultEqb (fuel : Nat) (a b : Except Fault (List Node))
    (h : resultEqb fuel a b = true) : a = b := by
  cases a <;> cases b <;> simp [resultEqb] at h
  · rw [h]
  · rw [(eqb_sound fuel).2.2.1 _ _ h]

theorem decEqb_sound {α : Type} [DecidableEq α] (a b : α) (h : decEqb a b = true) : a = b :=
  of_decide_eq_true h

theorem pairEqb_sound {α β : Type} (ea : α → α → Bool) (eb : β → β → Bool)
    (ha : ∀ a b, ea a b = true → a = b) (hb : ∀ a b, eb a b = true → a = b) (x y : α × β)
    (h : pairEqb ea eb x y = true) : x = y := by
  unfold pairEqb at h
  rw [Bool.and_eq_true] at h
  exact Prod.ext (ha _ _ h.1) (hb _ _ h.2)

theorem exceptEqb_sound {α : Type} (ea : α → α → Bool) (ha : ∀ a b, ea a b = true → a = b)
    (r s : Except Fault α) (h : exceptEqb ea r s = true) : r = s := by
  cases r <;> cases s <;> simp only [exceptEqb] at h
  · rw [of_decide_eq_true h]
  · cases h
  · cases h
  · rw [ha _ _ h]

/-! ### The end-to-end scenario of `TestParserBasic` -/

set_option maxRecDepth 100000 in
/-- C1: the markup of the first end-to-end scenario parses to one root
component `HeroV2` with the properties `Title = "Congratulations!"` and
`Visible = true`, in this order, and the single child `ButtonPrimary`, which
has the property `Href = "https://example.com"` and the single text child
`See Demo`. -/
theorem parse_basic_scenario :
    Parse ("\\HeroV2\n    Title: \"Congratulations!\"\n    !Visible\n" ++
        "    \\ButtonPrimary\n        Href: \"https://example.com\"\n" ++
        "        See Demo").toList =
      .ok [Node.ComponentNode "HeroV2".toList
        [("Title".toList, Value.str "Congratulations!".toList),
          ("Visible".toList, Value.bool true)]
        [Node.ComponentNode "ButtonPrimary".toList
          [("Href".toList, Value.str "https://example.com".toList)]
          [Node.TextNode "See Demo".toList]]] :=
  eq_of_resultEqb 8 _ _ (by decide!)


/-! ### What the lexer never touches: the input and the previous token -/

theorem advance_input (l : Lexer) : l.advance.input = l.input := by
  unfold Lexer.advance; split_ifs <;> rfl

theorem advance_prev (l : Lexer) : l.advance.prev = l.prev := by
  unfold Lexer.advance; split_ifs <;> rfl

theorem advanceWhile_input (cond : Char → Bool) (fuel : Nat) (l : Lexer) :
    (l.advanceWhile cond fuel).input = l.input := by
  induction fuel generalizing l with
  | zero => rfl
  | succ n ih =>
    unfold Lexer.advanceWhile
    split_ifs
    · rw [ih, advance_input]
    · rfl

theorem advanceWhile_prev (cond : Char → Bool) (fuel : Nat) (l : Lexer) :
    (l.advanceWhile cond fuel).prev = l.prev := by
  induction fuel generalizing l with
  | zero => rfl
  | succ n ih =>
    unfold Lexer.advanceWhile
    split_ifs
    · rw [ih, advance_prev]
    · rfl

theorem lexStringLoop_input (fuel : Nat) (c : Char) (l : Lexer) :
    (l.lexStringLoop fuel c).input = l.input := by
  induction fuel generalizing l c with
  | zero => rfl
  | succ n ih =>
    unfold Lexer.lexStringLoop
    split_ifs
    · rw [ih, advance_input]
    · rfl

theorem lexStringLoop_prev (fuel : Nat) (c : Char) (l : Lexer) :
    (l.lexStringLoop fuel c).prev = l.prev := by
  induction fuel generalizing l c with
  | zero => rfl
  | succ n ih =>
    unfold Lexer.lexStringLoop
    split_ifs
    · rw [ih, advance_prev]
    · rfl

theorem lexIndentSpaces_frame (n : Nat) (l l1 : Lexer) (h : l.lexIndentSpaces n = some l1) :
    l1.input = l.input ∧ l1.prev = l.prev := by
  induction n generalizing l with
  | zero =>
    injection h with h
    subst h; exact ⟨rfl, rfl⟩
  | succ n ih =>
    unfold Lexer.lexIndentSpaces at h
    split_ifs at h
    obtain ⟨h1, h2⟩ := ih _ h
    exact ⟨h1.trans (advance_input l), h2.trans (advance_prev l)⟩

theorem lexIndent_frame (l l1 : Lexer) (t : Token) (h : l.lexIndent = .ok (t, l1)) :
    l1.input = l.input ∧ l1.prev = l.prev := by
  unfold Lexer.lexIndent at h
  dsimp only at h
  by_cases h1 : l.current = '\t'
  · rw [if_pos h1] at h
    injection h with h
    injection h with _ h
    subst h
    exact ⟨advance_input l, advance_prev l⟩
  · rw [if_neg h1] at h
    cases h2 : l.lexIndentSpaces 4 with
    | none => rw [h2] at h; cases h
    | some l2 =>
      rw [h2] at h
      injection h with h
      injection h with _ h
      subst h
      exact lexIndentSpaces_frame 4 l _ h2

/-- A pair that `next` returns without a panic keeps the input and the
previous token when its lexer does. -/
theorem ok_frame (l l1 : Lexer) (t : Token) (r : Token × Lexer)
    (hr : r.2.input = l.input ∧ r.2.prev = l.prev)
    (h : (Except.ok r : Except Fault (Token × Lexer)) = .ok (t, l1)) :
    l1.input = l.input ∧ l1.prev = l.prev := by
  injection h with h
  subst h
  exact hr

theorem nextLoop_frame (fuel : Nat) (l l1 : Lexer) (t : Token)
    (h : Lexer.nextLoop fuel l = .ok (t, l1)) : l1.input = l.input ∧ l1.prev = l.prev := by
  induction fuel generalizing l with
  | zero => cases h
  | succ n ih =>
    rw [Lexer.nextLoop] at h
    by_cases h1 : l.isEOF = true
    · rw [if_pos h1] at h
      exact ok_frame l l1 t _ ⟨rfl, rfl⟩ h
    rw [if_neg h1] at h
    by_cases h2 : l.isIndent = true
    · rw [if_pos h2] at h
      exact lexIndent_frame l l1 t h
    rw [if_neg h2] at h
    by_cases h3 : l.prev.type = TokenType.Quote ∧ (l.lookAhead '"' '\n').isSome = true
    · rw [if_pos h3] at h
      exact ok_frame l l1 t _ ⟨lexStringLoop_input _ _ _, lexStringLoop_prev _ _ _⟩ h
    rw [if_neg h3] at h
    by_cases h4 : l.current = ' '
    · rw [if_pos h4] at h
      obtain ⟨h1, h2⟩ := ih _ h
      exact ⟨h1.trans (advance_input l), h2.trans (advance_prev l)⟩
    rw [if_neg h4] at h
    by_cases h5 : l.current = '\\'
    · rw [if_pos h5] at h
      exact ok_frame l l1 t _ ⟨(advanceWhile_input _ _ _).trans (advance_input l),
        (advanceWhile_prev _ _ _).trans (advance_prev l)⟩ h
    rw [if_neg h5] at h
    by_cases h6 : l.current = '"'
    · rw [if_pos h6] at h
      exact ok_frame l l1 t _ ⟨advance_input l, advance_prev l⟩ h
    rw [if_neg h6] at h
    by_cases h7 : l.current = ':'
    · rw [if_pos h7] at h
      exact ok_frame l l1 t _ ⟨advance_input l, advance_prev l⟩ h
    rw [if_neg h7] at h
    by_cases h8 : l.current = '\n'
    · rw [if_pos h8] at h
      exact ok_frame l l1 t _ ⟨advance_input l, advance_prev l⟩ h
    rw [if_neg h8] at h
    by_cases h9 : l.current = '!'
    · rw [if_pos h9] at h
      exact ok_frame l l1 t _ ⟨(advanceWhile_input _ _ _).trans (advance_input l),
        (advanceWhile_prev _ _ _).trans (advance_prev l)⟩ h
    rw [if_neg h9] at h
    by_cases h10 : l.isProperty = true
    · rw [if_pos h10] at h
      exact ok_frame l l1 t _ ⟨advanceWhile_input _ _ _, advanceWhile_prev _ _ _⟩ h
    rw [if_neg h10] at h
    exact ok_frame l l1 t _ ⟨advanceWhile_input _ _ _, advanceWhile_prev _ _ _⟩ h

theorem next_frame (l l1 : Lexer) (t : Token) (h : l.next = .ok (t, l1)) :
    l1.input = l.input ∧ l1.prev = l.prev :=
  nextLoop_frame _ l l1 t h

/-- What `Peek` returns, in terms of `next`: the token of `next`, and the
lexer it was called on. -/
theorem Peek_ok_iff (l l0 : Lexer) (t : Token) :
    l.Peek = .ok (t, l0) ↔ (∃ l1, l.next = .ok (t, l1)) ∧ l0 = l := by
  unfold Lexer.Peek
  constructor
  · intro h
    cases h1 : l.next with
    | error f => rw [h1] at h; cases h
    | ok r =>
      obtain ⟨t1, l1⟩ := r
      rw [h1] at h
      injection h with h
      injection h with ht hl
      subst ht
      obtain ⟨hi, hp⟩ := next_frame l l1 t1 h1
      refine ⟨⟨l1, rfl⟩, ?_⟩
      rw [← hl]
      cases l; cases l1
      dsimp only at hi hp ⊢
      rw [hi, hp]
  · rintro ⟨⟨l1, h1⟩, rfl⟩
    rw [h1]
    obtain ⟨hi, hp⟩ := next_frame l0 l1 t h1
    cases l0; cases l1
    dsimp only at hi hp ⊢
    rw [hi, hp]

/-- What `Next` returns, in terms of `next`. -/
theorem Next_ok_iff (l l2 : Lexer) (t : Token) :
    l.Next = .ok (t, l2) ↔ ∃ l1, l.next = .ok (t, l1) ∧ l2 = { l1 with prev := t } := by
  unfold Lexer.Next
  constructor
  · intro h
    cases h1 : l.next with
    | error f => rw [h1] at h; cases h
    | ok r =>
      obtain ⟨t1, l1⟩ := r
      rw [h1] at h
      injection h with h
      injection h with ht hl
      subst ht
      exact ⟨l1, rfl, hl.symm⟩
  · rintro ⟨l1, h1, rfl⟩
    rw [h1]

theorem Peek_error_iff (l : Lexer) (f : Fault) : l.Peek = .error f ↔ l.next = .error f := by
  unfold Lexer.Peek
  cases h1 : l.next with
  | error g => exact ⟨fun h => h, fun h => h⟩
  | ok r => exact ⟨fun h => (by cases h), fun h => (by cases h)⟩

theorem Next_error_iff (l : Lexer) (f : Fault) : l.Next = .error f ↔ l.next = .error f := by
  unfold Lexer.Next
  cases h1 : l.next with
  | error g => exact ⟨fun h => h, fun h => h⟩
  | ok r => exact ⟨fun h => (by cases h), fun h => (by cases h)⟩


/-! ### `Peek`, `Next` and `Prev` -/

/-- C3: whenever `Peek` returns a token, the lexer it leaves is the lexer it
was called on (same input, position, line, column and previous token), and
any number of calls of `Peek` in a row return that same token and still
leave the lexer as it was. -/
theorem Peek_leaves_lexer (l l0 : Lexer) (t : Token) (h : l.Peek = .ok (t, l0)) :
    (l0.pos = l.pos ∧ l0.line = l.line ∧ l0.column = l.column ∧ l0.prev = l.prev ∧
      l0.input = l.input) ∧
    ∀ n, l.peeks n = .ok (List.replicate n t, l) := by
  have hl : l0 = l := ((Peek_ok_iff l l0 t).1 h).2
  subst hl
  refine ⟨⟨rfl, rfl, rfl, rfl, rfl⟩, ?_⟩
  intro n
  induction n with
  | zero => rfl
  | succ n ih =>
    rw [Lexer.peeks, h]
    dsimp only
    rw [ih]
    rfl

/-- A lexer on a component marker: `Peek` returns the marker, however often
it is called. -/
theorem Peek_leaves_lexer_witness :
    (New "\\Card x".toList).Peek =
        .ok (⟨TokenType.Component, "Card".toList, 1, 1⟩, New "\\Card x".toList) ∧
      ∀ n, (New "\\Card x".toList).peeks n =
        .ok (List.replicate n ⟨TokenType.Component, "Card".toList, 1, 1⟩,
          New "\\Card x".toList) :=
  ⟨by decide!,
    (Peek_leaves_lexer (New "\\Card x".toList) (New "\\Card x".toList)
      ⟨TokenType.Component, "Card".toList, 1, 1⟩ (by decide!)).2⟩

/-- C4: in every lexer state `Next` returns exactly the token that `Peek`
returns there (and fails exactly when `Peek` fails, in the same way); right
after `Next` has returned a token, `Prev` returns that token; `Peek` does not
change what `Prev` returns. -/
theorem Next_returns_peeked_token (l : Lexer) :
    (∀ t l2, l.Next = .ok (t, l2) → l.Peek = .ok (t, l) ∧ l2.Prev = t) ∧
    (∀ t l0, l.Peek = .ok (t, l0) → (∃ l2, l.Next = .ok (t, l2)) ∧ l0.Prev = l.Prev) ∧
    (∀ f, l.Next = .error f ↔ l.Peek = .error f) := by
  refine ⟨?_, ?_, ?_⟩
  · intro t l2 h
    obtain ⟨l1, h1, rfl⟩ := (Next_ok_iff l l2 t).1 h
    exact ⟨(Peek_ok_iff l l t).2 ⟨⟨l1, h1⟩, rfl⟩, rfl⟩
  · intro t l0 h
    obtain ⟨⟨l1, h1⟩, rfl⟩ := (Peek_ok_iff l l0 t).1 h
    exact ⟨⟨_, (Next_ok_iff l0 _ t).2 ⟨l1, h1, rfl⟩⟩, rfl⟩
  · intro f
    rw [Next_error_iff, Peek_error_iff]

/-- On the input `\Card x`, `Next` returns the marker that `Peek` announces,
and `Prev` then returns it. -/
theorem Next_returns_peeked_token_witness :
    (New "\\Card x".toList).Next =
        .ok (⟨TokenType.Component, "Card".toList, 1, 1⟩,
          ⟨"\\Card x".toList, 5, 1, 6, ⟨TokenType.Component, "Card".toList, 1, 1⟩⟩) ∧
      (New "\\Card x".toList).Peek =
        .ok (⟨TokenType.Component, "Card".toList, 1, 1⟩, New "\\Card x".toList) ∧
      Lexer.Prev ⟨"\\Card x".toList, 5, 1, 6, ⟨TokenType.Component, "Card".toList, 1, 1⟩⟩ =
        ⟨TokenType.Component, "Card".toList, 1, 1⟩ :=
  ⟨by decide!,
    (Next_returns_peeked_token (New "\\Card x".toList)).1
      ⟨TokenType.Component, "Card".toList, 1, 1⟩
      ⟨"\\Card x".toList, 5, 1, 6, ⟨TokenType.Component, "Card".toList, 1, 1⟩⟩ (by decide!)⟩


/-! ### A text node as the value of a property -/

set_option maxRecDepth 100000 in
/-- C8: the nested block of the property `P` holds a text line and then one
component; `Parse` succeeds and the value of `P` is the node `nodes[0]` of
the block, which is the text node `t`: neither a string, nor `true`, nor a
component node. -/
theorem parse_text_node_as_property_value :
    Parse "\\A\n    P:\n        t\n        \\B".toList =
      .ok [Node.ComponentNode "A".toList
        [("P".toList, Value.node (Node.TextNode "t".toList))] []] :=
  eq_of_resultEqb 8 _ _ (by decide!)

/-! ### An escaped quote inside a quoted string -/

/-- C10: on the line `"a\"b"` the lexer does not return one text token `a"b`
between two quotes.  The loop of `lexString` stops behind the backslash, so
the tokens are a quote, the text `a\`, a quote, the text `b` and a quote. -/
theorem tokens_of_escaped_quote :
    Lexer.tokens 8 (New "\"a\\\"b\"".toList) =
      .ok [⟨TokenType.Quote, "\"".toList, 1, 1⟩, ⟨TokenType.Text, "a\\".toList, 1, 2⟩,
        ⟨TokenType.Quote, "\"".toList, 1, 4⟩, ⟨TokenType.Text, "b".toList, 1, 5⟩,
        ⟨TokenType.Quote, "\"".toList, 1, 6⟩, Token.zero] := by
  decide!


/-! ### The lexer at a place of its input -/

theorem Lexer.At.current_cons {l : Lexer} {pre rest : List Char} {c : Char}
    (h : l.At pre (c :: rest)) : l.current = c := by
  obtain ⟨hi, hp⟩ := h
  unfold Lexer.current
  rw [hi, hp]
  have : ¬ (pre.length ≥ (pre ++ c :: rest).length) := by
    rw [List.length_append, List.length_cons]; omega
  rw [if_neg this, List.getD_eq_getElem?_getD, List.getElem?_append_right (le_refl _)]
  simp

theorem Lexer.At.current_nil {l : Lexer} {pre : List Char} (h : l.At pre []) : l.current = nul := by
  obtain ⟨hi, hp⟩ := h
  unfold Lexer.current
  rw [hi, hp, List.append_nil, if_pos (le_refl _)]

theorem Lexer.At.pos_lt {l : Lexer} {pre rest : List Char} {c : Char}
    (h : l.At pre (c :: rest)) : l.pos < l.input.length := by
  obtain ⟨hi, hp⟩ := h
  rw [hi, hp, List.length_append, List.length_cons]; omega

theorem Lexer.At.remaining {l : Lexer} {pre rest : List Char} (h : l.At pre rest) :
    l.input.length - l.pos = rest.length := by
  obtain ⟨hi, hp⟩ := h
  rw [hi, hp, List.length_append]; omega

theorem Lexer.At.isEOF_cons {l : Lexer} {pre rest : List Char} {c : Char}
    (h : l.At pre (c :: rest)) : ¬ (l.isEOF = true) := by
  have := h.pos_lt
  unfold Lexer.isEOF
  rw [decide_eq_true_eq]
  omega

theorem Lexer.At.isEOF_nil {l : Lexer} {pre : List Char} (h : l.At pre []) : l.isEOF = true := by
  obtain ⟨hi, hp⟩ := h
  unfold Lexer.isEOF
  rw [decide_eq_true_eq, hi, hp, List.append_nil]

theorem Lexer.At.advance {l : Lexer} {pre rest : List Char} {c : Char}
    (h : l.At pre (c :: rest)) : l.advance.At (pre ++ [c]) rest := by
  have hlt := h.pos_lt
  obtain ⟨hi, hp⟩ := h
  have hn : ¬ (l.pos ≥ l.input.length) := by omega
  unfold Lexer.advance
  rw [if_neg hn]
  split_ifs
  · constructor
    · show l.input = _
      rw [hi, List.append_assoc]; rfl
    · show l.pos + 1 = _
      rw [hp, List.length_append]; rfl
  · constructor
    · show l.input = _
      rw [hi, List.append_assoc]; rfl
    · show l.pos + 1 = _
      rw [hp, List.length_append]; rfl

theorem Lexer.At.drop {l : Lexer} {pre rest : List Char} (h : l.At pre rest) :
    l.input.drop l.pos = rest := by
  obtain ⟨hi, hp⟩ := h
  rw [hi, hp, List.drop_left]

theorem Lexer.At.slice {l l1 : Lexer} {pre a rest : List Char} (h : l.At pre (a ++ rest))
    (h1 : l1.At (pre ++ a) rest) : slice l1.input l.pos l1.pos = a := by
  obtain ⟨_, hp⟩ := h
  obtain ⟨hi1, hp1⟩ := h1
  unfold Margo.slice
  rw [hi1, hp, hp1, List.append_assoc, List.drop_left, List.length_append,
    Nat.add_sub_cancel_left, List.take_left]

theorem Lexer.At.assoc {l : Lexer} {pre a rest : List Char} {c : Char}
    (h : l.At ((pre ++ [c]) ++ a) rest) : l.At (pre ++ c :: a) rest := by
  have e : (pre ++ [c]) ++ a = pre ++ c :: a := by simp
  rw [e] at h
  exact h

theorem Lexer.At.advanceWhile (cond : Char → Bool) {a : List Char} :
    ∀ {l : Lexer} {pre rest : List Char} (fuel : Nat), l.At pre (a ++ rest) →
      (∀ c ∈ a, cond c = true) → (∀ c r, rest = c :: r → cond c = false) →
      a.length ≤ fuel → (l.advanceWhile cond fuel).At (pre ++ a) rest := by
  induction a with
  | nil =>
    intro l pre rest fuel h _ hr _
    rw [List.append_nil]
    rw [List.nil_append] at h
    cases fuel with
    | zero => exact h
    | succ n =>
      unfold Lexer.advanceWhile
      cases rest with
      | nil =>
        have : ¬ (l.pos < l.input.length ∧ cond l.current = true) := by
          have := h.remaining
          rw [List.length_nil] at this
          omega
        rw [if_neg this]; exact h
      | cons c r =>
        have : ¬ (l.pos < l.input.length ∧ cond l.current = true) := by
          rw [h.current_cons, hr c r rfl]
          simp
        rw [if_neg this]; exact h
  | cons c a ih =>
    intro l pre rest fuel h ha hr hf
    cases fuel with
    | zero => simp at hf
    | succ n =>
      rw [List.cons_append] at h
      unfold Lexer.advanceWhile
      have : l.pos < l.input.length ∧ cond l.current = true :=
        ⟨h.pos_lt, by rw [h.current_cons]; exact ha c (List.mem_cons_self _ _)⟩
      rw [if_pos this]
      have h2 := ih n h.advance (fun x hx => ha x (List.mem_cons_of_mem _ hx)) hr
        (by simpa using hf)
      exact h2.assoc

theorem Lexer.At.lookAhead {l : Lexer} {pre rest : List Char} (h : l.At pre rest) (v t : Char) :
    l.lookAhead v t = lookAheadFrom v t rest pre.length := by
  unfold Lexer.lookAhead
  rw [h.drop, h.2]

/-- The look-ahead finds `v` behind bytes that are neither `v` nor `t`. -/
theorem lookAheadFrom_found (v t : Char) (a rest : List Char) (i : Nat)
    (ha : ∀ c ∈ a, c ≠ v ∧ c ≠ t) :
    lookAheadFrom v t (a ++ v :: rest) i = some (i + a.length) := by
  induction a generalizing i with
  | nil => simp [lookAheadFrom]
  | cons c a ih =>
    have hc := ha c (List.mem_cons_self _ _)
    rw [List.cons_append, lookAheadFrom, if_neg hc.1, if_neg hc.2,
      ih _ (fun x hx => ha x (List.mem_cons_of_mem _ hx)), List.length_cons]
    congr 1; omega

/-- The look-ahead fails when `t` or the end comes before any `v`. -/
theorem lookAheadFrom_none (v t : Char) (a rest : List Char) (i : Nat)
    (ha : ∀ c ∈ a, c ≠ v) (hr : rest = [] ∨ ∃ r, rest = t :: r) (hvt : t ≠ v) :
    lookAheadFrom v t (a ++ rest) i = none := by
  induction a generalizing i with
  | nil =>
    rcases hr with rfl | ⟨r, rfl⟩
    · rfl
    · rw [List.nil_append, lookAheadFrom, if_neg hvt, if_pos rfl]
  | cons c a ih =>
    have hc := ha c (List.mem_cons_self _ _)
    rw [List.cons_append, lookAheadFrom, if_neg hc]
    split_ifs
    · rfl
    · exact ih _ (fun x hx => ha x (List.mem_cons_of_mem _ hx))


/-! ### The cases of `next` -/

theorem isAlphaNumeric_ne {c : Char} (h : isAlphaNumeric c = true) :
    c ≠ ' ' ∧ c ≠ '\t' ∧ c ≠ '\\' ∧ c ≠ '"' ∧ c ≠ ':' ∧ c ≠ '\n' ∧ c ≠ '!' := by
  refine ⟨?_, ?_, ?_, ?_, ?_, ?_, ?_⟩ <;> (rintro rfl; revert h; decide)

theorem startsText_ne {c : Char} (h : startsText c = true) :
    c ≠ ' ' ∧ c ≠ '\t' ∧ c ≠ '\\' ∧ c ≠ '"' ∧ c ≠ ':' ∧ c ≠ '\n' ∧ c ≠ '!' := by
  refine ⟨?_, ?_, ?_, ?_, ?_, ?_, ?_⟩ <;> (rintro rfl; revert h; decide)

theorem isIndent_of_current {l : Lexer} (h1 : l.current ≠ ' ') (h2 : l.current ≠ '\t') :
    ¬ (l.isIndent = true) := by
  unfold Lexer.isIndent
  split_ifs <;> simp_all

theorem isIndent_of_prev {l : Lexer} (h1 : l.prev.type ≠ TokenType.Indent)
    (h2 : l.prev.type ≠ TokenType.LineBreak) : ¬ (l.isIndent = true) := by
  unfold Lexer.isIndent
  split_ifs <;> simp_all

theorem Plain_of_prev {l : Lexer} (h : l.prev.type ≠ TokenType.Quote) : l.Plain :=
  fun h1 => h h1.1

/-- Before a line break or at the end of the input no string can start. -/
theorem Plain_of_line_end {l : Lexer} {pre rest : List Char} (h : l.At pre rest)
    (hr : rest = [] ∨ ∃ r, rest = '\n' :: r) : l.Plain := by
  intro h1
  have := lookAheadFrom_none '"' '\n' [] rest pre.length (fun _ hc => by cases hc) hr
    (by decide)
  rw [List.nil_append] at this
  rw [h.lookAhead, this] at h1
  exact absurd h1.2 (by simp)

theorem next_eq_loop (l : Lexer) :
    l.next = Lexer.nextLoop (l.input.length - l.pos + 1) l := rfl

/-- The method `next` on a space that is no indentation: it goes on behind
the space. -/
theorem next_space {l : Lexer} (hE : ¬ (l.isEOF = true)) (hI : ¬ (l.isIndent = true))
    (hS : l.Plain) (h4 : l.current = ' ') : l.next = l.advance.next := by
  rw [next_eq_loop, Lexer.nextLoop, if_neg hE, if_neg hI, if_neg hS, if_pos h4, next_eq_loop]
  have hlt : l.pos < l.input.length := by
    unfold Lexer.isEOF at hE
    rw [decide_eq_true_eq] at hE
    omega
  have hp : l.advance.pos = l.pos + 1 := by
    unfold Lexer.advance
    rw [if_neg (by omega)]
    split_ifs <;> rfl
  rw [advance_input, hp]
  congr 1
  omega

/-- The method `next` on a byte that is neither a space nor an indentation:
the `switch` and what follows it. -/
theorem next_switch {l : Lexer} (hE : ¬ (l.isEOF = true)) (hI : ¬ (l.isIndent = true))
    (hS : l.Plain) (h4 : l.current ≠ ' ') :
    l.next =
      if l.current = '\\' then .ok l.lexComponent
      else if l.current = '"' then
        .ok (⟨TokenType.Quote, ['"'], l.line, l.column⟩, l.advance)
      else if l.current = ':' then
        .ok (⟨TokenType.Colon, [':'], l.line, l.column⟩, l.advance)
      else if l.current = '\n' then .ok l.lexNewline
      else if l.current = '!' then .ok l.lexBoolProperty
      else if l.isProperty then .ok l.lexProperty
      else .ok l.lexText := by
  rw [next_eq_loop, Lexer.nextLoop, if_neg hE, if_neg hI, if_neg hS, if_neg h4]

/-! ### The tokens, one kind at a time -/

theorem Lexes_eof {l : Lexer} {pre : List Char} (h : l.At pre []) :
    l.Lexes TokenType.EOF [] pre [] := by
  refine ⟨Token.zero, l, ?_, rfl, rfl, h⟩
  rw [next_eq_loop, Lexer.nextLoop, if_pos h.isEOF_nil]

theorem Lexes_space {l : Lexer} {pre rest p r v : List Char} {ty : TokenType}
    (h : l.At pre (' ' :: rest)) (hI : ¬ (l.isIndent = true)) (hS : l.Plain)
    (hn : l.advance.Lexes ty v p r) : l.Lexes ty v p r := by
  obtain ⟨t, l1, h1, h2⟩ := hn
  exact ⟨t, l1, by rw [next_space h.isEOF_cons hI hS h.current_cons]; exact h1, h2⟩

theorem Lexes_quote {l : Lexer} {pre rest : List Char} (h : l.At pre ('"' :: rest))
    (hS : l.Plain) : l.Lexes TokenType.Quote ['"'] (pre ++ ['"']) rest := by
  have hc := h.current_cons
  refine ⟨⟨TokenType.Quote, ['"'], l.line, l.column⟩, l.advance, ?_, rfl, rfl, h.advance⟩
  rw [next_switch h.isEOF_cons (isIndent_of_current (by rw [hc]; decide) (by rw [hc]; decide))
    hS (by rw [hc]; decide), if_neg (by rw [hc]; decide), if_pos hc]

theorem Lexes_colon {l : Lexer} {pre rest : List Char} (h : l.At pre (':' :: rest))
    (hS : l.Plain) : l.Lexes TokenType.Colon [':'] (pre ++ [':']) rest := by
  have hc := h.current_cons
  refine ⟨⟨TokenType.Colon, [':'], l.line, l.column⟩, l.advance, ?_, rfl, rfl, h.advance⟩
  rw [next_switch h.isEOF_cons (isIndent_of_current (by rw [hc]; decide) (by rw [hc]; decide))
    hS (by rw [hc]; decide), if_neg (by rw [hc]; decide), if_neg (by rw [hc]; decide),
    if_pos hc]

theorem Lexes_newline {l : Lexer} {pre rest : List Char} (h : l.At pre ('\n' :: rest)) :
    l.Lexes TokenType.LineBreak ['\n'] (pre ++ ['\n']) rest := by
  have hc := h.current_cons
  refine ⟨l.lexNewline.1, l.lexNewline.2, ?_, rfl, rfl, h.advance⟩
  rw [next_switch h.isEOF_cons (isIndent_of_current (by rw [hc]; decide) (by rw [hc]; decide))
    (Plain_of_line_end h (Or.inr ⟨rest, rfl⟩)) (by rw [hc]; decide),
    if_neg (by rw [hc]; decide), if_neg (by rw [hc]; decide), if_neg (by rw [hc]; decide),
    if_pos hc]

theorem Lexes_component {l : Lexer} {pre name rest : List Char}
    (h : l.At pre ('\\' :: (name ++ rest))) (hS : l.Plain)
    (hn : ∀ c ∈ name, isAlphaNumeric c = true) (hr : runEnds rest) :
    l.Lexes TokenType.Component name (pre ++ '\\' :: name) rest := by
  have hc := h.current_cons
  have h1 : l.advance.At (pre ++ ['\\']) (name ++ rest) := h.advance
  have h2 := Lexer.At.advanceWhile (isAlphaNumeric)
    (l.advance.input.length - l.advance.pos) h1 hn hr
    (by rw [h1.remaining, List.length_append]; omega)
  refine ⟨l.lexComponent.1, l.lexComponent.2, ?_, rfl, ?_, h2.assoc⟩
  · rw [next_switch h.isEOF_cons
      (isIndent_of_current (by rw [hc]; decide) (by rw [hc]; decide)) hS
      (by rw [hc]; decide), if_pos hc]
  · exact Lexer.At.slice h1 h2

theorem Lexes_bool {l : Lexer} {pre name rest : List Char}
    (h : l.At pre ('!' :: (name ++ rest))) (hS : l.Plain)
    (hn : ∀ c ∈ name, isAlphaNumeric c = true) (hr : runEnds rest) :
    l.Lexes TokenType.Bool name (pre ++ '!' :: name) rest := by
  have hc := h.current_cons
  have h1 : l.advance.At (pre ++ ['!']) (name ++ rest) := h.advance
  have h2 := Lexer.At.advanceWhile (isAlphaNumeric)
    (l.advance.input.length - l.advance.pos) h1 hn hr
    (by rw [h1.remaining, List.length_append]; omega)
  refine ⟨l.lexBoolProperty.1, l.lexBoolProperty.2, ?_, rfl, ?_, h2.assoc⟩
  · rw [next_switch h.isEOF_cons
      (isIndent_of_current (by rw [hc]; decide) (by rw [hc]; decide)) hS
      (by rw [hc]; decide), if_neg (by rw [hc]; decide), if_neg (by rw [hc]; decide),
      if_neg (by rw [hc]; decide), if_neg (by rw [hc]; decide), if_pos hc]
  · exact Lexer.At.slice h1 h2

theorem Lexes_indent_tab {l : Lexer} {pre rest : List Char} (h : l.At pre ('\t' :: rest))
    (hp : pre ≠ [])
    (hprev : l.prev.type = TokenType.Indent ∨ l.prev.type = TokenType.LineBreak) :
    l.Lexes TokenType.Indent ['\t'] (pre ++ ['\t']) rest := by
  have hc := h.current_cons
  have hI : l.isIndent = true := by
    unfold Lexer.isIndent
    have : l.pos ≠ 0 := by
      rw [h.2]; intro h0; exact hp (List.length_eq_zero.1 h0)
    rw [if_neg this, if_neg (by rw [hc]; decide)]
    rcases hprev with h1 | h1 <;> rw [h1] <;> rfl
  refine ⟨⟨TokenType.Indent, ['\t'], l.line, l.column⟩, l.advance, ?_, rfl, rfl, h.advance⟩
  rw [next_eq_loop, Lexer.nextLoop, if_neg h.isEOF_cons, if_pos hI]
  unfold Lexer.lexIndent
  dsimp only
  rw [if_pos hc]

theorem Lexes_indent_spaces {l : Lexer} {pre rest : List Char}
    (h : l.At pre (' ' :: ' ' :: ' ' :: ' ' :: rest)) (hp : pre ≠ [])
    (hprev : l.prev.type = TokenType.Indent ∨ l.prev.type = TokenType.LineBreak) :
    l.Lexes TokenType.Indent ['\t'] (pre ++ [' ', ' ', ' ', ' ']) rest := by
  have hc := h.current_cons
  have hI : l.isIndent = true := by
    unfold Lexer.isIndent
    have : l.pos ≠ 0 := by
      rw [h.2]; intro h0; exact hp (List.length_eq_zero.1 h0)
    rw [if_neg this, if_neg (by rw [hc]; decide)]
    rcases hprev with h1 | h1 <;> rw [h1] <;> rfl
  have a1 := h.advance
  have a2 := a1.advance
  have a3 := a2.advance
  have a4 := a3.advance
  have e : l.lexIndentSpaces 4 = some l.advance.advance.advance.advance := by
    rw [Lexer.lexIndentSpaces, if_pos hc, Lexer.lexIndentSpaces, if_pos a1.current_cons,
      Lexer.lexIndentSpaces, if_pos a2.current_cons, Lexer.lexIndentSpaces,
      if_pos a3.current_cons, Lexer.lexIndentSpaces]
  refine ⟨⟨TokenType.Indent, ['\t'], l.line, l.column⟩, l.advance.advance.advance.advance, ?_, rfl, rfl, ?_⟩
  · rw [next_eq_loop, Lexer.nextLoop, if_neg h.isEOF_cons, if_pos hI]
    unfold Lexer.lexIndent
    dsimp only
    rw [if_neg (by rw [hc]; decide), e]
  · have e2 : pre ++ [' ', ' ', ' ', ' '] = pre ++ [' '] ++ [' '] ++ [' '] ++ [' '] := by simp
    rw [e2]; exact a4


/-! ### Property names, text and quoted strings -/

theorem lookAheadFrom_shift (v t : Char) (s : List Char) (i : Nat) :
    lookAheadFrom v t s i = (lookAheadFrom v t s 0).map (fun e => e + i) := by
  induction s generalizing i with
  | nil => rfl
  | cons c s ih =>
    rw [lookAheadFrom, lookAheadFrom]
    split_ifs
    · simp
    · rfl
    · rw [ih (i + 1), ih (0 + 1), Option.map_map]
      congr 1
      funext e
      simp only [Function.comp_apply]
      omega

theorem lookAheadFrom_le (v t : Char) (s : List Char) (i e : Nat)
    (h : lookAheadFrom v t s i = some e) : i ≤ e ∧ e < i + s.length := by
  induction s generalizing i with
  | nil => cases h
  | cons c s ih =>
    rw [lookAheadFrom] at h
    split_ifs at h
    · injection h with h; subst h; simp
    · obtain ⟨h1, h2⟩ := ih _ h
      rw [List.length_cons]; omega

/-- On a line that `rest` ends, the look-ahead for a colon sees the line only. -/
theorem lookAheadFrom_line (txt rest : List Char) (i : Nat) (ht : ∀ c ∈ txt, c ≠ '\n')
    (hr : lineEnds rest) :
    lookAheadFrom ':' '\n' (txt ++ rest) i = lookAheadFrom ':' '\n' txt i := by
  induction txt generalizing i with
  | nil =>
    rcases hr with rfl | ⟨r, rfl⟩
    · rfl
    · simp [lookAheadFrom]
  | cons c txt ih =>
    rw [List.cons_append, lookAheadFrom, lookAheadFrom]
    split_ifs
    · rfl
    · rfl
    · exact ih _ (fun x hx => ht x (List.mem_cons_of_mem _ hx))

theorem Lexer.At.isProperty {l : Lexer} {pre txt rest : List Char} (h : l.At pre (txt ++ rest))
    (ht : ∀ c ∈ txt, c ≠ '\n') (hr : lineEnds rest) : l.isProperty = propertyLike txt := by
  unfold Lexer.isProperty propertyLike
  rw [h.lookAhead, lookAheadFrom_line txt rest _ ht hr, lookAheadFrom_shift]
  cases he : lookAheadFrom ':' '\n' txt 0 with
  | none => rfl
  | some e =>
    have hle := (lookAheadFrom_le _ _ _ _ _ he).2
    show (Margo.slice l.input l.pos (e + pre.length)).all isAlphaNumeric = _
    unfold Margo.slice
    rw [h.1, h.2, List.drop_left, Nat.add_sub_cancel, List.take_append_of_le_length (by omega)]

theorem Lexes_property {l : Lexer} {pre name rest : List Char} {c : Char}
    (h : l.At pre ((c :: name) ++ ':' :: rest)) (hS : l.Plain)
    (hn : ∀ x ∈ c :: name, isAlphaNumeric x = true) :
    l.Lexes TokenType.Property (c :: name) (pre ++ c :: name) (':' :: rest) := by
  have hc : l.current = c := Lexer.At.current_cons (by rw [List.cons_append] at h; exact h)
  have hE : ¬ (l.isEOF = true) := Lexer.At.isEOF_cons (by rw [List.cons_append] at h; exact h)
  obtain ⟨c1, c2, c3, c4, c5, c6, c7⟩ := isAlphaNumeric_ne (hn c (List.mem_cons_self _ _))
  have hP : l.isProperty = true := by
    unfold Lexer.isProperty
    rw [h.lookAhead, lookAheadFrom_found ':' '\n' (c :: name) rest pre.length
      (fun x hx => ⟨(isAlphaNumeric_ne (hn x hx)).2.2.2.2.1,
        (isAlphaNumeric_ne (hn x hx)).2.2.2.2.2.1⟩)]
    show (Margo.slice l.input l.pos _).all isAlphaNumeric = true
    unfold Margo.slice
    rw [h.1, h.2, List.drop_left, Nat.add_sub_cancel_left, List.take_left, List.all_eq_true]
    exact hn
  have h2 := Lexer.At.advanceWhile (fun c => decide (c ≠ ':'))
    (l.input.length - l.pos) h
    (fun x hx => decide_eq_true ((isAlphaNumeric_ne (hn x hx)).2.2.2.2.1))
    (fun x r hx => by injection hx with hx _; subst hx; decide)
    (by rw [h.remaining, List.length_append]; omega)
  refine ⟨l.lexProperty.1, l.lexProperty.2, ?_, rfl, Lexer.At.slice h h2, h2⟩
  rw [next_switch hE (isIndent_of_current (by rw [hc]; exact c1) (by rw [hc]; exact c2)) hS
    (by rw [hc]; exact c1), if_neg (by rw [hc]; exact c3), if_neg (by rw [hc]; exact c4),
    if_neg (by rw [hc]; exact c5), if_neg (by rw [hc]; exact c6),
    if_neg (by rw [hc]; exact c7), if_pos hP]

theorem plainLine_cases {txt : List Char} (h : plainLine txt = true) :
    ∃ c t, txt = c :: t ∧ startsText c = true ∧ (∀ x ∈ txt, x ≠ '\n') ∧
      propertyLike txt = false := by
  cases txt with
  | nil => cases h
  | cons c t =>
    unfold plainLine at h
    simp only [Bool.and_eq_true, Bool.not_eq_true', List.contains_eq_any_beq,
      List.any_eq_false, beq_iff_eq] at h
    exact ⟨c, t, rfl, h.1.1, fun x hx hn => h.1.2 x hx hn.symm, h.2⟩

theorem Lexes_text {l : Lexer} {pre txt rest : List Char} (h : l.At pre (txt ++ rest))
    (hS : l.Plain) (ht : plainLine txt = true) (hr : lineEnds rest) :
    l.Lexes TokenType.Text txt (pre ++ txt) rest := by
  obtain ⟨c, t, rfl, hs, hnl, hpl⟩ := plainLine_cases ht
  have hc : l.current = c := Lexer.At.current_cons (by rw [List.cons_append] at h; exact h)
  have hE : ¬ (l.isEOF = true) := Lexer.At.isEOF_cons (by rw [List.cons_append] at h; exact h)
  obtain ⟨c1, c2, c3, c4, c5, c6, c7⟩ := startsText_ne hs
  have hP : ¬ (l.isProperty = true) := by rw [h.isProperty hnl hr, hpl]; simp
  have h2 := Lexer.At.advanceWhile (fun c => decide (c ≠ '\n'))
    (l.input.length - l.pos) h (fun x hx => decide_eq_true (hnl x hx))
    (fun x r hx => by
      rcases hr with rfl | ⟨r1, rfl⟩
      · cases hx
      · injection hx with hx _; subst hx; decide)
    (by rw [h.remaining, List.length_append]; omega)
  refine ⟨l.lexText.1, l.lexText.2, ?_, rfl, Lexer.At.slice h h2, h2⟩
  rw [next_switch hE (isIndent_of_current (by rw [hc]; exact c1) (by rw [hc]; exact c2)) hS
    (by rw [hc]; exact c1), if_neg (by rw [hc]; exact c3), if_neg (by rw [hc]; exact c4),
    if_neg (by rw [hc]; exact c5), if_neg (by rw [hc]; exact c6),
    if_neg (by rw [hc]; exact c7), if_neg hP]

theorem unescapeQuotes_id (s : List Char) (h : ∀ c ∈ s, c ≠ '"') : unescapeQuotes s = s := by
  induction s using unescapeQuotes.induct with
  | case1 => rfl
  | case2 rest ih =>
    exact absurd rfl (h '"' (List.mem_cons_of_mem _ (List.mem_cons_self _ _)))
  | case3 c rest hne ih =>
    rw [unescapeQuotes]
    · rw [ih (fun x hx => h x (List.mem_cons_of_mem _ hx))]
    · exact hne


theorem quotable_cases {body : List Char} (h : quotable body = true) :
    (∀ c ∈ body, c ≠ '"') ∧ (∀ c ∈ body, c ≠ '\n') ∧ (∀ c ∈ body.dropLast, c ≠ '\\') := by
  unfold quotable at h
  simp only [Bool.and_eq_true, Bool.not_eq_true', List.contains_eq_any_beq,
    List.any_eq_false, beq_iff_eq] at h
  exact ⟨fun x hx hn => h.1.1 x hx hn.symm, fun x hx hn => h.1.2 x hx hn.symm,
    fun x hx hn => h.2 x hx hn.symm⟩

theorem Lexer.At.lexStringLoop {rest : List Char} (body : List Char) :
    ∀ {l : Lexer} {pre : List Char} (prevc : Char) (fuel : Nat),
      l.At pre (body ++ '"' :: rest) → (prevc ≠ '\\' ∨ body = []) →
      (∀ c ∈ body, c ≠ '"') → (∀ c ∈ body.dropLast, c ≠ '\\') → body.length ≤ fuel →
      (l.lexStringLoop fuel prevc).At (pre ++ body) ('"' :: rest) := by
  induction body with
  | nil =>
    intro l pre prevc fuel h _ _ _ _
    rw [List.append_nil]
    rw [List.nil_append] at h
    cases fuel with
    | zero => exact h
    | succ n =>
      unfold Lexer.lexStringLoop
      have : ¬ (l.pos < l.input.length ∧ l.current ≠ '"' ∧ prevc ≠ '\\') := by
        rw [h.current_cons]; simp
      rw [if_neg this]; exact h
  | cons c b ih =>
    intro l pre prevc fuel h hp hq hb hf
    cases fuel with
    | zero => simp at hf
    | succ n =>
      rw [List.cons_append] at h
      have hp1 : prevc ≠ '\\' := by
        rcases hp with hp | hp
        · exact hp
        · cases hp
      unfold Lexer.lexStringLoop
      have : l.pos < l.input.length ∧ l.current ≠ '"' ∧ prevc ≠ '\\' :=
        ⟨h.pos_lt, by rw [h.current_cons]; exact hq c (List.mem_cons_self _ _), hp1⟩
      rw [if_pos this, h.current_cons]
      have hc : c ≠ '\\' ∨ b = [] := by
        cases b with
        | nil => exact Or.inr rfl
        | cons d b1 =>
          left
          exact hb c (by rw [List.dropLast_cons₂]; exact List.mem_cons_self _ _)
      have hb1 : ∀ x ∈ b.dropLast, x ≠ '\\' := by
        intro x hx
        cases b with
        | nil => cases hx
        | cons d b1 =>
          exact hb x (by rw [List.dropLast_cons₂]; exact List.mem_cons_of_mem _ hx)
      have h2 := ih c n h.advance hc (fun x hx => hq x (List.mem_cons_of_mem _ hx)) hb1
        (by simpa using hf)
      exact h2.assoc

/-- Behind an opening quote, the bytes up to the closing quote of the line
come back as one text token, provided they can be quoted. -/
theorem Lexes_string {l : Lexer} {pre body rest : List Char}
    (h : l.At pre (body ++ '"' :: rest)) (hprev : l.prev.type = TokenType.Quote)
    (hb : quotable body = true) :
    l.Lexes TokenType.Text body (pre ++ body) ('"' :: rest) := by
  obtain ⟨hq, hn, hs⟩ := quotable_cases hb
  have hE : ¬ (l.isEOF = true) := by
    cases body with
    | nil => exact Lexer.At.isEOF_cons (by rw [List.nil_append] at h; exact h)
    | cons c b => exact Lexer.At.isEOF_cons (by rw [List.cons_append] at h; exact h)
  have hI : ¬ (l.isIndent = true) :=
    isIndent_of_prev (by rw [hprev]; decide) (by rw [hprev]; decide)
  have hL : l.prev.type = TokenType.Quote ∧ (l.lookAhead '"' '\n').isSome = true := by
    refine ⟨hprev, ?_⟩
    rw [h.lookAhead, lookAheadFrom_found '"' '\n' body rest _ (fun x hx => ⟨hq x hx, hn x hx⟩)]
    rfl
  have h2 := Lexer.At.lexStringLoop body nul (l.input.length - l.pos) h
    (Or.inl (by decide)) hq hs (by rw [h.remaining, List.length_append]; omega)
  refine ⟨l.lexString.1, l.lexString.2, ?_, rfl, ?_, h2⟩
  · rw [next_eq_loop, Lexer.nextLoop, if_neg hE, if_neg hI, if_pos hL]
  · show unescapeQuotes (Margo.slice _ l.pos _) = body
    rw [Lexer.At.slice h h2, unescapeQuotes_id body hq]

/-- What `Peek` and `Next` do where `next` returns a token of a known kind
and value: both return it, `Peek` leaves the lexer alone, and `Next` leaves
it behind the token, with the token as the previous one. -/
theorem Lexer.Lexes.tokens {l : Lexer} {ty : TokenType} {v pre rest : List Char}
    (h : l.Lexes ty v pre rest) :
    ∃ t l2, t.type = ty ∧ t.Value = v ∧ l.Peek = .ok (t, l) ∧ l.Next = .ok (t, l2) ∧
      l2.At pre rest ∧ l2.prev = t := by
  obtain ⟨t, l1, h1, h2, h3, h4⟩ := h
  exact ⟨t, { l1 with prev := t }, h2, h3, (Peek_ok_iff l l t).2 ⟨⟨l1, h1⟩, rfl⟩,
    (Next_ok_iff l _ t).2 ⟨l1, h1, rfl⟩, h4, rfl⟩


/-! ### One round of the loops of the parser -/

/-- Where `Peek` returns a token, `Next` returns the same token. -/
theorem Peek_Next {l l0 : Lexer} {t : Token} (h : l.Peek = .ok (t, l0)) :
    l0 = l ∧ ∃ l1, l.Next = .ok (t, l1) := by
  obtain ⟨⟨l1, h1⟩, rfl⟩ := (Peek_ok_iff l l0 t).1 h
  exact ⟨rfl, _, (Next_ok_iff l0 _ t).2 ⟨l1, h1, rfl⟩⟩

/-- Where `Next` returns a token, `Peek` returns the same token. -/
theorem Next_Peek {l l1 : Lexer} {t : Token} (h : l.Next = .ok (t, l1)) :
    l.Peek = .ok (t, l) := by
  obtain ⟨l2, h2, _⟩ := (Next_ok_iff l l1 t).1 h
  exact (Peek_ok_iff l l t).2 ⟨⟨l2, h2⟩, rfl⟩

theorem Parser.eta (p : Parser) : ({ p with lexer := p.lexer } : Parser) = p := by
  cases p; rfl

theorem parseBlockLoop_step (n base : Nat) (nodes : List Node) (p : Parser) (token : Token)
    (l1 : Lexer) (hnx : p.lexer.Next = .ok (token, l1)) :
    Parser.parseBlockLoop (n + 1) base nodes p =
      if token.type = TokenType.EOF then .ok (nodes, p)
      else if token.type = TokenType.Indent then
        Parser.parseBlockLoop n base nodes { lexer := l1, indent := p.indent + 1 }
      else if token.type = TokenType.LineBreak then
        Parser.parseBlockLoop n base nodes { lexer := l1, indent := 0 }
      else if p.indent ≤ base ∧ base ≠ 0 then .ok (nodes, p)
      else if token.type = TokenType.Component then
        match Parser.parseComponentNode n p with
        | .error f => .error f
        | .ok (node, p1) => Parser.parseBlockLoop n base (nodes ++ [node]) p1
      else if token.type = TokenType.Text then
        Parser.parseBlockLoop n base (nodes ++ [Node.TextNode token.Value])
          { p with lexer := l1 }
      else .error (Fault.unexpected token.type token.Value) := by
  rw [Parser.parseBlockLoop, Next_Peek hnx]
  dsimp only
  rw [hnx, Parser.eta]
  all_goals rfl

theorem parseBlockLoop_fail (n base : Nat) (nodes : List Node) (p : Parser) (f : Fault)
    (hpk : p.lexer.Peek = .error f) :
    Parser.parseBlockLoop (n + 1) base nodes p = .error f := by
  rw [Parser.parseBlockLoop, hpk]

theorem parseComponentNodeLoop_step (n base : Nat) (name : List Char)
    (attributes : List (List Char × Value)) (children : List Node) (p : Parser)
    (token : Token) (l1 : Lexer) (hnx : p.lexer.Next = .ok (token, l1)) :
    Parser.parseComponentNodeLoop (n + 1) base name attributes children p =
      if token.type = TokenType.EOF then
        .ok (Node.ComponentNode name attributes children, p)
      else if token.type = TokenType.Indent then
        Parser.parseComponentNodeLoop n base name attributes children
          { lexer := l1, indent := p.indent + 1 }
      else if token.type = TokenType.LineBreak then
        Parser.parseComponentNodeLoop n base name attributes children
          { lexer := l1, indent := 0 }
      else if p.indent ≤ base then
        .ok (Node.ComponentNode name attributes children, p)
      else if token.type = TokenType.Text then
        Parser.parseComponentNodeLoop n base name attributes
          (children ++ [Node.TextNode token.Value]) { p with lexer := l1 }
      else if token.type = TokenType.Component then
        match Parser.parseComponentNode n p with
        | .error f => .error f
        | .ok (child, p1) =>
          Parser.parseComponentNodeLoop n base name attributes (children ++ [child]) p1
      else if token.type = TokenType.Bool then
        Parser.parseComponentNodeLoop n base name
          (attributes ++ [(token.Value, Value.bool true)]) children { p with lexer := l1 }
      else if token.type = TokenType.Property then
        match Parser.parseProperty n p with
        | .error f => .error f
        | .ok (kv, p1) =>
          Parser.parseComponentNodeLoop n base name (attributes ++ [kv]) children p1
      else .error (Fault.unexpected token.type token.Value) := by
  rw [Parser.parseComponentNodeLoop, Next_Peek hnx]
  dsimp only
  rw [hnx, Parser.eta]
  all_goals rfl

theorem parseComponentNodeLoop_fail (n base : Nat) (name : List Char)
    (attributes : List (List Char × Value)) (children : List Node) (p : Parser) (f : Fault)
    (hpk : p.lexer.Peek = .error f) :
    Parser.parseComponentNodeLoop (n + 1) base name attributes children p = .error f := by
  rw [Parser.parseComponentNodeLoop, hpk]

theorem parsePropertyValue_step (n : Nat) (p : Parser) (next : Token) (l1 : Lexer)
    (hnx : p.lexer.Next = .ok (next, l1)) :
    Parser.parsePropertyValue (n + 1) p =
      if next.type = TokenType.Quote then
        match Parser.parseString p with
        | .ok (s, p1) => .ok (Value.str s, p1)
        | .error f => .error f
      else if next.type = TokenType.LineBreak then
        match Parser.parseBlock n { p with lexer := l1 } with
        | .error f => .error f
        | .ok (nodes, p1) =>
          match propertyValueOf next nodes with
          | .ok v => .ok (v, p1)
          | .error f => .error f
      else .error (Fault.expectedQuoteOrNewline next.Line next.Column next.Value) := by
  rw [Parser.parsePropertyValue, Next_Peek hnx]
  dsimp only
  rw [hnx, Parser.eta]
  all_goals rfl

theorem parseProperty_step (n : Nat) (p : Parser) (nameToken next : Token) (l1 l2 : Lexer)
    (h1 : p.lexer.Next = .ok (nameToken, l1)) (h2 : l1.Next = .ok (next, l2)) :
    Parser.parseProperty (n + 1) p =
      if next.type ≠ TokenType.Colon then
        .error (Fault.expectedColon next.Line next.Column next.Value)
      else
        match Parser.parsePropertyValue n { p with lexer := l2 } with
        | .error f => .error f
        | .ok (v, p1) => .ok ((nameToken.Value, v), p1) := by
  rw [Parser.parseProperty, h1]
  dsimp only
  rw [h2]
  all_goals rfl

theorem parseComponentNode_step (n : Nat) (p : Parser) (marker : Token) (l1 : Lexer)
    (h1 : p.lexer.Next = .ok (marker, l1)) :
    Parser.parseComponentNode (n + 1) p =
      Parser.parseComponentNodeLoop n p.indent marker.Value [] [] { p with lexer := l1 } := by
  rw [Parser.parseComponentNode, h1]

theorem parseString_step (p : Parser) (t1 t2 t3 : Token) (l1 l2 l3 : Lexer)
    (h1 : p.lexer.Next = .ok (t1, l1)) (h2 : l1.Next = .ok (t2, l2))
    (h3 : l2.Next = .ok (t3, l3)) (e1 : t1.type = TokenType.Quote)
    (e2 : t2.type = TokenType.Text) (e3 : t3.type = TokenType.Quote) :
    Parser.parseString p = .ok (t2.Value, { p with lexer := l3 }) := by
  rw [Parser.parseString, h1]
  dsimp only
  rw [if_neg (by rw [e1]; exact fun h => h rfl), h2]
  dsimp only
  rw [if_neg (by rw [e2]; exact fun h => h rfl), h3]
  dsimp only
  rw [if_neg (by rw [e3]; exact fun h => h rfl)]


/-! ### The tokens that a call of the parser takes -/

theorem Consumes_append {l l1 l2 : Lexer} {a b : List Token} (h1 : l.Consumes a l1)
    (h2 : l1.Consumes b l2) : l.Consumes (a ++ b) l2 := by
  induction a generalizing l with
  | nil => cases h1; exact h2
  | cons t a ih =>
    obtain ⟨l3, h3, h4⟩ := h1
    exact ⟨l3, h3, ih h4⟩

theorem counterAfter_append (c : Nat) (a b : List Token) :
    counterAfter c (a ++ b) = counterAfter (counterAfter c a) b := by
  induction a generalizing c with
  | nil => rfl
  | cons t a ih =>
    rw [List.cons_append, counterAfter, counterAfter]
    split_ifs <;> exact ih _

theorem allAtLeast_append {m c : Nat} {a b : List Token} (h1 : allAtLeast m c a)
    (h2 : allAtLeast m (counterAfter c a) b) : allAtLeast m c (a ++ b) := by
  induction a generalizing c with
  | nil => exact h2
  | cons t a ih =>
    rw [List.cons_append, allAtLeast]
    rw [allAtLeast] at h1
    rw [counterAfter] at h2
    split_ifs at h1 h2 ⊢
    · exact ih h1 h2
    · exact ih h1 h2
    · exact ⟨h1.1, ih h1.2 h2⟩

theorem allAtLeast_mono {m m1 c : Nat} {a : List Token} (hm : m1 ≤ m)
    (h : allAtLeast m c a) : allAtLeast m1 c a := by
  induction a generalizing c with
  | nil => trivial
  | cons t a ih =>
    rw [allAtLeast] at h ⊢
    split_ifs at h ⊢
    · exact ih h
    · exact ih h
    · exact ⟨le_trans hm h.1, ih h.2⟩

theorem Parser.Extent.refl (m : Nat) (p : Parser) : p.Extent m p :=
  ⟨[], rfl, trivial, rfl⟩

theorem Parser.Extent.trans {m : Nat} {p p1 p2 : Parser} (h1 : p.Extent m p1)
    (h2 : p1.Extent m p2) : p.Extent m p2 := by
  obtain ⟨a, ha1, ha2, ha3⟩ := h1
  obtain ⟨b, hb1, hb2, hb3⟩ := h2
  refine ⟨a ++ b, Consumes_append ha1 hb1, allAtLeast_append ha2 (by rw [← ha3]; exact hb2), ?_⟩
  rw [counterAfter_append, ← ha3, hb3]

theorem Parser.Extent.mono {m m1 : Nat} {p p1 : Parser} (hm : m1 ≤ m) (h : p.Extent m p1) :
    p.Extent m1 p1 := by
  obtain ⟨a, ha1, ha2, ha3⟩ := h
  exact ⟨a, ha1, allAtLeast_mono hm ha2, ha3⟩

theorem Parser.Extent.indent {m : Nat} {p p1 : Parser} {t : Token} {l1 : Lexer}
    (hn : p.lexer.Next = .ok (t, l1)) (ht : t.type = TokenType.Indent)
    (h : Parser.Extent m { lexer := l1, indent := p.indent + 1 } p1) : p.Extent m p1 := by
  obtain ⟨a, ha1, ha2, ha3⟩ := h
  refine ⟨t :: a, ⟨l1, hn, ha1⟩, ?_, ?_⟩
  · rw [allAtLeast, if_pos ht]; exact ha2
  · rw [counterAfter, if_pos ht]; exact ha3

theorem Parser.Extent.lineBreak {m : Nat} {p p1 : Parser} {t : Token} {l1 : Lexer}
    (hn : p.lexer.Next = .ok (t, l1)) (ht : t.type = TokenType.LineBreak)
    (h : Parser.Extent m { lexer := l1, indent := 0 } p1) : p.Extent m p1 := by
  obtain ⟨a, ha1, ha2, ha3⟩ := h
  have hi : ¬ (t.type = TokenType.Indent) := by rw [ht]; decide
  refine ⟨t :: a, ⟨l1, hn, ha1⟩, ?_, ?_⟩
  · rw [allAtLeast, if_neg hi, if_pos ht]; exact ha2
  · rw [counterAfter, if_neg hi, if_pos ht]; exact ha3

theorem Parser.Extent.token {m : Nat} {p p1 : Parser} {t : Token} {l1 : Lexer}
    (hn : p.lexer.Next = .ok (t, l1)) (hi : t.type ≠ TokenType.Indent)
    (hl : t.type ≠ TokenType.LineBreak) (hm : m ≤ p.indent)
    (h : Parser.Extent m { lexer := l1, indent := p.indent } p1) : p.Extent m p1 := by
  obtain ⟨a, ha1, ha2, ha3⟩ := h
  refine ⟨t :: a, ⟨l1, hn, ha1⟩, ?_, ?_⟩
  · rw [allAtLeast, if_neg hi, if_neg hl]; exact ⟨hm, ha2⟩
  · rw [counterAfter, if_neg hi, if_neg hl]; exact ha3

/-- The three tokens of a quoted string are taken at the indentation of the
parser. -/
theorem parseString_extent (p p1 : Parser) (s : List Char)
    (h : Parser.parseString p = .ok (s, p1)) : p.Extent p.indent p1 := by
  rw [Parser.parseString] at h
  cases h1 : p.lexer.Next with
  | error f => rw [h1] at h; cases h
  | ok r1 =>
    obtain ⟨t1, l1⟩ := r1
    rw [h1] at h
    dsimp only at h
    by_cases e1 : t1.type ≠ TokenType.Quote
    · rw [if_pos e1] at h; cases h
    rw [if_neg e1] at h
    cases h2 : l1.Next with
    | error f => rw [h2] at h; cases h
    | ok r2 =>
      obtain ⟨t2, l2⟩ := r2
      rw [h2] at h
      dsimp only at h
      by_cases e2 : t2.type ≠ TokenType.Text
      · rw [if_pos e2] at h; cases h
      rw [if_neg e2] at h
      cases h3 : l2.Next with
      | error f => rw [h3] at h; cases h
      | ok r3 =>
        obtain ⟨t3, l3⟩ := r3
        rw [h3] at h
        dsimp only at h
        by_cases e3 : t3.type ≠ TokenType.Quote
        · rw [if_pos e3] at h; cases h
        rw [if_neg e3] at h
        injection h with h
        injection h with _ hp
        subst hp
        rw [not_not] at e1 e2 e3
        refine Parser.Extent.token h1 (by rw [e1]; decide) (by rw [e1]; decide) (le_refl _) ?_
        refine Parser.Extent.token (p := ⟨l1, p.indent⟩) h2 (by rw [e2]; decide)
          (by rw [e2]; decide) (le_refl _) ?_
        refine Parser.Extent.token (p := ⟨l2, p.indent⟩) h3 (by rw [e3]; decide)
          (by rw [e3]; decide) (le_refl _) ?_
        exact Parser.Extent.refl _ _


theorem isBlank_false {t : Token} (h : t.isBlank = false) :
    t.type ≠ TokenType.Indent ∧ t.type ≠ TokenType.LineBreak := by
  unfold Token.isBlank at h
  simp only [Bool.or_eq_false_iff, decide_eq_false_iff_not] at h
  exact h

theorem isBlank_of_ne {t : Token} (h1 : t.type ≠ TokenType.Indent)
    (h2 : t.type ≠ TokenType.LineBreak) : t.isBlank = false := by
  unfold Token.isBlank
  simp only [Bool.or_eq_false_iff, decide_eq_false_iff_not]
  exact ⟨h1, h2⟩

/-- What every call of the parser that returns takes off the lexer: tokens
at the indentation of the call or deeper (apart from `Indent` and
`LineBreak`), and a component loop ends where `endsComponent` says. -/
theorem parser_extent (fuel : Nat) :
    (∀ base nodes p r p1, Parser.parseBlockLoop fuel base nodes p = .ok (r, p1) →
      p.Extent base p1) ∧
    (∀ p r p1, Parser.parseBlock fuel p = .ok (r, p1) →
      Parser.Extent p.indent { p with indent := 0 } p1) ∧
    (∀ p v p1, Parser.parsePropertyValue fuel p = .ok (v, p1) → p.Extent p.indent p1) ∧
    (∀ p kv p1 t l1, p.lexer.Next = .ok (t, l1) → t.isBlank = false →
      Parser.parseProperty fuel p = .ok (kv, p1) → p.Extent p.indent p1) ∧
    (∀ base name attrs ch p node p1,
      Parser.parseComponentNodeLoop fuel base name attrs ch p = .ok (node, p1) →
      p.Extent (base + 1) p1 ∧ p1.endsComponent base) ∧
    (∀ p node p1 t l1, p.lexer.Next = .ok (t, l1) → t.isBlank = false →
      Parser.parseComponentNode fuel p = .ok (node, p1) →
      Parser.Extent (p.indent + 1) { lexer := l1, indent := p.indent } p1 ∧
        p1.endsComponent p.indent) := by
  induction fuel with
  | zero =>
    refine ⟨?_, ?_, ?_, ?_, ?_, ?_⟩
    · intro base nodes p r p1 h; rw [Parser.parseBlockLoop] at h; cases h
    · intro p r p1 h; rw [Parser.parseBlock] at h; cases h
    · intro p v p1 h; rw [Parser.parsePropertyValue] at h; cases h
    · intro p kv p1 t l1 _ _ h; rw [Parser.parseProperty] at h; cases h
    · intro base name attrs ch p node p1 h; rw [Parser.parseComponentNodeLoop] at h; cases h
    · intro p node p1 t l1 _ _ h; rw [Parser.parseComponentNode] at h; cases h
  | succ n ih =>
    obtain ⟨ihBL, ihB, ihV, ihP, ihCL, ihC⟩ := ih
    refine ⟨?_, ?_, ?_, ?_, ?_, ?_⟩
    · -- parseBlockLoop
      intro base nodes p r p1 h
      cases hpk : p.lexer.Peek with
      | error f => rw [parseBlockLoop_fail n base nodes p f hpk] at h; cases h
      | ok r0 =>
        obtain ⟨token, l0⟩ := r0
        obtain ⟨_, l1, hnx⟩ := Peek_Next hpk
        rw [parseBlockLoop_step n base nodes p token l1 hnx] at h
        by_cases e1 : token.type = TokenType.EOF
        · rw [if_pos e1] at h
          injection h with h; injection h with _ h; subst h
          exact Parser.Extent.refl _ _
        rw [if_neg e1] at h
        by_cases e2 : token.type = TokenType.Indent
        · rw [if_pos e2] at h
          exact Parser.Extent.indent hnx e2 (ihBL _ _ _ _ _ h)
        rw [if_neg e2] at h
        by_cases e3 : token.type = TokenType.LineBreak
        · rw [if_pos e3] at h
          exact Parser.Extent.lineBreak hnx e3 (ihBL _ _ _ _ _ h)
        rw [if_neg e3] at h
        by_cases e4 : p.indent ≤ base ∧ base ≠ 0
        · rw [if_pos e4] at h
          injection h with h; injection h with _ h; subst h
          exact Parser.Extent.refl _ _
        rw [if_neg e4] at h
        have hb : base ≤ p.indent := by
          by_contra hc
          exact e4 ⟨by omega, by omega⟩
        by_cases e5 : token.type = TokenType.Component
        · rw [if_pos e5] at h
          cases hc : Parser.parseComponentNode n p with
          | error f => rw [hc] at h; cases h
          | ok r1 =>
            obtain ⟨node, p2⟩ := r1
            rw [hc] at h
            dsimp only at h
            obtain ⟨x1, _⟩ := ihC p node p2 token l1 hnx (isBlank_of_ne e2 e3) hc
            exact (Parser.Extent.token hnx e2 e3 hb
              (Parser.Extent.mono (by omega) x1)).trans (ihBL _ _ _ _ _ h)
        rw [if_neg e5] at h
        by_cases e6 : token.type = TokenType.Text
        · rw [if_pos e6] at h
          exact Parser.Extent.token hnx e2 e3 hb (ihBL _ _ _ _ _ h)
        rw [if_neg e6] at h
        cases h
    · -- parseBlock
      intro p r p1 h
      rw [Parser.parseBlock] at h
      exact ihBL _ _ _ _ _ h
    · -- parsePropertyValue
      intro p v p1 h
      cases hpk : p.lexer.Peek with
      | error f => rw [Parser.parsePropertyValue, hpk] at h; cases h
      | ok r0 =>
        obtain ⟨next, l0⟩ := r0
        obtain ⟨_, l1, hnx⟩ := Peek_Next hpk
        rw [parsePropertyValue_step n p next l1 hnx] at h
        by_cases e1 : next.type = TokenType.Quote
        · rw [if_pos e1] at h
          cases hs : Parser.parseString p with
          | error f => rw [hs] at h; cases h
          | ok r1 =>
            obtain ⟨s, p2⟩ := r1
            rw [hs] at h
            dsimp only at h
            injection h with h; injection h with _ h; subst h
            exact parseString_extent p p2 s hs
        rw [if_neg e1] at h
        by_cases e2 : next.type = TokenType.LineBreak
        · rw [if_pos e2] at h
          cases hb : Parser.parseBlock n { p with lexer := l1 } with
          | error f => rw [hb] at h; cases h
          | ok r1 =>
            obtain ⟨nodes, p2⟩ := r1
            rw [hb] at h
            dsimp only at h
            cases hv : propertyValueOf next nodes with
            | error f => rw [hv] at h; cases h
            | ok v1 =>
              rw [hv] at h
              dsimp only at h
              injection h with h; injection h with _ h; subst h
              exact Parser.Extent.lineBreak hnx e2 (ihB _ _ _ hb)
        rw [if_neg e2] at h
        cases h
    · -- parseProperty
      intro p kv p1 t l1 hnx hbl h
      obtain ⟨b1, b2⟩ := isBlank_false hbl
      cases h2 : l1.Next with
      | error f => rw [Parser.parseProperty, hnx] at h; dsimp only at h; rw [h2] at h; cases h
      | ok r0 =>
        obtain ⟨next, l2⟩ := r0
        rw [parseProperty_step n p t next l1 l2 hnx h2] at h
        by_cases e1 : next.type ≠ TokenType.Colon
        · rw [if_pos e1] at h; cases h
        rw [if_neg e1] at h
        rw [not_not] at e1
        cases hv : Parser.parsePropertyValue n { p with lexer := l2 } with
        | error f => rw [hv] at h; cases h
        | ok r1 =>
          obtain ⟨v, p2⟩ := r1
          rw [hv] at h
          dsimp only at h
          injection h with h; injection h with _ h; subst h
          refine Parser.Extent.token hnx b1 b2 (le_refl _) ?_
          refine Parser.Extent.token (p := ⟨l1, p.indent⟩) h2 (by rw [e1]; decide)
            (by rw [e1]; decide) (le_refl _) ?_
          exact ihV _ _ _ hv
    · -- parseComponentNodeLoop
      intro base name attrs ch p node p1 h
      cases hpk : p.lexer.Peek with
      | error f => rw [parseComponentNodeLoop_fail n base name attrs ch p f hpk] at h; cases h
      | ok r0 =>
        obtain ⟨token, l0⟩ := r0
        obtain ⟨hl0, l1, hnx⟩ := Peek_Next hpk
        subst hl0
        rw [parseComponentNodeLoop_step n base name attrs ch p token l1 hnx] at h
        by_cases e1 : token.type = TokenType.EOF
        · rw [if_pos e1] at h
          injection h with h; injection h with _ h; subst h
          exact ⟨Parser.Extent.refl _ _, token, hpk, Or.inl e1⟩
        rw [if_neg e1] at h
        by_cases e2 : token.type = TokenType.Indent
        · rw [if_pos e2] at h
          obtain ⟨x1, x2⟩ := ihCL _ _ _ _ _ _ _ h
          exact ⟨Parser.Extent.indent hnx e2 x1, x2⟩
        rw [if_neg e2] at h
        by_cases e3 : token.type = TokenType.LineBreak
        · rw [if_pos e3] at h
          obtain ⟨x1, x2⟩ := ihCL _ _ _ _ _ _ _ h
          exact ⟨Parser.Extent.lineBreak hnx e3 x1, x2⟩
        rw [if_neg e3] at h
        by_cases e4 : p.indent ≤ base
        · rw [if_pos e4] at h
          injection h with h; injection h with _ h; subst h
          exact ⟨Parser.Extent.refl _ _, token, hpk, Or.inr ⟨isBlank_of_ne e2 e3, e4⟩⟩
        rw [if_neg e4] at h
        have hb : base + 1 ≤ p.indent := by omega
        by_cases e5 : token.type = TokenType.Text
        · rw [if_pos e5] at h
          obtain ⟨x1, x2⟩ := ihCL _ _ _ _ _ _ _ h
          exact ⟨Parser.Extent.token hnx e2 e3 hb x1, x2⟩
        rw [if_neg e5] at h
        by_cases e6 : token.type = TokenType.Component
        · rw [if_pos e6] at h
          cases hc : Parser.parseComponentNode n p with
          | error f => rw [hc] at h; cases h
          | ok r1 =>
            obtain ⟨child, p2⟩ := r1
            rw [hc] at h
            dsimp only at h
            obtain ⟨y1, _⟩ := ihC p child p2 token l1 hnx (isBlank_of_ne e2 e3) hc
            obtain ⟨x1, x2⟩ := ihCL _ _ _ _ _ _ _ h
            exact ⟨(Parser.Extent.token hnx e2 e3 hb
              (Parser.Extent.mono (by omega) y1)).trans x1, x2⟩
        rw [if_neg e6] at h
        by_cases e7 : token.type = TokenType.Bool
        · rw [if_pos e7] at h
          obtain ⟨x1, x2⟩ := ihCL _ _ _ _ _ _ _ h
          exact ⟨Parser.Extent.token hnx e2 e3 hb x1, x2⟩
        rw [if_neg e7] at h
        by_cases e8 : token.type = TokenType.Property
        · rw [if_pos e8] at h
          cases hc : Parser.parseProperty n p with
          | error f => rw [hc] at h; cases h
          | ok r1 =>
            obtain ⟨kv, p2⟩ := r1
            rw [hc] at h
            dsimp only at h
            have y1 := ihP p kv p2 token l1 hnx (isBlank_of_ne e2 e3) hc
            obtain ⟨x1, x2⟩ := ihCL _ _ _ _ _ _ _ h
            exact ⟨(Parser.Extent.mono hb y1).trans x1, x2⟩
        rw [if_neg e8] at h
        cases h
    · -- parseComponentNode
      intro p node p1 t l1 hnx hbl h
      rw [parseComponentNode_step n p t l1 hnx] at h
      exact ihCL _ _ _ _ _ _ _ h


/-! ### Indentation scoping -/

set_option maxRecDepth 100000 in
/-- C2, as stated, fails: the text `x` stands behind the marker `\A` on the
marker's own line, and the line `    c` that follows is indented deeper than
the marker, yet `c` is no child of `A`.  The component ends at `x`, and both
texts are root nodes. -/
theorem parse_text_behind_marker :
    Parse "\\A x\n    c".toList =
      .ok [Node.ComponentNode "A".toList [] [], Node.TextNode "x".toList,
        Node.TextNode "c".toList] :=
  eq_of_resultEqb 8 _ _ (by decide!)

/-- C2, amended: let `parseComponentNode` be called where the indentation
counter is `k` and the next token is a component marker, and let it return.
Then the tokens it took behind the marker are such that every one of them
other than an `Indent` or a `LineBreak` stands at an indentation above `k`,
the counter of the parser has followed them, and the parser is left at the
end of the input or before a token, neither `Indent` nor `LineBreak`, at an
indentation of at most `k`.  Blank lines therefore never end the component,
a token at indentation `k` or less does, and so does a token on the rest of
the marker's own line. -/
theorem component_extent (fuel : Nat) (p p1 : Parser) (node : Node) (marker : Token)
    (l1 : Lexer) (hm : p.lexer.Next = .ok (marker, l1))
    (ht : marker.type = TokenType.Component)
    (h : Parser.parseComponentNode fuel p = .ok (node, p1)) :
    ∃ toks, l1.Consumes toks p1.lexer ∧ allAtLeast (p.indent + 1) p.indent toks ∧
      p1.indent = counterAfter p.indent toks ∧ p1.endsComponent p.indent := by
  obtain ⟨⟨toks, h1, h2, h3⟩, h4⟩ := (parser_extent fuel).2.2.2.2.2 p node p1 marker l1 hm
    (isBlank_of_ne (by rw [ht]; decide) (by rw [ht]; decide)) h
  exact ⟨toks, h1, h2, h3, h4⟩

set_option maxRecDepth 100000 in
/-- The component `\A` of the markup `\A`, `    b`, `\C` takes the line `b`
and ends before the marker `\C`, which stands at its own indentation. -/
theorem component_extent_witness :
    ∃ toks, Lexer.Consumes
        ⟨"\\A\n    b\n\\C".toList, 2, 1, 3, ⟨TokenType.Component, "A".toList, 1, 1⟩⟩ toks
        (Parser.mk ⟨"\\A\n    b\n\\C".toList, 9, 3, 1, ⟨TokenType.LineBreak, "\n".toList, 2, 5⟩⟩
          0).lexer ∧
      allAtLeast (0 + 1) 0 toks ∧ 0 = counterAfter 0 toks ∧
      Parser.endsComponent 0
        (Parser.mk ⟨"\\A\n    b\n\\C".toList, 9, 3, 1, ⟨TokenType.LineBreak, "\n".toList, 2, 5⟩⟩
          0) :=
  component_extent 20 (NewMargoParser "\\A\n    b\n\\C".toList)
    (Parser.mk ⟨"\\A\n    b\n\\C".toList, 9, 3, 1, ⟨TokenType.LineBreak, "\n".toList, 2, 5⟩⟩ 0)
    (Node.ComponentNode "A".toList [] [Node.TextNode "b".toList])
    ⟨TokenType.Component, "A".toList, 1, 1⟩
    ⟨"\\A\n    b\n\\C".toList, 2, 1, 3, ⟨TokenType.Component, "A".toList, 1, 1⟩⟩
    (by decide!) (by decide!)
    (exceptEqb_sound (pairEqb (Node.eqb 4) decEqb)
      (pairEqb_sound _ _ (eqb_sound 4).1 decEqb_sound) _ _ (by decide!))


/-! ### Properties whose value is a nested block -/

/-- The call of `parsePropertyValue` before a line break, in terms of the
nested block. -/
theorem parsePropertyValue_block (n : Nat) (p : Parser) (nl : Token) (l3 : Lexer)
    (h3 : p.lexer.Next = .ok (nl, l3)) (hn : nl.type = TokenType.LineBreak) :
    Parser.parsePropertyValue (n + 1) p =
      match Parser.parseBlock n { p with lexer := l3 } with
      | .error f => .error f
      | .ok (nodes, p1) =>
        match propertyValueOf nl nodes with
        | .ok v => .ok (v, p1)
        | .error f => .error f := by
  rw [parsePropertyValue_step n p nl l3 h3, if_neg (by rw [hn]; decide), if_pos hn]
  all_goals rfl

/-- C6: let a property name be followed by a colon and a line break, and let
the nested block behind them parse to exactly one node, a component `c`.
Then `parseProperty` returns the name with `c` itself as the value, and the
loop of the enclosing component goes on with this pair added to the
attributes and with the children it had: `c` is no child of the enclosing
component. -/
theorem component_valued_property (n base : Nat) (p p1 : Parser) (nameTok colon nl : Token)
    (l1 l2 l3 : Lexer) (c : Node) (name : List Char) (attrs : List (List Char × Value))
    (children : List Node)
    (h1 : p.lexer.Next = .ok (nameTok, l1)) (ht : nameTok.type = TokenType.Property)
    (h2 : l1.Next = .ok (colon, l2)) (hc : colon.type = TokenType.Colon)
    (h3 : l2.Next = .ok (nl, l3)) (hn : nl.type = TokenType.LineBreak)
    (hb : Parser.parseBlock n { lexer := l3, indent := p.indent } = .ok ([c], p1))
    (hcomp : c.isComponent = true) (hd : base < p.indent) :
    Parser.parseProperty (n + 2) p = .ok ((nameTok.Value, Value.node c), p1) ∧
    Parser.parseComponentNodeLoop (n + 3) base name attrs children p =
      Parser.parseComponentNodeLoop (n + 2) base name
        (attrs ++ [(nameTok.Value, Value.node c)]) children p1 := by
  have hv : propertyValueOf nl [c] = .ok (Value.node c) := by
    unfold propertyValueOf
    have e : List.countP Node.isComponent [c] = 1 := by
      simp [hcomp]
    dsimp only
    rw [e, if_neg (by decide), if_neg (by decide)]
  have hP : Parser.parseProperty (n + 2) p = .ok ((nameTok.Value, Value.node c), p1) := by
    rw [parseProperty_step (n + 1) p nameTok colon l1 l2 h1 h2, if_neg (by rw [hc]; simp),
      parsePropertyValue_block n { p with lexer := l2 } nl l3 h3 hn]
    dsimp only
    rw [hb]
    dsimp only
    rw [hv]
  refine ⟨hP, ?_⟩
  rw [parseComponentNodeLoop_step (n + 2) base name attrs children p nameTok l1 h1,
    if_neg (by rw [ht]; decide), if_neg (by rw [ht]; decide), if_neg (by rw [ht]; decide),
    if_neg (by omega), if_neg (by rw [ht]; decide), if_neg (by rw [ht]; decide),
    if_neg (by rw [ht]; decide), if_pos ht, hP]

set_option maxRecDepth 100000 in
/-- In the markup `\A`, `    P:`, `        \B`, `    !X` the value of `P` is
the component `B`, and the loop of `A` goes on before `!X` with no child. -/
theorem component_valued_property_witness :
    Parser.parseProperty (10 + 2)
        ⟨⟨"\\A\n    P:\n        \\B\n    !X".toList, 7, 2, 5,
          ⟨TokenType.Indent, "\t".toList, 2, 1⟩⟩, 1⟩ =
      .ok (("P".toList, Value.node (Node.ComponentNode "B".toList [] [])),
        ⟨⟨"\\A\n    P:\n        \\B\n    !X".toList, 25, 4, 5,
          ⟨TokenType.Indent, "\t".toList, 4, 1⟩⟩, 1⟩) ∧
    Parser.parseComponentNodeLoop (10 + 3) 0 "A".toList [] []
        ⟨⟨"\\A\n    P:\n        \\B\n    !X".toList, 7, 2, 5,
          ⟨TokenType.Indent, "\t".toList, 2, 1⟩⟩, 1⟩ =
      Parser.parseComponentNodeLoop (10 + 2) 0 "A".toList
        ([] ++ [("P".toList, Value.node (Node.ComponentNode "B".toList [] []))]) []
        ⟨⟨"\\A\n    P:\n        \\B\n    !X".toList, 25, 4, 5,
          ⟨TokenType.Indent, "\t".toList, 4, 1⟩⟩, 1⟩ :=
  component_valued_property 10 0
    ⟨⟨"\\A\n    P:\n        \\B\n    !X".toList, 7, 2, 5,
      ⟨TokenType.Indent, "\t".toList, 2, 1⟩⟩, 1⟩
    ⟨⟨"\\A\n    P:\n        \\B\n    !X".toList, 25, 4, 5,
      ⟨TokenType.Indent, "\t".toList, 4, 1⟩⟩, 1⟩
    ⟨TokenType.Property, "P".toList, 2, 5⟩ ⟨TokenType.Colon, ":".toList, 2, 6⟩
    ⟨TokenType.LineBreak, "\n".toList, 2, 6⟩
    ⟨"\\A\n    P:\n        \\B\n    !X".toList, 8, 2, 6, ⟨TokenType.Property, "P".toList, 2, 5⟩⟩
    ⟨"\\A\n    P:\n        \\B\n    !X".toList, 9, 2, 7, ⟨TokenType.Colon, ":".toList, 2, 6⟩⟩
    ⟨"\\A\n    P:\n        \\B\n    !X".toList, 10, 3, 1,
      ⟨TokenType.LineBreak, "\n".toList, 2, 6⟩⟩
    (Node.ComponentNode "B".toList [] []) "A".toList [] []
    (by decide!) (by decide!) (by decide!) (by decide!) (by decide!) (by decide!)
    (exceptEqb_sound (pairEqb (Node.eqbList 4) decEqb)
      (pairEqb_sound _ _ (eqb_sound 4).2.2.1 decEqb_sound) _ _ (by decide!))
    (by decide!) (by decide!)

/-- C7: let a property name be followed by a colon and a line break, and let
the nested block behind them parse to nodes of which two or more are
components.  Then `parseProperty` returns no value but the error "a property
value can only contain one component", with the place of the line break and
the number of components, and so does the loop of the enclosing component:
the error is a returned `error` value, and no node comes with it. -/
theorem property_with_several_components (n base : Nat) (p p1 : Parser)
    (nameTok colon nl : Token) (l1 l2 l3 : Lexer) (nodes : List Node) (name : List Char)
    (attrs : List (List Char × Value)) (children : List Node)
    (h1 : p.lexer.Next = .ok (nameTok, l1)) (ht : nameTok.type = TokenType.Property)
    (h2 : l1.Next = .ok (colon, l2)) (hc : colon.type = TokenType.Colon)
    (h3 : l2.Next = .ok (nl, l3)) (hn : nl.type = TokenType.LineBreak)
    (hb : Parser.parseBlock n { lexer := l3, indent := p.indent } = .ok (nodes, p1))
    (hcount : 2 ≤ nodes.countP Node.isComponent) (hd : base < p.indent) :
    Parser.parseProperty (n + 2) p =
      .error (Fault.onlyOneComponent nl.Line nl.Column (nodes.countP Node.isComponent)) ∧
    Parser.parseComponentNodeLoop (n + 3) base name attrs children p =
      .error (Fault.onlyOneComponent nl.Line nl.Column (nodes.countP Node.isComponent)) ∧
    (Fault.onlyOneComponent nl.Line nl.Column (nodes.countP Node.isComponent)).isError =
      true := by
  have hv : propertyValueOf nl nodes =
      .error (Fault.onlyOneComponent nl.Line nl.Column (nodes.countP Node.isComponent)) := by
    unfold propertyValueOf
    dsimp only
    rw [if_pos (by omega)]
  have hP : Parser.parseProperty (n + 2) p =
      .error (Fault.onlyOneComponent nl.Line nl.Column (nodes.countP Node.isComponent)) := by
    rw [parseProperty_step (n + 1) p nameTok colon l1 l2 h1 h2, if_neg (by rw [hc]; simp),
      parsePropertyValue_block n { p with lexer := l2 } nl l3 h3 hn]
    dsimp only
    rw [hb]
    dsimp only
    rw [hv]
  refine ⟨hP, ?_, rfl⟩
  rw [parseComponentNodeLoop_step (n + 2) base name attrs children p nameTok l1 h1,
    if_neg (by rw [ht]; decide), if_neg (by rw [ht]; decide), if_neg (by rw [ht]; decide),
    if_neg (by omega), if_neg (by rw [ht]; decide), if_neg (by rw [ht]; decide),
    if_neg (by rw [ht]; decide), if_pos ht, hP]

set_option maxRecDepth 100000 in
/-- In the markup `\A`, `    P:`, `        \B`, `        \C` the block of `P`
holds two components: `Parse` returns the error, with the place 2:6 of the
line break behind `P:` and the number 2. -/
theorem property_with_several_components_witness :
    Parse "\\A\n    P:\n        \\B\n        \\C".toList =
      .error (Fault.onlyOneComponent 2 6 2) ∧
    Parser.parseProperty (10 + 2)
        ⟨⟨"\\A\n    P:\n        \\B\n        \\C".toList, 7, 2, 5,
          ⟨TokenType.Indent, "\t".toList, 2, 1⟩⟩, 1⟩ =
      .error (Fault.onlyOneComponent 2 6 2) :=
  ⟨eq_of_resultEqb 4 _ _ (by decide!),
    (property_with_several_components 10 0
      ⟨⟨"\\A\n    P:\n        \\B\n        \\C".toList, 7, 2, 5,
        ⟨TokenType.Indent, "\t".toList, 2, 1⟩⟩, 1⟩
      ⟨⟨"\\A\n    P:\n        \\B\n        \\C".toList, 31, 4, 11,
        ⟨TokenType.Component, "C".toList, 4, 9⟩⟩, 2⟩
      ⟨TokenType.Property, "P".toList, 2, 5⟩ ⟨TokenType.Colon, ":".toList, 2, 6⟩
      ⟨TokenType.LineBreak, "\n".toList, 2, 6⟩
      ⟨"\\A\n    P:\n        \\B\n        \\C".toList, 8, 2, 6,
        ⟨TokenType.Property, "P".toList, 2, 5⟩⟩
      ⟨"\\A\n    P:\n        \\B\n        \\C".toList, 9, 2, 7,
        ⟨TokenType.Colon, ":".toList, 2, 6⟩⟩
      ⟨"\\A\n    P:\n        \\B\n        \\C".toList, 10, 3, 1,
        ⟨TokenType.LineBreak, "\n".toList, 2, 6⟩⟩
      [Node.ComponentNode "B".toList [] [], Node.ComponentNode "C".toList [] []]
      "A".toList [] []
      (by decide!) (by decide!) (by decide!) (by decide!) (by decide!) (by decide!)
      (exceptEqb_sound (pairEqb (Node.eqbList 4) decEqb)
        (pairEqb_sound _ _ (eqb_sound 4).2.2.1 decEqb_sound) _ _ (by decide!))
      (by decide!) (by decide!)).1⟩


/-! ### The loop of `parseBlock`, one token at a time -/

/-- Before a byte that is neither white space nor a line break, `next`
returns a token that is neither `EOF` nor `Indent` nor `LineBreak`. -/
theorem next_nonblank {l : Lexer} {pre r : List Char} {c : Char} (h : l.At pre (c :: r))
    (hS : l.Plain) (c1 : c ≠ ' ') (c2 : c ≠ '\t') (c3 : c ≠ '\n') :
    ∃ t l1, l.next = .ok (t, l1) ∧ t.isBlank = false ∧ t.type ≠ TokenType.EOF := by
  have hc := h.current_cons
  rw [next_switch h.isEOF_cons (isIndent_of_current (by rw [hc]; exact c1)
    (by rw [hc]; exact c2)) hS (by rw [hc]; exact c1)]
  by_cases e1 : l.current = '\\'
  · rw [if_pos e1]; exact ⟨_, _, rfl, rfl, fun h => TokenType.noConfusion h⟩
  rw [if_neg e1]
  by_cases e2 : l.current = '"'
  · rw [if_pos e2]; exact ⟨_, _, rfl, rfl, fun h => TokenType.noConfusion h⟩
  rw [if_neg e2]
  by_cases e3 : l.current = ':'
  · rw [if_pos e3]; exact ⟨_, _, rfl, rfl, fun h => TokenType.noConfusion h⟩
  rw [if_neg e3, if_neg (by rw [hc]; exact c3)]
  by_cases e5 : l.current = '!'
  · rw [if_pos e5]; exact ⟨_, _, rfl, rfl, fun h => TokenType.noConfusion h⟩
  rw [if_neg e5]
  by_cases e6 : l.isProperty = true
  · rw [if_pos e6]; exact ⟨_, _, rfl, rfl, fun h => TokenType.noConfusion h⟩
  rw [if_neg e6]; exact ⟨_, _, rfl, rfl, fun h => TokenType.noConfusion h⟩

theorem blockLoop_indent {l : Lexer} {v pre rest : List Char}
    (h : l.Lexes TokenType.Indent v pre rest) (n k j : Nat) (nodes : List Node) :
    ∃ l1, l1.At pre rest ∧ l1.prev.type = TokenType.Indent ∧
      Parser.parseBlockLoop (n + 1) k nodes ⟨l, j⟩ =
        Parser.parseBlockLoop n k nodes ⟨l1, j + 1⟩ := by
  obtain ⟨t, l2, hty, _, _, hnx, hat, hprev⟩ := h.tokens
  refine ⟨l2, hat, by rw [hprev, hty], ?_⟩
  rw [parseBlockLoop_step n k nodes ⟨l, j⟩ t l2 hnx, if_neg (by rw [hty]; decide),
    if_pos hty]

theorem blockLoop_lineBreak {l : Lexer} {v pre rest : List Char}
    (h : l.Lexes TokenType.LineBreak v pre rest) (n k j : Nat) (nodes : List Node) :
    ∃ l1, l1.At pre rest ∧ l1.prev.type = TokenType.LineBreak ∧
      Parser.parseBlockLoop (n + 1) k nodes ⟨l, j⟩ =
        Parser.parseBlockLoop n k nodes ⟨l1, 0⟩ := by
  obtain ⟨t, l2, hty, _, _, hnx, hat, hprev⟩ := h.tokens
  refine ⟨l2, hat, by rw [hprev, hty], ?_⟩
  rw [parseBlockLoop_step n k nodes ⟨l, j⟩ t l2 hnx, if_neg (by rw [hty]; decide),
    if_neg (by rw [hty]; decide), if_pos hty]

theorem blockLoop_text {l : Lexer} {v pre rest : List Char}
    (h : l.Lexes TokenType.Text v pre rest) (n k j : Nat) (nodes : List Node)
    (hj : ¬ (j ≤ k ∧ k ≠ 0)) :
    ∃ l1, l1.At pre rest ∧ l1.prev.type = TokenType.Text ∧
      Parser.parseBlockLoop (n + 1) k nodes ⟨l, j⟩ =
        Parser.parseBlockLoop n k (nodes ++ [Node.TextNode v]) ⟨l1, j⟩ := by
  obtain ⟨t, l2, hty, hv, _, hnx, hat, hprev⟩ := h.tokens
  refine ⟨l2, hat, by rw [hprev, hty], ?_⟩
  rw [parseBlockLoop_step n k nodes ⟨l, j⟩ t l2 hnx, if_neg (by rw [hty]; decide),
    if_neg (by rw [hty]; decide), if_neg (by rw [hty]; decide), if_neg hj,
    if_neg (by rw [hty]; decide), if_pos hty, hv]

theorem blockLoop_eof {l : Lexer} {pre : List Char} (h : l.At pre []) (n k j : Nat)
    (nodes : List Node) :
    Parser.parseBlockLoop (n + 1) k nodes ⟨l, j⟩ = .ok (nodes, ⟨l, j⟩) := by
  obtain ⟨t, l2, hty, _, _, hnx, _, _⟩ := (Lexes_eof h).tokens
  rw [parseBlockLoop_step n k nodes ⟨l, j⟩ t l2 hnx, if_pos hty]

theorem blockLoop_break {l : Lexer} {pre r : List Char} {c : Char} (h : l.At pre (c :: r))
    (hS : l.Plain) (c1 : c ≠ ' ') (c2 : c ≠ '\t') (c3 : c ≠ '\n') (n k j : Nat)
    (nodes : List Node) (hj : j ≤ k ∧ k ≠ 0) :
    Parser.parseBlockLoop (n + 1) k nodes ⟨l, j⟩ = .ok (nodes, ⟨l, j⟩) := by
  obtain ⟨t, l1, hn, hb, he⟩ := next_nonblank h hS c1 c2 c3
  have hnx : l.Next = .ok (t, { l1 with prev := t }) := (Next_ok_iff l _ t).2 ⟨l1, hn, rfl⟩
  obtain ⟨b1, b2⟩ := isBlank_false hb
  rw [parseBlockLoop_step n k nodes ⟨l, j⟩ t _ hnx, if_neg he, if_neg b1, if_neg b2,
    if_pos hj]

/-- The loop of `parseBlock` takes the indentation units of a line one by
one and counts them. -/
theorem blockLoop_indentUnits (u : List Bool) :
    ∀ {l : Lexer} {pre rest : List Char} (n k j : Nat) (nodes : List Node),
      l.At pre (indentUnits u ++ rest) → pre ≠ [] →
      (l.prev.type = TokenType.Indent ∨ l.prev.type = TokenType.LineBreak) →
      ∃ l1, l1.At (pre ++ indentUnits u) rest ∧
        (l1.prev.type = TokenType.Indent ∨ l1.prev.type = TokenType.LineBreak) ∧
        Parser.parseBlockLoop (n + u.length) k nodes ⟨l, j⟩ =
          Parser.parseBlockLoop n k nodes ⟨l1, j + u.length⟩ := by
  induction u with
  | nil =>
    intro l pre rest n k j nodes h _ hp
    exact ⟨l, by rw [indentUnits, List.append_nil]; exact h, hp, rfl⟩
  | cons b u ih =>
    intro l pre rest n k j nodes h hne hp
    cases b with
    | true =>
      rw [indentUnits, List.cons_append] at h
      obtain ⟨l1, h1, p1, e1⟩ := blockLoop_indent (Lexes_indent_tab h hne hp)
        (n + u.length) k j nodes
      obtain ⟨l2, h2, p2, e2⟩ := ih n k (j + 1) nodes h1 (by simp) (Or.inl p1)
      refine ⟨l2, ?_, p2, ?_⟩
      · rw [indentUnits]
        have e : pre ++ '\t' :: indentUnits u = pre ++ ['\t'] ++ indentUnits u := by simp
        rw [e]; exact h2
      · rw [List.length_cons, ← Nat.add_assoc, e1, e2]
        congr 2
        omega
    | false =>
      rw [indentUnits] at h
      obtain ⟨l1, h1, p1, e1⟩ := blockLoop_indent (Lexes_indent_spaces h hne hp)
        (n + u.length) k j nodes
      obtain ⟨l2, h2, p2, e2⟩ := ih n k (j + 1) nodes h1 (by simp) (Or.inl p1)
      refine ⟨l2, ?_, p2, ?_⟩
      · rw [indentUnits]
        have e : pre ++ ' ' :: ' ' :: ' ' :: ' ' :: indentUnits u =
            pre ++ [' ', ' ', ' ', ' '] ++ indentUnits u := by simp
        rw [e]; exact h2
      · rw [List.length_cons, ← Nat.add_assoc, e1, e2]
        congr 2
        omega


/-! ### A property whose value is a block of text lines -/

theorem Plain_of_blank_prev {l : Lexer}
    (h : l.prev.type = TokenType.Indent ∨ l.prev.type = TokenType.LineBreak) : l.Plain :=
  Plain_of_prev (by rcases h with h | h <;> rw [h] <;> decide)

/-- Behind the last line of a nested block the loop of `parseBlock` ends: at
the end of the input, or at the first token of a line that is not indented
deeper than the property. -/
theorem blockLoop_tail {k : Nat} {tail : List Char} (ht : blockEnds k tail) (hk : 0 < k)
    {l : Lexer} {pre : List Char} (h : l.At pre tail) (n j : Nat) (nodes : List Node)
    (hn : tail.length + 1 ≤ n) :
    ∃ p1, Parser.parseBlockLoop n k nodes ⟨l, j⟩ = .ok (nodes, p1) := by
  rcases ht with rfl | ⟨u, rest, rfl, hu, hr⟩
  · obtain ⟨m, rfl⟩ : ∃ m, n = m + 1 := ⟨n - 1, by omega⟩
    exact ⟨_, blockLoop_eof h m k j nodes⟩
  · have hlen : u.length ≤ (indentUnits u).length := by
      clear h hn hu
      induction u with
      | nil => simp
      | cons b u ih => cases b <;> simp [indentUnits] <;> omega
    rw [List.length_cons, List.length_append] at hn
    obtain ⟨m, rfl⟩ : ∃ m, n = (m + 1) + u.length + 1 := ⟨n - u.length - 2, by omega⟩
    obtain ⟨l1, h1, p1, e1⟩ := blockLoop_lineBreak (Lexes_newline h) (m + 1 + u.length) k j nodes
    obtain ⟨l2, h2, p2, e2⟩ := blockLoop_indentUnits u (m + 1) k 0 nodes h1 (by simp)
      (Or.inr p1)
    rw [e1, e2]
    rcases hr with rfl | ⟨c, r, rfl, c1, c2, c3⟩
    · exact ⟨_, blockLoop_eof h2 m k _ nodes⟩
    · exact ⟨_, blockLoop_break h2 (Plain_of_blank_prev p2) c1 c2 c3 m k _ nodes
        ⟨by omega, by omega⟩⟩

theorem lineEnds_textBlock (more : List (List Bool × List Char)) {k : Nat} {tail : List Char}
    (ht : blockEnds k tail) : lineEnds (textBlock more ++ tail) := by
  cases more with
  | nil =>
    rw [textBlock, List.nil_append]
    rcases ht with rfl | ⟨u, rest, rfl, _, _⟩
    · exact Or.inl rfl
    · exact Or.inr ⟨_, rfl⟩
  | cons ln more =>
    obtain ⟨u, txt⟩ := ln
    rw [textBlock, List.cons_append]
    exact Or.inr ⟨_, rfl⟩

theorem length_indentUnits_le (u : List Bool) : u.length ≤ (indentUnits u).length := by
  induction u with
  | nil => simp
  | cons b u ih => cases b <;> simp [indentUnits] <;> omega

theorem textBlock_cons_append (u : List Bool) (txt : List Char)
    (more : List (List Bool × List Char)) (tail : List Char) :
    textBlock ((u, txt) :: more) ++ tail =
      '\n' :: (indentUnits u ++ (txt ++ (textBlock more ++ tail))) := by
  simp [textBlock]

/-- The loop of `parseBlock` over the lines of a text block, blank lines among
them: one text node for every line that is not blank, in the order of the
lines. -/
theorem blockLoop_lines {k : Nat} {tail : List Char} (ht : blockEnds k tail) (hk : 0 < k)
    (lines : List (List Bool × List Char)) :
    ∀ {l : Lexer} {pre : List Char} (nodes : List Node) (n j : Nat),
      l.At pre (textBlock lines ++ tail) →
      (∀ ln ∈ lines, ln.2 = [] ∨ (k < ln.1.length ∧ plainLine ln.2 = true)) →
      (textBlock lines ++ tail).length + 1 ≤ n →
      ∃ p1, Parser.parseBlockLoop n k nodes ⟨l, j⟩ =
        .ok (nodes ++ ((lines.map Prod.snd).filter (fun t => !t.isEmpty)).map Node.TextNode,
          p1) := by
  induction lines with
  | nil =>
    intro l pre nodes n j h _ hn
    rw [textBlock, List.nil_append] at h hn
    obtain ⟨p1, e⟩ := blockLoop_tail ht hk h n j nodes hn
    exact ⟨p1, by rw [e]; simp⟩
  | cons ln more ih =>
    obtain ⟨u, txt⟩ := ln
    intro l pre nodes n j h hl hn
    have hlen := length_indentUnits_le u
    rw [textBlock_cons_append] at h hn
    rw [List.length_cons, List.length_append, List.length_append] at hn
    obtain ⟨m, rfl⟩ : ∃ m, n = (m + 1) + u.length + 1 := ⟨n - u.length - 2, by omega⟩
    obtain ⟨l1, h1, p1, e1⟩ := blockLoop_lineBreak (Lexes_newline h) (m + 1 + u.length) k j nodes
    obtain ⟨l2, h2, p2, e2⟩ := blockLoop_indentUnits u (m + 1) k 0 nodes h1 (by simp)
      (Or.inr p1)
    have hmore : ∀ ln ∈ more, ln.2 = [] ∨ (k < ln.1.length ∧ plainLine ln.2 = true) :=
      fun ln hm => hl ln (List.mem_cons_of_mem _ hm)
    rcases hl _ (List.mem_cons_self _ _) with hb | ⟨hu, htxt⟩
    · dsimp only at hb
      subst hb
      rw [List.nil_append] at h2
      rw [List.length_nil] at hn
      obtain ⟨q, e3⟩ := ih nodes (m + 1) (0 + u.length) h2 hmore (by omega)
      exact ⟨q, by rw [e1, e2, e3]; simp⟩
    · dsimp only at hu htxt
      obtain ⟨c, t, rfl, _⟩ := plainLine_cases htxt
      rw [List.length_cons] at hn
      obtain ⟨l3, h3, p3, e3⟩ := blockLoop_text
        (Lexes_text h2 (Plain_of_blank_prev p2) htxt (lineEnds_textBlock more ht)) m k
        (0 + u.length) nodes (by omega)
      obtain ⟨q, e4⟩ := ih (nodes ++ [Node.TextNode (c :: t)]) m (0 + u.length) h3 hmore
        (by omega)
      exact ⟨q, by rw [e1, e2, e3, e4]; simp⟩

/-- The same from behind the line break of the first line, where the loop of
`parseBlock` starts when it is called for the value of a property. -/
theorem blockLoop_block {k : Nat} {tail : List Char} (ht : blockEnds k tail) (hk : 0 < k)
    (more : List (List Bool × List Char)) (u : List Bool) (txt : List Char) {l : Lexer}
    {pre : List Char} (nodes : List Node) (n : Nat)
    (h : l.At pre (indentUnits u ++ (txt ++ (textBlock more ++ tail)))) (hne : pre ≠ [])
    (hp : l.prev.type = TokenType.Indent ∨ l.prev.type = TokenType.LineBreak)
    (hl : ∀ ln ∈ (u, txt) :: more, ln.2 = [] ∨ (k < ln.1.length ∧ plainLine ln.2 = true))
    (hn : (indentUnits u ++ (txt ++ (textBlock more ++ tail))).length + 1 ≤ n) :
    ∃ p1, Parser.parseBlockLoop n k nodes ⟨l, 0⟩ =
      .ok (nodes ++ ((txt :: more.map Prod.snd).filter (fun t => !t.isEmpty)).map
        Node.TextNode, p1) := by
  have hlen := length_indentUnits_le u
  rw [List.length_append, List.length_append] at hn
  obtain ⟨m, rfl⟩ : ∃ m, n = (m + 1) + u.length := ⟨n - u.length - 1, by omega⟩
  obtain ⟨l1, h1, p1, e1⟩ := blockLoop_indentUnits u (m + 1) k 0 nodes h hne hp
  have hmore : ∀ ln ∈ more, ln.2 = [] ∨ (k < ln.1.length ∧ plainLine ln.2 = true) :=
    fun ln hm => hl ln (List.mem_cons_of_mem _ hm)
  rcases hl _ (List.mem_cons_self _ _) with hb | ⟨hu, htxt⟩
  · dsimp only at hb
    subst hb
    rw [List.nil_append] at h1
    rw [List.length_nil] at hn
    obtain ⟨q, e3⟩ := blockLoop_lines ht hk more nodes (m + 1) (0 + u.length) h1 hmore
      (by omega)
    exact ⟨q, by rw [e1, e3]; simp⟩
  · dsimp only at hu htxt
    obtain ⟨c, t, rfl, _⟩ := plainLine_cases htxt
    rw [List.length_cons] at hn
    obtain ⟨l3, h3, p3, e3⟩ := blockLoop_text
      (Lexes_text h1 (Plain_of_blank_prev p1) htxt (lineEnds_textBlock more ht)) m k
      (0 + u.length) nodes (by omega)
    obtain ⟨q, e4⟩ := blockLoop_lines ht hk more (nodes ++ [Node.TextNode (c :: t)]) m
      (0 + u.length) h3 hmore (by omega)
    exact ⟨q, by rw [e1, e3, e4]; simp⟩

theorem countP_textNodes (ts : List (List Char)) :
    List.countP Node.isComponent (ts.map Node.TextNode) = 0 := by
  induction ts with
  | nil => rfl
  | cons t ts ih => rw [List.map_cons, List.countP_cons_of_neg _ _ (by simp [Node.isComponent]), ih]

theorem textValues_textNodes (ts : List (List Char)) :
    textValues (ts.map Node.TextNode) = .ok ts := by
  induction ts with
  | nil => rfl
  | cons t ts ih => rw [List.map_cons, textValues, ih]

/-- Text nodes alone become the string of their values, joined by line breaks. -/
theorem propertyValueOf_textNodes (nl : Token) (ts : List (List Char)) :
    propertyValueOf nl (ts.map Node.TextNode) = .ok (Value.str (joinLines ts)) := by
  unfold propertyValueOf
  dsimp only
  rw [countP_textNodes, if_neg (by decide), if_pos rfl, textValues_textNodes]


/-! ### A property whose value is a block of text lines -/

set_option maxRecDepth 100000 in
/-- C5, as stated: not every deeper-indented line of text under `Name:` ends
up in a string value.  The lexer reads the line `Note: x` and the line
`https://example.com` as a property name, the line `![alt](x.png)` as a flag
and the line `"Hello" he said` as a quote, and `parseBlock` panics with
"unexpected ..." on each of them; a text line that is indented by nine
spaces, and a line of two spaces and a letter behind the block, make the
lexer panic with "invalid indent".  `Parse` yields no value on these inputs. -/
theorem nested_text_line_can_panic :
    Parse "\\A\n    P:\n        Note: x".toList =
      .error (Fault.unexpected TokenType.Property "Note".toList) ∧
    Parse "\\A\n    P:\n        https://example.com".toList =
      .error (Fault.unexpected TokenType.Property "https".toList) ∧
    Parse "\\A\n    P:\n        ![alt](x.png)".toList =
      .error (Fault.unexpected TokenType.Bool []) ∧
    Parse "\\A\n    P:\n        \"Hello\" he said".toList =
      .error (Fault.unexpected TokenType.Quote "\"".toList) ∧
    Parse "\\A\n    P:\n         t".toList = .error (Fault.invalidIndent 3 9) ∧
    Parse "\\A\n    P:\n        t\n  x".toList = .error (Fault.invalidIndent 4 1) ∧
    Fault.isPanic (Fault.unexpected TokenType.Property "Note".toList) = true ∧
    Fault.isPanic (Fault.invalidIndent 3 9) = true :=
  ⟨eq_of_resultEqb 8 _ _ (by decide!), eq_of_resultEqb 8 _ _ (by decide!),
    eq_of_resultEqb 8 _ _ (by decide!), eq_of_resultEqb 8 _ _ (by decide!),
    eq_of_resultEqb 8 _ _ (by decide!), eq_of_resultEqb 8 _ _ (by decide!), rfl, rfl⟩

/-- C5, amended: let the parser stand, inside a component (its indentation
counter is at least 1, as at every call of `parseProperty` by
`parseComponentNode`) and not behind a quote, before a property name that is
followed by a colon, a line break and one or more lines, each made of whole
indentation units (a tab or four spaces) and its text, where every line is
either blank or a line of plain text that is indented deeper than the
property: a line that the lexer reads as one text token, because it starts
with none of the bytes `\`, `"`, `:`, `!`, space and tab and has not only
letters, digits and underscores before a colon.  Let the input end behind
these lines or go on with a line that is not blank and has at most as many
indentation units as the property.  Then, with enough fuel, `parseProperty`
returns the name with a string value: the texts of the lines that are not
blank, in their order, joined by line breaks. -/
theorem multiline_text_property (fuel : Nat) (p : Parser) (pre name : List Char) (c0 : Char)
    (u : List Bool) (txt : List Char) (more : List (List Bool × List Char))
    (tail : List Char)
    (hat : p.lexer.At pre ((c0 :: name) ++ ':' :: (textBlock ((u, txt) :: more) ++ tail)))
    (hprev : p.lexer.prev.type ≠ TokenType.Quote)
    (hname : ∀ x ∈ c0 :: name, isAlphaNumeric x = true)
    (hk : 0 < p.indent)
    (hlines : ∀ ln ∈ (u, txt) :: more,
      ln.2 = [] ∨ (p.indent < ln.1.length ∧ plainLine ln.2 = true))
    (htail : blockEnds p.indent tail)
    (hfuel : (textBlock ((u, txt) :: more) ++ tail).length + 4 ≤ fuel) :
    ∃ p1, Parser.parseProperty fuel p =
      .ok ((c0 :: name, Value.str (joinLines
        ((txt :: more.map Prod.snd).filter (fun t => !t.isEmpty)))), p1) := by
  obtain ⟨nameTok, l1, ty1, v1, _, hnx1, hat1, hp1⟩ :=
    (Lexes_property hat (Plain_of_prev hprev) hname).tokens
  obtain ⟨colon, l2, ty2, _, _, hnx2, hat2, hp2⟩ :=
    (Lexes_colon hat1 (Plain_of_prev (by rw [hp1, ty1]; decide))).tokens
  rw [textBlock_cons_append] at hat2 hfuel
  obtain ⟨nl, l3, ty3, _, _, hnx3, hat3, hp3⟩ := (Lexes_newline hat2).tokens
  rw [List.length_cons] at hfuel
  obtain ⟨m, rfl⟩ : ∃ m, fuel = m + 1 + 1 + 1 := ⟨fuel - 3, by omega⟩
  obtain ⟨p1, e1⟩ := blockLoop_block htail hk more u txt [] m hat3 (by simp)
    (Or.inr (by rw [hp3, ty3])) hlines (by omega)
  rw [List.nil_append] at e1
  refine ⟨p1, ?_⟩
  rw [parseProperty_step (m + 1 + 1) p nameTok colon l1 l2 hnx1 hnx2,
    if_neg (by rw [ty2]; simp),
    parsePropertyValue_block (m + 1) { p with lexer := l2 } nl l3 hnx3 ty3]
  dsimp only
  rw [Parser.parseBlock]
  dsimp only
  rw [e1]
  dsimp only
  rw [propertyValueOf_textNodes, v1]

set_option maxRecDepth 100000 in
/-- The markup of `TestParserWithMultilineText`: at the property `Text` of
the component `Description`, two text lines become one string. -/
theorem multiline_text_property_witness :
    ∃ p1, Parser.parseProperty 200
        ⟨⟨("\\Description\n    Text:\n        This is a multiline description\n" ++
            "        that spans multiple lines.\n" ++
            "    MoreText: \"More single-line text.\"\n").toList, 17, 2, 5,
          ⟨TokenType.Indent, "\t".toList, 2, 1⟩⟩, 1⟩ =
      .ok (('T' :: "ext".toList,
        Value.str (joinLines (("This is a multiline description".toList ::
          [([false, false], "that spans multiple lines.".toList)].map Prod.snd).filter
            (fun t => !t.isEmpty)))), p1) :=
  multiline_text_property 200
    ⟨⟨("\\Description\n    Text:\n        This is a multiline description\n" ++
        "        that spans multiple lines.\n" ++
        "    MoreText: \"More single-line text.\"\n").toList, 17, 2, 5,
      ⟨TokenType.Indent, "\t".toList, 2, 1⟩⟩, 1⟩
    "\\Description\n    ".toList "ext".toList 'T' [false, false]
    "This is a multiline description".toList
    [([false, false], "that spans multiple lines.".toList)]
    "\n    MoreText: \"More single-line text.\"\n".toList
    ⟨by decide!, by decide!⟩ (by decide!) (by decide!) (by decide!) (by decide!)
    (Or.inr ⟨[false], "MoreText: \"More single-line text.\"\n".toList, by decide!, by decide!,
      Or.inr ⟨'M', "oreText: \"More single-line text.\"\n".toList, by decide!, by decide!,
        by decide!, by decide!⟩⟩)
    (by decide!)


/-! ### A backslash inside a quoted string -/

theorem lexStringLoop_stop (fuel : Nat) (l : Lexer) : l.lexStringLoop fuel '\\' = l := by
  cases fuel with
  | zero => rfl
  | succ n =>
    unfold Lexer.lexStringLoop
    rw [if_neg (by simp)]

/-- The loop of `lexString` stops behind the first backslash. -/
theorem Lexer.At.lexStringLoop_cut {rest : List Char} (u : List Char) :
    ∀ {l : Lexer} {pre : List Char} (prevc : Char) (fuel : Nat),
      l.At pre (u ++ '\\' :: rest) → prevc ≠ '\\' →
      (∀ c ∈ u, c ≠ '"' ∧ c ≠ '\\') → u.length + 1 ≤ fuel →
      (l.lexStringLoop fuel prevc).At (pre ++ (u ++ ['\\'])) rest := by
  induction u with
  | nil =>
    intro l pre prevc fuel h hp _ hf
    rw [List.nil_append] at h ⊢
    obtain ⟨n, rfl⟩ : ∃ n, fuel = n + 1 := ⟨fuel - 1, by simp at hf; omega⟩
    unfold Lexer.lexStringLoop
    have : l.pos < l.input.length ∧ l.current ≠ '"' ∧ prevc ≠ '\\' :=
      ⟨h.pos_lt, by rw [h.current_cons]; decide, hp⟩
    rw [if_pos this, h.current_cons, lexStringLoop_stop]
    exact h.advance
  | cons c b ih =>
    intro l pre prevc fuel h hp hu hf
    obtain ⟨n, rfl⟩ : ∃ n, fuel = n + 1 := ⟨fuel - 1, by simp at hf; omega⟩
    rw [List.cons_append] at h
    have hc := hu c (List.mem_cons_self _ _)
    unfold Lexer.lexStringLoop
    have : l.pos < l.input.length ∧ l.current ≠ '"' ∧ prevc ≠ '\\' :=
      ⟨h.pos_lt, by rw [h.current_cons]; exact hc.1, hp⟩
    rw [if_pos this, h.current_cons]
    have h2 := ih c n h.advance hc.2 (fun x hx => hu x (List.mem_cons_of_mem _ hx))
      (by simpa using hf)
    have e : pre ++ (c :: b ++ ['\\']) = pre ++ [c] ++ (b ++ ['\\']) := by simp
    rw [e]; exact h2

/-- Behind an opening quote, a string with a backslash comes back as a text
token that ends with the first backslash. -/
theorem Lexes_string_cut {l : Lexer} {pre u w rest : List Char}
    (h : l.At pre (u ++ '\\' :: (w ++ '"' :: rest))) (hprev : l.prev.type = TokenType.Quote)
    (hu : ∀ c ∈ u, c ≠ '"' ∧ c ≠ '\n' ∧ c ≠ '\\') (hw : ∀ c ∈ w, c ≠ '"' ∧ c ≠ '\n') :
    l.Lexes TokenType.Text (u ++ ['\\']) (pre ++ (u ++ ['\\'])) (w ++ '"' :: rest) := by
  have hE : ¬ (l.isEOF = true) := by
    cases u with
    | nil => exact Lexer.At.isEOF_cons (by rw [List.nil_append] at h; exact h)
    | cons c b => exact Lexer.At.isEOF_cons (by rw [List.cons_append] at h; exact h)
  have hI : ¬ (l.isIndent = true) :=
    isIndent_of_prev (by rw [hprev]; decide) (by rw [hprev]; decide)
  have hL : l.prev.type = TokenType.Quote ∧ (l.lookAhead '"' '\n').isSome = true := by
    refine ⟨hprev, ?_⟩
    have e : u ++ '\\' :: (w ++ '"' :: rest) = (u ++ '\\' :: w) ++ '"' :: rest := by simp
    rw [h.lookAhead, e, lookAheadFrom_found '"' '\n' (u ++ '\\' :: w) rest _ (by
      intro x hx
      rcases List.mem_append.1 hx with hx | hx
      · exact ⟨(hu x hx).1, (hu x hx).2.1⟩
      · rcases List.mem_cons.1 hx with rfl | hx
        · exact ⟨by decide, by decide⟩
        · exact hw x hx)]
    rfl
  have hfuel : u.length + 1 ≤ l.input.length - l.pos := by
    rw [h.remaining, List.length_append, List.length_cons]; omega
  have h2 := Lexer.At.lexStringLoop_cut u nul (l.input.length - l.pos) h (by decide)
    (fun x hx => ⟨(hu x hx).1, (hu x hx).2.2⟩) hfuel
  have hq : ∀ c ∈ u ++ ['\\'], c ≠ '"' := by
    intro x hx
    rcases List.mem_append.1 hx with hx | hx
    · exact (hu x hx).1
    · rw [List.mem_singleton.1 hx]; decide
  have h0 : l.At pre ((u ++ ['\\']) ++ (w ++ '"' :: rest)) := by
    have e : (u ++ ['\\']) ++ (w ++ '"' :: rest) = u ++ '\\' :: (w ++ '"' :: rest) := by simp
    rw [e]; exact h
  refine ⟨l.lexString.1, l.lexString.2, ?_, rfl, ?_, h2⟩
  · rw [next_eq_loop, Lexer.nextLoop, if_neg hE, if_neg hI, if_pos hL]
  · show unescapeQuotes (Margo.slice _ l.pos _) = u ++ ['\\']
    rw [Lexer.At.slice h0 h2, unescapeQuotes_id _ hq]

/-- The method `next` passes over spaces that are no indentation. -/
theorem next_skip_spaces (w : List Char) :
    ∀ {l : Lexer} {pre rest : List Char}, l.At pre (w ++ rest) → (∀ c ∈ w, c = ' ') →
      l.prev.type ≠ TokenType.Indent → l.prev.type ≠ TokenType.LineBreak →
      l.prev.type ≠ TokenType.Quote →
      ∃ l1 : Lexer, l1.At (pre ++ w) rest ∧ l1.prev = l.prev ∧ l.next = l1.next := by
  induction w with
  | nil =>
    intro l pre rest h _ _ _ _
    exact ⟨l, by rw [List.append_nil]; exact h, rfl, rfl⟩
  | cons c w ih =>
    intro l pre rest h hw p1 p2 p3
    have hc : c = ' ' := hw c (List.mem_cons_self _ _)
    subst hc
    rw [List.cons_append] at h
    have e1 := next_space h.isEOF_cons (isIndent_of_prev p1 p2) (Plain_of_prev p3)
      h.current_cons
    obtain ⟨l1, h1, q1, e2⟩ := ih h.advance (fun x hx => hw x (List.mem_cons_of_mem _ hx))
      (by rw [advance_prev]; exact p1) (by rw [advance_prev]; exact p2)
      (by rw [advance_prev]; exact p3)
    refine ⟨l1, ?_, by rw [q1, advance_prev], by rw [e1, e2]⟩
    have e : pre ++ ' ' :: w = pre ++ [' '] ++ w := by simp
    rw [e]; exact h1

/-- Before a byte that is neither a space nor a quote, and where no
indentation is read, `next` returns no quote. -/
theorem next_not_quote {l : Lexer} {pre r : List Char} {c : Char} (h : l.At pre (c :: r))
    (hI : ¬ (l.isIndent = true)) (hS : l.Plain) (c1 : c ≠ ' ') (c2 : c ≠ '"') :
    ∃ t l1, l.next = .ok (t, l1) ∧ t.type ≠ TokenType.Quote := by
  have hc := h.current_cons
  rw [next_switch h.isEOF_cons hI hS (by rw [hc]; exact c1)]
  by_cases e1 : l.current = '\\'
  · rw [if_pos e1]; exact ⟨_, _, rfl, fun h => TokenType.noConfusion h⟩
  rw [if_neg e1, if_neg (by rw [hc]; exact c2)]
  by_cases e3 : l.current = ':'
  · rw [if_pos e3]; exact ⟨_, _, rfl, fun h => TokenType.noConfusion h⟩
  rw [if_neg e3]
  by_cases e4 : l.current = '\n'
  · rw [if_pos e4]; exact ⟨_, _, rfl, fun h => TokenType.noConfusion h⟩
  rw [if_neg e4]
  by_cases e5 : l.current = '!'
  · rw [if_pos e5]; exact ⟨_, _, rfl, fun h => TokenType.noConfusion h⟩
  rw [if_neg e5]
  by_cases e6 : l.isProperty = true
  · rw [if_pos e6]; exact ⟨_, _, rfl, fun h => TokenType.noConfusion h⟩
  rw [if_neg e6]; exact ⟨_, _, rfl, fun h => TokenType.noConfusion h⟩


/-! ### The value of a line `Name: "value"` -/

theorem quotable_of {r : List Char} (hq : ∀ c ∈ r, c ≠ '"') (hn : ∀ c ∈ r, c ≠ '\n')
    (hs : ∀ c ∈ r.dropLast, c ≠ '\\') : quotable r = true := by
  unfold quotable
  simp only [Bool.and_eq_true, Bool.not_eq_true', List.contains_eq_any_beq,
    List.any_eq_false, beq_iff_eq]
  exact ⟨⟨fun x hx h => hq x hx h.symm, fun x hx h => hn x hx h.symm⟩,
    fun x hx h => hs x hx h.symm⟩

theorem singleLine_cases {r : List Char} (h : singleLine r = true) :
    (∀ c ∈ r, c ≠ '"') ∧ (∀ c ∈ r, c ≠ '\n') := by
  unfold singleLine at h
  simp only [Bool.and_eq_true, Bool.not_eq_true', List.contains_eq_any_beq,
    List.any_eq_false, beq_iff_eq] at h
  exact ⟨fun x hx hn => h.1 x hx hn.symm, fun x hx hn => h.2 x hx hn.symm⟩

theorem not_all_spaces (s : List Char) (h : s.all (fun x => x == ' ') = false) :
    ∃ w y w1, s = w ++ y :: w1 ∧ (∀ c ∈ w, c = ' ') ∧ y ≠ ' ' := by
  induction s with
  | nil => simp at h
  | cons c s ih =>
    by_cases hc : c = ' '
    · subst hc
      rw [List.all_cons] at h
      simp only [beq_self_eq_true, Bool.true_and] at h
      obtain ⟨w, y, w1, e, hw, hy⟩ := ih h
      refine ⟨' ' :: w, y, w1, by rw [e]; rfl, ?_, hy⟩
      intro x hx
      rcases List.mem_cons.1 hx with rfl | hx
      · rfl
      · exact hw x hx
    · exact ⟨[], c, s, rfl, (fun x hx => by cases hx), hc⟩

theorem all_spaces (s : List Char) (h : s.all (fun x => x == ' ') = true) :
    ∀ c ∈ s, c = ' ' := by
  intro c hc
  rw [List.all_eq_true] at h
  exact beq_iff_eq.1 (h c hc)

/-- The three ways in which `cutValue` treats the bytes between the quotes. -/
theorem cutValue_cases (r : List Char) :
    (∀ v, cutValue r = some v →
      ((∀ c ∈ r, c ≠ '\\') ∧ v = r) ∨
      ∃ u w, r = u ++ '\\' :: w ∧ (∀ c ∈ u, c ≠ '\\') ∧ (∀ c ∈ w, c = ' ') ∧
        v = u ++ ['\\']) ∧
    (cutValue r = none →
      ∃ u w y w1, r = u ++ '\\' :: (w ++ y :: w1) ∧ (∀ c ∈ u, c ≠ '\\') ∧
        (∀ c ∈ w, c = ' ') ∧ y ≠ ' ') := by
  induction r with
  | nil =>
    refine ⟨?_, ?_⟩
    · intro v h
      rw [cutValue] at h
      injection h with h
      exact Or.inl ⟨(fun c hc => by cases hc), h.symm⟩
    · intro h; rw [cutValue] at h; cases h
  | cons c r ih =>
    obtain ⟨ih1, ih2⟩ := ih
    by_cases hc : c = '\\'
    · subst hc
      refine ⟨?_, ?_⟩
      · intro v h
        rw [cutValue, if_pos rfl] at h
        by_cases ha : r.all (fun x => x == ' ') = true
        · rw [if_pos ha] at h
          injection h with h
          exact Or.inr ⟨[], r, rfl, (fun c hc => by cases hc), all_spaces r ha, h.symm⟩
        · rw [if_neg ha] at h; cases h
      · intro h
        rw [cutValue, if_pos rfl] at h
        by_cases ha : r.all (fun x => x == ' ') = true
        · rw [if_pos ha] at h; cases h
        · obtain ⟨w, y, w1, e, hw, hy⟩ := not_all_spaces r (by simpa using ha)
          exact ⟨[], w, y, w1, by rw [e]; rfl, (fun c hc => by cases hc), hw, hy⟩
    · refine ⟨?_, ?_⟩
      · intro v h
        rw [cutValue, if_neg hc] at h
        cases hr : cutValue r with
        | none => rw [hr] at h; cases h
        | some v1 =>
          rw [hr] at h
          injection h with h
          rcases ih1 v1 hr with ⟨h1, h2⟩ | ⟨u, w, e, hu, hw, hv⟩
          · left
            refine ⟨?_, by rw [← h, h2]⟩
            intro x hx
            rcases List.mem_cons.1 hx with rfl | hx
            · exact hc
            · exact h1 x hx
          · right
            refine ⟨c :: u, w, by rw [e]; rfl, ?_, hw, by rw [← h, hv]; rfl⟩
            intro x hx
            rcases List.mem_cons.1 hx with rfl | hx
            · exact hc
            · exact hu x hx
      · intro h
        rw [cutValue, if_neg hc] at h
        cases hr : cutValue r with
        | some v1 => rw [hr] at h; cases h
        | none =>
          obtain ⟨u, w, y, w1, e, hu, hw, hy⟩ := ih2 hr
          refine ⟨c :: u, w, y, w1, by rw [e]; rfl, ?_, hw, hy⟩
          intro x hx
          rcases List.mem_cons.1 hx with rfl | hx
          · exact hc
          · exact hu x hx

theorem parseString_fail (p : Parser) (t1 t2 t3 : Token) (l1 l2 l3 : Lexer)
    (h1 : p.lexer.Next = .ok (t1, l1)) (h2 : l1.Next = .ok (t2, l2))
    (h3 : l2.Next = .ok (t3, l3)) (e1 : t1.type = TokenType.Quote)
    (e2 : t2.type = TokenType.Text) (e3 : t3.type ≠ TokenType.Quote) :
    Parser.parseString p = .error (Fault.expectedClosingQuote t3.Line t3.Column t3.Value) := by
  rw [Parser.parseString, h1]
  dsimp only
  rw [if_neg (by rw [e1]; exact fun h => h rfl), h2]
  dsimp only
  rw [if_neg (by rw [e2]; exact fun h => h rfl), h3]
  dsimp only
  rw [if_pos e3]

theorem Lexer.Lexes.of_next_eq {l l1 : Lexer} {ty : TokenType} {v pre rest : List Char}
    (e : l.next = l1.next) (h : l1.Lexes ty v pre rest) : l.Lexes ty v pre rest := by
  obtain ⟨t, l2, h1, h2⟩ := h
  exact ⟨t, l2, by rw [e]; exact h1, h2⟩

theorem parsePropertyValue_quote (n : Nat) (p : Parser) (t1 : Token) (l1 : Lexer)
    (h1 : p.lexer.Next = .ok (t1, l1)) (e1 : t1.type = TokenType.Quote) :
    Parser.parsePropertyValue (n + 1) p =
      match Parser.parseString p with
      | .ok (s, p1) => .ok (Value.str s, p1)
      | .error f => .error f := by
  rw [parsePropertyValue_step n p t1 l1 h1, if_pos e1]
  all_goals rfl


/-- The value of a property written as a colon, a space and a single-line
string in quotes: `parsePropertyValue` returns what `cutValue` says, or fails
where `cutValue` has no value. -/
theorem quoted_value {l : Lexer} {pre r rest : List Char}
    (h : l.At pre (' ' :: '"' :: (r ++ '"' :: rest)))
    (hprev : l.prev.type = TokenType.Colon) (hr : singleLine r = true) :
    (∀ v, cutValue r = some v →
      ∃ (l1 : Lexer) (pre1 : List Char), l1.At pre1 rest ∧ pre1 ≠ [] ∧
        l1.prev.type = TokenType.Quote ∧
        ∀ n j, Parser.parsePropertyValue (n + 1) ⟨l, j⟩ = .ok (Value.str v, ⟨l1, j⟩)) ∧
    (cutValue r = none → ∃ f, ∀ n j, Parser.parsePropertyValue (n + 1) ⟨l, j⟩ = .error f) := by
  have hq1 : l.Lexes TokenType.Quote ['"'] (pre ++ [' '] ++ ['"']) (r ++ '"' :: rest) :=
    Lexes_space h (isIndent_of_prev (by rw [hprev]; decide) (by rw [hprev]; decide))
      (Plain_of_prev (by rw [hprev]; decide))
      (Lexes_quote h.advance (Plain_of_prev (by rw [advance_prev, hprev]; decide)))
  obtain ⟨t1, l1, ty1, _, _, hnx1, hat1, hp1⟩ := hq1.tokens
  obtain ⟨hq, hn⟩ := singleLine_cases hr
  obtain ⟨hsome, hnone⟩ := cutValue_cases r
  refine ⟨?_, ?_⟩
  · intro v hv
    rcases hsome v hv with ⟨hbs, rfl⟩ | ⟨u, w, rfl, hu, hw, rfl⟩
    · obtain ⟨t2, l2, ty2, v2, _, hnx2, hat2, hp2⟩ :=
        (Lexes_string hat1 (by rw [hp1, ty1])
          (quotable_of hq hn (fun c hc => hbs c (List.mem_of_mem_dropLast hc)))).tokens
      obtain ⟨t3, l3, ty3, _, _, hnx3, hat3, hp3⟩ :=
        (Lexes_quote hat2 (Plain_of_prev (by rw [hp2, ty2]; decide))).tokens
      refine ⟨l3, _, hat3, by simp, by rw [hp3, ty3], ?_⟩
      intro n j
      rw [parsePropertyValue_quote n ⟨l, j⟩ t1 l1 hnx1 ty1,
        parseString_step ⟨l, j⟩ t1 t2 t3 l1 l2 l3 hnx1 hnx2 hnx3 ty1 ty2 ty3, v2]
    · have hat1a : l1.At (pre ++ [' '] ++ ['"']) (u ++ '\\' :: (w ++ '"' :: rest)) := by
        have e : (u ++ '\\' :: w) ++ '"' :: rest = u ++ '\\' :: (w ++ '"' :: rest) := by simp
        rw [← e]; exact hat1
      obtain ⟨t2, l2, ty2, v2, _, hnx2, hat2, hp2⟩ :=
        (Lexes_string_cut hat1a (by rw [hp1, ty1])
          (fun c hc => ⟨hq c (List.mem_append_left _ hc), hn c (List.mem_append_left _ hc),
            hu c hc⟩)
          (fun c hc => ⟨hq c (List.mem_append_right _ (List.mem_cons_of_mem _ hc)),
            hn c (List.mem_append_right _ (List.mem_cons_of_mem _ hc))⟩)).tokens
      obtain ⟨l2a, hat2a, hp2a, enx⟩ := next_skip_spaces w hat2 hw
        (by rw [hp2, ty2]; decide) (by rw [hp2, ty2]; decide) (by rw [hp2, ty2]; decide)
      obtain ⟨t3, l3, ty3, _, _, hnx3, hat3, hp3⟩ :=
        (Lexer.Lexes.of_next_eq enx
          (Lexes_quote hat2a (Plain_of_prev (by rw [hp2a, hp2, ty2]; decide)))).tokens
      refine ⟨l3, _, hat3, by simp, by rw [hp3, ty3], ?_⟩
      intro n j
      rw [parsePropertyValue_quote n ⟨l, j⟩ t1 l1 hnx1 ty1,
        parseString_step ⟨l, j⟩ t1 t2 t3 l1 l2 l3 hnx1 hnx2 hnx3 ty1 ty2 ty3, v2]
  · intro hv
    obtain ⟨u, w, y, w1, rfl, hu, hw, hy⟩ := hnone hv
    have hyq : y ≠ '"' := hq y (by simp)
    have hat1a : l1.At (pre ++ [' '] ++ ['"'])
        (u ++ '\\' :: ((w ++ y :: w1) ++ '"' :: rest)) := by
      have e : (u ++ '\\' :: (w ++ y :: w1)) ++ '"' :: rest =
          u ++ '\\' :: ((w ++ y :: w1) ++ '"' :: rest) := by simp
      rw [← e]; exact hat1
    obtain ⟨t2, l2, ty2, v2, _, hnx2, hat2, hp2⟩ :=
      (Lexes_string_cut hat1a (by rw [hp1, ty1])
        (fun c hc => ⟨hq c (List.mem_append_left _ hc), hn c (List.mem_append_left _ hc),
          hu c hc⟩)
        (fun c hc => ⟨hq c (List.mem_append_right _ (List.mem_cons_of_mem _ hc)),
          hn c (List.mem_append_right _ (List.mem_cons_of_mem _ hc))⟩)).tokens
    have hat2b : l2.At (pre ++ [' '] ++ ['"'] ++ (u ++ ['\\']))
        (w ++ (y :: (w1 ++ '"' :: rest))) := by
      have e : (w ++ y :: w1) ++ '"' :: rest = w ++ (y :: (w1 ++ '"' :: rest)) := by simp
      rw [← e]; exact hat2
    obtain ⟨l2a, hat2a, hp2a, enx⟩ := next_skip_spaces w hat2b hw
      (by rw [hp2, ty2]; decide) (by rw [hp2, ty2]; decide) (by rw [hp2, ty2]; decide)
    obtain ⟨t3, l3, hn3, ty3⟩ := next_not_quote hat2a
      (isIndent_of_prev (by rw [hp2a, hp2, ty2]; decide) (by rw [hp2a, hp2, ty2]; decide))
      (Plain_of_prev (by rw [hp2a, hp2, ty2]; decide)) hy hyq
    have hnx3 : l2.Next = .ok (t3, { l3 with prev := t3 }) :=
      (Next_ok_iff l2 _ t3).2 ⟨l3, by rw [enx]; exact hn3, rfl⟩
    refine ⟨Fault.expectedClosingQuote t3.Line t3.Column t3.Value, ?_⟩
    intro n j
    rw [parsePropertyValue_quote n ⟨l, j⟩ t1 l1 hnx1 ty1,
      parseString_fail ⟨l, j⟩ t1 t2 t3 l1 l2 _ hnx1 hnx2 hnx3 ty1 ty2 ty3]


/-! ### The loop of `parseComponentNode` over lines `Name: "value"` -/

theorem componentLoop_indent {l : Lexer} {v pre rest : List Char}
    (h : l.Lexes TokenType.Indent v pre rest) (n k j : Nat) (name : List Char)
    (attrs : List (List Char × Value)) (children : List Node) :
    ∃ l1, l1.At pre rest ∧ l1.prev.type = TokenType.Indent ∧
      Parser.parseComponentNodeLoop (n + 1) k name attrs children ⟨l, j⟩ =
        Parser.parseComponentNodeLoop n k name attrs children ⟨l1, j + 1⟩ := by
  obtain ⟨t, l2, hty, _, _, hnx, hat, hprev⟩ := h.tokens
  refine ⟨l2, hat, by rw [hprev, hty], ?_⟩
  rw [parseComponentNodeLoop_step n k name attrs children ⟨l, j⟩ t l2 hnx,
    if_neg (by rw [hty]; decide), if_pos hty]

theorem componentLoop_lineBreak {l : Lexer} {v pre rest : List Char}
    (h : l.Lexes TokenType.LineBreak v pre rest) (n k j : Nat) (name : List Char)
    (attrs : List (List Char × Value)) (children : List Node) :
    ∃ l1, l1.At pre rest ∧ l1.prev.type = TokenType.LineBreak ∧
      Parser.parseComponentNodeLoop (n + 1) k name attrs children ⟨l, j⟩ =
        Parser.parseComponentNodeLoop n k name attrs children ⟨l1, 0⟩ := by
  obtain ⟨t, l2, hty, _, _, hnx, hat, hprev⟩ := h.tokens
  refine ⟨l2, hat, by rw [hprev, hty], ?_⟩
  rw [parseComponentNodeLoop_step n k name attrs children ⟨l, j⟩ t l2 hnx,
    if_neg (by rw [hty]; decide), if_neg (by rw [hty]; decide), if_pos hty]

theorem componentLoop_eof {l : Lexer} {pre : List Char} (h : l.At pre []) (n k j : Nat)
    (name : List Char) (attrs : List (List Char × Value)) (children : List Node) :
    Parser.parseComponentNodeLoop (n + 1) k name attrs children ⟨l, j⟩ =
      .ok (Node.ComponentNode name attrs children, ⟨l, j⟩) := by
  obtain ⟨t, l2, hty, _, _, hnx, _, _⟩ := (Lexes_eof h).tokens
  rw [parseComponentNodeLoop_step n k name attrs children ⟨l, j⟩ t l2 hnx, if_pos hty]

theorem componentLoop_property {l : Lexer} {v pre rest : List Char}
    (h : l.Lexes TokenType.Property v pre rest) (n k j : Nat) (name : List Char)
    (attrs : List (List Char × Value)) (children : List Node) (hj : k < j) :
    Parser.parseComponentNodeLoop (n + 1) k name attrs children ⟨l, j⟩ =
      match Parser.parseProperty n ⟨l, j⟩ with
      | .error f => .error f
      | .ok (kv, p1) =>
        Parser.parseComponentNodeLoop n k name (attrs ++ [kv]) children p1 := by
  obtain ⟨t, l2, hty, _, _, hnx, _, _⟩ := h.tokens
  rw [parseComponentNodeLoop_step n k name attrs children ⟨l, j⟩ t l2 hnx,
    if_neg (by rw [hty]; decide), if_neg (by rw [hty]; decide), if_neg (by rw [hty]; decide),
    if_neg (Nat.not_le.2 hj), if_neg (by rw [hty]; decide), if_neg (by rw [hty]; decide),
    if_neg (by rw [hty]; decide), if_pos hty]
  all_goals rfl

theorem validName_cases {name : List Char} (h : validName name = true) :
    ∃ c t, name = c :: t ∧ ∀ x ∈ c :: t, isAlphaNumeric x = true := by
  cases name with
  | nil => cases h
  | cons c t =>
    unfold validName at h
    simp only [List.isEmpty_cons, Bool.not_false, Bool.true_and, List.all_eq_true] at h
    exact ⟨c, t, rfl, h⟩

/-- One line `Name: "value"` under a component: `parseProperty` returns the
name with the string that `cutValue` makes of the value, or fails. -/
theorem property_line {l : Lexer} {pre name r rest : List Char}
    (h : l.At pre (name ++ ':' :: ' ' :: '"' :: (r ++ '"' :: rest)))
    (hprev : l.prev.type = TokenType.Indent) (hname : validName name = true)
    (hr : singleLine r = true) :
    l.Lexes TokenType.Property name (pre ++ name) (':' :: ' ' :: '"' :: (r ++ '"' :: rest)) ∧
    (∀ v, cutValue r = some v →
      ∃ (l1 : Lexer) (pre1 : List Char), l1.At pre1 rest ∧ pre1 ≠ [] ∧
        l1.prev.type = TokenType.Quote ∧
        ∀ n j, Parser.parseProperty (n + 2) ⟨l, j⟩ = .ok ((name, Value.str v), ⟨l1, j⟩)) ∧
    (cutValue r = none → ∃ f, ∀ n j, Parser.parseProperty (n + 2) ⟨l, j⟩ = .error f) := by
  obtain ⟨c, t, rfl, hn⟩ := validName_cases hname
  have hlex := Lexes_property h (Plain_of_prev (by rw [hprev]; decide)) hn
  obtain ⟨nameTok, l1, ty1, v1, _, hnx1, hat1, hp1⟩ := hlex.tokens
  obtain ⟨colon, l2, ty2, _, _, hnx2, hat2, hp2⟩ :=
    (Lexes_colon hat1 (Plain_of_prev (by rw [hp1, ty1]; decide))).tokens
  obtain ⟨hsome, hnone⟩ := quoted_value hat2 (by rw [hp2, ty2]) hr
  refine ⟨hlex, ?_, ?_⟩
  · intro v hv
    obtain ⟨l3, pre3, hat3, hne3, hp3, e3⟩ := hsome v hv
    refine ⟨l3, pre3, hat3, hne3, hp3, ?_⟩
    intro n j
    rw [parseProperty_step (n + 1) ⟨l, j⟩ nameTok colon l1 l2 hnx1 hnx2,
      if_neg (by rw [ty2]; simp)]
    dsimp only
    rw [e3 n j, v1]
  · intro hv
    obtain ⟨f, e3⟩ := hnone hv
    refine ⟨f, ?_⟩
    intro n j
    rw [parseProperty_step (n + 1) ⟨l, j⟩ nameTok colon l1 l2 hnx1 hnx2,
      if_neg (by rw [ty2]; simp)]
    dsimp only
    rw [e3 n j]

/-- The loop of a component over lines `Name: "value"`: it returns the
component with one string attribute for every line, in the order of the
lines, when `cutValue` has a value for every line, and fails otherwise. -/
theorem componentLoop_lines (C : List Char) (props : List (List Char × List Char)) :
    ∀ {l : Lexer} {pre : List Char} (attrs : List (List Char × Value)) (j n : Nat),
      l.At pre (propertyLines props) → pre ≠ [] →
      (∀ kv ∈ props, validName kv.1 = true ∧ singleLine kv.2 = true) →
      3 * props.length + 2 ≤ n →
      (∀ vs, cutValues props = some vs →
        ∃ (l1 : Lexer) (pre1 : List Char) (j1 : Nat), l1.At pre1 [] ∧
          Parser.parseComponentNodeLoop n 0 C attrs [] ⟨l, j⟩ =
            .ok (Node.ComponentNode C (attrs ++ vs.map stringAttribute) [], ⟨l1, j1⟩)) ∧
      (cutValues props = none →
        ∃ f, Parser.parseComponentNodeLoop n 0 C attrs [] ⟨l, j⟩ = .error f) := by
  induction props with
  | nil =>
    intro l pre attrs j n h _ _ hn
    obtain ⟨m, rfl⟩ : ∃ m, n = m + 1 := ⟨n - 1, by omega⟩
    rw [propertyLines] at h
    refine ⟨?_, ?_⟩
    · intro vs hvs
      rw [cutValues] at hvs
      injection hvs with hvs
      subst hvs
      exact ⟨l, pre, j, h, by rw [componentLoop_eof h m 0 j C attrs []]; simp⟩
    · intro hvs; rw [cutValues] at hvs; cases hvs
  | cons kv props ih =>
    obtain ⟨name, r⟩ := kv
    intro l pre attrs j n h hne hprops hn
    rw [List.length_cons] at hn
    obtain ⟨m, rfl⟩ : ∃ m, n = m + 2 + 1 + 1 + 1 := ⟨n - 5, by omega⟩
    obtain ⟨hname, hr⟩ := hprops (name, r) (List.mem_cons_self _ _)
    rw [propertyLines] at h
    obtain ⟨l1, h1, p1, e1⟩ := componentLoop_lineBreak (Lexes_newline h) (m + 2 + 1 + 1) 0 j C
      attrs []
    obtain ⟨l2, h2, p2, e2⟩ := componentLoop_indent
      (Lexes_indent_spaces h1 (by simp) (Or.inr p1)) (m + 2 + 1) 0 0 C attrs []
    obtain ⟨hlex, hsome, hnone⟩ := property_line h2 p2 hname hr
    have e3 := componentLoop_property hlex (m + 2) 0 (0 + 1) C attrs [] (by omega)
    refine ⟨?_, ?_⟩
    · intro vs hvs
      rw [cutValues] at hvs
      cases hv : cutValue r with
      | none => rw [hv] at hvs; cases hvs
      | some v =>
        cases hvs1 : cutValues props with
        | none => rw [hv, hvs1] at hvs; cases hvs
        | some vs1 =>
          rw [hv, hvs1] at hvs
          injection hvs with hvs
          subst hvs
          obtain ⟨l3, pre3, hat3, hne3, _, e4⟩ := hsome v hv
          obtain ⟨ih1, _⟩ := ih (attrs ++ [(name, Value.str v)]) (0 + 1) (m + 2) hat3 hne3
            (fun kv hkv => hprops kv (List.mem_cons_of_mem _ hkv)) (by omega)
          obtain ⟨l4, pre4, j4, hat4, e5⟩ := ih1 vs1 hvs1
          refine ⟨l4, pre4, j4, hat4, ?_⟩
          rw [e1, e2, e3, e4 m (0 + 1)]
          dsimp only
          rw [e5]
          simp [stringAttribute]
    · intro hvs
      rw [cutValues] at hvs
      cases hv : cutValue r with
      | none =>
        obtain ⟨f, e4⟩ := hnone hv
        exact ⟨f, by rw [e1, e2, e3, e4 m (0 + 1)]⟩
      | some v =>
        cases hvs1 : cutValues props with
        | some vs1 => rw [hv, hvs1] at hvs; cases hvs
        | none =>
          obtain ⟨l3, pre3, hat3, hne3, _, e4⟩ := hsome v hv
          obtain ⟨_, ih2⟩ := ih (attrs ++ [(name, Value.str v)]) (0 + 1) (m + 2) hat3 hne3
            (fun kv hkv => hprops kv (List.mem_cons_of_mem _ hkv)) (by omega)
          obtain ⟨f, e5⟩ := ih2 hvs1
          refine ⟨f, ?_⟩
          rw [e1, e2, e3, e4 m (0 + 1)]
          dsimp only
          rw [e5]


/-! ### Parsing what was written back -/

theorem length_propertyLines (props : List (List Char × List Char)) :
    props.length ≤ (propertyLines props).length := by
  induction props with
  | nil => simp
  | cons kv props ih =>
    obtain ⟨name, r⟩ := kv
    rw [propertyLines]
    simp only [List.length_cons, List.length_append]
    omega

theorem runEnds_propertyLines (props : List (List Char × List Char)) :
    runEnds (propertyLines props) := by
  intro c r h
  cases props with
  | nil => rw [propertyLines] at h; cases h
  | cons kv props =>
    obtain ⟨name, v⟩ := kv
    rw [propertyLines] at h
    injection h with h _
    subst h
    decide

/-- What `Parse` returns on a component with lines `Name: "value"`: the
component with the values that `cutValue` makes of the lines, or a fault
when `cutValue` has no value for a line. -/
theorem Parse_serialize (C : List Char) (props : List (List Char × List Char))
    (hC : ∀ c ∈ C, isAlphaNumeric c = true)
    (hprops : ∀ kv ∈ props, validName kv.1 = true ∧ singleLine kv.2 = true) :
    (∀ vs, cutValues props = some vs →
      Parse (serialize C props) = .ok [Node.ComponentNode C (vs.map stringAttribute) []]) ∧
    (cutValues props = none → ∃ f, Parse (serialize C props) = .error f) := by
  have hat0 : (New (serialize C props)).At [] ('\\' :: (C ++ propertyLines props)) :=
    ⟨rfl, rfl⟩
  obtain ⟨marker, l1, ty, val, _, hnx, hat1, hp⟩ :=
    (Lexes_component hat0
      (Plain_of_prev (by show TokenType.EOF ≠ TokenType.Quote; decide)) hC
      (runEnds_propertyLines props)).tokens
  have hlen : props.length ≤ (serialize C props).length := by
    have := length_propertyLines props
    unfold serialize
    simp only [List.length_cons, List.length_append]
    omega
  obtain ⟨m, hm⟩ : ∃ m, parseFuel (serialize C props) = m + 1 + 1 + 1 :=
    ⟨parseFuel (serialize C props) - 3, by unfold parseFuel; omega⟩
  have hm2 : 3 * props.length + 2 ≤ m := by
    unfold parseFuel at hm; omega
  obtain ⟨hsome, hnone⟩ := componentLoop_lines C props [] 0 m hat1 (by simp) hprops hm2
  have hstart : Parser.parseBlock (m + 1 + 1 + 1) (NewMargoParser (serialize C props)) =
      match Parser.parseComponentNodeLoop m 0 C [] [] ⟨l1, 0⟩ with
      | .error f => .error f
      | .ok (node, p1) => Parser.parseBlockLoop (m + 1) 0 ([] ++ [node]) p1 := by
    rw [Parser.parseBlock]
    show Parser.parseBlockLoop (m + 1 + 1) 0 [] ⟨New (serialize C props), 0⟩ = _
    rw [parseBlockLoop_step (m + 1) 0 [] ⟨New (serialize C props), 0⟩ marker l1 hnx,
      if_neg (by rw [ty]; decide), if_neg (by rw [ty]; decide), if_neg (by rw [ty]; decide),
      if_neg (by simp), if_pos ty,
      parseComponentNode_step m ⟨New (serialize C props), 0⟩ marker l1 hnx, val]
    all_goals rfl
  refine ⟨?_, ?_⟩
  · intro vs hvs
    obtain ⟨l4, pre4, j4, hat4, e4⟩ := hsome vs hvs
    unfold Parse
    rw [hm, hstart, e4]
    dsimp only
    rw [blockLoop_eof hat4 m 0 j4]
    simp
  · intro hvs
    obtain ⟨f, e4⟩ := hnone hvs
    refine ⟨f, ?_⟩
    unfold Parse
    rw [hm, hstart, e4]

theorem stringProps_map (vs : List (List Char × List Char)) :
    stringProps (vs.map stringAttribute) = vs := by
  induction vs with
  | nil => rfl
  | cons kv vs ih =>
    obtain ⟨name, v⟩ := kv
    rw [List.map_cons, stringAttribute, stringProps, ih]

theorem singleLine_cons {c : Char} {r : List Char} :
    singleLine (c :: r) = true ↔ (c ≠ '"' ∧ c ≠ '\n') ∧ singleLine r = true := by
  unfold singleLine
  simp only [List.contains_cons, Bool.not_or, Bool.and_eq_true, Bool.not_eq_true',
    beq_eq_false_iff_ne, ne_eq]
  constructor
  · rintro ⟨⟨h1, h2⟩, h3, h4⟩
    exact ⟨⟨fun h => h1 h.symm, fun h => h3 h.symm⟩, h2, h4⟩
  · rintro ⟨⟨h1, h3⟩, h2, h4⟩
    exact ⟨⟨fun h => h1 h.symm, h2⟩, fun h => h3 h.symm, h4⟩

/-- A value that `parseString` has returned comes back unchanged when it is
written between quotes again. -/
theorem cutValue_idem (r : List Char) :
    ∀ v, cutValue r = some v → singleLine r = true →
      cutValue v = some v ∧ singleLine v = true := by
  induction r with
  | nil =>
    intro v h _
    rw [cutValue] at h
    injection h with h
    subst h
    exact ⟨rfl, rfl⟩
  | cons c r ih =>
    intro v h hs
    rw [cutValue] at h
    by_cases hc : c = '\\'
    · rw [if_pos hc] at h
      by_cases ha : r.all (fun x => x == ' ') = true
      · rw [if_pos ha] at h
        injection h with h
        subst h
        exact ⟨by decide, by decide⟩
      · rw [if_neg ha] at h; cases h
    · rw [if_neg hc] at h
      cases hr : cutValue r with
      | none => rw [hr] at h; cases h
      | some v1 =>
        rw [hr] at h
        injection h with h
        subst h
        obtain ⟨hc2, hs2⟩ := singleLine_cons.1 hs
        obtain ⟨i1, i2⟩ := ih v1 hr hs2
        refine ⟨?_, singleLine_cons.2 ⟨hc2, i2⟩⟩
        rw [cutValue, if_neg hc, i1]
        rfl

theorem cutValues_idem (props : List (List Char × List Char)) :
    ∀ vs, cutValues props = some vs →
      (∀ kv ∈ props, validName kv.1 = true ∧ singleLine kv.2 = true) →
      cutValues vs = some vs ∧ ∀ kv ∈ vs, validName kv.1 = true ∧ singleLine kv.2 = true := by
  induction props with
  | nil =>
    intro vs h _
    rw [cutValues] at h
    injection h with h
    subst h
    exact ⟨rfl, fun kv hkv => by cases hkv⟩
  | cons kv props ih =>
    obtain ⟨name, r⟩ := kv
    intro vs h hp
    rw [cutValues] at h
    cases hv : cutValue r with
    | none => rw [hv] at h; cases h
    | some v =>
      cases hvs : cutValues props with
      | none => rw [hv, hvs] at h; cases h
      | some vs1 =>
        rw [hv, hvs] at h
        injection h with h
        subst h
        obtain ⟨hn, hr⟩ := hp (name, r) (List.mem_cons_self _ _)
        obtain ⟨i1, i2⟩ := cutValue_idem r v hv hr
        obtain ⟨j1, j2⟩ := ih vs1 hvs (fun kv hkv => hp kv (List.mem_cons_of_mem _ hkv))
        refine ⟨by rw [cutValues, i1, j1], ?_⟩
        intro kv hkv
        rcases List.mem_cons.1 hkv with rfl | hkv
        · exact ⟨hn, i2⟩
        · exact j2 kv hkv

/-- C9: let a markup be a component (its name made of letters, digits and
underscores) with lines `Name: "value"` under it, the values without quote
and line break, and let `Parse` succeed on it.  Then the result is this one
component with a list `L` of string properties and no child, and the markup
that writes `L` back as lines `Name: "value"` under the same component
parses to the same result: the property list is `L` again, with the same
names and values in the same order. -/
theorem quoted_properties_round_trip (C : List Char) (props : List (List Char × List Char))
    (nodes : List Node) (hC : ∀ c ∈ C, isAlphaNumeric c = true)
    (hprops : ∀ kv ∈ props, validName kv.1 = true ∧ singleLine kv.2 = true)
    (h : Parse (serialize C props) = .ok nodes) :
    ∃ L, nodes = [Node.ComponentNode C L []] ∧
      Parse (serialize C (stringProps L)) = .ok [Node.ComponentNode C L []] := by
  obtain ⟨hsome, hnone⟩ := Parse_serialize C props hC hprops
  cases hvs : cutValues props with
  | none =>
    obtain ⟨f, e⟩ := hnone hvs
    rw [e] at h
    cases h
  | some vs =>
    have e := hsome vs hvs
    rw [e] at h
    injection h with h
    refine ⟨vs.map stringAttribute, h.symm, ?_⟩
    obtain ⟨i1, i2⟩ := cutValues_idem props vs hvs hprops
    rw [stringProps_map]
    exact (Parse_serialize C vs hC i2).1 vs i1


set_option maxRecDepth 100000 in
/-- A card with a title and a path that ends in a backslash: what `Parse`
returns is parsed again from the lines written back. -/
theorem quoted_properties_round_trip_witness :
    ∃ L, [Node.ComponentNode "Card".toList
          [("Title".toList, Value.str "Hello, world".toList),
            ("Path".toList, Value.str "C:\\".toList)] []] =
        [Node.ComponentNode "Card".toList L []] ∧
      Parse (serialize "Card".toList (stringProps L)) =
        .ok [Node.ComponentNode "Card".toList L []] :=
  quoted_properties_round_trip "Card".toList
    [("Title".toList, "Hello, world".toList), ("Path".toList, "C:\\  ".toList)]
    [Node.ComponentNode "Card".toList
      [("Title".toList, Value.str "Hello, world".toList),
        ("Path".toList, Value.str "C:\\".toList)] []]
    (by decide!) (by decide!) (eq_of_resultEqb 8 _ _ (by decide!))


/-! ### Tokens that the parser does not expect, positions of tokens, empty input -/

/-- C16: the tokens of a component with a boolean flag and a quoted property.
Every token but the flag carries the line and the column of its first byte
(a line break: the column before it); the flag `!Visible`, which starts at
line 2, column 5, carries column 13, the column behind its name. -/
theorem tokens_bool_column :
    Lexer.tokens 16 (New "\\HeroV2\n    !Visible\n    Title: \"Hello\"".toList) =
      .ok [⟨TokenType.Component, "HeroV2".toList, 1, 1⟩,
        ⟨TokenType.LineBreak, "\n".toList, 1, 7⟩,
        ⟨TokenType.Indent, "\t".toList, 2, 1⟩,
        ⟨TokenType.Bool, "Visible".toList, 2, 13⟩,
        ⟨TokenType.LineBreak, "\n".toList, 2, 12⟩,
        ⟨TokenType.Indent, "\t".toList, 3, 1⟩,
        ⟨TokenType.Property, "Title".toList, 3, 5⟩,
        ⟨TokenType.Colon, ":".toList, 3, 10⟩,
        ⟨TokenType.Quote, "\"".toList, 3, 12⟩,
        ⟨TokenType.Text, "Hello".toList, 3, 13⟩,
        ⟨TokenType.Quote, "\"".toList, 3, 18⟩, Token.zero] := by
  decide!

/-- C18: a property name, a boolean flag, a colon and a quote at the top
level of the input, and a colon inside a component, do not make `Parse`
return an error value: it panics with "unexpected ...". -/
theorem parse_unexpected_token_panics :
    Parse "Title: \"x\"".toList = .error (Fault.unexpected TokenType.Property "Title".toList) ∧
    Parse "!Visible".toList = .error (Fault.unexpected TokenType.Bool "Visible".toList) ∧
    Parse ":".toList = .error (Fault.unexpected TokenType.Colon ":".toList) ∧
    Parse "\"".toList = .error (Fault.unexpected TokenType.Quote "\"".toList) ∧
    Parse "\\A\n    : x".toList = .error (Fault.unexpected TokenType.Colon ":".toList) ∧
    ∀ ty v, (Fault.unexpected ty v).isPanic = true ∧ (Fault.unexpected ty v).isError = false :=
  ⟨eq_of_resultEqb 8 _ _ (by decide!), eq_of_resultEqb 8 _ _ (by decide!),
    eq_of_resultEqb 8 _ _ (by decide!), eq_of_resultEqb 8 _ _ (by decide!),
    eq_of_resultEqb 8 _ _ (by decide!), fun _ _ => ⟨rfl, rfl⟩⟩

/-- C19: parsing the empty string succeeds and returns no root node. -/
theorem parse_empty_input : Parse [] = .ok [] :=
  eq_of_resultEqb 8 _ _ (by decide!)


/-! ### The method `next`, case by case, for every lexer -/

theorem next_eof {l : Lexer} (hE : l.isEOF = true) : l.next = .ok (Token.zero, l) := by
  rw [next_eq_loop, Lexer.nextLoop, if_pos hE]

theorem next_indent {l : Lexer} (hE : ¬ (l.isEOF = true)) (hI : l.isIndent = true) :
    l.next = l.lexIndent := by
  rw [next_eq_loop, Lexer.nextLoop, if_neg hE, if_pos hI]

theorem next_string {l : Lexer} (hE : ¬ (l.isEOF = true)) (hI : ¬ (l.isIndent = true))
    (hS : l.prev.type = TokenType.Quote ∧ (l.lookAhead '"' '\n').isSome = true) :
    l.next = .ok l.lexString := by
  rw [next_eq_loop, Lexer.nextLoop, if_neg hE, if_neg hI, if_pos hS]

/-- The `switch` of `next` and what follows it return a token that is neither
the end of the input nor an indentation. -/
theorem next_switch_ok {l : Lexer} (hE : ¬ (l.isEOF = true)) (hI : ¬ (l.isIndent = true))
    (hS : l.Plain) (h4 : l.current ≠ ' ') :
    ∃ t l1, l.next = .ok (t, l1) ∧ t.type ≠ TokenType.EOF ∧ t.type ≠ TokenType.Indent := by
  rw [next_switch hE hI hS h4]
  by_cases e1 : l.current = '\\'
  · rw [if_pos e1]
    exact ⟨_, _, rfl, fun h => TokenType.noConfusion h, fun h => TokenType.noConfusion h⟩
  rw [if_neg e1]
  by_cases e2 : l.current = '"'
  · rw [if_pos e2]
    exact ⟨_, _, rfl, fun h => TokenType.noConfusion h, fun h => TokenType.noConfusion h⟩
  rw [if_neg e2]
  by_cases e3 : l.current = ':'
  · rw [if_pos e3]
    exact ⟨_, _, rfl, fun h => TokenType.noConfusion h, fun h => TokenType.noConfusion h⟩
  rw [if_neg e3]
  by_cases e4 : l.current = '\n'
  · rw [if_pos e4]
    exact ⟨_, _, rfl, fun h => TokenType.noConfusion h, fun h => TokenType.noConfusion h⟩
  rw [if_neg e4]
  by_cases e5 : l.current = '!'
  · rw [if_pos e5]
    exact ⟨_, _, rfl, fun h => TokenType.noConfusion h, fun h => TokenType.noConfusion h⟩
  rw [if_neg e5]
  by_cases e6 : l.isProperty = true
  · rw [if_pos e6]
    exact ⟨_, _, rfl, fun h => TokenType.noConfusion h, fun h => TokenType.noConfusion h⟩
  rw [if_neg e6]
  exact ⟨_, _, rfl, fun h => TokenType.noConfusion h, fun h => TokenType.noConfusion h⟩

/-- The token of `lexIndent`. -/
theorem lexIndent_ok {l l1 : Lexer} {t : Token} (h : l.lexIndent = .ok (t, l1)) :
    t = ⟨TokenType.Indent, ['\t'], l.line, l.column⟩ := by
  unfold Lexer.lexIndent at h
  dsimp only at h
  by_cases h1 : l.current = '\t'
  · rw [if_pos h1] at h
    injection h with h
    injection h with h _
    exact h.symm
  · rw [if_neg h1] at h
    cases h2 : l.lexIndentSpaces 4 with
    | none => rw [h2] at h; cases h
    | some l2 =>
      rw [h2] at h
      injection h with h
      injection h with h _
      exact h.symm

/-- The panic of `lexIndent`. -/
theorem lexIndent_error {l : Lexer} {f : Fault} (h : l.lexIndent = .error f) :
    f = Fault.invalidIndent l.line l.column := by
  unfold Lexer.lexIndent at h
  dsimp only at h
  by_cases h1 : l.current = '\t'
  · rw [if_pos h1] at h; cases h
  · rw [if_neg h1] at h
    cases h2 : l.lexIndentSpaces 4 with
    | none =>
      rw [h2] at h
      injection h with h
      exact h.symm
    | some l2 => rw [h2] at h; cases h

/-- Where `isIndent` holds. -/
theorem isIndent_cases {l : Lexer} (h : l.isIndent = true) :
    l.pos ≠ 0 ∧ (l.current = ' ' ∨ l.current = '\t') ∧
      (l.prev.type = TokenType.Indent ∨ l.prev.type = TokenType.LineBreak) := by
  unfold Lexer.isIndent at h
  by_cases h1 : l.pos = 0
  · rw [if_pos h1] at h; cases h
  rw [if_neg h1] at h
  by_cases h2 : l.current ≠ ' ' ∧ l.current ≠ '\t'
  · rw [if_pos h2] at h; cases h
  rw [if_neg h2] at h
  refine ⟨h1, ?_, ?_⟩
  · by_contra h3
    exact h2 ⟨fun e => h3 (Or.inl e), fun e => h3 (Or.inr e)⟩
  · rw [Bool.or_eq_true, decide_eq_true_eq, decide_eq_true_eq] at h
    exact h

theorem isIndent_of_cases {l : Lexer} (h1 : l.pos ≠ 0) (h2 : l.current = ' ' ∨ l.current = '\t')
    (h3 : l.prev.type = TokenType.Indent ∨ l.prev.type = TokenType.LineBreak) :
    l.isIndent = true := by
  unfold Lexer.isIndent
  rw [if_neg h1, if_neg (fun h => h2.elim h.1 h.2), Bool.or_eq_true, decide_eq_true_eq,
    decide_eq_true_eq]
  exact h3

theorem advance_pos {l : Lexer} (hE : ¬ (l.isEOF = true)) : l.advance.pos = l.pos + 1 := by
  have hlt : l.pos < l.input.length := by
    unfold Lexer.isEOF at hE
    rw [decide_eq_true_eq] at hE
    omega
  unfold Lexer.advance
  rw [if_neg (by omega)]
  split_ifs <;> rfl

theorem isEOF_iff {l : Lexer} : l.isEOF = true ↔ l.input.length ≤ l.pos := by
  unfold Lexer.isEOF
  rw [decide_eq_true_eq]

/-- The method `next` fails in one way only: with the panic of `lexIndent`,
behind an `Indent` or a `LineBreak`. -/
theorem next_error (k : Nat) :
    ∀ (l : Lexer) (f : Fault), l.input.length - l.pos = k → l.next = .error f →
      (l.prev.type = TokenType.Indent ∨ l.prev.type = TokenType.LineBreak) ∧
        ∃ a b, f = Fault.invalidIndent a b := by
  induction k with
  | zero =>
    intro l f hk h
    rw [next_eof (isEOF_iff.2 (by omega))] at h
    cases h
  | succ k ih =>
    intro l f hk h
    have hE : ¬ (l.isEOF = true) := by rw [isEOF_iff]; omega
    by_cases hI : l.isIndent = true
    · rw [next_indent hE hI] at h
      exact ⟨(isIndent_cases hI).2.2, _, _, lexIndent_error h⟩
    by_cases hS : l.Plain
    · by_cases h4 : l.current = ' '
      · rw [next_space hE hI hS h4] at h
        have := ih l.advance f (by rw [advance_input, advance_pos hE]; omega) h
        rw [advance_prev] at this
        exact this
      · obtain ⟨t, l1, e, _⟩ := next_switch_ok hE hI hS h4
        rw [e] at h
        cases h
    · rw [next_string hE hI (not_not.1 hS)] at h
      cases h

/-- The method `next` returns the token of the end of the input only at the
end of the input. -/
theorem next_eof_token (k : Nat) :
    ∀ (l l1 : Lexer) (t : Token), l.input.length - l.pos = k → l.next = .ok (t, l1) →
      t.type = TokenType.EOF → t = Token.zero ∧ l1.isEOF = true := by
  induction k with
  | zero =>
    intro l l1 t hk h _
    have hE : l.isEOF = true := isEOF_iff.2 (by omega)
    rw [next_eof hE] at h
    injection h with h
    injection h with h1 h2
    subst h1; subst h2
    exact ⟨rfl, hE⟩
  | succ k ih =>
    intro l l1 t hk h ht
    have hE : ¬ (l.isEOF = true) := by rw [isEOF_iff]; omega
    by_cases hI : l.isIndent = true
    · rw [next_indent hE hI] at h
      rw [lexIndent_ok h] at ht
      cases ht
    by_cases hS : l.Plain
    · by_cases h4 : l.current = ' '
      · rw [next_space hE hI hS h4] at h
        exact ih l.advance l1 t (by rw [advance_input, advance_pos hE]; omega) h ht
      · obtain ⟨t1, l2, e, h5, _⟩ := next_switch_ok hE hI hS h4
        rw [e] at h
        injection h with h
        injection h with h1 _
        subst h1
        exact absurd ht h5
    · rw [next_string hE hI (not_not.1 hS)] at h
      injection h with h
      injection h with h1 _
      subst h1
      cases ht

/-- At a byte that is no space `next` returns a token. -/
theorem next_ok_of_current {l : Lexer} (h4 : l.current ≠ ' ') : ∃ t l1, l.next = .ok (t, l1) := by
  by_cases hE : l.isEOF = true
  · exact ⟨_, _, next_eof hE⟩
  by_cases hI : l.isIndent = true
  · rw [next_indent hE hI]
    have hc : l.current = '\t' := (isIndent_cases hI).2.1.resolve_left h4
    unfold Lexer.lexIndent
    dsimp only
    rw [if_pos hc]
    exact ⟨_, _, rfl⟩
  by_cases hS : l.Plain
  · obtain ⟨t, l1, e, _⟩ := next_switch_ok hE hI hS h4
    exact ⟨t, l1, e⟩
  · rw [next_string hE hI (not_not.1 hS)]
    exact ⟨_, _, rfl⟩

/-- Behind a token that is neither an `Indent` nor a `LineBreak`, `next`
returns a token. -/
theorem next_ok_of_prev {l : Lexer} (h1 : l.prev.type ≠ TokenType.Indent)
    (h2 : l.prev.type ≠ TokenType.LineBreak) : ∃ t l1, l.next = .ok (t, l1) := by
  cases h : l.next with
  | ok r => exact ⟨r.1, r.2, rfl⟩
  | error f =>
    obtain ⟨hp, _⟩ := next_error _ l f rfl h
    exact absurd hp (fun e => e.elim h1 h2)


/-! ### The end of the input -/

theorem Next_at_eof {l : Lexer} (hE : l.isEOF = true) :
    l.Next = .ok (Token.zero, { l with prev := Token.zero }) :=
  (Next_ok_iff l _ _).2 ⟨l, next_eof hE, rfl⟩

theorem Peek_at_eof {l : Lexer} (hE : l.isEOF = true) : l.Peek = .ok (Token.zero, l) :=
  (Peek_ok_iff l _ _).2 ⟨⟨l, next_eof hE⟩, rfl⟩

/-- At the end of the input, behind the token of the end, calls of `Next` and
`Peek` return this token and leave the lexer as it is. -/
theorem calls_at_eof (calls : List Bool) (l : Lexer) (hE : l.isEOF = true)
    (hp : l.prev = Token.zero) :
    Lexer.calls calls l = .ok (List.replicate calls.length Token.zero, l) := by
  induction calls with
  | nil => rfl
  | cons b bs ih =>
    have e : { l with prev := Token.zero } = l := by
      cases l
      dsimp only at hp ⊢
      rw [hp]
    cases b with
    | true =>
      rw [Lexer.calls, if_pos rfl, Next_at_eof hE]
      dsimp only
      rw [e, ih]
      rfl
    | false =>
      rw [Lexer.calls, if_neg (by decide), Peek_at_eof hE]
      dsimp only
      rw [ih]
      rfl

/-- C15: the end of the input is sticky.  Once `Next` has returned a token of
kind `EOF`, every later call of `Next` or `Peek`, in any order and number,
returns the token of the end of the input again, and the lexer stays as the
first of these calls left it: its position does not change any more. -/
theorem eof_is_sticky (l l1 : Lexer) (t : Token) (h : l.Next = .ok (t, l1))
    (ht : t.type = TokenType.EOF) (calls : List Bool) :
    t = Token.zero ∧ l1.isEOF = true ∧
      Lexer.calls calls l1 = .ok (List.replicate calls.length Token.zero, l1) ∧
      ∀ l2 ts, Lexer.calls calls l1 = .ok (ts, l2) →
        l2.pos = l1.pos ∧ ∀ x ∈ ts, x.type = TokenType.EOF := by
  obtain ⟨l0, h0, rfl⟩ := (Next_ok_iff l l1 t).1 h
  obtain ⟨e1, e2⟩ := next_eof_token _ l l0 t rfl h0 ht
  have hE : Lexer.isEOF { l0 with prev := t } = true := e2
  have hc := calls_at_eof calls { l0 with prev := t } hE e1
  refine ⟨e1, hE, hc, ?_⟩
  intro l2 ts h2
  rw [hc] at h2
  injection h2 with h2
  injection h2 with h3 h4
  subst h3; subst h4
  exact ⟨rfl, fun x hx => by rw [(List.mem_replicate.1 hx).2]; rfl⟩

/-- The end of `\A` is reached with the second call of `Next`; a `Next`, a
`Peek` and a `Next` behind it return the token of the end. -/
theorem eof_is_sticky_witness :
    (⟨"\\A".toList, 2, 1, 3, ⟨TokenType.Component, "A".toList, 1, 1⟩⟩ : Lexer).Next =
        .ok (Token.zero, ⟨"\\A".toList, 2, 1, 3, Token.zero⟩) ∧
      Lexer.calls [true, false, true] ⟨"\\A".toList, 2, 1, 3, Token.zero⟩ =
        .ok (List.replicate 3 Token.zero, ⟨"\\A".toList, 2, 1, 3, Token.zero⟩) :=
  ⟨by decide!, (eof_is_sticky ⟨"\\A".toList, 2, 1, 3, ⟨TokenType.Component, "A".toList, 1, 1⟩⟩
    ⟨"\\A".toList, 2, 1, 3, Token.zero⟩ Token.zero (by decide!) rfl [true, false, true]).2.2.1⟩


/-! ### Indentation at the start of a line -/

/-- The method `advance` on a byte that is no line break: the same line, the
next column. -/
theorem advance_line_column {l : Lexer} {pre rest : List Char} {c : Char}
    (h : l.At pre (c :: rest)) (hc : c ≠ '\n') :
    l.advance.line = l.line ∧ l.advance.column = l.column + 1 := by
  have hcur := h.current_cons
  have hlt := h.pos_lt
  have hn : ¬ (l.pos ≥ l.input.length) := by omega
  have hg : l.input.getD l.pos nul = c := by
    unfold Lexer.current at hcur
    rw [if_neg hn] at hcur
    exact hcur
  unfold Lexer.advance
  rw [if_neg hn, if_neg (by rw [hg]; exact hc)]
  exact ⟨rfl, rfl⟩

theorem pos_ne_zero {l : Lexer} {pre rest : List Char} (h : l.At pre rest) (hp : pre ≠ []) :
    l.pos ≠ 0 := by
  rw [h.2]; intro h0; exact hp (List.length_eq_zero.1 h0)

/-- A tab at the start of a line: the token, and where the lexer stands then. -/
theorem Next_indent_tab {l : Lexer} {pre rest : List Char} (h : l.At pre ('\t' :: rest))
    (hp : pre ≠ [])
    (hprev : l.prev.type = TokenType.Indent ∨ l.prev.type = TokenType.LineBreak) :
    ∃ l1, l.Next = .ok (⟨TokenType.Indent, ['\t'], l.line, l.column⟩, l1) ∧
      l1.At (pre ++ ['\t']) rest ∧ l1.prev.type = TokenType.Indent ∧ l1.line = l.line ∧
      l1.column = l.column + 1 := by
  have hc := h.current_cons
  have hI : l.isIndent = true := isIndent_of_cases (pos_ne_zero h hp) (Or.inr hc) hprev
  have e : l.next = .ok (⟨TokenType.Indent, ['\t'], l.line, l.column⟩, l.advance) := by
    rw [next_indent h.isEOF_cons hI]
    unfold Lexer.lexIndent
    dsimp only
    rw [if_pos hc]
  obtain ⟨q1, q2⟩ := advance_line_column h (by decide)
  have a1 := h.advance
  exact ⟨{ l.advance with prev := ⟨TokenType.Indent, ['\t'], l.line, l.column⟩ },
    (Next_ok_iff _ _ _).2 ⟨l.advance, e, rfl⟩, ⟨a1.1, a1.2⟩, rfl, q1, q2⟩

/-- Four spaces at the start of a line: the token, and where the lexer stands
then. -/
theorem Next_indent_spaces {l : Lexer} {pre rest : List Char}
    (h : l.At pre (' ' :: ' ' :: ' ' :: ' ' :: rest)) (hp : pre ≠ [])
    (hprev : l.prev.type = TokenType.Indent ∨ l.prev.type = TokenType.LineBreak) :
    ∃ l1, l.Next = .ok (⟨TokenType.Indent, ['\t'], l.line, l.column⟩, l1) ∧
      l1.At (pre ++ [' ', ' ', ' ', ' ']) rest ∧ l1.prev.type = TokenType.Indent ∧
      l1.line = l.line ∧ l1.column = l.column + 4 := by
  have hc := h.current_cons
  have hI : l.isIndent = true := isIndent_of_cases (pos_ne_zero h hp) (Or.inl hc) hprev
  have a1 := h.advance
  have a2 := a1.advance
  have a3 := a2.advance
  have a4 := a3.advance
  have e0 : l.lexIndentSpaces 4 = some l.advance.advance.advance.advance := by
    rw [Lexer.lexIndentSpaces, if_pos hc, Lexer.lexIndentSpaces, if_pos a1.current_cons,
      Lexer.lexIndentSpaces, if_pos a2.current_cons, Lexer.lexIndentSpaces,
      if_pos a3.current_cons, Lexer.lexIndentSpaces]
  have e : l.next =
      .ok (⟨TokenType.Indent, ['\t'], l.line, l.column⟩, l.advance.advance.advance.advance) := by
    rw [next_indent h.isEOF_cons hI]
    unfold Lexer.lexIndent
    dsimp only
    rw [if_neg (by rw [hc]; decide), e0]
  obtain ⟨p1, q1⟩ := advance_line_column h (by decide)
  obtain ⟨p2, q2⟩ := advance_line_column a1 (by decide)
  obtain ⟨p3, q3⟩ := advance_line_column a2 (by decide)
  obtain ⟨p4, q4⟩ := advance_line_column a3 (by decide)
  refine ⟨{ l.advance.advance.advance.advance with
      prev := ⟨TokenType.Indent, ['\t'], l.line, l.column⟩ },
    (Next_ok_iff _ _ _).2 ⟨l.advance.advance.advance.advance, e, rfl⟩, ?_, rfl, ?_, ?_⟩
  · have e2 : pre ++ [' ', ' ', ' ', ' '] = pre ++ [' '] ++ [' '] ++ [' '] ++ [' '] := by simp
    rw [e2]; exact ⟨a4.1, a4.2⟩
  · show l.advance.advance.advance.advance.line = l.line
    rw [p4, p3, p2, p1]
  · show l.advance.advance.advance.advance.column = l.column + 4
    rw [q4, q3, q2, q1]
    ring

/-- Tabs and groups of four spaces at the start of a line: one `Indent` for
each of them, all with the value of a tab. -/
theorem indentUnits_consumes (u : List Bool) :
    ∀ (l : Lexer) (pre rest : List Char), l.At pre (indentUnits u ++ rest) → pre ≠ [] →
      (l.prev.type = TokenType.Indent ∨ l.prev.type = TokenType.LineBreak) →
      ∃ toks l1, l.Consumes toks l1 ∧ toks.length = u.length ∧
        (∀ t ∈ toks, t.type = TokenType.Indent ∧ t.Value = ['\t']) ∧
        l1.At (pre ++ indentUnits u) rest ∧
        (l1.prev.type = TokenType.Indent ∨ l1.prev.type = TokenType.LineBreak) ∧
        l1.line = l.line ∧ l1.column = l.column + ((indentUnits u).length : Nat) := by
  induction u with
  | nil =>
    intro l pre rest h _ hprev
    refine ⟨[], l, rfl, rfl, (fun t ht => by cases ht), ?_, hprev, rfl, ?_⟩
    · rw [indentUnits, List.append_nil]; exact h
    · simp [indentUnits]
  | cons b u ih =>
    intro l pre rest h hp hprev
    cases b with
    | true =>
      obtain ⟨l1, e1, a1, p1, q1, q2⟩ := @Next_indent_tab l pre (indentUnits u ++ rest) h hp hprev
      obtain ⟨toks, l2, c2, n2, t2, a2, p2, q3, q4⟩ := ih l1 _ rest a1 (by simp) (Or.inl p1)
      refine ⟨_ :: toks, l2, ⟨l1, e1, c2⟩, by rw [List.length_cons, n2]; rfl, ?_, ?_, p2,
        by rw [q3, q1], ?_⟩
      · intro t ht
        rcases List.mem_cons.1 ht with rfl | ht
        · exact ⟨rfl, rfl⟩
        · exact t2 t ht
      · have e : pre ++ indentUnits (true :: u) = pre ++ ['\t'] ++ indentUnits u := by
          simp [indentUnits]
        rw [e]; exact a2
      · rw [q4, q2]
        simp only [indentUnits, List.length_cons]
        push_cast
        ring
    | false =>
      obtain ⟨l1, e1, a1, p1, q1, q2⟩ :=
        @Next_indent_spaces l pre (indentUnits u ++ rest) h hp hprev
      obtain ⟨toks, l2, c2, n2, t2, a2, p2, q3, q4⟩ := ih l1 _ rest a1 (by simp) (Or.inl p1)
      refine ⟨_ :: toks, l2, ⟨l1, e1, c2⟩, by rw [List.length_cons, n2]; rfl, ?_, ?_, p2,
        by rw [q3, q1], ?_⟩
      · intro t ht
        rcases List.mem_cons.1 ht with rfl | ht
        · exact ⟨rfl, rfl⟩
        · exact t2 t ht
      · have e : pre ++ indentUnits (false :: u) = pre ++ [' ', ' ', ' ', ' '] ++ indentUnits u := by
          simp [indentUnits]
        rw [e]; exact a2
      · rw [q4, q2]
        simp only [indentUnits, List.length_cons]
        push_cast
        ring

/-- Before a byte that is neither a space nor a tab, or at the end of the
input, and behind an `Indent` or a `LineBreak`, `Next` returns a token that is
no `Indent`. -/
theorem Next_no_indent {l : Lexer} {pre rest : List Char} (h : l.At pre rest)
    (hprev : l.prev.type = TokenType.Indent ∨ l.prev.type = TokenType.LineBreak)
    (hr : ∀ c r, rest = c :: r → c ≠ ' ' ∧ c ≠ '\t') :
    ∃ t l2, l.Next = .ok (t, l2) ∧ t.type ≠ TokenType.Indent := by
  cases rest with
  | nil =>
    exact ⟨Token.zero, { l with prev := Token.zero },
      (Next_ok_iff _ _ _).2 ⟨l, next_eof h.isEOF_nil, rfl⟩, fun e => TokenType.noConfusion e⟩
  | cons c r =>
    obtain ⟨c1, c2⟩ := hr c r rfl
    have hc := h.current_cons
    obtain ⟨t, l1, e, _, e2⟩ := next_switch_ok h.isEOF_cons
      (isIndent_of_current (by rw [hc]; exact c1) (by rw [hc]; exact c2))
      (Plain_of_blank_prev hprev) (by rw [hc]; exact c1)
    exact ⟨t, { l1 with prev := t }, (Next_ok_iff _ _ _).2 ⟨l1, e, rfl⟩, e2⟩

/-- C11: at the start of a line that is not the first (the lexer stands behind
a non-empty part `pre` of the input and its previous token is an `Indent` or a
`LineBreak`), white space made of `k` units, each a tab or four spaces, gives
`k` calls of `Next` one `Indent` token each, all with the same value (a tab);
when the byte behind the units is neither a space nor a tab, the token after
them is no `Indent`, so the units yield exactly `k` of them. -/
theorem indent_units_yield_indents (u : List Bool) (l : Lexer) (pre rest : List Char)
    (h : l.At pre (indentUnits u ++ rest)) (hp : pre ≠ [])
    (hprev : l.prev.type = TokenType.Indent ∨ l.prev.type = TokenType.LineBreak)
    (hr : ∀ c r, rest = c :: r → c ≠ ' ' ∧ c ≠ '\t') :
    ∃ toks l1, l.Consumes toks l1 ∧ toks.length = u.length ∧
      (∀ t ∈ toks, t.type = TokenType.Indent ∧ t.Value = ['\t']) ∧
      l1.At (pre ++ indentUnits u) rest ∧
      ∃ t l2, l1.Next = .ok (t, l2) ∧ t.type ≠ TokenType.Indent := by
  obtain ⟨toks, l1, c1, n1, t1, a1, p1, _, _⟩ := indentUnits_consumes u l pre rest h hp hprev
  exact ⟨toks, l1, c1, n1, t1, a1, Next_no_indent a1 p1 hr⟩

/-- Behind the line break of `\A`, a tab, four spaces and a tab before `x`
give three `Indent` tokens. -/
theorem indent_units_yield_indents_witness :
    ∃ toks l1,
      Lexer.Consumes ⟨"\\A\n\t    \tx".toList, 3, 2, 1, ⟨TokenType.LineBreak, "\n".toList, 1, 2⟩⟩
        toks l1 ∧
      toks.length = [true, false, true].length ∧
      (∀ t ∈ toks, t.type = TokenType.Indent ∧ t.Value = ['\t']) ∧
      l1.At ("\\A\n".toList ++ indentUnits [true, false, true]) "x".toList ∧
      ∃ t l2, l1.Next = .ok (t, l2) ∧ t.type ≠ TokenType.Indent :=
  indent_units_yield_indents [true, false, true]
    ⟨"\\A\n\t    \tx".toList, 3, 2, 1, ⟨TokenType.LineBreak, "\n".toList, 1, 2⟩⟩
    "\\A\n".toList "x".toList ⟨by decide, by decide⟩ (by decide) (Or.inr rfl)
    (fun c r e => by
      injection e with e1 _
      subst e1
      exact ⟨by decide, by decide⟩)


/-! ### A run of spaces at the start of a line -/

theorem indentUnits_replicate (q : Nat) :
    indentUnits (List.replicate q false) = List.replicate (4 * q) ' ' := by
  induction q with
  | zero => rfl
  | succ q ih =>
    rw [List.replicate_succ, indentUnits, ih, show 4 * (q + 1) = 4 * q + 4 from by ring]
    rfl

theorem current_ne_space {l : Lexer} {pre rest : List Char} (h : l.At pre rest)
    (hr : ∀ r, rest ≠ ' ' :: r) : l.current ≠ ' ' := by
  cases rest with
  | nil => rw [h.current_nil]; decide
  | cons c r =>
    rw [h.current_cons]
    rintro rfl
    exact hr r rfl

/-- Fewer spaces than the loop of `lexIndent` still needs: the loop is left
before it has counted four. -/
theorem lexIndentSpaces_none (m : Nat) :
    ∀ (k : Nat) (l : Lexer) (pre rest : List Char), m < k →
      l.At pre (List.replicate m ' ' ++ rest) → (∀ r, rest ≠ ' ' :: r) →
      l.lexIndentSpaces k = none := by
  induction m with
  | zero =>
    intro k l pre rest hk h hr
    obtain ⟨k, rfl⟩ : ∃ j, k = j + 1 := ⟨k - 1, by omega⟩
    rw [List.replicate_zero, List.nil_append] at h
    rw [Lexer.lexIndentSpaces, if_neg (current_ne_space h hr)]
  | succ m ih =>
    intro k l pre rest hk h hr
    obtain ⟨k, rfl⟩ : ∃ j, k = j + 1 := ⟨k - 1, by omega⟩
    rw [List.replicate_succ, List.cons_append] at h
    rw [Lexer.lexIndentSpaces, if_pos h.current_cons]
    exact ih k l.advance _ rest (by omega) h.advance hr

/-- C12: at the start of a line that is not the first, a run of `n` spaces
with no further space behind it gives `n / 4` tokens `Indent`; the call of
`Next` after them panics with "invalid indent" if `n` is no multiple of 4 and
returns a token if it is.  The panic names the line and the column where the
lexer stands then, before the incomplete group: the line of the run and the
column `4 * (n / 4)` behind the column of its first space. -/
theorem spaces_run_fails_iff (n : Nat) (l : Lexer) (pre rest : List Char)
    (h : l.At pre (List.replicate n ' ' ++ rest)) (hp : pre ≠ [])
    (hprev : l.prev.type = TokenType.Indent ∨ l.prev.type = TokenType.LineBreak)
    (hr : ∀ r, rest ≠ ' ' :: r) :
    ∃ toks l1, l.Consumes toks l1 ∧ toks.length = n / 4 ∧
      (∀ t ∈ toks, t.type = TokenType.Indent) ∧
      l1.At (pre ++ List.replicate (4 * (n / 4)) ' ') (List.replicate (n % 4) ' ' ++ rest) ∧
      l1.line = l.line ∧ l1.column = l.column + ((4 * (n / 4) : Nat) : Int) ∧
      ((n % 4 ≠ 0 ∧ l1.Next = .error (Fault.invalidIndent l1.line l1.column) ∧
          (Fault.invalidIndent l1.line l1.column).isPanic = true) ∨
        (n % 4 = 0 ∧ ∃ t l2, l1.Next = .ok (t, l2))) := by
  have hn : List.replicate n ' ' =
      indentUnits (List.replicate (n / 4) false) ++ List.replicate (n % 4) ' ' := by
    rw [indentUnits_replicate, ← List.replicate_add]
    congr 1
    omega
  rw [hn, List.append_assoc] at h
  obtain ⟨toks, l1, c1, n1, t1, a1, p1, q1, q2⟩ :=
    indentUnits_consumes (List.replicate (n / 4) false) l pre _ h hp hprev
  rw [List.length_replicate] at n1
  rw [indentUnits_replicate] at a1
  rw [indentUnits_replicate, List.length_replicate] at q2
  refine ⟨toks, l1, c1, n1, fun t ht => (t1 t ht).1, a1, q1, q2, ?_⟩
  by_cases hm : n % 4 = 0
  · right
    rw [hm, List.replicate_zero, List.nil_append] at a1
    obtain ⟨t, l2, e⟩ := next_ok_of_current (current_ne_space a1 hr)
    exact ⟨hm, t, { l2 with prev := t }, (Next_ok_iff _ _ _).2 ⟨l2, e, rfl⟩⟩
  · left
    refine ⟨hm, ?_, rfl⟩
    obtain ⟨m, hm1⟩ : ∃ j, n % 4 = j + 1 := ⟨n % 4 - 1, by omega⟩
    have hlt : n % 4 < 4 := Nat.mod_lt _ (by decide)
    have hnone := lexIndentSpaces_none (n % 4) 4 l1 _ rest hlt a1 hr
    rw [hm1, List.replicate_succ, List.cons_append] at a1
    have hc := a1.current_cons
    have hI : l1.isIndent = true :=
      isIndent_of_cases (pos_ne_zero a1 (by simp [hp])) (Or.inl hc) p1
    rw [Next_error_iff, next_indent a1.isEOF_cons hI]
    unfold Lexer.lexIndent
    dsimp only
    rw [if_neg (by rw [hc]; decide), hnone]

/-- Behind the line break of `\A`, six spaces before `x`: one `Indent`, and
then the panic for line 2, column 5. -/
theorem spaces_run_fails_iff_witness :
    ∃ toks l1,
      Lexer.Consumes ⟨"\\A\n      x".toList, 3, 2, 1, ⟨TokenType.LineBreak, "\n".toList, 1, 2⟩⟩
        toks l1 ∧
      toks.length = 6 / 4 ∧ (∀ t ∈ toks, t.type = TokenType.Indent) ∧
      l1.At ("\\A\n".toList ++ List.replicate (4 * (6 / 4)) ' ')
        (List.replicate (6 % 4) ' ' ++ "x".toList) ∧
      l1.line = 2 ∧ l1.column = 1 + ((4 * (6 / 4) : Nat) : Int) ∧
      ((6 % 4 ≠ 0 ∧ l1.Next = .error (Fault.invalidIndent l1.line l1.column) ∧
          (Fault.invalidIndent l1.line l1.column).isPanic = true) ∨
        (6 % 4 = 0 ∧ ∃ t l2, l1.Next = .ok (t, l2))) :=
  spaces_run_fails_iff 6
    ⟨"\\A\n      x".toList, 3, 2, 1, ⟨TokenType.LineBreak, "\n".toList, 1, 2⟩⟩
    "\\A\n".toList "x".toList ⟨by decide, by decide⟩ (by decide) (Or.inr rfl)
    (fun r e => by
      injection e with e1 _
      exact absurd e1 (by decide))


/-! ### Property names and text behind spaces -/

/-- Bytes that are neither `v` nor `t` are passed by the look-ahead. -/
theorem lookAheadFrom_skip (v t : Char) (a s : List Char) (i : Nat)
    (ha : ∀ c ∈ a, c ≠ v ∧ c ≠ t) :
    lookAheadFrom v t (a ++ s) i = lookAheadFrom v t s (i + a.length) := by
  induction a generalizing i with
  | nil => rfl
  | cons c a ih =>
    obtain ⟨c1, c2⟩ := ha c (List.mem_cons_self _ _)
    rw [List.cons_append, lookAheadFrom, if_neg c1, if_neg c2,
      ih (i + 1) (fun x hx => ha x (List.mem_cons_of_mem _ hx)), List.length_cons]
    congr 1
    omega

/-- A space that `next` skips leaves the lexer outside a quoted string. -/
theorem Plain_advance_space {l : Lexer} {pre rest : List Char} (h : l.At pre (' ' :: rest))
    (hS : l.Plain) : l.advance.Plain := by
  intro h1
  apply hS
  refine ⟨by rw [← advance_prev]; exact h1.1, ?_⟩
  have e := h1.2
  rw [h.advance.lookAhead] at e
  rw [h.lookAhead, lookAheadFrom, if_neg (by decide), if_neg (by decide)]
  rw [List.length_append] at e
  exact e

/-- The method `next` passes over spaces that are no indentation, outside a
quoted string. -/
theorem next_skip_spaces_plain (w : List Char) :
    ∀ {l : Lexer} {pre rest : List Char}, l.At pre (w ++ rest) → (∀ c ∈ w, c = ' ') →
      l.Plain →
      (w = [] ∨ (l.prev.type ≠ TokenType.Indent ∧ l.prev.type ≠ TokenType.LineBreak)) →
      ∃ l1 : Lexer, l1.At (pre ++ w) rest ∧ l1.prev = l.prev ∧ l1.Plain ∧
        l.next = l1.next := by
  induction w with
  | nil =>
    intro l pre rest h _ hS _
    exact ⟨l, by rw [List.append_nil]; exact h, rfl, hS, rfl⟩
  | cons c w ih =>
    intro l pre rest h hw hS hI
    have hc : c = ' ' := hw c (List.mem_cons_self _ _)
    subst hc
    rw [List.cons_append] at h
    obtain ⟨p1, p2⟩ : l.prev.type ≠ TokenType.Indent ∧ l.prev.type ≠ TokenType.LineBreak :=
      hI.resolve_left (by simp)
    have e1 := next_space h.isEOF_cons (isIndent_of_prev p1 p2) hS h.current_cons
    obtain ⟨l1, h1, q1, s1, e2⟩ := ih h.advance (fun x hx => hw x (List.mem_cons_of_mem _ hx))
      (Plain_advance_space h hS) (Or.inr (by rw [advance_prev]; exact ⟨p1, p2⟩))
    refine ⟨l1, ?_, by rw [q1, advance_prev], s1, by rw [e1, e2]⟩
    have e : pre ++ ' ' :: w = pre ++ [' '] ++ w := by simp
    rw [e]; exact h1

/-- A run of letters, digits and underscores with no colon right behind it
fails the test of `isProperty`. -/
theorem isProperty_run {l : Lexer} {pre name rest : List Char} (h : l.At pre (name ++ rest))
    (hn : ∀ x ∈ name, isAlphaNumeric x = true) (hr : runEnds rest)
    (hc : ∀ r, rest ≠ ':' :: r) : ¬ (l.isProperty = true) := by
  unfold Lexer.isProperty
  rw [h.lookAhead, lookAheadFrom_skip ':' '\n' name rest pre.length
    (fun x hx => ⟨(isAlphaNumeric_ne (hn x hx)).2.2.2.2.1,
      (isAlphaNumeric_ne (hn x hx)).2.2.2.2.2.1⟩)]
  cases rest with
  | nil => simp [lookAheadFrom]
  | cons d r =>
    have hd : isAlphaNumeric d = false := hr d r rfl
    have d1 : d ≠ ':' := fun e => hc r (by rw [e])
    rw [lookAheadFrom, if_neg d1]
    by_cases d2 : d = '\n'
    · rw [if_pos d2]; simp
    rw [if_neg d2]
    cases he : lookAheadFrom ':' '\n' r (pre.length + name.length + 1) with
    | none => simp
    | some e =>
      have hle := (lookAheadFrom_le _ _ _ _ _ he).1
      show ¬ ((Margo.slice l.input l.pos e).all isAlphaNumeric = true)
      unfold Margo.slice
      rw [h.1, h.2, List.drop_left, List.take_append_eq_append_take]
      obtain ⟨k, hk⟩ : ∃ k, e - pre.length - name.length = k + 1 :=
        ⟨e - pre.length - name.length - 1, by omega⟩
      rw [hk, List.take_succ_cons, List.all_append, List.all_cons, hd]
      simp

/-- The last case of `next`: text up to the end of the line. -/
theorem Lexes_text_of {l : Lexer} {pre txt rest : List Char} {c : Char}
    (h : l.At pre ((c :: txt) ++ rest)) (hS : l.Plain) (hI : ¬ (l.isIndent = true))
    (c1 : c ≠ ' ') (c3 : c ≠ '\\') (c4 : c ≠ '"') (c5 : c ≠ ':') (c6 : c ≠ '\n')
    (c7 : c ≠ '!') (hnl : ∀ x ∈ txt, x ≠ '\n') (hP : ¬ (l.isProperty = true))
    (hr : lineEnds rest) :
    l.Lexes TokenType.Text (c :: txt) (pre ++ c :: txt) rest := by
  have hc : l.current = c := Lexer.At.current_cons (by rw [List.cons_append] at h; exact h)
  have hE : ¬ (l.isEOF = true) := Lexer.At.isEOF_cons (by rw [List.cons_append] at h; exact h)
  have h2 := Lexer.At.advanceWhile (fun c => decide (c ≠ '\n'))
    (l.input.length - l.pos) h
    (fun x hx => by
      rcases List.mem_cons.1 hx with rfl | hx
      · exact decide_eq_true c6
      · exact decide_eq_true (hnl x hx))
    (fun x r hx => by
      rcases hr with rfl | ⟨r1, rfl⟩
      · cases hx
      · injection hx with hx _; subst hx; decide)
    (by rw [h.remaining, List.length_append]; omega)
  refine ⟨l.lexText.1, l.lexText.2, ?_, rfl, Lexer.At.slice h h2, h2⟩
  rw [next_switch hE hI hS (by rw [hc]; exact c1), if_neg (by rw [hc]; exact c3),
    if_neg (by rw [hc]; exact c4), if_neg (by rw [hc]; exact c5),
    if_neg (by rw [hc]; exact c6), if_neg (by rw [hc]; exact c7), if_neg hP]

/-- C13: outside a quoted string and outside the indentation of a line, let
the lexer stand before spaces and a non-empty run of letters, digits and
underscores (the run ends where `rest` starts).  Then `Next` returns a token,
and it is a `Property` if and only if a colon follows the run at once; the
value of the `Property` is the run, and the next token is the `Colon`. -/
theorem property_iff_colon (l : Lexer) (pre sp run rest : List Char) (c : Char)
    (h : l.At pre (sp ++ ((c :: run) ++ rest))) (hsp : ∀ x ∈ sp, x = ' ')
    (hrun : ∀ x ∈ c :: run, isAlphaNumeric x = true) (hrest : runEnds rest)
    (hS : l.Plain)
    (hI : sp = [] ∨ (l.prev.type ≠ TokenType.Indent ∧ l.prev.type ≠ TokenType.LineBreak)) :
    ∃ t l1, l.Next = .ok (t, l1) ∧
      (t.type = TokenType.Property ↔ ∃ r, rest = ':' :: r) ∧
      (t.type = TokenType.Property →
        t.Value = c :: run ∧ l1.At (pre ++ sp ++ c :: run) rest ∧
        ∃ t2 l2, l1.Next = .ok (t2, l2) ∧ t2.type = TokenType.Colon) := by
  obtain ⟨l0, a0, _, s0, e0⟩ := next_skip_spaces_plain sp h hsp hS hI
  by_cases hc : ∃ r, rest = ':' :: r
  · obtain ⟨r, rfl⟩ := hc
    obtain ⟨t, l2, hty, hv, _, hnx, hat, hprev⟩ :=
      (Lexer.Lexes.of_next_eq e0 (Lexes_property a0 s0 hrun)).tokens
    refine ⟨t, l2, hnx, ⟨fun _ => ⟨r, rfl⟩, fun _ => hty⟩, fun _ => ⟨hv, hat, ?_⟩⟩
    obtain ⟨t2, l3, hty2, _, _, hnx2, _, _⟩ :=
      (Lexes_colon hat (Plain_of_prev (by rw [hprev, hty]; decide))).tokens
    exact ⟨t2, l3, hnx2, hty2⟩
  · have hcur : l0.current = c :=
      Lexer.At.current_cons (by rw [List.cons_append] at a0; exact a0)
    have hE : ¬ (l0.isEOF = true) :=
      Lexer.At.isEOF_cons (by rw [List.cons_append] at a0; exact a0)
    obtain ⟨c1, c2, c3, c4, c5, c6, c7⟩ := isAlphaNumeric_ne (hrun c (List.mem_cons_self _ _))
    have hP := isProperty_run a0 hrun hrest (fun r e => hc ⟨r, e⟩)
    have e1 : l.next = .ok l0.lexText := by
      rw [e0, next_switch hE (isIndent_of_current (by rw [hcur]; exact c1)
        (by rw [hcur]; exact c2)) s0 (by rw [hcur]; exact c1), if_neg (by rw [hcur]; exact c3),
        if_neg (by rw [hcur]; exact c4), if_neg (by rw [hcur]; exact c5),
        if_neg (by rw [hcur]; exact c6), if_neg (by rw [hcur]; exact c7), if_neg hP]
    have hty : l0.lexText.1.type = TokenType.Text := rfl
    refine ⟨l0.lexText.1, { l0.lexText.2 with prev := l0.lexText.1 },
      (Next_ok_iff _ _ _).2 ⟨l0.lexText.2, e1, rfl⟩, ⟨fun e => ?_, fun e => absurd e hc⟩,
      fun e => ?_⟩
    · rw [hty] at e; cases e
    · rw [hty] at e; cases e

/-- Behind the indentation of the second line of `\A`, and a space behind the
flag, the run `Title` with a colon behind it is a `Property`. -/
theorem property_iff_colon_witness :
    ∃ t l1,
      (⟨"\\A\n    !B Title: x".toList, 9, 2, 7, ⟨TokenType.Bool, "B".toList, 2, 7⟩⟩ :
        Lexer).Next = .ok (t, l1) ∧
      (t.type = TokenType.Property ↔ ∃ r, ": x".toList = ':' :: r) ∧
      (t.type = TokenType.Property →
        t.Value = 'T' :: "itle".toList ∧
        l1.At ("\\A\n    !B".toList ++ " ".toList ++ 'T' :: "itle".toList) ": x".toList ∧
        ∃ t2 l2, l1.Next = .ok (t2, l2) ∧ t2.type = TokenType.Colon) :=
  property_iff_colon ⟨"\\A\n    !B Title: x".toList, 9, 2, 7, ⟨TokenType.Bool, "B".toList, 2, 7⟩⟩
    "\\A\n    !B".toList " ".toList "itle".toList ": x".toList 'T'
    ⟨by decide, by decide⟩ (by decide) (by decide)
    (fun c r e => by
      injection e with e1 _
      subst e1
      decide)
    (Plain_of_prev (by decide)) (Or.inr ⟨by decide, by decide⟩)

/-- C14: outside a quoted string, let the lexer stand before spaces and a
byte `c` that starts no other kind of token: it is no backslash, exclamation
mark, quote, colon or line break, what stands from it to the end of the line
does not pass the test for a property name, and it is not read as
indentation.  Then `Next` returns one `Text` token whose value is the input
from `c` up to the line break or the end of the input, byte for byte. -/
theorem text_up_to_line_end (l : Lexer) (pre sp txt rest : List Char) (c : Char)
    (h : l.At pre (sp ++ ((c :: txt) ++ rest))) (hsp : ∀ x ∈ sp, x = ' ')
    (c1 : c ≠ ' ') (c3 : c ≠ '\\') (c4 : c ≠ '"') (c5 : c ≠ ':') (c6 : c ≠ '\n')
    (c7 : c ≠ '!') (htxt : ∀ x ∈ txt, x ≠ '\n') (hrest : lineEnds rest)
    (hprop : propertyLike (c :: txt) = false) (hS : l.Plain)
    (hI : (sp = [] ∧ c ≠ '\t') ∨
      (l.prev.type ≠ TokenType.Indent ∧ l.prev.type ≠ TokenType.LineBreak)) :
    ∃ t l1, l.Next = .ok (t, l1) ∧ t.type = TokenType.Text ∧ t.Value = c :: txt ∧
      l1.At (pre ++ sp ++ c :: txt) rest := by
  obtain ⟨l0, a0, p0, s0, e0⟩ := next_skip_spaces_plain sp h hsp hS
    (hI.elim (fun x => Or.inl x.1) Or.inr)
  have hcur : l0.current = c :=
    Lexer.At.current_cons (by rw [List.cons_append] at a0; exact a0)
  have hI0 : ¬ (l0.isIndent = true) := by
    rcases hI with ⟨_, c2⟩ | ⟨p1, p2⟩
    · exact isIndent_of_current (by rw [hcur]; exact c1) (by rw [hcur]; exact c2)
    · exact isIndent_of_prev (by rw [p0]; exact p1) (by rw [p0]; exact p2)
  have hP : ¬ (l0.isProperty = true) := by
    rw [a0.isProperty (fun x hx => by
      rcases List.mem_cons.1 hx with rfl | hx
      · exact c6
      · exact htxt x hx) hrest, hprop]
    simp
  obtain ⟨t, l2, hty, hv, _, hnx, hat, _⟩ :=
    (Lexer.Lexes.of_next_eq e0
      (Lexes_text_of a0 s0 hI0 c1 c3 c4 c5 c6 c7 htxt hP hrest)).tokens
  exact ⟨t, l2, hnx, hty, hv, hat⟩

/-- Behind the marker `\A` and a space, the text with a link, inner quotes
and trailing spaces is one token, up to the line break. -/
theorem text_up_to_line_end_witness :
    ∃ t l1,
      (⟨"\\A [a](/b) \"c\"  \nx".toList, 2, 1, 3, ⟨TokenType.Component, "A".toList, 1, 1⟩⟩ :
        Lexer).Next = .ok (t, l1) ∧
      t.type = TokenType.Text ∧ t.Value = '[' :: "a](/b) \"c\"  ".toList ∧
      l1.At ("\\A".toList ++ " ".toList ++ '[' :: "a](/b) \"c\"  ".toList) "\nx".toList :=
  text_up_to_line_end
    ⟨"\\A [a](/b) \"c\"  \nx".toList, 2, 1, 3, ⟨TokenType.Component, "A".toList, 1, 1⟩⟩
    "\\A".toList " ".toList "a](/b) \"c\"  ".toList "\nx".toList '['
    ⟨by decide, by decide⟩ (by decide) (by decide) (by decide) (by decide) (by decide)
    (by decide) (by decide) (by decide) (Or.inr ⟨"x".toList, rfl⟩) (by decide)
    (Plain_of_prev (by decide)) (Or.inr ⟨by decide, by decide⟩)


/-! ### A quoted string as the value of a property -/

theorem parseString_malformed (p : Parser) (t1 t2 : Token) (l1 l2 : Lexer)
    (h1 : p.lexer.Next = .ok (t1, l1)) (h2 : l1.Next = .ok (t2, l2))
    (e1 : t1.type = TokenType.Quote) (e2 : t2.type ≠ TokenType.Text) :
    Parser.parseString p = .error (Fault.malformedString t2.Line t2.Column) := by
  rw [Parser.parseString, h1]
  dsimp only
  rw [if_neg (by rw [e1]; exact fun h => h rfl), h2]
  dsimp only
  rw [if_pos e2]

/-- The lexer that `Next` leaves has the returned token as its previous one. -/
theorem Next_prev {l l1 : Lexer} {t : Token} (h : l.Next = .ok (t, l1)) : l1.prev = t := by
  obtain ⟨l2, _, rfl⟩ := (Next_ok_iff l l1 t).1 h
  rfl

/-- Behind a token that is neither an `Indent` nor a `LineBreak`, `Next`
returns a token. -/
theorem Next_ok_of_prev {l : Lexer} (h1 : l.prev.type ≠ TokenType.Indent)
    (h2 : l.prev.type ≠ TokenType.LineBreak) : ∃ t l1, l.Next = .ok (t, l1) := by
  obtain ⟨t, l1, e⟩ := next_ok_of_prev h1 h2
  exact ⟨t, { l1 with prev := t }, (Next_ok_iff _ _ _).2 ⟨l1, e, rfl⟩⟩

/-- C17: where the value of a property starts with a quote (`Peek` returns a
`Quote`), `parsePropertyValue` accepts it exactly when the three tokens that
`Next` returns are a `Quote`, a `Text` and a `Quote`, and then the value is
the text.  In every other case it returns an error value and no value: the
error "malformed string", or the error "expected closing quote"; it does not
panic. -/
theorem quoted_value_or_error (n : Nat) (p : Parser) (q : Token) (l0 : Lexer)
    (hq : p.lexer.Peek = .ok (q, l0)) (hty : q.type = TokenType.Quote) :
    ∃ l1, p.lexer.Next = .ok (q, l1) ∧
      ((∃ t2 l2 t3 l3, l1.Next = .ok (t2, l2) ∧ t2.type = TokenType.Text ∧
          l2.Next = .ok (t3, l3) ∧ t3.type = TokenType.Quote ∧
          Parser.parsePropertyValue (n + 1) p =
            .ok (Value.str t2.Value, { p with lexer := l3 })) ∨
        ((¬ ∃ t2 l2 t3 l3, l1.Next = .ok (t2, l2) ∧ t2.type = TokenType.Text ∧
            l2.Next = .ok (t3, l3) ∧ t3.type = TokenType.Quote) ∧
          ∃ f, Parser.parsePropertyValue (n + 1) p = .error f ∧ f.isError = true ∧
            f.isPanic = false ∧
            ((∃ a b, f = Fault.malformedString a b) ∨
              ∃ a b v, f = Fault.expectedClosingQuote a b v))) := by
  obtain ⟨_, l1, h1⟩ := Peek_Next hq
  refine ⟨l1, h1, ?_⟩
  have hp1 : l1.prev = q := Next_prev h1
  obtain ⟨t2, l2, h2⟩ := Next_ok_of_prev (l := l1) (by rw [hp1, hty]; decide)
    (by rw [hp1, hty]; decide)
  have hv := parsePropertyValue_quote n p q l1 h1 hty
  by_cases e2 : t2.type = TokenType.Text
  · have hp2 : l2.prev = t2 := Next_prev h2
    obtain ⟨t3, l3, h3⟩ := Next_ok_of_prev (l := l2) (by rw [hp2, e2]; decide)
      (by rw [hp2, e2]; decide)
    by_cases e3 : t3.type = TokenType.Quote
    · left
      refine ⟨t2, l2, t3, l3, h2, e2, h3, e3, ?_⟩
      rw [hv, parseString_step p q t2 t3 l1 l2 l3 h1 h2 h3 hty e2 e3]
    · right
      constructor
      · rintro ⟨t2a, l2a, t3a, l3a, k2, _, k3, k4⟩
        rw [h2] at k2
        injection k2 with k2
        injection k2 with _ k2
        subst k2
        rw [h3] at k3
        injection k3 with k3
        injection k3 with k3 _
        subst k3
        exact e3 k4
      · refine ⟨Fault.expectedClosingQuote t3.Line t3.Column t3.Value, ?_, rfl, rfl,
          Or.inr ⟨_, _, _, rfl⟩⟩
        rw [hv, parseString_fail p q t2 t3 l1 l2 l3 h1 h2 h3 hty e2 e3]
  · right
    constructor
    · rintro ⟨t2a, l2a, t3a, l3a, k2, k3, _, _⟩
      rw [h2] at k2
      injection k2 with k2
      injection k2 with k2 _
      subst k2
      exact e2 k3
    · refine ⟨Fault.malformedString t2.Line t2.Column, ?_, rfl, rfl, Or.inl ⟨_, _, rfl⟩⟩
      rw [hv, parseString_malformed p q t2 l1 l2 h1 h2 hty e2]

set_option maxRecDepth 100000 in
/-- The property `P` of `\A` opens a quote that nothing closes on the line: the
tokens are a `Quote`, the `Text` `abc` and the end of the input, and `Parse`
returns the error "expected closing quote". -/
theorem quoted_value_or_error_witness :
    (∃ l1, (Parser.mk ⟨"\\A\n    P: \"abc".toList, 9, 2, 7, ⟨TokenType.Colon, ":".toList, 2, 6⟩⟩
          1).lexer.Next = .ok (⟨TokenType.Quote, "\"".toList, 2, 8⟩, l1) ∧
      ((∃ t2 l2 t3 l3, l1.Next = .ok (t2, l2) ∧ t2.type = TokenType.Text ∧
          l2.Next = .ok (t3, l3) ∧ t3.type = TokenType.Quote ∧
          Parser.parsePropertyValue (0 + 1)
              ⟨⟨"\\A\n    P: \"abc".toList, 9, 2, 7, ⟨TokenType.Colon, ":".toList, 2, 6⟩⟩, 1⟩ =
            .ok (Value.str t2.Value,
              { (Parser.mk ⟨"\\A\n    P: \"abc".toList, 9, 2, 7,
                  ⟨TokenType.Colon, ":".toList, 2, 6⟩⟩ 1) with lexer := l3 })) ∨
        ((¬ ∃ t2 l2 t3 l3, l1.Next = .ok (t2, l2) ∧ t2.type = TokenType.Text ∧
            l2.Next = .ok (t3, l3) ∧ t3.type = TokenType.Quote) ∧
          ∃ f, Parser.parsePropertyValue (0 + 1)
              ⟨⟨"\\A\n    P: \"abc".toList, 9, 2, 7, ⟨TokenType.Colon, ":".toList, 2, 6⟩⟩, 1⟩ =
              .error f ∧ f.isError = true ∧ f.isPanic = false ∧
            ((∃ a b, f = Fault.malformedString a b) ∨
              ∃ a b v, f = Fault.expectedClosingQuote a b v)))) ∧
      Parse "\\A\n    P: \"abc".toList = .error (Fault.expectedClosingQuote 0 0 []) ∧
      Parse "\\A\n    P: \"\n".toList = .error (Fault.malformedString 2 8) ∧
      Parse "\\A\n    P: \"abc\"".toList =
        .ok [Node.ComponentNode "A".toList [("P".toList, Value.str "abc".toList)] []] :=
  ⟨quoted_value_or_error 0
    ⟨⟨"\\A\n    P: \"abc".toList, 9, 2, 7, ⟨TokenType.Colon, ":".toList, 2, 6⟩⟩, 1⟩
    ⟨TokenType.Quote, "\"".toList, 2, 8⟩
    ⟨"\\A\n    P: \"abc".toList, 9, 2, 7, ⟨TokenType.Colon, ":".toList, 2, 6⟩⟩
    (by decide!) rfl,
    eq_of_resultEqb 8 _ _ (by decide!), eq_of_resultEqb 8 _ _ (by decide!),
    eq_of_resultEqb 8 _ _ (by decide!)⟩


/-! ### The registry: `Get` after `Register` -/

theorem mapGet_mapSet {α : Type} (m : List (List Char × α)) (k k1 : List Char) (v : α) :
    mapGet (mapSet m k v) k1 = if k = k1 then some v else mapGet m k1 := by
  induction m with
  | nil =>
    rw [mapSet, mapGet]
    rfl
  | cons kv rest ih =>
    obtain ⟨k0, v0⟩ := kv
    rw [mapSet]
    by_cases h0 : k0 = k
    · rw [if_pos h0, mapGet, mapGet]
      subst h0
      by_cases h1 : k0 = k1
      · rw [if_pos h1, if_pos h1]
      · rw [if_neg h1, if_neg h1, if_neg h1]
    · rw [if_neg h0, mapGet, ih, mapGet]
      by_cases h1 : k0 = k1
      · rw [if_pos h1, if_pos h1, if_neg (fun e => h0 (h1.trans e.symm))]
      · rw [if_neg h1, if_neg h1]

/-- What a call of `Register` that returns has done. -/
theorem Register_ok {heap heap1 : List layout} {r sub : Nat} {name : List Char}
    {component : Component}
    (h : layout.Register heap r name component = .ok (sub, heap1)) :
    ∃ lay, heap[r]? = some lay ∧ sub = heap.length ∧
      heap1 = (heap ++ [NewLayout name]).set r
        (layout.mk lay.name (mapSet lay.components (ToLower name) ⟨component, heap.length⟩)) := by
  unfold layout.Register at h
  dsimp only at h
  cases ht : component.type with
  | untyped => rw [ht] at h; cases h
  | other => rw [ht] at h; cases h
  | func ins outs =>
    rw [ht] at h
    dsimp only at h
    by_cases c1 : ins.length = 1 ∧ ins.head? ≠ some true
    · rw [if_pos c1] at h; cases h
    rw [if_neg c1] at h
    by_cases c2 : outs.length ≠ 1
    · rw [if_pos c2] at h; cases h
    rw [if_neg c2] at h
    by_cases c3 : outs.head? ≠ some true
    · rw [if_pos c3] at h; cases h
    rw [if_neg c3] at h
    cases hl : heap[r]? with
    | none => rw [hl] at h; cases h
    | some lay =>
      rw [hl] at h
      injection h with h
      injection h with h1 h2
      exact ⟨lay, rfl, h1.symm, h2.symm⟩

/-- The method `Get` after a call of `Register`: the registered component for
the names with the lower-casing of the registered name in the layout of the
call, and what `Get` returned before for all other names and layouts. -/
theorem Get_Register {heap heap1 : List layout} {r sub : Nat} {name : List Char}
    {component : Component}
    (h : layout.Register heap r name component = .ok (sub, heap1)) (r1 : Nat)
    (hr1 : r1 < heap.length) (m : List Char) :
    r1 < heap1.length ∧
      layout.Get heap1 r1 m =
        if r = r1 ∧ ToLower name = ToLower m then .ok (some component)
        else layout.Get heap r1 m := by
  obtain ⟨lay, hl, _, rfl⟩ := Register_ok h
  have hr : r < heap.length := by
    by_contra hn
    rw [List.getElem?_eq_none (by omega)] at hl
    cases hl
  constructor
  · rw [List.length_set, List.length_append]; omega
  unfold layout.Get
  by_cases e : r = r1
  · subst e
    rw [List.getElem?_set_self (by rw [List.length_append]; omega), hl]
    dsimp only
    rw [mapGet_mapSet]
    by_cases e2 : ToLower name = ToLower m
    · rw [if_pos e2, if_pos ⟨rfl, e2⟩]
    · rw [if_neg e2, if_neg (fun x => e2 x.2)]
  · rw [List.getElem?_set_ne e, List.getElem?_append_left hr1, if_neg (fun x => e x.1)]

/-- The method `Get` after calls of `Register`. -/
theorem Get_registerAll (m : List Char) (r : Nat)
    (calls : List (Nat × List Char × Component)) :
    ∀ (heap heap1 : List layout), r < heap.length → registerAll calls heap = .ok heap1 →
      r < heap1.length ∧
        layout.Get heap1 r m =
          match lastRegistered r m calls with
          | some u => .ok (some u)
          | none => layout.Get heap r m := by
  induction calls with
  | nil =>
    intro heap heap1 hr h
    injection h with h
    subst h
    exact ⟨hr, rfl⟩
  | cons call calls ih =>
    intro heap heap1 hr h
    obtain ⟨r0, name, component⟩ := call
    rw [registerAll] at h
    cases hreg : layout.Register heap r0 name component with
    | error e => rw [hreg] at h; cases h
    | ok res =>
      obtain ⟨sub, heap0⟩ := res
      rw [hreg] at h
      dsimp only at h
      obtain ⟨q1, q2⟩ := Get_Register hreg r hr m
      obtain ⟨q3, q4⟩ := ih heap0 heap1 q1 h
      refine ⟨q3, ?_⟩
      rw [q4, lastRegistered]
      cases lastRegistered r m calls with
      | some u => rfl
      | none =>
        dsimp only
        rw [q2]
        by_cases e : r0 = r ∧ ToLower name = ToLower m
        · rw [if_pos e, if_pos e]
        · rw [if_neg e, if_neg e]

/-- C20: after any calls of `Register` that return, on this layout or on
others, `Get(m)` on a layout `r` returns the component of the most recent
call that registered, with `r`, a name whose lower-casing is the lower-casing
of `m`, and what it returned before these calls when there is no such call.
For a layout that was new before the calls, `Get(m)` therefore returns
`(u, true)` exactly for the component `u` of that most recent call, and
`(nil, false)`, without failing, when no call registered such a name. -/
theorem get_most_recent_registration (heap heap1 : List layout) (r : Nat) (m : List Char)
    (calls : List (Nat × List Char × Component)) (hr : r < heap.length)
    (hcalls : registerAll calls heap = .ok heap1) :
    (layout.Get heap1 r m =
      match lastRegistered r m calls with
      | some u => .ok (some u)
      | none => layout.Get heap r m) ∧
    ∀ n, heap[r]? = some (NewLayout n) →
      layout.Get heap1 r m = .ok (lastRegistered r m calls) := by
  obtain ⟨_, q⟩ := Get_registerAll m r calls heap heap1 hr hcalls
  refine ⟨q, fun n hn => ?_⟩
  rw [q]
  cases lastRegistered r m calls with
  | some u => rfl
  | none =>
    dsimp only
    unfold layout.Get
    rw [hn]
    rfl

/-- The layout `base` is new; `Hero` is registered with it, `Title` with the
sub-layout of `Hero`, and `HERO` with `base` again.  Then `Get("hero")` on
`base` returns the component of the last of these calls, and `Get("title")`
finds nothing. -/
theorem get_most_recent_registration_witness :
    layout.Get
        [⟨"base".toList, [("hero".toList, ⟨⟨GoType.func [true] [true], 3⟩, 3⟩)]⟩,
          ⟨"Hero".toList, [("title".toList, ⟨⟨GoType.func [true] [true], 2⟩, 2⟩)]⟩,
          ⟨"Title".toList, []⟩, ⟨"HERO".toList, []⟩] 0 "hero".toList =
      .ok (some ⟨GoType.func [true] [true], 3⟩) ∧
    layout.Get
        [⟨"base".toList, [("hero".toList, ⟨⟨GoType.func [true] [true], 3⟩, 3⟩)]⟩,
          ⟨"Hero".toList, [("title".toList, ⟨⟨GoType.func [true] [true], 2⟩, 2⟩)]⟩,
          ⟨"Title".toList, []⟩, ⟨"HERO".toList, []⟩] 0 "title".toList =
      .ok none :=
  ⟨((get_most_recent_registration [NewLayout "base".toList] _ 0 "hero".toList
      [(0, "Hero".toList, ⟨GoType.func [true] [true], 1⟩),
        (1, "Title".toList, ⟨GoType.func [true] [true], 2⟩),
        (0, "HERO".toList, ⟨GoType.func [true] [true], 3⟩)] (by decide) (by decide)).2
      "base".toList rfl).trans (congrArg Except.ok (by decide)),
    ((get_most_recent_registration [NewLayout "base".toList] _ 0 "title".toList
      [(0, "Hero".toList, ⟨GoType.func [true] [true], 1⟩),
        (1, "Title".toList, ⟨GoType.func [true] [true], 2⟩),
        (0, "HERO".toList, ⟨GoType.func [true] [true], 3⟩)] (by decide) (by decide)).2
      "base".toList rfl).trans (congrArg Except.ok (by decide))⟩


/-! ### Tokens that the parser does not expect -/

/-- C18, as the code has it: where the loop of `parseBlock` meets a
`Property`, `Bool`, `Colon`, `Quote` or `Number` (and does not leave the
block), and where the loop of `parseComponentNode` meets a `Colon`, `Quote`
or `Number` inside the component, the parser panics with "unexpected" and the
kind and value of the token; it returns no error value.  So does `Parse` on
every input that starts with such a token. -/
theorem unexpected_token_is_a_panic (n base : Nat) (p : Parser) (token : Token) (l0 : Lexer)
    (hpk : p.lexer.Peek = .ok (token, l0))
    (hkind : token.type = TokenType.Colon ∨ token.type = TokenType.Quote ∨
      token.type = TokenType.Number ∨ token.type = TokenType.Property ∨
      token.type = TokenType.Bool) :
    (¬ (p.indent ≤ base ∧ base ≠ 0) → ∀ nodes,
      Parser.parseBlockLoop (n + 1) base nodes p =
        .error (Fault.unexpected token.type token.Value)) ∧
    (base < p.indent → token.type ≠ TokenType.Property → token.type ≠ TokenType.Bool →
      ∀ name attributes children,
        Parser.parseComponentNodeLoop (n + 1) base name attributes children p =
          .error (Fault.unexpected token.type token.Value)) ∧
    (∀ content, p = NewMargoParser content →
      Parse content = .error (Fault.unexpected token.type token.Value)) ∧
    (Fault.unexpected token.type token.Value).isPanic = true ∧
    (Fault.unexpected token.type token.Value).isError = false := by
  obtain ⟨_, l1, hnx⟩ := Peek_Next hpk
  have k1 : token.type ≠ TokenType.EOF := by
    rcases hkind with h | h | h | h | h <;> rw [h] <;> decide
  have k2 : token.type ≠ TokenType.Indent := by
    rcases hkind with h | h | h | h | h <;> rw [h] <;> decide
  have k3 : token.type ≠ TokenType.LineBreak := by
    rcases hkind with h | h | h | h | h <;> rw [h] <;> decide
  have k4 : token.type ≠ TokenType.Component := by
    rcases hkind with h | h | h | h | h <;> rw [h] <;> decide
  have k5 : token.type ≠ TokenType.Text := by
    rcases hkind with h | h | h | h | h <;> rw [h] <;> decide
  have hblock : ∀ m b nodes (q : Parser), q = p → ¬ (q.indent ≤ b ∧ b ≠ 0) →
      Parser.parseBlockLoop (m + 1) b nodes q =
        .error (Fault.unexpected token.type token.Value) := by
    intro m b nodes q hq hb
    subst hq
    rw [parseBlockLoop_step m b nodes q token l1 hnx, if_neg k1, if_neg k2, if_neg k3,
      if_neg hb, if_neg k4, if_neg k5]
  refine ⟨fun hb nodes => hblock n base nodes p rfl hb, ?_, ?_, rfl, rfl⟩
  · intro hb k6 k7 name attributes children
    rw [parseComponentNodeLoop_step n base name attributes children p token l1 hnx, if_neg k1,
      if_neg k2, if_neg k3, if_neg (by omega), if_neg k5, if_neg k4, if_neg k7, if_neg k6]
  · intro content hp
    have e : Parser.parseBlock (parseFuel content) (NewMargoParser content) =
        Parser.parseBlockLoop (4 * content.length + 6 + 1) 0 []
          { NewMargoParser content with indent := 0 } := rfl
    have e2 : ({ NewMargoParser content with indent := 0 } : Parser) = p := by
      rw [hp]; rfl
    unfold Parse
    rw [e, e2, hblock _ 0 [] p rfl (fun h => h.2 rfl)]

/-- The flag `!Visible` as the whole input: `Parse` panics. -/
theorem unexpected_token_is_a_panic_witness :
    Parse "!Visible".toList = .error (Fault.unexpected TokenType.Bool "Visible".toList) ∧
      (Fault.unexpected TokenType.Bool "Visible".toList).isPanic = true ∧
      (Fault.unexpected TokenType.Bool "Visible".toList).isError = false :=
  ⟨(unexpected_token_is_a_panic 0 0 (NewMargoParser "!Visible".toList)
      ⟨TokenType.Bool, "Visible".toList, 1, 9⟩ (NewMargoParser "!Visible".toList).lexer
      (by decide!) (Or.inr (Or.inr (Or.inr (Or.inr rfl))))).2.2.1 "!Visible".toList rfl,
    rfl, rfl⟩


/-! ### The registry: what `Register` accepts and what it returns -/

/-- A call of `Register` on a layout of the heap returns exactly for the
components of an accepted shape. -/
theorem Register_accepted {heap : List layout} {r : Nat} (hr : r < heap.length)
    (name : List Char) (component : Component) :
    (component.type.accepted = true →
      ∃ lay, heap[r]? = some lay ∧
        layout.Register heap r name component =
          .ok (heap.length, (heap ++ [NewLayout name]).set r
            (layout.mk lay.name
              (mapSet lay.components (ToLower name) ⟨component, heap.length⟩)))) ∧
    (component.type.accepted = false →
      ∃ e, layout.Register heap r name component = .error e) := by
  obtain ⟨lay, hl⟩ : ∃ lay, heap[r]? = some lay :=
    ⟨heap[r], List.getElem?_eq_getElem hr⟩
  unfold layout.Register
  dsimp only
  cases ht : component.type with
  | untyped => exact ⟨(fun h => by cases h), fun _ => ⟨_, rfl⟩⟩
  | other => exact ⟨(fun h => by cases h), fun _ => ⟨_, rfl⟩⟩
  | func ins outs =>
    dsimp only
    unfold GoType.accepted
    by_cases c1 : ins.length = 1 ∧ ins.head? ≠ some true
    · rw [if_pos c1]
      refine ⟨fun h => ?_, fun _ => ⟨_, rfl⟩⟩
      simp [c1.1, c1.2] at h
    rw [if_neg c1]
    by_cases c2 : outs.length ≠ 1
    · rw [if_pos c2]
      refine ⟨fun h => ?_, fun _ => ⟨_, rfl⟩⟩
      simp [c2] at h
    rw [if_neg c2]
    by_cases c3 : outs.head? ≠ some true
    · rw [if_pos c3]
      refine ⟨fun h => ?_, fun _ => ⟨_, rfl⟩⟩
      simp [c3] at h
    rw [if_neg c3, hl]
    refine ⟨fun _ => ⟨lay, rfl, rfl⟩, fun h => ?_⟩
    exfalso
    rw [not_not] at c2 c3
    rw [not_and_or, not_not] at c1
    rcases c1 with c1 | c1 <;> simp [c1, c2, c3] at h

theorem Register_length {heap heap1 : List layout} {r sub : Nat} {name : List Char}
    {component : Component}
    (h : layout.Register heap r name component = .ok (sub, heap1)) :
    r < heap.length ∧ sub = heap.length ∧ heap1.length = heap.length + 1 := by
  obtain ⟨lay, hl, hs, rfl⟩ := Register_ok h
  have hr : r < heap.length := by
    by_contra hn
    rw [List.getElem?_eq_none (by omega)] at hl
    cases hl
  exact ⟨hr, hs, by rw [List.length_set, List.length_append]; rfl⟩

/-- The new sub-layout that `Register` returns. -/
theorem Register_sub {heap heap1 : List layout} {r sub : Nat} {name : List Char}
    {component : Component}
    (h : layout.Register heap r name component = .ok (sub, heap1)) :
    heap1[sub]? = some (NewLayout name) := by
  obtain ⟨hr, hs, _⟩ := Register_length h
  obtain ⟨lay, hl, _, rfl⟩ := Register_ok h
  subst hs
  rw [List.getElem?_set_ne (by omega), List.getElem?_append_right (le_refl _)]
  simp

/-- The layout of the call after `Register`. -/
theorem Register_self {heap heap1 : List layout} {r sub : Nat} {name : List Char}
    {component : Component}
    (h : layout.Register heap r name component = .ok (sub, heap1)) :
    ∃ lay, heap[r]? = some lay ∧
      heap1[r]? = some (layout.mk lay.name
        (mapSet lay.components (ToLower name) ⟨component, sub⟩)) := by
  obtain ⟨hr, hs, _⟩ := Register_length h
  obtain ⟨lay, hl, _, rfl⟩ := Register_ok h
  subst hs
  exact ⟨lay, hl, by rw [List.getElem?_set_self (by rw [List.length_append]; omega)]⟩

/-- The other layouts after `Register`. -/
theorem Register_other {heap heap1 : List layout} {r sub : Nat} {name : List Char}
    {component : Component}
    (h : layout.Register heap r name component = .ok (sub, heap1)) (x : Nat)
    (hx : x < heap.length) (hxr : x ≠ r) : heap1[x]? = heap[x]? := by
  obtain ⟨lay, hl, _, rfl⟩ := Register_ok h
  rw [List.getElem?_set_ne (fun e => hxr e.symm), List.getElem?_append_left hx]

/-- The method `Namespace` after a call of `Register`. -/
theorem Namespace_Register {heap heap1 : List layout} {r sub : Nat} {name : List Char}
    {component : Component}
    (h : layout.Register heap r name component = .ok (sub, heap1)) (r1 : Nat)
    (hr1 : r1 < heap.length) (m : List Char) :
    layout.Namespace heap1 r1 m =
      if r = r1 ∧ ToLower name = ToLower m then .ok (some sub)
      else layout.Namespace heap r1 m := by
  unfold layout.Namespace
  by_cases e : r = r1
  · subst e
    obtain ⟨lay, hl, hl1⟩ := Register_self h
    rw [hl1, hl]
    dsimp only
    rw [mapGet_mapSet]
    by_cases e2 : ToLower name = ToLower m
    · rw [if_pos e2, if_pos ⟨rfl, e2⟩]
    · rw [if_neg e2, if_neg (fun x => e2 x.2)]
  · rw [Register_other h r1 hr1 (fun x => e x.symm), if_neg (fun x => e x.1)]

/-- The methods `Get` and `Namespace` find the same names. -/
theorem Namespace_none_iff (heap : List layout) (r : Nat) (m : List Char) :
    layout.Namespace heap r m = .ok none ↔ layout.Get heap r m = .ok none := by
  unfold layout.Namespace layout.Get
  cases heap[r]? with
  | none => exact ⟨(fun h => by cases h), (fun h => by cases h)⟩
  | some lay =>
    dsimp only
    cases mapGet lay.components (ToLower m) with
    | none => exact ⟨fun _ => rfl, fun _ => rfl⟩
    | some v =>
      exact ⟨(fun h => by injection h with h; cases h), (fun h => by injection h with h; cases h)⟩

/-- C21: a call of `Register` on a layout of the heap returns for every
component of an accepted shape, and for every call that returns: the
sub-layout it returns is empty (`Get` finds nothing in it, `List` is empty);
`Namespace(m)` on the layout of the call returns this sub-layout for every
`m` with the lower-casing of the registered name; a component that is then
registered with the returned sub-layout is found by `Get` on what
`Namespace` returns.  On a layout that was new, `Namespace(m)` returns "not
found" after any calls of `Register` none of which registered, with this
layout, a name with the lower-casing of `m`. -/
theorem register_returns_sub_namespace (heap : List layout) (r : Nat) (name : List Char)
    (component : Component) (hr : r < heap.length)
    (hv : component.type.accepted = true) :
    ∃ sub heap1, layout.Register heap r name component = .ok (sub, heap1) ∧
      (∀ m, layout.Get heap1 sub m = .ok none) ∧ layout.list heap1 sub = .ok [] ∧
      (∀ m, ToLower m = ToLower name → layout.Namespace heap1 r m = .ok (some sub)) ∧
      (∀ name2 component2 sub2 heap2 m m2,
        layout.Register heap1 sub name2 component2 = .ok (sub2, heap2) →
        ToLower m = ToLower name → ToLower m2 = ToLower name2 →
        layout.Namespace heap2 r m = .ok (some sub) ∧
          layout.Get heap2 sub m2 = .ok (some component2)) ∧
      (∀ n calls heap0 m, heap0[r]? = some (NewLayout n) →
        registerAll calls heap0 = .ok heap → lastRegistered r m calls = none →
        layout.Namespace heap r m = .ok none) := by
  obtain ⟨lay, hl, hreg⟩ := (Register_accepted hr name component).1 hv
  refine ⟨_, _, hreg, ?_, ?_, ?_, ?_, ?_⟩
  · intro m
    unfold layout.Get
    rw [Register_sub hreg]
    rfl
  · unfold layout.list
    rw [Register_sub hreg]
    rfl
  · intro m hm
    rw [Namespace_Register hreg r hr m, if_pos ⟨rfl, hm.symm⟩]
  · intro name2 component2 sub2 heap2 m m2 h2 hm hm2
    obtain ⟨_, _, hlen⟩ := Register_length hreg
    have hne : heap.length ≠ r := by omega
    constructor
    · rw [Namespace_Register h2 r (by omega) m, if_neg (fun x => hne x.1),
        Namespace_Register hreg r hr m, if_pos ⟨rfl, hm.symm⟩]
    · rw [(Get_Register h2 heap.length (by omega) m2).2, if_pos ⟨rfl, hm2.symm⟩]
  · intro n calls heap0 m hnew hcalls hlast
    have hr0 : r < heap0.length := by
      by_contra hn
      rw [List.getElem?_eq_none (by omega)] at hnew
      cases hnew
    rw [Namespace_none_iff, (Get_registerAll m r calls heap0 heap hr0 hcalls).2, hlast]
    dsimp only
    unfold layout.Get
    rw [hnew]
    rfl

/-- The component `Hero` is registered with the new layout `base`. -/
theorem register_returns_sub_namespace_witness :
    ∃ sub heap1,
      layout.Register [NewLayout "base".toList] 0 "Hero".toList
          ⟨GoType.func [true] [true], 1⟩ = .ok (sub, heap1) ∧
      (∀ m, layout.Get heap1 sub m = .ok none) ∧ layout.list heap1 sub = .ok [] ∧
      (∀ m, ToLower m = ToLower "Hero".toList →
        layout.Namespace heap1 0 m = .ok (some sub)) ∧
      (∀ name2 component2 sub2 heap2 m m2,
        layout.Register heap1 sub name2 component2 = .ok (sub2, heap2) →
        ToLower m = ToLower "Hero".toList → ToLower m2 = ToLower name2 →
        layout.Namespace heap2 0 m = .ok (some sub) ∧
          layout.Get heap2 sub m2 = .ok (some component2)) ∧
      (∀ n calls heap0 m, heap0[0]? = some (NewLayout n) →
        registerAll calls heap0 = .ok [NewLayout "base".toList] →
        lastRegistered 0 m calls = none →
        layout.Namespace [NewLayout "base".toList] 0 m = .ok none) :=
  register_returns_sub_namespace [NewLayout "base".toList] 0 "Hero".toList
    ⟨GoType.func [true] [true], 1⟩ (by decide) (by decide)


/-! ### The shapes of components that `Register` rejects -/

/-- C22: the component `func(a, b int) templ.Component` is no function of
one struct to one `templ.Component`, which the doc comment of `Register` and
the text of its panic ask for.  Yet `Register` on the layout `base` does not
panic on it: the guard looks at the input only when there is exactly one, so
the component is stored under its name and the sub-layout is returned.  The
stored component cannot be built: `Build` panics in the reflection calls of
`buildProps`, which take the first input for a struct. -/
theorem register_accepts_two_inputs :
    GoType.accepted (GoType.func [false, false] [true]) = true ∧
    layout.Register [NewLayout "base".toList] 0 "x".toList
        ⟨GoType.func [false, false] [true], 1⟩ =
      .ok (1, [⟨"base".toList,
          [("x".toList, ⟨⟨GoType.func [false, false] [true], 1⟩, 1⟩)]⟩,
        NewLayout "x".toList]) ∧
    ComponentBuilder.Build 1
        ⟨[⟨"base".toList, [("x".toList, ⟨⟨GoType.func [false, false] [true], 1⟩, 1⟩)]⟩,
          NewLayout "x".toList], 0, fun _ => [], fun _ => false⟩
        ⟨GoType.func [false, false] [true], 1⟩ [] =
      .error BindFault.reflectMisuse ∧
    BindFault.isPanic BindFault.reflectMisuse = true :=
  ⟨by decide, by decide, rfl, rfl⟩

theorem accepted_iff (t : GoType) :
    t.accepted = true ↔
      ∃ ins outs, t = GoType.func ins outs ∧ (ins.length = 1 → ins = [true]) ∧
        outs = [true] := by
  cases t with
  | untyped => exact ⟨(fun h => by cases h), (fun ⟨_, _, h, _⟩ => by cases h)⟩
  | other => exact ⟨(fun h => by cases h), (fun ⟨_, _, h, _⟩ => by cases h)⟩
  | func ins outs =>
    constructor
    · intro h
      refine ⟨ins, outs, rfl, ?_, ?_⟩
      · intro hl
        match ins, hl with
        | [b], _ =>
          cases b with
          | true => rfl
          | false => simp [GoType.accepted] at h
      · match outs with
        | [] => simp [GoType.accepted] at h
        | [b] =>
          cases b with
          | true => rfl
          | false => simp [GoType.accepted] at h
        | _ :: _ :: _ => simp [GoType.accepted] at h
    · rintro ⟨ins1, outs1, e, h1, h2⟩
      injection e with e1 e2
      subst e1; subst e2; subst h2
      by_cases hl : ins.length = 1
      · rw [h1 hl]; rfl
      · simp [GoType.accepted, hl]

/-- What the guard of `Register` tests, as it is written: on a layout of the
heap `Register` panics exactly for the components that are no function, that
have exactly one input and this input is no struct, or that do not have
exactly one output of the type `templ.Component`.  A call that panics returns
no heap: the panic comes before the item is written. -/
theorem register_fails_iff (heap : List layout) (r : Nat) (name : List Char)
    (component : Component) (hr : r < heap.length) :
    ((∃ e, layout.Register heap r name component = .error e) ↔
      ¬ ∃ ins outs, component.type = GoType.func ins outs ∧
        (ins.length = 1 → ins = [true]) ∧ outs = [true]) ∧
    ((∃ sub heap1, layout.Register heap r name component = .ok (sub, heap1)) ↔
      ∃ ins outs, component.type = GoType.func ins outs ∧
        (ins.length = 1 → ins = [true]) ∧ outs = [true]) := by
  obtain ⟨h1, h2⟩ := Register_accepted hr name component
  rw [← accepted_iff]
  cases ha : component.type.accepted with
  | true =>
    obtain ⟨lay, _, e⟩ := h1 ha
    rw [e]
    exact ⟨⟨(fun ⟨_, h⟩ => by cases h), fun h => absurd rfl h⟩, fun _ => rfl, fun _ => ⟨_, _, rfl⟩⟩
  | false =>
    obtain ⟨e, he⟩ := h2 ha
    rw [he]
    exact ⟨⟨(fun _ h => by cases h), fun _ => ⟨e, rfl⟩⟩, (fun ⟨_, _, h⟩ => by cases h),
      (fun h => by cases h)⟩


/-! ### The method `Clone` -/

theorem getElem?_append_some {α : Type} {l : List α} {i : Nat} {a : α} (e : List α)
    (h : l[i]? = some a) : (l ++ e)[i]? = some a := by
  have hi : i < l.length := by
    by_contra hn
    rw [List.getElem?_eq_none (by omega)] at h
    cases h
  rw [List.getElem?_append_left hi, h]

theorem getElem?_lt {α : Type} {l : List α} {i : Nat} {a : α} (h : l[i]? = some a) :
    i < l.length := by
  by_contra hn
  rw [List.getElem?_eq_none (by omega)] at h
  cases h

/-- A copy stays a copy when layouts are put behind the heap of the copy. -/
theorem Copy_append (d : Nat) (heap heap1 e : List layout) :
    ∀ x y, layout.Copy d heap heap1 x y → layout.Copy d heap (heap1 ++ e) x y := by
  induction d with
  | zero => intro x y h; exact h
  | succ d ih =>
    intro x y h
    obtain ⟨lay, lay1, h1, h2, h3, h4⟩ := h
    exact ⟨lay, lay1, h1, getElem?_append_some e h2, h3,
      h4.imp (fun kv kv1 hk => ⟨hk.1, hk.2.1, ih _ _ hk.2.2⟩)⟩

/-- A copy down to a depth is a copy down to every greater depth. -/
theorem Copy_mono (d : Nat) (heap heap1 : List layout) :
    ∀ x y, layout.Copy d heap heap1 x y → layout.Copy (d + 1) heap heap1 x y := by
  induction d with
  | zero => intro x y h; exact absurd h (fun h => h)
  | succ d ih =>
    intro x y h
    obtain ⟨lay, lay1, h1, h2, h3, h4⟩ := h
    exact ⟨lay, lay1, h1, h2, h3, h4.imp (fun kv kv1 hk => ⟨hk.1, hk.2.1, ih _ _ hk.2.2⟩)⟩

theorem Finite_mono (d : Nat) (heap : List layout) :
    ∀ x, layout.Finite d heap x → layout.Finite (d + 1) heap x := by
  induction d with
  | zero => intro x h; exact absurd h (fun h => h)
  | succ d ih =>
    intro x h
    obtain ⟨lay, h1, h2⟩ := h
    exact ⟨lay, h1, fun kv hkv => ih _ (h2 kv hkv)⟩

/-- What the loop of `Clone` does with the items of a map whose sub-layouts
the function `clone` copies. -/
theorem cloneItems_spec (d : Nat) (heap0 : List layout)
    (clone : List layout → Nat → Except Panic (Nat × List layout))
    (hclone : ∀ r, layout.Finite d heap0 r → ∀ ext, ∃ c new,
      clone (heap0 ++ ext) r = .ok (c, heap0 ++ ext ++ new) ∧
      (heap0 ++ ext).length ≤ c ∧ c < (heap0 ++ ext ++ new).length ∧
      (∀ x lay, (heap0 ++ ext).length ≤ x → (heap0 ++ ext ++ new)[x]? = some lay →
        ∀ kv ∈ lay.components, (heap0 ++ ext).length ≤ kv.2.subLayout ∧
          kv.2.subLayout < (heap0 ++ ext ++ new).length) ∧
      layout.Copy d heap0 (heap0 ++ ext ++ new) r c)
    (items : List (List Char × item)) :
    (∀ kv ∈ items, layout.Finite d heap0 kv.2.subLayout) → ∀ ext, ∃ items1 new,
      cloneItems clone (heap0 ++ ext) items = .ok (items1, heap0 ++ ext ++ new) ∧
      (∀ kv ∈ items1, (heap0 ++ ext).length ≤ kv.2.subLayout ∧
        kv.2.subLayout < (heap0 ++ ext ++ new).length) ∧
      (∀ x lay, (heap0 ++ ext).length ≤ x → (heap0 ++ ext ++ new)[x]? = some lay →
        ∀ kv ∈ lay.components, (heap0 ++ ext).length ≤ kv.2.subLayout ∧
          kv.2.subLayout < (heap0 ++ ext ++ new).length) ∧
      List.Forall₂ (fun kv kv1 => kv1.1 = kv.1 ∧ kv1.2.value = kv.2.value ∧
        layout.Copy d heap0 (heap0 ++ ext ++ new) kv.2.subLayout kv1.2.subLayout)
        items items1 := by
  induction items with
  | nil =>
    intro _ ext
    refine ⟨[], [], ?_, (fun kv hkv => by cases hkv), ?_, List.Forall₂.nil⟩
    · rw [cloneItems, List.append_nil]
    · intro x lay hx hl
      rw [List.append_nil] at hl
      have := getElem?_lt hl
      omega
  | cons kv rest ih =>
    intro hfin ext
    obtain ⟨k, v⟩ := kv
    obtain ⟨c, n1, e1, c1, c2, c3, c4⟩ :=
      hclone v.subLayout (hfin (k, v) (List.mem_cons_self _ _)) ext
    obtain ⟨items1, n2, e2, i1, i2, i3⟩ :=
      ih (fun kv hkv => hfin kv (List.mem_cons_of_mem _ hkv)) (ext ++ n1)
    have ea : heap0 ++ ext ++ n1 = heap0 ++ (ext ++ n1) := by rw [List.append_assoc]
    have eb : heap0 ++ (ext ++ n1) ++ n2 = heap0 ++ ext ++ (n1 ++ n2) := by
      simp only [List.append_assoc]
    have hl1 : (heap0 ++ (ext ++ n1)).length = (heap0 ++ ext).length + n1.length := by
      simp only [List.length_append]; omega
    have hl2 : (heap0 ++ ext ++ (n1 ++ n2)).length =
        (heap0 ++ ext).length + n1.length + n2.length := by
      simp only [List.length_append]; omega
    have hl3 : (heap0 ++ ext ++ n1).length = (heap0 ++ ext).length + n1.length := by
      simp only [List.length_append]
    rw [eb] at e2 i1 i2 i3
    rw [hl1] at i1 i2
    refine ⟨(k, ⟨v.value, c⟩) :: items1, n1 ++ n2, ?_, ?_, ?_, ?_⟩
    · rw [cloneItems, e1]
      dsimp only
      rw [ea, e2]
    · intro kv hkv
      rcases List.mem_cons.1 hkv with rfl | hkv
      · dsimp only
        rw [hl2]
        rw [hl3] at c2
        omega
      · have := i1 kv hkv
        omega
    · intro x lay hx hl kv hkv
      by_cases hx1 : x < (heap0 ++ ext).length + n1.length
      · have hl' : (heap0 ++ ext ++ n1)[x]? = some lay := by
          have e : heap0 ++ ext ++ (n1 ++ n2) = heap0 ++ ext ++ n1 ++ n2 := by
            simp only [List.append_assoc]
          rw [e, List.getElem?_append_left (by rw [hl3]; exact hx1)] at hl
          exact hl
        have := c3 x lay hx hl' kv hkv
        rw [hl3] at this
        rw [hl2]
        omega
      · have := i2 x lay (by omega) hl kv hkv
        omega
    · refine List.Forall₂.cons ⟨rfl, rfl, ?_⟩ i3
      have e : heap0 ++ ext ++ (n1 ++ n2) = heap0 ++ ext ++ n1 ++ n2 := by
        simp only [List.append_assoc]
      rw [e]
      exact Copy_append d heap0 _ n2 _ _ c4

/-- The method `Clone` on a layout whose sub-layouts are nested less than `d`
deep: with the fuel `d` it returns; it puts the copies behind the heap and
leaves the heap as it is; the items of the copies point to copies; and the
layout it returns is a copy of the layout at `r`. -/
theorem Clone_spec (d : Nat) (heap0 : List layout) :
    ∀ r, layout.Finite d heap0 r → ∀ ext, ∃ c new,
      layout.Clone d (heap0 ++ ext) r = .ok (c, heap0 ++ ext ++ new) ∧
      (heap0 ++ ext).length ≤ c ∧ c < (heap0 ++ ext ++ new).length ∧
      (∀ x lay, (heap0 ++ ext).length ≤ x → (heap0 ++ ext ++ new)[x]? = some lay →
        ∀ kv ∈ lay.components, (heap0 ++ ext).length ≤ kv.2.subLayout ∧
          kv.2.subLayout < (heap0 ++ ext ++ new).length) ∧
      layout.Copy d heap0 (heap0 ++ ext ++ new) r c := by
  induction d with
  | zero => intro r h; exact absurd h (fun h => h)
  | succ d ih =>
    intro r hfin ext
    obtain ⟨lay, hl, hsub⟩ := hfin
    obtain ⟨items1, new, e, i1, i2, i3⟩ :=
      cloneItems_spec d heap0 (layout.Clone d) ih lay.components hsub ext
    have hlen : (heap0 ++ ext ++ (new ++ [layout.mk lay.name items1])).length =
        (heap0 ++ ext ++ new).length + 1 := by
      simp only [List.length_append, List.length_cons, List.length_nil]; omega
    have hlen2 : (heap0 ++ ext ++ new).length = (heap0 ++ ext).length + new.length := by
      simp only [List.length_append]
    have eassoc : heap0 ++ ext ++ (new ++ [layout.mk lay.name items1]) =
        heap0 ++ ext ++ new ++ [layout.mk lay.name items1] := by
      simp only [List.append_assoc]
    refine ⟨(heap0 ++ ext ++ new).length, new ++ [layout.mk lay.name items1], ?_, ?_, ?_, ?_, ?_⟩
    · rw [layout.Clone, List.append_assoc, getElem?_append_some _ hl]
      dsimp only
      rw [← List.append_assoc, e]
      dsimp only
      rw [eassoc]
    · rw [hlen2]; omega
    · rw [hlen]; omega
    · intro x lay1 hx hl1 kv hkv
      rw [hlen]
      by_cases hx1 : x < (heap0 ++ ext ++ new).length
      · rw [eassoc, List.getElem?_append_left hx1] at hl1
        have := i2 x lay1 hx hl1 kv hkv
        omega
      · have hx2 : x = (heap0 ++ ext ++ new).length := by
          have := getElem?_lt hl1
          rw [hlen] at this
          omega
        subst hx2
        rw [eassoc, List.getElem?_append_right (le_refl _), Nat.sub_self] at hl1
        injection hl1 with hl1
        subst hl1
        have := i1 kv hkv
        omega
    · refine ⟨lay, layout.mk lay.name items1, hl, ?_, rfl, ?_⟩
      · rw [eassoc, List.getElem?_append_right (le_refl _), Nat.sub_self]
        rfl
      · rw [eassoc]
        exact i3.imp (fun kv kv1 hk => ⟨hk.1, hk.2.1, Copy_append d heap0 _ _ _ _ hk.2.2⟩)


/-! ### A clone has the content of its source -/

theorem mapGet_mem {α : Type} (m : List (List Char × α)) (k : List Char) (v : α)
    (h : mapGet m k = some v) : ∃ k1, (k1, v) ∈ m := by
  induction m with
  | nil => cases h
  | cons kv rest ih =>
    obtain ⟨k0, v0⟩ := kv
    rw [mapGet] at h
    by_cases h0 : k0 = k
    · rw [if_pos h0] at h
      injection h with h
      subst h
      exact ⟨k0, List.mem_cons_self _ _⟩
    · rw [if_neg h0] at h
      obtain ⟨k1, h1⟩ := ih h
      exact ⟨k1, List.mem_cons_of_mem _ h1⟩

theorem mem_mapSet {α : Type} (m : List (List Char × α)) (k : List Char) (v : α)
    (kv : List Char × α) (h : kv ∈ mapSet m k v) : kv ∈ m ∨ kv = (k, v) := by
  induction m with
  | nil =>
    rw [mapSet] at h
    exact Or.inr (List.mem_singleton.1 h)
  | cons kv0 rest ih =>
    obtain ⟨k0, v0⟩ := kv0
    rw [mapSet] at h
    by_cases h0 : k0 = k
    · rw [if_pos h0] at h
      rcases List.mem_cons.1 h with h | h
      · exact Or.inr h
      · exact Or.inl (List.mem_cons_of_mem _ h)
    · rw [if_neg h0] at h
      rcases List.mem_cons.1 h with h | h
      · exact Or.inl (h ▸ List.mem_cons_self _ _)
      · rcases ih h with h | h
        · exact Or.inl (List.mem_cons_of_mem _ h)
        · exact Or.inr h

/-- Where `Namespace` finds a sub-layout, an item of the layout points to it. -/
theorem Namespace_mem {heap : List layout} {x sub : Nat} {name : List Char}
    (h : layout.Namespace heap x name = .ok (some sub)) :
    ∃ lay kv, heap[x]? = some lay ∧ kv ∈ lay.components ∧ kv.2.subLayout = sub := by
  unfold layout.Namespace at h
  cases hl : heap[x]? with
  | none => rw [hl] at h; cases h
  | some lay =>
    rw [hl] at h
    dsimp only at h
    cases hg : mapGet lay.components (ToLower name) with
    | none => rw [hg] at h; injection h with h; cases h
    | some v =>
      rw [hg] at h
      injection h with h
      injection h with h
      obtain ⟨k1, hk⟩ := mapGet_mem _ _ _ hg
      exact ⟨lay, (k1, v), rfl, hk, h⟩

/-- The answers of a layout depend on the layout only. -/
theorem answers_congr {heap heap1 : List layout} {x y : Nat} (h : heap1[y]? = heap[x]?)
    (m : List Char) :
    layout.Get heap1 y m = layout.Get heap x m ∧
      layout.Namespace heap1 y m = layout.Namespace heap x m ∧
      layout.list heap1 y = layout.list heap x ∧ layout.Name heap1 y = layout.Name heap x := by
  unfold layout.Get layout.Namespace layout.list layout.Name
  rw [h]
  exact ⟨rfl, rfl, rfl, rfl⟩

/-- The look-ups in the maps of a layout and of its copy. -/
theorem mapGet_forall₂ {P : Nat → Nat → Prop} (items items1 : List (List Char × item))
    (h : List.Forall₂ (fun kv kv1 => kv1.1 = kv.1 ∧ kv1.2.value = kv.2.value ∧
      P kv.2.subLayout kv1.2.subLayout) items items1) (k : List Char) :
    (mapGet items k = none ∧ mapGet items1 k = none) ∨
      ∃ v v1, mapGet items k = some v ∧ mapGet items1 k = some v1 ∧ v1.value = v.value ∧
        P v.subLayout v1.subLayout := by
  induction h with
  | nil => exact Or.inl ⟨rfl, rfl⟩
  | @cons kv kv1 rest rest1 hk _ ih =>
    obtain ⟨k0, v0⟩ := kv
    obtain ⟨k1, v1⟩ := kv1
    obtain ⟨e1, e2, e3⟩ := hk
    dsimp only at e1 e2 e3
    subst e1
    rw [mapGet, mapGet]
    by_cases h0 : k1 = k
    · rw [if_pos h0, if_pos h0]
      exact Or.inr ⟨v0, v1, rfl, rfl, e2, e3⟩
    · rw [if_neg h0, if_neg h0]
      exact ih

theorem keys_forall₂ {P : Nat → Nat → Prop} (items items1 : List (List Char × item))
    (h : List.Forall₂ (fun kv kv1 => kv1.1 = kv.1 ∧ kv1.2.value = kv.2.value ∧
      P kv.2.subLayout kv1.2.subLayout) items items1) :
    items1.map Prod.fst = items.map Prod.fst := by
  induction h with
  | nil => rfl
  | cons hk _ ih => rw [List.map_cons, List.map_cons, ih, hk.1]

/-- The answers of a copy. -/
theorem Copy_answers {d : Nat} {heap heap1 : List layout} {x y : Nat}
    (h : layout.Copy (d + 1) heap heap1 x y) (m : List Char) :
    layout.Get heap1 y m = layout.Get heap x m ∧ layout.Name heap1 y = layout.Name heap x ∧
      layout.list heap1 y = layout.list heap x ∧
      ((layout.Namespace heap x m = .ok none ∧ layout.Namespace heap1 y m = .ok none) ∨
        ∃ sx sy, layout.Namespace heap x m = .ok (some sx) ∧
          layout.Namespace heap1 y m = .ok (some sy) ∧ layout.Copy d heap heap1 sx sy) := by
  obtain ⟨lay, lay1, h1, h2, h3, h4⟩ := h
  unfold layout.Get layout.Name layout.list layout.Namespace
  rw [h1, h2]
  dsimp only
  refine ⟨?_, by rw [h3], ?_, ?_⟩
  · rcases mapGet_forall₂ _ _ h4 (ToLower m) with ⟨e1, e2⟩ | ⟨v, v1, e1, e2, e3, _⟩
    · rw [e1, e2]
    · rw [e1, e2]
      show Except.ok (some v1.value) = Except.ok (some v.value)
      rw [e3]
  · rw [keys_forall₂ _ _ h4]
  · rcases mapGet_forall₂ _ _ h4 (ToLower m) with ⟨e1, e2⟩ | ⟨v, v1, e1, e2, _, e4⟩
    · rw [e1, e2]
      exact Or.inl ⟨rfl, rfl⟩
    · rw [e1, e2]
      exact Or.inr ⟨_, _, rfl, rfl, e4⟩

/-- The same path leads from a layout and from its copy to a layout and its
copy, or to nothing. -/
theorem Copy_descend (heap heap1 : List layout) (path : List (List Char)) :
    ∀ (d x y : Nat), layout.Copy d heap heap1 x y →
      match layout.descend heap x path with
      | none => layout.descend heap1 y path = none
      | some x1 => ∃ y1 d1, layout.descend heap1 y path = some y1 ∧
          layout.Copy (d1 + 1) heap heap1 x1 y1 := by
  induction path with
  | nil =>
    intro d x y h
    cases d with
    | zero => exact absurd h (fun h => h)
    | succ d => exact ⟨y, d, rfl, h⟩
  | cons name path ih =>
    intro d x y h
    cases d with
    | zero => exact absurd h (fun h => h)
    | succ d =>
      rw [layout.descend, layout.descend]
      rcases (Copy_answers h name).2.2.2 with ⟨e1, e2⟩ | ⟨sx, sy, e1, e2, e3⟩
      · rw [e1, e2]
      · rw [e1, e2]
        exact ih d sx sy e3

/-- Layouts that are put behind the heap do not change where a path leads
from a layout whose sub-layouts all exist. -/
theorem descend_append (heap e : List layout) (path : List (List Char)) :
    ∀ (d x : Nat), layout.Finite d heap x →
      layout.descend (heap ++ e) x path = layout.descend heap x path ∧
        ∀ x1, layout.descend heap x path = some x1 → ∃ d1, layout.Finite (d1 + 1) heap x1 := by
  induction path with
  | nil =>
    intro d x h
    cases d with
    | zero => exact absurd h (fun h => h)
    | succ d =>
      refine ⟨rfl, fun x1 h1 => ?_⟩
      injection h1 with h1
      subst h1
      exact ⟨d, h⟩
  | cons name path ih =>
    intro d x h
    cases d with
    | zero => exact absurd h (fun h => h)
    | succ d =>
      obtain ⟨lay, hl, hsub⟩ := h
      have e1 := (@answers_congr heap (heap ++ e) x x
        (by rw [getElem?_append_some e hl, hl]) name).2.1
      rw [layout.descend, layout.descend, e1]
      cases hn : layout.Namespace heap x name with
      | error p => exact ⟨rfl, fun x1 h1 => by cases h1⟩
      | ok o =>
        cases o with
        | none => exact ⟨rfl, fun x1 h1 => by cases h1⟩
        | some sub =>
          dsimp only
          obtain ⟨lay1, kv, hl1, hkv, hs⟩ := Namespace_mem hn
          rw [hl] at hl1
          injection hl1 with hl1
          subst hl1
          rw [← hs]
          exact ih d _ (hsub kv hkv)

/-- C24: `Clone` on a layout whose sub-layouts are nested less than `d` deep
returns (with the fuel `d`); the clone has the name of the layout, and along
every path of names through sub-layouts the clone has a sub-layout where the
layout has one, and there `Get(m)` returns for every `m` what it returns in
the layout: the same component or "not found". -/
theorem clone_preserves_content (d : Nat) (heap : List layout) (l : Nat)
    (hfin : layout.Finite d heap l) :
    ∃ c heap1, layout.Clone d heap l = .ok (c, heap1) ∧
      layout.Name heap1 c = layout.Name heap1 l ∧
      ∀ path, layout.descend heap1 l path = layout.descend heap l path ∧
        match layout.descend heap1 l path with
        | none => layout.descend heap1 c path = none
        | some x => ∃ y, layout.descend heap1 c path = some y ∧
            ∀ m, layout.Get heap1 y m = layout.Get heap1 x m ∧
              layout.Get heap1 x m = layout.Get heap x m := by
  obtain ⟨c, new, e, _, _, _, hcopy⟩ := Clone_spec d heap l hfin []
  rw [List.append_nil] at e hcopy
  refine ⟨c, heap ++ new, e, ?_, fun path => ?_⟩
  · cases d with
    | zero => exact absurd hfin (fun h => h)
    | succ d =>
      obtain ⟨lay, hl, _⟩ := hfin
      rw [(Copy_answers hcopy []).2.1]
      exact ((@answers_congr heap (heap ++ new) l l
        (by rw [getElem?_append_some new hl, hl]) []).2.2.2).symm
  · obtain ⟨q1, q2⟩ := descend_append heap new path d l hfin
    refine ⟨q1, ?_⟩
    have q3 := Copy_descend heap (heap ++ new) path d l c hcopy
    rw [q1]
    cases hx : layout.descend heap l path with
    | none =>
      rw [hx] at q3
      exact q3
    | some x =>
      rw [hx] at q3
      obtain ⟨y, d1, hy, hc⟩ := q3
      obtain ⟨d2, lay, hl, _⟩ := q2 x hx
      refine ⟨y, hy, fun m => ?_⟩
      have q4 := (@answers_congr heap (heap ++ new) x x
        (by rw [getElem?_append_some new hl, hl]) m).1
      exact ⟨by rw [(Copy_answers hc m).1, q4], q4⟩

/-- The layout `base` with the component `Hero`, whose sub-layout is empty, is
cloned. -/
theorem clone_preserves_content_witness :
    ∃ c heap1,
      layout.Clone 2 [⟨"base".toList, [("hero".toList, ⟨⟨GoType.func [true] [true], 1⟩, 1⟩)]⟩,
          ⟨"Hero".toList, []⟩] 0 = .ok (c, heap1) ∧
      layout.Name heap1 c = layout.Name heap1 0 ∧
      ∀ path, layout.descend heap1 0 path =
          layout.descend [⟨"base".toList,
              [("hero".toList, ⟨⟨GoType.func [true] [true], 1⟩, 1⟩)]⟩,
            ⟨"Hero".toList, []⟩] 0 path ∧
        match layout.descend heap1 0 path with
        | none => layout.descend heap1 c path = none
        | some x => ∃ y, layout.descend heap1 c path = some y ∧
            ∀ m, layout.Get heap1 y m = layout.Get heap1 x m ∧
              layout.Get heap1 x m =
                layout.Get [⟨"base".toList,
                    [("hero".toList, ⟨⟨GoType.func [true] [true], 1⟩, 1⟩)]⟩,
                  ⟨"Hero".toList, []⟩] x m :=
  clone_preserves_content 2
    [⟨"base".toList, [("hero".toList, ⟨⟨GoType.func [true] [true], 1⟩, 1⟩)]⟩,
      ⟨"Hero".toList, []⟩] 0
    ⟨_, rfl, fun kv hkv => by
      rw [List.mem_singleton.1 hkv]
      exact ⟨_, rfl, fun kv1 hkv1 => by cases hkv1⟩⟩


/-! ### A clone and its source do not share layouts -/

/-- A path that starts in a set of layouts whose items point into the set ends
in the set. -/
theorem descend_region (S : Nat → Prop) (heap : List layout)
    (hclosed : ∀ x lay, S x → heap[x]? = some lay → ∀ kv ∈ lay.components, S kv.2.subLayout)
    (path : List (List Char)) :
    ∀ x y, S x → layout.descend heap x path = some y → S y := by
  induction path with
  | nil =>
    intro x y hx h
    injection h with h
    subst h
    exact hx
  | cons name path ih =>
    intro x y hx h
    rw [layout.descend] at h
    cases hn : layout.Namespace heap x name with
    | error p => rw [hn] at h; cases h
    | ok o =>
      cases o with
      | none => rw [hn] at h; cases h
      | some sub =>
        rw [hn] at h
        dsimp only at h
        obtain ⟨lay, kv, hl, hkv, hs⟩ := Namespace_mem hn
        exact ih sub y (hs ▸ hclosed x lay hx hl kv hkv) h

/-- Calls of `Register` on sub-layouts of `root` change no layout outside a
set that holds `root`, every layout that its own layouts point to, and every
layout that is made later. -/
theorem registerPaths_frame (S : Nat → Prop) (root : Nat) (hroot : S root)
    (calls : List (List (List Char) × List Char × Component)) :
    ∀ heap heap2 : List layout,
      (∀ x lay, S x → heap[x]? = some lay → ∀ kv ∈ lay.components, S kv.2.subLayout) →
      (∀ x, heap.length ≤ x → S x) → registerPaths root calls heap = .ok heap2 →
      ∀ x, ¬ S x → heap2[x]? = heap[x]? := by
  induction calls with
  | nil =>
    intro heap heap2 _ _ h x _
    injection h with h
    rw [h]
  | cons call calls ih =>
    intro heap heap2 hclosed hfresh h x hx
    obtain ⟨path, name, component⟩ := call
    rw [registerPaths] at h
    cases hd : layout.descend heap root path with
    | none => rw [hd] at h; cases h
    | some t =>
      rw [hd] at h
      dsimp only at h
      have ht : S t := descend_region S heap hclosed path root t hroot hd
      cases hreg : layout.Register heap t name component with
      | error e => rw [hreg] at h; cases h
      | ok res =>
        obtain ⟨sub, heap1⟩ := res
        rw [hreg] at h
        dsimp only at h
        obtain ⟨htl, hs, hlen⟩ := Register_length hreg
        have hclosed1 : ∀ x lay, S x → heap1[x]? = some lay →
            ∀ kv ∈ lay.components, S kv.2.subLayout := by
          intro x1 lay1 hx1 hl1 kv hkv
          by_cases e1 : x1 = t
          · subst e1
            obtain ⟨lay, hl, hl2⟩ := Register_self hreg
            rw [hl2] at hl1
            injection hl1 with hl1
            subst hl1
            rcases mem_mapSet _ _ _ _ hkv with hkv | hkv
            · exact hclosed x1 lay hx1 hl kv hkv
            · rw [hkv]
              exact hfresh _ (by rw [hs])
          · by_cases e2 : x1 < heap.length
            · rw [Register_other hreg x1 e2 e1] at hl1
              exact hclosed x1 lay1 hx1 hl1 kv hkv
            · have hlt := getElem?_lt hl1
              have e3 : x1 = sub := by omega
              subst e3
              rw [Register_sub hreg] at hl1
              injection hl1 with hl1
              subst hl1
              cases hkv
        have hfresh1 : ∀ x, heap1.length ≤ x → S x := fun x1 hx1 => hfresh x1 (by omega)
        rw [ih heap1 heap2 hclosed1 hfresh1 h x hx]
        have hxl : x < heap.length := by
          by_contra hn
          exact hx (hfresh x (by omega))
        exact Register_other hreg x hxl (fun e => hx (e ▸ ht))

/-- C23: let `c` be the clone of the layout `l`, in a heap where no item
points outside the heap.  Calls of `Register` on `c` and on sub-layouts that
paths of names reach from `c`, in any number, leave every `Get`, `Namespace`,
`List` and `Name` answer of every layout that was there before the clone as
it was, and these are `l` and its sub-layouts at every depth.  Calls of
`Register` on `l` and on sub-layouts reached from `l` leave the answers of all
layouts that `Clone` made as they were, and these are `c` and its sub-layouts
at every depth. -/
theorem clone_independence (d : Nat) (heap : List layout) (l : Nat)
    (hfin : layout.Finite d heap l) (hcl : heapClosed heap) :
    ∃ c heap1, layout.Clone d heap l = .ok (c, heap1) ∧
      (∀ calls heap2, registerPaths c calls heap1 = .ok heap2 →
        ∀ x, x < heap.length → ∀ m,
          layout.Get heap2 x m = layout.Get heap x m ∧
          layout.Namespace heap2 x m = layout.Namespace heap x m ∧
          layout.list heap2 x = layout.list heap x ∧
          layout.Name heap2 x = layout.Name heap x) ∧
      (∀ path x, layout.descend heap l path = some x → x < heap.length) ∧
      (∀ calls heap2, registerPaths l calls heap1 = .ok heap2 →
        ∀ x, heap.length ≤ x → x < heap1.length → ∀ m,
          layout.Get heap2 x m = layout.Get heap1 x m ∧
          layout.Namespace heap2 x m = layout.Namespace heap1 x m ∧
          layout.list heap2 x = layout.list heap1 x ∧
          layout.Name heap2 x = layout.Name heap1 x) ∧
      (∀ path y, layout.descend heap1 c path = some y →
        heap.length ≤ y ∧ y < heap1.length) := by
  obtain ⟨c, new, e, c1, c2, c3, _⟩ := Clone_spec d heap l hfin []
  rw [List.append_nil] at e c1 c2 c3
  have hl : l < heap.length := by
    cases d with
    | zero => exact absurd hfin (fun h => h)
    | succ d =>
      obtain ⟨lay, hlay, _⟩ := hfin
      exact getElem?_lt hlay
  have hold : ∀ x, x < heap.length → (heap ++ new)[x]? = heap[x]? :=
    fun x hx => List.getElem?_append_left hx
  refine ⟨c, heap ++ new, e, ?_, ?_, ?_, ?_⟩
  · intro calls heap2 h2 x hx m
    have := registerPaths_frame (fun x => heap.length ≤ x) c c1 calls (heap ++ new) heap2
      (fun x1 lay hx1 hl1 kv hkv => (c3 x1 lay hx1 hl1 kv hkv).1)
      (fun x1 hx1 => by rw [List.length_append] at hx1; omega) h2 x (by omega)
    exact answers_congr (by rw [this, hold x hx]) m
  · intro path x hx
    exact descend_region (fun x => x < heap.length) heap
      (fun x1 lay _ hl1 kv hkv => hcl x1 lay hl1 kv hkv) path l x hl hx
  · intro calls heap2 h2 x hx1 hx2 m
    have := registerPaths_frame (fun x => x < heap.length ∨ (heap ++ new).length ≤ x) l
      (Or.inl hl) calls (heap ++ new) heap2
      (fun x1 lay hx1 hl1 kv hkv => by
        rcases hx1 with hx1 | hx1
        · rw [hold x1 hx1] at hl1
          exact Or.inl (hcl x1 lay hl1 kv hkv)
        · have := getElem?_lt hl1
          omega)
      (fun x1 hx1 => Or.inr hx1) h2 x (by omega)
    exact answers_congr this m
  · intro path y hy
    exact descend_region (fun x => heap.length ≤ x ∧ x < (heap ++ new).length) (heap ++ new)
      (fun x1 lay hx1 hl1 kv hkv => c3 x1 lay hx1.1 hl1 kv hkv) path c y ⟨c1, c2⟩ hy

/-- The layout `base` with the component `Hero`, whose sub-layout is empty, is
cloned. -/
theorem clone_independence_witness :
    ∃ c heap1,
      layout.Clone 2 [⟨"base".toList, [("hero".toList, ⟨⟨GoType.func [true] [true], 1⟩, 1⟩)]⟩,
          ⟨"Hero".toList, []⟩] 0 = .ok (c, heap1) ∧
      (∀ calls heap2, registerPaths c calls heap1 = .ok heap2 →
        ∀ x, x < [⟨"base".toList, [("hero".toList, ⟨⟨GoType.func [true] [true], 1⟩, 1⟩)]⟩,
            (⟨"Hero".toList, []⟩ : layout)].length → ∀ m,
          layout.Get heap2 x m =
            layout.Get [⟨"base".toList,
                [("hero".toList, ⟨⟨GoType.func [true] [true], 1⟩, 1⟩)]⟩,
              ⟨"Hero".toList, []⟩] x m ∧
          layout.Namespace heap2 x m =
            layout.Namespace [⟨"base".toList,
                [("hero".toList, ⟨⟨GoType.func [true] [true], 1⟩, 1⟩)]⟩,
              ⟨"Hero".toList, []⟩] x m ∧
          layout.list heap2 x =
            layout.list [⟨"base".toList,
                [("hero".toList, ⟨⟨GoType.func [true] [true], 1⟩, 1⟩)]⟩,
              ⟨"Hero".toList, []⟩] x ∧
          layout.Name heap2 x =
            layout.Name [⟨"base".toList,
                [("hero".toList, ⟨⟨GoType.func [true] [true], 1⟩, 1⟩)]⟩,
              ⟨"Hero".toList, []⟩] x) ∧
      (∀ path x, layout.descend [⟨"base".toList,
            [("hero".toList, ⟨⟨GoType.func [true] [true], 1⟩, 1⟩)]⟩,
          ⟨"Hero".toList, []⟩] 0 path = some x →
        x < [⟨"base".toList, [("hero".toList, ⟨⟨GoType.func [true] [true], 1⟩, 1⟩)]⟩,
            (⟨"Hero".toList, []⟩ : layout)].length) ∧
      (∀ calls heap2, registerPaths 0 calls heap1 = .ok heap2 →
        ∀ x, [⟨"base".toList, [("hero".toList, ⟨⟨GoType.func [true] [true], 1⟩, 1⟩)]⟩,
            (⟨"Hero".toList, []⟩ : layout)].length ≤ x → x < heap1.length → ∀ m,
          layout.Get heap2 x m = layout.Get heap1 x m ∧
          layout.Namespace heap2 x m = layout.Namespace heap1 x m ∧
          layout.list heap2 x = layout.list heap1 x ∧
          layout.Name heap2 x = layout.Name heap1 x) ∧
      (∀ path y, layout.descend heap1 c path = some y →
        [⟨"base".toList, [("hero".toList, ⟨⟨GoType.func [true] [true], 1⟩, 1⟩)]⟩,
            (⟨"Hero".toList, []⟩ : layout)].length ≤ y ∧ y < heap1.length) :=
  clone_independence 2
    [⟨"base".toList, [("hero".toList, ⟨⟨GoType.func [true] [true], 1⟩, 1⟩)]⟩,
      ⟨"Hero".toList, []⟩] 0
    ⟨_, rfl, fun kv hkv => by
      rw [List.mem_singleton.1 hkv]
      exact ⟨_, rfl, fun kv1 hkv1 => by cases hkv1⟩⟩
    (fun x lay hl kv hkv => by
      match x, hl with
      | 0, hl =>
        injection hl with hl
        subst hl
        rw [List.mem_singleton.1 hkv]
        decide
      | 1, hl =>
        injection hl with hl
        subst hl
        cases hkv
      | _ + 2, hl => cases hl)


/-! ### Comparing the results of the builder -/

/-- The bounded comparisons of field values only accept equal arguments. -/
theorem built_eqb_sound (fuel : Nat) :
    (∀ a b, FieldValue.eqb fuel a b = true → a = b) ∧
    (∀ a b, Built.eqb fuel a b = true → a = b) ∧
    (∀ a b, Built.eqbArgs fuel a b = true → a = b) ∧
    (∀ a b, Built.eqbProps fuel a b = true → a = b) := by
  induction fuel with
  | zero =>
    refine ⟨?_, ?_, ?_, ?_⟩ <;> intro a b h
    · simp [FieldValue.eqb] at h
    · simp [Built.eqb] at h
    · simp [Built.eqbArgs] at h
    · simp [Built.eqbProps] at h
  | succ n ih =>
    obtain ⟨ih1, ih2, ih3, ih4⟩ := ih
    refine ⟨?_, ?_, ?_, ?_⟩
    · intro a b h
      cases a <;> cases b <;> simp [FieldValue.eqb] at h
      · rfl
      · rw [h]
      · rw [h]
      · rw [h]
      · rw [h]
      · rw [h]
      · rw [ih2 _ _ h]
      · rw [h]
    · intro a b h
      cases a <;> cases b <;> simp [Built.eqb] at h
      · rw [h.1, ih3 _ _ h.2]
      · rw [h]
    · intro a b h
      cases a <;> cases b <;> simp [Built.eqbArgs] at h
      · rfl
      · rw [ih4 _ _ h.1, ih3 _ _ h.2]
    · intro a b h
      cases a <;> cases b <;> simp [Built.eqbProps] at h
      · rfl
      · rw [ih1 _ _ h.1, ih4 _ _ h.2]

/-- A result of `Build` that compares equal to the expected one is the
expected one. -/
theorem eq_of_builtEqb (fuel : Nat) (a b : Except BindFault Built)
    (h : builtEqb fuel a b = true) : a = b := by
  cases a <;> cases b <;> simp [builtEqb] at h
  · rw [h]
  · rw [(built_eqb_sound fuel).2.1 _ _ h]


/-! ### The order in which a component name is resolved -/

/-- C30: `GetComponent(name, ns)` of a builder with the layout `L` looks into
the namespace first and then into the layout.  When `ns` is present and
`ns.Get(name)` finds a component, this component is returned, whatever `L`
holds under the name.  When `ns` is `nil` or does not hold the name, and
`L.Get(name)` finds a component, that one is returned.  The call fails exactly
when neither of them holds the name, and then it returns the not-found error,
which names the namespace when there is one and the layout otherwise; it never
panics. -/
theorem get_component_resolution_order (cb : ComponentBuilder) (name : List Char)
    (ns : Option Nat) (top : layout) (hL : cb.heap[cb.layout]? = some top)
    (hns : ∀ n, ns = some n → n < cb.heap.length) :
    (∀ n c, ns = some n → layout.Get cb.heap n name = .ok (some c) →
      cb.GetComponent name ns = .ok c) ∧
    (∀ c, (∀ n, ns = some n → layout.Get cb.heap n name = .ok none) →
      layout.Get cb.heap cb.layout name = .ok (some c) →
      cb.GetComponent name ns = .ok c) ∧
    ((∃ e, cb.GetComponent name ns = .error e) ↔
      ((∀ n, ns = some n → layout.Get cb.heap n name = .ok none) ∧
        layout.Get cb.heap cb.layout name = .ok none)) ∧
    (∀ e, cb.GetComponent name ns = .error e →
      (ns = none ∧ e = BindFault.notFoundInLayout name top.name) ∨
      (∃ n l, ns = some n ∧ cb.heap[n]? = some l ∧
        e = BindFault.notFoundInNamespace name l.name)) := by
  have hTop : layout.Get cb.heap cb.layout name =
      .ok ((mapGet top.components (ToLower name)).map item.value) := by
    unfold layout.Get
    rw [hL]
    dsimp only
    cases mapGet top.components (ToLower name) <;> rfl
  have hName : layout.Name cb.heap cb.layout = .ok top.name := by
    unfold layout.Name
    rw [hL]
  cases ns with
  | none =>
    cases hg : (mapGet top.components (ToLower name)).map item.value with
    | none =>
      have h : cb.GetComponent name none =
          .error (BindFault.notFoundInLayout name top.name) := by
        unfold ComponentBuilder.GetComponent
        simp only [hTop, hg, hName]
      rw [h, hTop, hg]
      refine ⟨?_, ?_, ?_, ?_⟩
      · intro n c hn
        cases hn
      · intro c _ hc
        cases hc
      · exact ⟨fun _ => ⟨(fun n hn => by cases hn), rfl⟩, fun _ => ⟨_, rfl⟩⟩
      · intro e he
        injection he with he
        exact Or.inl ⟨rfl, he.symm⟩
    | some c0 =>
      have h : cb.GetComponent name none = .ok c0 := by
        unfold ComponentBuilder.GetComponent
        simp only [hTop, hg]
      rw [h, hTop, hg]
      refine ⟨?_, ?_, ?_, ?_⟩
      · intro n c hn
        cases hn
      · intro c _ hc
        injection hc with hc
        injection hc with hc
        rw [hc]
      · refine ⟨?_, ?_⟩
        · rintro ⟨e, he⟩
          cases he
        · rintro ⟨_, h2⟩
          injection h2 with h2
          cases h2
      · intro e he
        cases he
  | some n =>
    have hn := hns n rfl
    obtain ⟨l, hl⟩ : ∃ l, cb.heap[n]? = some l := ⟨_, List.getElem?_eq_getElem hn⟩
    have hNs : layout.Get cb.heap n name =
        .ok ((mapGet l.components (ToLower name)).map item.value) := by
      unfold layout.Get
      rw [hl]
      dsimp only
      cases mapGet l.components (ToLower name) <;> rfl
    have hNsName : layout.Name cb.heap n = .ok l.name := by
      unfold layout.Name
      rw [hl]
    cases hg1 : (mapGet l.components (ToLower name)).map item.value with
    | some c1 =>
      have h : cb.GetComponent name (some n) = .ok c1 := by
        unfold ComponentBuilder.GetComponent
        simp only [hNs, hg1]
      rw [h]
      refine ⟨?_, ?_, ?_, ?_⟩
      · intro m c hm hc
        injection hm with hm
        subst hm
        rw [hNs, hg1] at hc
        injection hc with hc
        injection hc with hc
        rw [hc]
      · intro c hnone _
        have h2 := hnone n rfl
        rw [hNs, hg1] at h2
        injection h2 with h2
        cases h2
      · refine ⟨?_, ?_⟩
        · rintro ⟨e, he⟩
          cases he
        · rintro ⟨hnone, _⟩
          have h2 := hnone n rfl
          rw [hNs, hg1] at h2
          injection h2 with h2
          cases h2
      · intro e he
        cases he
    | none =>
      cases hg : (mapGet top.components (ToLower name)).map item.value with
      | none =>
        have h : cb.GetComponent name (some n) =
            .error (BindFault.notFoundInNamespace name l.name) := by
          unfold ComponentBuilder.GetComponent
          simp only [hNs, hg1, hTop, hg, hNsName]
        rw [h, hTop, hg]
        refine ⟨?_, ?_, ?_, ?_⟩
        · intro m c hm hc
          injection hm with hm
          subst hm
          rw [hNs, hg1] at hc
          injection hc with hc
          cases hc
        · intro c _ hc
          cases hc
        · refine ⟨fun _ => ⟨?_, rfl⟩, fun _ => ⟨_, rfl⟩⟩
          intro m hm
          injection hm with hm
          subst hm
          rw [hNs, hg1]
        · intro e he
          injection he with he
          exact Or.inr ⟨n, l, rfl, hl, he.symm⟩
      | some c0 =>
        have h : cb.GetComponent name (some n) = .ok c0 := by
          unfold ComponentBuilder.GetComponent
          simp only [hNs, hg1, hTop, hg]
        rw [h, hTop, hg]
        refine ⟨?_, ?_, ?_, ?_⟩
        · intro m c hm hc
          injection hm with hm
          subst hm
          rw [hNs, hg1] at hc
          injection hc with hc
          cases hc
        · intro c _ hc
          injection hc with hc
          injection hc with hc
          rw [hc]
        · refine ⟨?_, ?_⟩
          · rintro ⟨e, he⟩
            cases he
          · rintro ⟨_, h2⟩
            injection h2 with h2
            cases h2
        · intro e he
          cases he

/-- The layout `main` holds `hero` and `card`, the namespace `hero` holds
another `card`: with the namespace, `Card` is the component of the namespace
and `Hero` the one of the layout, and `Other` is not found in either. -/
theorem get_component_resolution_order_witness :
    (⟨[⟨"main".toList, [("hero".toList, ⟨⟨GoType.func [true] [true], 1⟩, 1⟩),
          ("card".toList, ⟨⟨GoType.func [true] [true], 2⟩, 2⟩)]⟩,
        ⟨"hero".toList, [("card".toList, ⟨⟨GoType.func [true] [true], 3⟩, 3⟩)]⟩,
        NewLayout "card".toList, NewLayout "card".toList], 0,
        fun _ => [], fun _ => false⟩ : ComponentBuilder).GetComponent
      "Card".toList (some 1) = .ok ⟨GoType.func [true] [true], 3⟩ :=
  (get_component_resolution_order
    ⟨[⟨"main".toList, [("hero".toList, ⟨⟨GoType.func [true] [true], 1⟩, 1⟩),
          ("card".toList, ⟨⟨GoType.func [true] [true], 2⟩, 2⟩)]⟩,
        ⟨"hero".toList, [("card".toList, ⟨⟨GoType.func [true] [true], 3⟩, 3⟩)]⟩,
        NewLayout "card".toList, NewLayout "card".toList], 0,
        fun _ => [], fun _ => false⟩
    "Card".toList (some 1) _ rfl
    (fun n hn => by injection hn with hn; subst hn; decide)).1 1 _ rfl (by decide!)


/-! ### Runs of the builder on parsed components -/

set_option maxRecDepth 100000 in
/-- C25: the unit has the fields `Title` (a string) and `Visible` (a boolean)
and no field for a `templ.Attributes` map.  For the properties `Title: "x"`
and `Extra: "y"` the call of `Build` returns the error "unknown prop: Extra ".
For the component `\Hero` with `Title: "x"` and the flag `!Extra`, which the
parser accepts, the name `Extra` matches no field either, but `Build` returns
no error: the loop that collects the unmatched properties asserts that the
value `true` is bytes, and the call panics. -/
theorem unknown_flag_panics_in_build :
    ComponentBuilder.Build 1
        ⟨[NewLayout "main".toList], 0,
          fun _ => [⟨"Title".toList, Kind.String, "string".toList, true⟩,
            ⟨"Visible".toList, Kind.Bool, "bool".toList, true⟩],
          fun _ => false⟩
        ⟨GoType.func [true] [true], 1⟩
        [("Title".toList, Dyn.str "x".toList), ("Extra".toList, Dyn.str "y".toList)] =
      .error (BindFault.unknownProp ["Extra".toList]) ∧
    Parse "\\Hero\n    Title: \"x\"\n    !Extra".toList =
      .ok [Node.ComponentNode "Hero".toList
        [("Title".toList, Value.str "x".toList), ("Extra".toList, Value.bool true)] []] ∧
    ComponentBuilder.Build 1
        ⟨[NewLayout "main".toList], 0,
          fun _ => [⟨"Title".toList, Kind.String, "string".toList, true⟩,
            ⟨"Visible".toList, Kind.Bool, "bool".toList, true⟩],
          fun _ => false⟩
        ⟨GoType.func [true] [true], 1⟩
        ([("Title".toList, Value.str "x".toList), ("Extra".toList, Value.bool true)].map
          (fun kv => (kv.1, Dyn.ofValue kv.2))) =
      .error BindFault.typeAssertion ∧
    BindFault.typeAssertion.isPanic = true ∧ BindFault.typeAssertion.isError = false :=
  ⟨eq_of_builtEqb 8 _ _ (by decide!), eq_of_resultEqb 8 _ _ (by decide!),
    eq_of_builtEqb 8 _ _ (by decide!), rfl, rfl⟩

set_option maxRecDepth 100000 in
/-- C27: the unit has the fields `Title` (a string) and `Attrs` (a
`templ.Attributes` map).  The component `\Box` has the property `x` twice,
with the values "1" and "2"; neither matches a field by name.  `Build`
returns the unknown-property error, with no name behind "unknown prop: ": the
map holds one key `x`, so one name counts as used, and that is less than the
two properties.  With the two properties `x` and `y` the call returns the
component, and the map in `Attrs` holds both. -/
theorem repeated_property_is_unknown_with_bag :
    Parse "\\Box\n    x: \"1\"\n    x: \"2\"".toList =
      .ok [Node.ComponentNode "Box".toList
        [("x".toList, Value.str "1".toList), ("x".toList, Value.str "2".toList)] []] ∧
    ComponentBuilder.Build 1
        ⟨[NewLayout "main".toList], 0,
          fun _ => [⟨"Title".toList, Kind.String, "string".toList, true⟩,
            ⟨"Attrs".toList, Kind.Map, "templ.Attributes".toList, true⟩],
          fun _ => false⟩
        ⟨GoType.func [true] [true], 1⟩
        ([("x".toList, Value.str "1".toList), ("x".toList, Value.str "2".toList)].map
          (fun kv => (kv.1, Dyn.ofValue kv.2))) =
      .error (BindFault.unknownProp []) ∧
    ComponentBuilder.Build 1
        ⟨[NewLayout "main".toList], 0,
          fun _ => [⟨"Title".toList, Kind.String, "string".toList, true⟩,
            ⟨"Attrs".toList, Kind.Map, "templ.Attributes".toList, true⟩],
          fun _ => false⟩
        ⟨GoType.func [true] [true], 1⟩
        [("x".toList, Dyn.str "1".toList), ("y".toList, Dyn.str "2".toList)] =
      .ok (Built.call ⟨GoType.func [true] [true], 1⟩
        [[FieldValue.zero,
          FieldValue.attributes [("x".toList, "1".toList), ("y".toList, "2".toList)]]]) :=
  ⟨eq_of_resultEqb 8 _ _ (by decide!), eq_of_builtEqb 8 _ _ (by decide!),
    eq_of_builtEqb 8 _ _ (by decide!)⟩

set_option maxRecDepth 100000 in
/-- C28: the unit has the field `Count` of the type `int8`.  For the component
`\Counter` with `Count: "300"` the string is a base-10 integer, which
`strconv.ParseInt` reads as 300 with 64 bits, and `Build` returns the
component; `SetInt` stores the number in the eight bits of the field, which
then holds 44 and not 300. -/
theorem int8_field_holds_truncated_number :
    Parse "\\Counter\n    Count: \"300\"".toList =
      .ok [Node.ComponentNode "Counter".toList
        [("Count".toList, Value.str "300".toList)] []] ∧
    ParseInt "300".toList = .ok 300 ∧
    ComponentBuilder.Build 1
        ⟨[NewLayout "main".toList], 0,
          fun _ => [⟨"Count".toList, Kind.Int8, "int8".toList, true⟩],
          fun _ => false⟩
        ⟨GoType.func [true] [true], 1⟩
        ([("Count".toList, Value.str "300".toList)].map
          (fun kv => (kv.1, Dyn.ofValue kv.2))) =
      .ok (Built.call ⟨GoType.func [true] [true], 1⟩ [[FieldValue.int 44]]) :=
  ⟨eq_of_resultEqb 8 _ _ (by decide!), by decide!, eq_of_builtEqb 8 _ _ (by decide!)⟩

set_option maxRecDepth 100000 in
/-- C29: the unit has the fields `Visible` (a boolean) and `Count` (an `int`).
The parser accepts the component `\Hero` with `Visible: "yes"` and the one
with the flag `!Count`.  For the first, `Build` sets the boolean field to the
string through `reflect`, which panics; for the second, `setIntValue` asserts
that the value `true` is a string, which panics.  Neither call returns an
error value. -/
theorem build_panics_on_value_of_wrong_type :
    Parse "\\Hero\n    Visible: \"yes\"".toList =
      .ok [Node.ComponentNode "Hero".toList
        [("Visible".toList, Value.str "yes".toList)] []] ∧
    ComponentBuilder.Build 1
        ⟨[NewLayout "main".toList], 0,
          fun _ => [⟨"Visible".toList, Kind.Bool, "bool".toList, true⟩,
            ⟨"Count".toList, Kind.Int, "int".toList, true⟩],
          fun _ => false⟩
        ⟨GoType.func [true] [true], 1⟩
        ([("Visible".toList, Value.str "yes".toList)].map
          (fun kv => (kv.1, Dyn.ofValue kv.2))) =
      .error BindFault.notAssignable ∧
    Parse "\\Hero\n    !Count".toList =
      .ok [Node.ComponentNode "Hero".toList [("Count".toList, Value.bool true)] []] ∧
    ComponentBuilder.Build 1
        ⟨[NewLayout "main".toList], 0,
          fun _ => [⟨"Visible".toList, Kind.Bool, "bool".toList, true⟩,
            ⟨"Count".toList, Kind.Int, "int".toList, true⟩],
          fun _ => false⟩
        ⟨GoType.func [true] [true], 1⟩
        ([("Count".toList, Value.bool true)].map (fun kv => (kv.1, Dyn.ofValue kv.2))) =
      .error BindFault.typeAssertion ∧
    BindFault.notAssignable.isPanic = true ∧ BindFault.notAssignable.isError = false ∧
    BindFault.typeAssertion.isPanic = true ∧ BindFault.typeAssertion.isError = false :=
  ⟨eq_of_resultEqb 8 _ _ (by decide!), eq_of_builtEqb 8 _ _ (by decide!),
    eq_of_resultEqb 8 _ _ (by decide!), eq_of_builtEqb 8 _ _ (by decide!),
    rfl, rfl, rfl, rfl⟩


/-! ### The loops of `buildProps` -/

/-- The filter keeps an element that passes the test. -/
theorem filter_pos {α : Type} (p : α → Bool) (a : α) (l : List α) (h : p a = true) :
    (a :: l).filter p = a :: l.filter p := by
  rw [List.filter_cons, if_pos h]

/-- The filter drops an element that fails the test. -/
theorem filter_neg {α : Type} (p : α → Bool) (a : α) (l : List α) (h : ¬ p a = true) :
    (a :: l).filter p = l.filter p := by
  rw [List.filter_cons, if_neg h]

/-- The loop over the attributes only looks at the attributes that match the
name of the field. -/
theorem bindAttrs_filter (set : Dyn → Except BindFault FieldValue) (name : List Char)
    (attrs : List (List Char × Dyn)) (used : List (List Char)) (v : FieldValue) :
    bindAttrs set name attrs used v =
      bindAttrs set name (attrs.filter (fun a => EqualFold a.1 name)) used v := by
  induction attrs generalizing used v with
  | nil => rfl
  | cons a attrs ih =>
    obtain ⟨k, value⟩ := a
    by_cases h : EqualFold k name = true
    · rw [filter_pos (fun a : List Char × Dyn => EqualFold a.1 name) (k, value) attrs h]
      unfold bindAttrs
      rw [if_pos h, if_pos h]
      cases set value with
      | error e => rfl
      | ok v1 => exact ih _ _
    · rw [filter_neg (fun a : List Char × Dyn => EqualFold a.1 name) (k, value) attrs h]
      rw [← ih]
      conv => lhs; unfold bindAttrs
      rw [if_neg h]

/-- When the setter accepts every matching value, the loop over the
attributes returns, and the names of the matching attributes are used. -/
theorem bindAttrs_ok (set : Dyn → Except BindFault FieldValue) (name : List Char)
    (attrs : List (List Char × Dyn)) (used : List (List Char)) (v : FieldValue)
    (h : ∀ a ∈ attrs, EqualFold a.1 name = true → ∃ w, set a.2 = .ok w) :
    ∃ used1 w, bindAttrs set name attrs used v = .ok (used1, w) ∧
      used1.length = used.length + (attrs.filter (fun a => EqualFold a.1 name)).length ∧
      (∀ x ∈ used, x ∈ used1) ∧
      (∀ a ∈ attrs, EqualFold a.1 name = true → a.1 ∈ used1) := by
  induction attrs generalizing used v with
  | nil => exact ⟨used, v, rfl, rfl, fun x hx => hx, fun a ha => by cases ha⟩
  | cons a attrs ih =>
    obtain ⟨k, value⟩ := a
    have h2 : ∀ a ∈ attrs, EqualFold a.1 name = true → ∃ w, set a.2 = .ok w :=
      fun a ha => h a (List.mem_cons_of_mem _ ha)
    by_cases hk : EqualFold k name = true
    · obtain ⟨w1, hw1⟩ := h (k, value) (List.mem_cons_self _ _) hk
      obtain ⟨used1, w, e1, e2, e3, e4⟩ := ih (used ++ [k]) w1 h2
      refine ⟨used1, w, ?_, ?_, ?_, ?_⟩
      · unfold bindAttrs
        rw [if_pos hk]
        dsimp only at hw1
        rw [hw1]
        exact e1
      · rw [e2, filter_pos (fun a : List Char × Dyn => EqualFold a.1 name) (k, value) attrs hk, List.length_append, List.length_cons,
          List.length_cons, List.length_nil]
        omega
      · intro x hx
        exact e3 x (List.mem_append_left _ hx)
      · intro a ha hm
        rcases List.mem_cons.1 ha with rfl | ha
        · exact e3 _ (List.mem_append_right _ (List.mem_singleton_self _))
        · exact e4 a ha hm
    · obtain ⟨used1, w, e1, e2, e3, e4⟩ := ih used v h2
      refine ⟨used1, w, ?_, ?_, e3, ?_⟩
      · unfold bindAttrs
        rw [if_neg hk]
        exact e1
      · rw [e2, filter_neg (fun a : List Char × Dyn => EqualFold a.1 name) (k, value) attrs hk]
      · intro a ha hm
        rcases List.mem_cons.1 ha with rfl | ha
        · exact absurd hm hk
        · exact e4 a ha hm

/-- The number of pairs of a settable field and an attribute that matches its
name. -/
theorem matches_cons (fields : List StructField) (a : List Char × Dyn)
    (attrs : List (List Char × Dyn)) :
    (fields.map (fun G => if G.canSet = true then
        ((a :: attrs).filter (fun b => EqualFold b.1 G.Name)).length else 0)).sum =
      (fields.filter (fun G => G.canSet && EqualFold a.1 G.Name)).length +
        (fields.map (fun G => if G.canSet = true then
          (attrs.filter (fun b => EqualFold b.1 G.Name)).length else 0)).sum := by
  induction fields with
  | nil => rfl
  | cons G fields ih =>
    rw [List.map_cons, List.sum_cons, List.map_cons, List.sum_cons, ih]
    by_cases hc : G.canSet = true
    · by_cases hm : EqualFold a.1 G.Name = true
      · rw [filter_pos (fun G => G.canSet && EqualFold a.1 G.Name) G fields
            (by dsimp only; rw [hc, hm]; rfl),
          if_pos hc, if_pos hc, filter_pos (fun b => EqualFold b.1 G.Name) a attrs hm,
          List.length_cons, List.length_cons]
        omega
      · rw [filter_neg (fun G => G.canSet && EqualFold a.1 G.Name) G fields
            (by dsimp only; rw [hc]; simpa using hm),
          if_pos hc, if_pos hc, filter_neg (fun b => EqualFold b.1 G.Name) a attrs hm]
        omega
    · rw [filter_neg (fun G => G.canSet && EqualFold a.1 G.Name) G fields
          (by dsimp only; simp [hc]), if_neg hc, if_neg hc]
      omega

/-- When every attribute matches a settable field, there are at least as many
matching pairs as attributes. -/
theorem length_le_matches (fields : List StructField) (attrs : List (List Char × Dyn))
    (h : ∀ a ∈ attrs, ∃ G ∈ fields, G.canSet = true ∧ EqualFold a.1 G.Name = true) :
    attrs.length ≤ (fields.map (fun G => if G.canSet = true then
      (attrs.filter (fun b => EqualFold b.1 G.Name)).length else 0)).sum := by
  induction attrs with
  | nil => exact Nat.zero_le _
  | cons a attrs ih =>
    rw [matches_cons]
    have h1 := ih (fun b hb => h b (List.mem_cons_of_mem _ hb))
    obtain ⟨G, hG, hc, hm⟩ := h a (List.mem_cons_self _ _)
    have h2 : 0 < (fields.filter (fun G => G.canSet && EqualFold a.1 G.Name)).length :=
      List.length_pos_of_mem (List.mem_filter.2 ⟨hG, by simp [hc, hm]⟩)
    rw [List.length_cons]
    omega

/-- When the setter accepts every value for every settable field that the
name of its attribute matches, the first loop over the fields returns: there
is one value for every field, every matching pair has added a name to the
names used, and the value of a settable field is what its loop over the
attributes has made. -/
theorem bindFields_ok (set : StructField → Dyn → Except BindFault FieldValue)
    (attrs : List (List Char × Dyn)) (fields : List StructField) (used : List (List Char))
    (h : ∀ G ∈ fields, G.canSet = true → ∀ a ∈ attrs, EqualFold a.1 G.Name = true →
      ∃ w, set G a.2 = .ok w) :
    ∃ used1 values, bindFields set attrs fields used = .ok (used1, values) ∧
      values.length = fields.length ∧
      used1.length = used.length + (fields.map (fun G => if G.canSet = true then
        (attrs.filter (fun b => EqualFold b.1 G.Name)).length else 0)).sum ∧
      (∀ x ∈ used, x ∈ used1) ∧
      (∀ G ∈ fields, G.canSet = true → ∀ a ∈ attrs, EqualFold a.1 G.Name = true →
        a.1 ∈ used1) ∧
      (∀ (i : Nat) (G : StructField), fields[i]? = some G → G.canSet = true →
        ∃ u u1 w, bindAttrs (set G) G.Name attrs u FieldValue.zero = .ok (u1, w) ∧
          values[i]? = some w) := by
  induction fields generalizing used with
  | nil =>
    refine ⟨used, [], rfl, rfl, rfl, fun x hx => hx, (fun G hG => by cases hG), ?_⟩
    intro i G hi
    cases hi
  | cons F fields ih =>
    have h2 : ∀ G ∈ fields, G.canSet = true → ∀ a ∈ attrs, EqualFold a.1 G.Name = true →
        ∃ w, set G a.2 = .ok w := fun G hG => h G (List.mem_cons_of_mem _ hG)
    by_cases hc : F.canSet = true
    · obtain ⟨u1, w, e1, e2, e3, e4⟩ :=
        bindAttrs_ok (set F) F.Name attrs used FieldValue.zero (h F (List.mem_cons_self _ _) hc)
      obtain ⟨used2, values, f1, f2, f3, f4, f5, f6⟩ := ih u1 h2
      refine ⟨used2, w :: values, ?_, ?_, ?_, ?_, ?_, ?_⟩
      · unfold bindFields
        rw [if_neg (by rw [hc]; exact Bool.noConfusion), e1]
        dsimp only
        rw [f1]
      · rw [List.length_cons, List.length_cons, f2]
      · rw [f3, e2, List.map_cons, List.sum_cons, if_pos hc]
        omega
      · intro x hx
        exact f4 x (e3 x hx)
      · intro G hG hGc a ha hm
        rcases List.mem_cons.1 hG with rfl | hG
        · exact f4 _ (e4 a ha hm)
        · exact f5 G hG hGc a ha hm
      · intro i G hi hGc
        cases i with
        | zero =>
          rw [List.getElem?_cons_zero] at hi
          injection hi with hi
          subst hi
          exact ⟨used, u1, w, e1, List.getElem?_cons_zero⟩
        | succ i =>
          rw [List.getElem?_cons_succ] at hi
          obtain ⟨u, u2, w2, g1, g2⟩ := f6 i G hi hGc
          exact ⟨u, u2, w2, g1, by rw [List.getElem?_cons_succ]; exact g2⟩
    · have hc2 : F.canSet = false := by
        cases hF : F.canSet
        · rfl
        · exact absurd hF hc
      obtain ⟨used2, values, f1, f2, f3, f4, f5, f6⟩ := ih used h2
      refine ⟨used2, FieldValue.zero :: values, ?_, ?_, ?_, f4, ?_, ?_⟩
      · unfold bindFields
        rw [if_pos hc2, f1]
      · rw [List.length_cons, List.length_cons, f2]
      · rw [f3, List.map_cons, List.sum_cons, if_neg hc]
        omega
      · intro G hG hGc a ha hm
        rcases List.mem_cons.1 hG with rfl | hG
        · exact absurd hGc hc
        · exact f5 G hG hGc a ha hm
      · intro i G hi hGc
        cases i with
        | zero =>
          rw [List.getElem?_cons_zero] at hi
          injection hi with hi
          subst hi
          exact absurd hGc hc
        | succ i =>
          rw [List.getElem?_cons_succ] at hi
          obtain ⟨u, u2, w2, g1, g2⟩ := f6 i G hi hGc
          exact ⟨u, u2, w2, g1, by rw [List.getElem?_cons_succ]; exact g2⟩

/-- When every name is used, the loop that fills `componentAttrs` adds
nothing and looks at no value. -/
theorem collectAttrs_used (used : List (List Char)) (attrs : List (List Char × Dyn))
    (m : List (List Char × List Char)) (h : ∀ a ∈ attrs, a.1 ∈ used) :
    collectAttrs used attrs m = .ok m := by
  induction attrs with
  | nil => rfl
  | cons a attrs ih =>
    obtain ⟨k, value⟩ := a
    unfold collectAttrs
    rw [if_pos (List.elem_eq_true_of_mem (h (k, value) (List.mem_cons_self _ _)))]
    exact ih (fun b hb => h b (List.mem_cons_of_mem _ hb))

/-- The second loop over the fields keeps the number of the values and the
value of every field that is no map, and it takes no name from the names
used. -/
theorem fillBags_spec (componentAttrs : List (List Char × List Char))
    (fields : List StructField) (values : List FieldValue) (used : List (List Char))
    (h : values.length = fields.length) :
    (fillBags componentAttrs fields values used).1.length = fields.length ∧
    used.length ≤ (fillBags componentAttrs fields values used).2.length ∧
    (∀ (i : Nat) (G : StructField), fields[i]? = some G → G.kind ≠ Kind.Map →
      (fillBags componentAttrs fields values used).1[i]? = values[i]?) := by
  induction fields generalizing values used with
  | nil =>
    cases values with
    | nil => exact ⟨rfl, Nat.le_refl _, fun i G hi => by cases hi⟩
    | cons v values => cases h
  | cons F fields ih =>
    cases values with
    | nil => cases h
    | cons v values =>
      have h1 : values.length = fields.length := by
        rw [List.length_cons, List.length_cons] at h
        omega
      unfold fillBags
      split
      · rename_i hb
        obtain ⟨g1, g2, g3⟩ := ih values (used ++ componentAttrs.map Prod.fst) h1
        refine ⟨?_, ?_, ?_⟩
        · rw [List.length_cons, List.length_cons, g1]
        · rw [List.length_append] at g2
          exact Nat.le_trans (Nat.le_add_right _ _) g2
        · intro i G hi hG
          cases i with
          | zero =>
            rw [List.getElem?_cons_zero] at hi
            injection hi with hi
            subst hi
            exact absurd hb.2.1 hG
          | succ i =>
            rw [List.getElem?_cons_succ] at hi
            rw [List.getElem?_cons_succ, List.getElem?_cons_succ]
            exact g3 i G hi hG
      · obtain ⟨g1, g2, g3⟩ := ih values used h1
        refine ⟨?_, g2, ?_⟩
        · rw [List.length_cons, List.length_cons, g1]
        · intro i G hi hG
          cases i with
          | zero => rw [List.getElem?_cons_zero, List.getElem?_cons_zero]
          | succ i =>
            rw [List.getElem?_cons_succ] at hi
            rw [List.getElem?_cons_succ, List.getElem?_cons_succ]
            exact g3 i G hi hG


/-! ### A string field and the property of its name -/

/-- A settable field of the kind string takes a string as it is. -/
theorem setField_string (cb : ComponentBuilder)
    (build : Component → List (List Char × Dyn) → Except BindFault Built)
    (F : StructField) (v : List Char) (hS : F.kind = Kind.String) :
    cb.setField build F (Dyn.str v) = .ok (FieldValue.string v) := by
  unfold ComponentBuilder.setField
  rw [if_neg (by rw [hS]; decide), hS]
  rfl

set_option maxRecDepth 100000 in
/-- C26, as stated: the unit has the fields `Title` (a string) and `Count` (an
`int`).  In the component `\Hero` with `Title: "x"` and `Count: "abc"` exactly
one property has the name of `Title`, with the string "x", and the other
property matches the other field, yet `Build` does not succeed: it returns the
error "failed to parse int".  The property of the string field can itself
match a second field: with the fields `Title` (a string) and `TITLE` (an
`int`) and the one property `title` with the string "abc", `Build` returns
the same error.  And a string field that cannot be set (its name is not
exported) takes no property: with the one field `title` the property `title`
is reported as unknown. -/
theorem other_property_can_fail_build :
    Parse "\\Hero\n    Title: \"x\"\n    Count: \"abc\"".toList =
      .ok [Node.ComponentNode "Hero".toList
        [("Title".toList, Value.str "x".toList), ("Count".toList, Value.str "abc".toList)]
        []] ∧
    EqualFold "Title".toList "Title".toList = true ∧
    EqualFold "Count".toList "Title".toList = false ∧
    EqualFold "Count".toList "Count".toList = true ∧
    ComponentBuilder.Build 1
        ⟨[NewLayout "main".toList], 0,
          fun _ => [⟨"Title".toList, Kind.String, "string".toList, true⟩,
            ⟨"Count".toList, Kind.Int, "int".toList, true⟩],
          fun _ => false⟩
        ⟨GoType.func [true] [true], 1⟩
        ([("Title".toList, Value.str "x".toList),
          ("Count".toList, Value.str "abc".toList)].map
          (fun kv => (kv.1, Dyn.ofValue kv.2))) =
      .error (BindFault.failedToParseInt NumError.ErrSyntax) ∧
    EqualFold "title".toList "Title".toList = true ∧
    EqualFold "title".toList "TITLE".toList = true ∧
    ComponentBuilder.Build 1
        ⟨[NewLayout "main".toList], 0,
          fun _ => [⟨"Title".toList, Kind.String, "string".toList, true⟩,
            ⟨"TITLE".toList, Kind.Int, "int".toList, true⟩],
          fun _ => false⟩
        ⟨GoType.func [true] [true], 1⟩ [("title".toList, Dyn.str "abc".toList)] =
      .error (BindFault.failedToParseInt NumError.ErrSyntax) ∧
    ComponentBuilder.Build 1
        ⟨[NewLayout "main".toList], 0,
          fun _ => [⟨"title".toList, Kind.String, "string".toList, false⟩],
          fun _ => false⟩
        ⟨GoType.func [true] [true], 1⟩ [("title".toList, Dyn.str "abc".toList)] =
      .error (BindFault.unknownProp ["title".toList]) :=
  ⟨eq_of_resultEqb 8 _ _ (by decide!), by decide!, by decide!, by decide!,
    eq_of_builtEqb 8 _ _ (by decide!), by decide!, by decide!,
    eq_of_builtEqb 8 _ _ (by decide!), eq_of_builtEqb 8 _ _ (by decide!)⟩

/-- C26, amended: the unit takes one struct and returns a component, and `F`
is a settable string field of the struct, at the index `i`.  Exactly one
property has a name equal to the name of `F` ignoring letter case, and its
value is the string `v`; every property has a name equal, ignoring letter
case, to the name of at least one settable field; and every property, the one
of `F` too, is bound without error to each settable field other than `F` that
its name matches.  Then `Build` returns the component that the call of the
unit with one struct returned, and in this struct the field `F` holds `v`. -/
theorem string_field_gets_its_property (fuel : Nat) (cb : ComponentBuilder)
    (component : Component) (outs : List Bool) (attrs : List (List Char × Dyn))
    (i : Nat) (F : StructField) (k v : List Char)
    (hT : component.type = GoType.func [true] (true :: outs))
    (hF : (cb.fields component)[i]? = some F)
    (hS : F.kind = Kind.String) (hC : F.canSet = true)
    (hOne : attrs.filter (fun a => EqualFold a.1 F.Name) = [(k, Dyn.str v)])
    (hAll : ∀ a ∈ attrs, ∃ G ∈ cb.fields component,
      G.canSet = true ∧ EqualFold a.1 G.Name = true)
    (hOk : ∀ G ∈ cb.fields component, G.canSet = true → G ≠ F →
      ∀ a ∈ attrs, EqualFold a.1 G.Name = true →
        ∃ w, cb.setField (ComponentBuilder.Build fuel cb) G a.2 = .ok w) :
    ∃ props, ComponentBuilder.Build (fuel + 1) cb component attrs =
        .ok (Built.call component [props]) ∧
      props.length = (cb.fields component).length ∧
      props[i]? = some (FieldValue.string v) := by
  have hset : ∀ G ∈ cb.fields component, G.canSet = true →
      ∀ a ∈ attrs, EqualFold a.1 G.Name = true →
        ∃ w, cb.setField (ComponentBuilder.Build fuel cb) G a.2 = .ok w := by
    intro G hG hGc a ha hm
    by_cases hGF : G = F
    · subst hGF
      have h1 : a ∈ attrs.filter (fun a => EqualFold a.1 G.Name) :=
        List.mem_filter.2 ⟨ha, hm⟩
      rw [hOne] at h1
      rw [List.mem_singleton.1 h1]
      exact ⟨FieldValue.string v, setField_string cb _ G v hS⟩
    · exact hOk G hG hGc hGF a ha hm
  obtain ⟨used1, values, e1, e2, e3, _, e5, e6⟩ :=
    bindFields_ok (cb.setField (ComponentBuilder.Build fuel cb)) attrs (cb.fields component)
      [] hset
  have hmem : ∀ a ∈ attrs, a.1 ∈ used1 := by
    intro a ha
    obtain ⟨G, hG, hc, hm⟩ := hAll a ha
    exact e5 G hG hc a ha hm
  have hlen : attrs.length ≤ used1.length := by
    have h1 := length_le_matches (cb.fields component) attrs hAll
    rw [e3, List.length_nil]
    omega
  have hcol := collectAttrs_used used1 attrs [] hmem
  obtain ⟨g1, g2, g3⟩ := fillBags_spec [] (cb.fields component) values used1 e2
  refine ⟨(fillBags [] (cb.fields component) values used1).1, ?_, g1, ?_⟩
  · have hp : cb.buildProps (ComponentBuilder.Build fuel cb) component attrs =
        .ok [(fillBags [] (cb.fields component) values used1).1] := by
      unfold ComponentBuilder.buildProps
      rw [hT]
      dsimp only
      rw [e1]
      dsimp only
      rw [hcol]
      dsimp only
      rw [if_neg (Nat.not_lt.2 (Nat.le_trans hlen g2))]
    unfold ComponentBuilder.Build
    rw [hp]
    dsimp only
    rw [hT]
    rfl
  · rw [g3 i F hF (by rw [hS]; decide)]
    obtain ⟨u, u1, w, b1, b2⟩ := e6 i F hF hC
    have hk : EqualFold k F.Name = true := by
      have h1 : (k, Dyn.str v) ∈ attrs.filter (fun a => EqualFold a.1 F.Name) := by
        rw [hOne]
        exact List.mem_singleton_self _
      exact (List.mem_filter.1 h1).2
    rw [bindAttrs_filter, hOne] at b1
    unfold bindAttrs at b1
    rw [if_pos hk, setField_string cb _ F v hS] at b1
    dsimp only at b1
    unfold bindAttrs at b1
    injection b1 with b1
    injection b1 with _ b1
    rw [b2, b1]

set_option maxRecDepth 100000 in
/-- The unit has the fields `Title` (a string) and `Count` (an `int`); the
properties are `title: "Hello"` and `COUNT: "3"`. -/
theorem string_field_gets_its_property_witness :
    ∃ props, ComponentBuilder.Build 1
        ⟨[NewLayout "main".toList], 0,
          fun _ => [⟨"Title".toList, Kind.String, "string".toList, true⟩,
            ⟨"Count".toList, Kind.Int, "int".toList, true⟩],
          fun _ => false⟩
        ⟨GoType.func [true] [true], 1⟩
        [("title".toList, Dyn.str "Hello".toList), ("COUNT".toList, Dyn.str "3".toList)] =
        .ok (Built.call ⟨GoType.func [true] [true], 1⟩ [props]) ∧
      props.length = 2 ∧ props[0]? = some (FieldValue.string "Hello".toList) :=
  string_field_gets_its_property 0
    ⟨[NewLayout "main".toList], 0,
      fun _ => [⟨"Title".toList, Kind.String, "string".toList, true⟩,
        ⟨"Count".toList, Kind.Int, "int".toList, true⟩],
      fun _ => false⟩
    ⟨GoType.func [true] [true], 1⟩ []
    [("title".toList, Dyn.str "Hello".toList), ("COUNT".toList, Dyn.str "3".toList)]
    0 ⟨"Title".toList, Kind.String, "string".toList, true⟩ "title".toList "Hello".toList
    rfl rfl rfl rfl
    (by
      rw [filter_pos _ _ _ (by decide!), filter_neg _ _ _ (by decide!)]
      rfl)
    (fun a ha => by
      rcases List.mem_cons.1 ha with rfl | ha
      · exact ⟨_, List.mem_cons_self _ _, rfl, by decide!⟩
      · rcases List.mem_cons.1 ha with rfl | ha
        · exact ⟨_, List.mem_cons_of_mem _ (List.mem_cons_self _ _), rfl, by decide!⟩
        · cases ha)
    (fun G hG _ hne a ha hm => by
      rcases List.mem_cons.1 hG with rfl | hG
      · exact absurd rfl hne
      · rcases List.mem_cons.1 hG with rfl | hG
        · rcases List.mem_cons.1 ha with rfl | ha
          · exact absurd hm (by decide!)
          · rcases List.mem_cons.1 ha with rfl | ha
            · exact ⟨FieldValue.int 3, by
                unfold ComponentBuilder.setField ComponentBuilder.SetTypedValue setIntValue
                rw [if_neg (by decide)]
                dsimp only
                rw [show ParseInt "3".toList = .ok 3 from by decide!]
                rfl⟩
            · cases ha
        · cases hG)


/-! ### The slot and the layout of a render context -/

/-- C38: `slotKey` and `layoutKey` are the same value `ContextKey{}`, so the
slot and the layout are one entry of the context and the one stored last
hides the other.  For every context, layout name and component, `GetLayout`
of a context that got the layout and then the slot finds the component under
the key and returns `("", false)`, and `GetSlot` of a context that got the
slot and then the layout finds the string and returns `(nil, false)`. -/
theorem slot_and_layout_share_one_key (ctx : Context) (l : List Char) (c : Templ) :
    slotKey = layoutKey ∧
    GetLayout (WithSlot (WithLayout ctx l) c) = ([], false) ∧
    GetSlot (WithLayout (WithSlot ctx c) l) = (none, false) ∧
    GetSlot (WithSlot (WithLayout ctx l) c) = (some c, true) ∧
    GetLayout (WithLayout (WithSlot ctx c) l) = (l, true) :=
  ⟨rfl, rfl, rfl, rfl, rfl⟩

/-- A context without an entry under the key has no value under it. -/
theorem Value_of_no_entry (ctx : Context) (key : CtxKey) (h : ∀ kv ∈ ctx, kv.1 ≠ key) :
    ctx.Value key = CtxValue.null := by
  induction ctx with
  | nil => rfl
  | cons kv ctx ih =>
    obtain ⟨k, v⟩ := kv
    unfold Context.Value
    rw [if_neg (h (k, v) (List.mem_cons_self _ _))]
    exact ih (fun kv hkv => h kv (List.mem_cons_of_mem _ hkv))

/-- The method `GetSlot` returns a component exactly with `true`. -/
theorem GetSlot_cases (ctx : Context) :
    (∃ c, GetSlot ctx = (some c, true)) ∨ GetSlot ctx = (none, false) := by
  unfold GetSlot
  cases ctx.Value slotKey with
  | null => exact Or.inr rfl
  | string s => exact Or.inr rfl
  | component c => exact Or.inl ⟨c, rfl⟩
  | other i => exact Or.inr rfl

/-- C31: rendering a component node with the name `Slot` is `renderSlot`,
whatever the renderer, its builder and its registry, the fuel, the attributes
and children of the node and the namespace are: two renderers return the
same for it.  It hands over to the component that `GetSlot` finds in the
context, with the same context, and it returns the error "slot not found"
exactly when `GetSlot` finds none, as in a context with no entry under the
key.  A context that `WithSlot` made holds the component given.  The name is
compared as it is: for the name `slot` the component is looked up, and in an
empty layout with the name `main` the lookup fails. -/
theorem slot_node_renders_context_slot (nr : NodeRenderer) (fuel : Nat) (ctx : Context)
    (attributes : List (List Char × Value)) (children : List Node) (parentNS : Option Nat) :
    nr.renderComponentNode fuel ctx "Slot".toList attributes children parentNS =
        nr.renderSlot ctx ∧
    (∀ (nr2 : NodeRenderer) (fuel2 : Nat) (attributes2 : List (List Char × Value))
        (children2 : List Node) (parentNS2 : Option Nat),
      nr2.renderComponentNode fuel2 ctx "Slot".toList attributes2 children2 parentNS2 =
        nr.renderComponentNode fuel ctx "Slot".toList attributes children parentNS) ∧
    (∀ component, GetSlot ctx = (some component, true) →
      nr.renderComponentNode fuel ctx "Slot".toList attributes children parentNS =
        .ok (Rendering.render component ctx)) ∧
    (nr.renderComponentNode fuel ctx "Slot".toList attributes children parentNS =
        .error RenderFault.slotNotFound ↔ GetSlot ctx = (none, false)) ∧
    ((∀ kv ∈ ctx, kv.1 ≠ slotKey) →
      nr.renderComponentNode fuel ctx "Slot".toList attributes children parentNS =
        .error RenderFault.slotNotFound) ∧
    (∀ component : Templ,
      nr.renderComponentNode fuel (WithSlot ctx component) "Slot".toList attributes children
          parentNS =
        .ok (Rendering.render component (WithSlot ctx component))) ∧
    (∀ (fields : Component → List StructField) (pf : List Char → Bool),
      NodeRenderer.renderComponentNode ⟨⟨[NewLayout "main".toList], 0, fields, pf⟩, 0⟩ fuel ctx
          "slot".toList attributes children none =
        .error (RenderFault.builder
          (BindFault.notFoundInLayout "slot".toList "main".toList))) := by
  have h0 : ∀ (nr2 : NodeRenderer) (fuel2 : Nat) (ctx2 : Context)
      (attributes2 : List (List Char × Value)) (children2 : List Node)
      (parentNS2 : Option Nat),
      nr2.renderComponentNode fuel2 ctx2 "Slot".toList attributes2 children2 parentNS2 =
        (match GetSlot ctx2 with
          | (some component, true) => .ok (Rendering.render component ctx2)
          | _ => .error RenderFault.slotNotFound) := by
    intro nr2 fuel2 ctx2 attributes2 children2 parentNS2
    unfold NodeRenderer.renderComponentNode
    rw [if_pos rfl]
    rfl
  refine ⟨?_, ?_, ?_, ?_, ?_, ?_, ?_⟩
  · rw [h0]
    rfl
  · intro nr2 fuel2 attributes2 children2 parentNS2
    rw [h0, h0]
  · intro component hc
    rw [h0, hc]
  · rw [h0]
    rcases GetSlot_cases ctx with ⟨c, hc⟩ | hc
    · rw [hc]
      exact ⟨(fun h => by cases h), (fun h => by cases h)⟩
    · rw [hc]
      exact ⟨fun _ => rfl, fun _ => rfl⟩
  · intro h
    rw [h0]
    unfold GetSlot
    rw [Value_of_no_entry ctx slotKey h]
  · intro component
    rw [h0]
    rfl
  · intro fields pf
    unfold NodeRenderer.renderComponentNode
    rw [if_neg (by decide)]
    rfl


/-! ### Paths and URLs -/

/-- The byte at an index behind the first part of an appended string. -/
theorem getD_append_add (pre suf : List Char) (j : Nat) :
    (pre ++ suf).getD (pre.length + j) nul = suf.getD j nul := by
  rw [List.getD_eq_getElem?_getD, List.getD_eq_getElem?_getD,
    List.getElem?_append_right (Nat.le_add_right _ _), Nat.add_sub_cancel_left]

/-- The byte at an index inside a string is a byte of the string. -/
theorem getD_mem (suf : List Char) (j : Nat) (h : j < suf.length) : suf.getD j nul ∈ suf := by
  rw [List.getD_eq_getElem?_getD, List.getElem?_eq_getElem h]
  exact List.getElem_mem h

/-- One round of the loop of `filepath.Split`. -/
theorem splitIndex_succ (path : List Char) (i : Nat) :
    splitIndex path (i + 1) = if path.getD i nul = '/' then i + 1 else splitIndex path i :=
  rfl

/-- One round of the loop of `filepath.Ext`. -/
theorem extIndex_succ (path : List Char) (i : Nat) :
    extIndex path (i + 1) =
      if path.getD i nul = '/' then none
      else if path.getD i nul = '.' then some i
      else extIndex path i :=
  rfl

/-- The loop of `filepath.Split` passes the bytes that are no separator. -/
theorem splitIndex_skip (pre suf : List Char) (h : ∀ c ∈ suf, c ≠ '/') (k : Nat)
    (hk : k ≤ suf.length) :
    splitIndex (pre ++ suf) (pre.length + k) = splitIndex (pre ++ suf) pre.length := by
  induction k with
  | zero => rfl
  | succ k ih =>
    rw [← Nat.add_assoc, splitIndex_succ, getD_append_add, if_neg (h _ (getD_mem suf k hk))]
    exact ih (Nat.le_of_succ_le hk)

/-- The loop of `filepath.Split` stops behind a separator. -/
theorem splitIndex_stop (d rest : List Char) :
    splitIndex (d ++ '/' :: rest) (d.length + 1) = d.length + 1 := by
  have h := getD_append_add d ('/' :: rest) 0
  rw [Nat.add_zero] at h
  rw [splitIndex_succ, h]
  rfl

/-- The call `filepath.Split` cuts behind the last separator. -/
theorem Split_append (dir fn : List Char) (hdir : dir = [] ∨ ∃ d, dir = d ++ ['/'])
    (hfn : ∀ c ∈ fn, c ≠ '/') : Split (dir ++ fn) = (dir, fn) := by
  have h1 : splitIndex (dir ++ fn) (dir ++ fn).length = dir.length := by
    rw [List.length_append, splitIndex_skip dir fn hfn fn.length (Nat.le_refl _)]
    rcases hdir with rfl | ⟨d, rfl⟩
    · rfl
    · rw [List.append_assoc, List.length_append]
      exact splitIndex_stop d ([] ++ fn)
  unfold Split
  rw [h1, List.take_left, List.drop_left]

/-- The loop of `filepath.Ext` passes the bytes that are neither a separator
nor a dot. -/
theorem extIndex_skip (pre suf : List Char) (h1 : ∀ c ∈ suf, c ≠ '/')
    (h2 : ∀ c ∈ suf, c ≠ '.') (k : Nat) (hk : k ≤ suf.length) :
    extIndex (pre ++ suf) (pre.length + k) = extIndex (pre ++ suf) pre.length := by
  induction k with
  | zero => rfl
  | succ k ih =>
    rw [← Nat.add_assoc, extIndex_succ, getD_append_add, if_neg (h1 _ (getD_mem suf k hk)),
      if_neg (h2 _ (getD_mem suf k hk))]
    exact ih (Nat.le_of_succ_le hk)

/-- The extension of a path that ends in a dot and bytes that are neither a
separator nor a dot. -/
theorem Ext_append_dot (pre e : List Char) (h1 : ∀ c ∈ e, c ≠ '/') (h2 : ∀ c ∈ e, c ≠ '.') :
    Ext (pre ++ '.' :: e) = '.' :: e := by
  have h : extIndex (pre ++ '.' :: e) (pre ++ '.' :: e).length = some pre.length := by
    have h3 : pre ++ '.' :: e = (pre ++ ['.']) ++ e := by
      rw [List.append_assoc]
      rfl
    have h4 : (pre ++ '.' :: e).length = (pre ++ ['.']).length + e.length := by
      rw [h3, List.length_append]
    have h5 := getD_append_add pre ('.' :: e) 0
    rw [Nat.add_zero] at h5
    rw [h4, h3, extIndex_skip (pre ++ ['.']) e h1 h2 e.length (Nat.le_refl _), ← h3,
      List.length_append, List.length_singleton, extIndex_succ, h5]
    rfl
  unfold Ext
  rw [h]
  exact List.drop_left _ _

/-- A file name without a dot, behind a directory, has no extension. -/
theorem Ext_append_plain (dir name : List Char) (hdir : dir = [] ∨ ∃ d, dir = d ++ ['/'])
    (h1 : ∀ c ∈ name, c ≠ '/') (h2 : ∀ c ∈ name, c ≠ '.') : Ext (dir ++ name) = [] := by
  have h : extIndex (dir ++ name) (dir ++ name).length = none := by
    rw [List.length_append, extIndex_skip dir name h1 h2 name.length (Nat.le_refl _)]
    rcases hdir with rfl | ⟨d, rfl⟩
    · rfl
    · have h5 := getD_append_add d ('/' :: name) 0
      rw [Nat.add_zero] at h5
      rw [List.append_assoc, List.length_append, List.length_singleton, extIndex_succ,
        show ['/'] ++ name = '/' :: name from rfl, h5]
      rfl
  unfold Ext
  rw [h]

/-- The call `strings.TrimSuffix` takes a suffix off. -/
theorem TrimSuffix_append (s suffix : List Char) : TrimSuffix (s ++ suffix) suffix = s := by
  unfold TrimSuffix HasSuffix
  rw [List.length_append, Nat.add_sub_cancel, List.drop_left, List.take_left,
    if_pos (decide_eq_true ⟨Nat.le_add_left _ _, rfl⟩)]

/-- The call `strings.TrimSuffix` leaves the empty string. -/
theorem TrimSuffix_nil (suffix : List Char) : TrimSuffix [] suffix = [] := by
  unfold TrimSuffix
  split
  · exact List.take_nil
  · rfl

/-- C32, as stated: the path `a.tar.gz` is the name `a` and the argument
`.tar.gz`, and the path `ax` is the name `a` and the argument `x`.  The name
is not `index`, but `PathToUrl` does not return `/a`: the extension that
`filepath.Ext` finds is `.gz`, or none, so the path comes back unchanged. -/
theorem path_to_url_other_suffix :
    PathToUrl ([] ++ "a".toList ++ ".tar.gz".toList) ".tar.gz".toList = "/a.tar.gz".toList ∧
    PathToUrl ([] ++ "a".toList ++ "x".toList) "x".toList = "/ax".toList ∧
    Ext "a.tar.gz".toList = ".gz".toList ∧ Ext "ax".toList = [] := by
  decide

/-- C32, amended: the path is `dir ++ name ++ ext`, where `dir` is empty or
ends in `/`, `name` contains neither `/` nor `.`, and `ext` is empty or a dot
followed by bytes other than `/` and `.`.  Then `PathToUrl(path, ext)` is `/`
and `dir ++ name` when the name is not `index`, and `/` and `dir` without its
last `/` when the name is `index`. -/
theorem path_to_url_of_page (dir name ext : List Char)
    (hdir : dir = [] ∨ ∃ d, dir = d ++ ['/'])
    (h1 : ∀ c ∈ name, c ≠ '/') (h2 : ∀ c ∈ name, c ≠ '.')
    (hext : ext = [] ∨ ∃ e, ext = '.' :: e ∧ (∀ c ∈ e, c ≠ '/') ∧ (∀ c ∈ e, c ≠ '.')) :
    (name ≠ "index".toList → PathToUrl (dir ++ name ++ ext) ext = '/' :: (dir ++ name)) ∧
    (name = "index".toList → dir = [] → PathToUrl (dir ++ name ++ ext) ext = ['/']) ∧
    (name = "index".toList → ∀ d, dir = d ++ ['/'] →
      PathToUrl (dir ++ name ++ ext) ext = '/' :: d) := by
  have hfn : ∀ c ∈ name ++ ext, c ≠ '/' := by
    intro c hc
    rcases List.mem_append.1 hc with hc | hc
    · exact h1 c hc
    · rcases hext with rfl | ⟨e, rfl, he1, _⟩
      · cases hc
      · rcases List.mem_cons.1 hc with rfl | hc
        · decide
        · exact he1 c hc
  have hS : Split (dir ++ name ++ ext) = (dir, name ++ ext) := by
    rw [List.append_assoc]
    exact Split_append dir (name ++ ext) hdir hfn
  have hE1 : Ext (name ++ ext) = ext := by
    rcases hext with rfl | ⟨e, rfl, he1, he2⟩
    · rw [List.append_nil]
      exact Ext_append_plain [] name (Or.inl rfl) h1 h2
    · exact Ext_append_dot name e he1 he2
  have hE2 : Ext (dir ++ name ++ ext) = ext := by
    rcases hext with rfl | ⟨e, rfl, he1, he2⟩
    · rw [List.append_nil]
      exact Ext_append_plain dir name hdir h1 h2
    · exact Ext_append_dot (dir ++ name) e he1 he2
  have hB : StripExt (name ++ ext) = name := by
    unfold StripExt
    rw [hE1, TrimSuffix_append]
  refine ⟨?_, ?_, ?_⟩
  · intro hn
    unfold PathToUrl
    rw [hS]
    dsimp only
    rw [hB, if_neg hn, hE2, if_pos rfl]
  · intro hn hd
    unfold PathToUrl
    rw [hS]
    dsimp only
    rw [hB, if_pos hn, hd, TrimSuffix_nil]
  · intro hn d hd
    unfold PathToUrl
    rw [hS]
    dsimp only
    rw [hB, if_pos hn, hd]
    exact congrArg _ (TrimSuffix_append d ['/'])

/-- The paths of the test: `index.html`, `foo/index.html` and
`foo/bar/blog.html`, with the extension `.html`. -/
theorem path_to_url_of_page_witness :
    PathToUrl ("foo/bar/".toList ++ "blog".toList ++ ".html".toList) ".html".toList =
        '/' :: ("foo/bar/".toList ++ "blog".toList) ∧
    PathToUrl ([] ++ "index".toList ++ ".html".toList) ".html".toList = ['/'] ∧
    PathToUrl ("foo/".toList ++ "index".toList ++ ".html".toList) ".html".toList =
        '/' :: "foo".toList :=
  ⟨(path_to_url_of_page "foo/bar/".toList "blog".toList ".html".toList
      (Or.inr ⟨"foo/bar".toList, rfl⟩) (by decide) (by decide)
      (Or.inr ⟨"html".toList, rfl, by decide, by decide⟩)).1 (by decide),
    (path_to_url_of_page [] "index".toList ".html".toList
      (Or.inl rfl) (by decide) (by decide)
      (Or.inr ⟨"html".toList, rfl, by decide, by decide⟩)).2.1 rfl rfl,
    (path_to_url_of_page "foo/".toList "index".toList ".html".toList
      (Or.inr ⟨"foo".toList, rfl⟩) (by decide) (by decide)
      (Or.inr ⟨"html".toList, rfl, by decide, by decide⟩)).2.2 rfl "foo".toList rfl⟩

/-- C33, as stated: the extension of `foo/index.css` is `.css` and differs from
`.html`, but `PathToUrl` does not return `/foo/index.css`: the file name
without its extension is `index`, which the function tests first, and the URL
is `/foo`. -/
theorem path_to_url_index_of_other_extension :
    Ext "foo/index.css".toList = ".css".toList ∧
    PathToUrl "foo/index.css".toList ".html".toList = "/foo".toList := by
  decide

/-- C33, amended: for every path whose extension differs from `ext` and whose
file name without its extension is not `index`, `PathToUrl(path, ext)` is `/`
followed by the path unchanged. -/
theorem path_to_url_of_other_extension (path ext : List Char) (h : Ext path ≠ ext)
    (hi : StripExt (Split path).2 ≠ "index".toList) :
    PathToUrl path ext = '/' :: path := by
  unfold PathToUrl
  rw [if_neg hi, if_neg h]

/-- The path `foo/bar/baz.css` of the test, with the extension `.html`. -/
theorem path_to_url_of_other_extension_witness :
    PathToUrl "foo/bar/baz.css".toList ".html".toList = '/' :: "foo/bar/baz.css".toList :=
  path_to_url_of_other_extension "foo/bar/baz.css".toList ".html".toList (by decide) (by decide)


/-! ### A property block with a component and text -/

set_option maxRecDepth 100000 in
/-- C34: the nested block of the property `Body` holds one component and text
lines.  When the component `\Icon` comes first, `Parse` succeeds and the value
of the property is the component node, the text `hello` being dropped.  When
the text line `hello` comes first, before `\Icon` and `world`, `Parse`
succeeds too, but the value is the node `nodes[0]` of the block, the text
node `hello`: the component is dropped, not the text. -/
theorem property_block_value_is_first_node :
    Parse "\\Card\n    Body:\n        \\Icon\n        hello".toList =
      .ok [Node.ComponentNode "Card".toList
        [("Body".toList, Value.node (Node.ComponentNode "Icon".toList [] []))] []] ∧
    Parse "\\Card\n    Body:\n        hello\n        \\Icon\n        world".toList =
      .ok [Node.ComponentNode "Card".toList
        [("Body".toList, Value.node (Node.TextNode "hello".toList))] []] :=
  ⟨eq_of_resultEqb 8 _ _ (by decide!), eq_of_resultEqb 8 _ _ (by decide!)⟩

/-! ### The children of a component node in a property -/

/-- The value that a field gets from a component node does not depend on the
children of the node. -/
theorem setField_children (cb : ComponentBuilder)
    (build : Component → List (List Char × Dyn) → Except BindFault Built) (F : StructField)
    (name : List Char) (attributes : List (List Char × Value)) (ch1 ch2 : List Node) :
    cb.setField build F (Dyn.node (Node.ComponentNode name attributes ch1)) =
      cb.setField build F (Dyn.node (Node.ComponentNode name attributes ch2)) := by
  unfold ComponentBuilder.setField
  by_cases hI : F.kind = Kind.Interface
  · rw [if_pos hI, if_pos hI]
    unfold ComponentBuilder.setInterfaceValue
    rfl
  · rw [if_neg hI, if_neg hI]
    unfold ComponentBuilder.SetTypedValue
    cases F.kind <;> rfl

/-- The loop over the attributes for one field does not see a change of one
value that the setter does not see. -/
theorem bindAttrs_congr (set : Dyn → Except BindFault FieldValue) (fieldName k : List Char)
    (x y : Dyn) (h : set x = set y) (pre post : List (List Char × Dyn))
    (used : List (List Char)) (v : FieldValue) :
    bindAttrs set fieldName (pre ++ (k, x) :: post) used v =
      bindAttrs set fieldName (pre ++ (k, y) :: post) used v := by
  induction pre generalizing used v with
  | nil =>
    show bindAttrs set fieldName ((k, x) :: post) used v =
      bindAttrs set fieldName ((k, y) :: post) used v
    unfold bindAttrs
    rw [h]
  | cons a pre ih =>
    obtain ⟨k1, v1⟩ := a
    show bindAttrs set fieldName ((k1, v1) :: (pre ++ (k, x) :: post)) used v =
      bindAttrs set fieldName ((k1, v1) :: (pre ++ (k, y) :: post)) used v
    unfold bindAttrs
    by_cases hm : EqualFold k1 fieldName = true
    · rw [if_pos hm, if_pos hm]
      cases set v1 with
      | error e => rfl
      | ok w => exact ih _ _
    · rw [if_neg hm, if_neg hm]
      exact ih _ _

/-- The first loop over the fields does not see a change of one value that no
setter sees. -/
theorem bindFields_congr (set : StructField → Dyn → Except BindFault FieldValue)
    (k : List Char) (x y : Dyn) (h : ∀ F, set F x = set F y)
    (pre post : List (List Char × Dyn)) (fields : List StructField)
    (used : List (List Char)) :
    bindFields set (pre ++ (k, x) :: post) fields used =
      bindFields set (pre ++ (k, y) :: post) fields used := by
  induction fields generalizing used with
  | nil => rfl
  | cons F fields ih =>
    unfold bindFields
    rw [bindAttrs_congr (set F) F.Name k x y (h F) pre post used FieldValue.zero]
    simp only [ih]

/-- The loop that fills `componentAttrs` treats all nodes alike. -/
theorem collectAttrs_node (k : List Char) (n1 n2 : Node) (pre post : List (List Char × Dyn))
    (used : List (List Char)) (m : List (List Char × List Char)) :
    collectAttrs used (pre ++ (k, Dyn.node n1) :: post) m =
      collectAttrs used (pre ++ (k, Dyn.node n2) :: post) m := by
  induction pre generalizing m with
  | nil =>
    show collectAttrs used ((k, Dyn.node n1) :: post) m =
      collectAttrs used ((k, Dyn.node n2) :: post) m
    unfold collectAttrs
    rfl
  | cons a pre ih =>
    obtain ⟨k1, v1⟩ := a
    show collectAttrs used ((k1, v1) :: (pre ++ (k, Dyn.node n1) :: post)) m =
      collectAttrs used ((k1, v1) :: (pre ++ (k, Dyn.node n2) :: post)) m
    unfold collectAttrs
    by_cases hu : used.contains k1 = true
    · rw [if_pos hu, if_pos hu]
      exact ih _
    · rw [if_neg hu, if_neg hu]
      cases v1 with
      | str s => exact ih _
      | bytes b => exact ih _
      | bool b => rfl
      | node n => rfl
      | other => rfl

/-- The names of the attributes that pass a test on the name do not depend on
the values. -/
theorem filter_names (p : List Char → Bool) (k : List Char) (x y : Dyn)
    (pre post : List (List Char × Dyn)) :
    ((pre ++ (k, x) :: post).filter (fun a => p a.1)).map Prod.fst =
      ((pre ++ (k, y) :: post).filter (fun a => p a.1)).map Prod.fst := by
  rw [List.filter_append, List.filter_append, List.map_append, List.map_append,
    List.filter_cons, List.filter_cons]
  cases p k <;> rfl

/-- C39: the value that a field for a nested component gets from a component
node is made from the name and the attributes of the node: `setInterfaceValue`
returns the same for two nodes that differ only in their children, and for a
field of the type `templ.Component` it is what `setComponentNodeValue` makes
from the name and the attributes, the component that `Build` returns for them.
So `Build` returns the same for two lists of attributes that differ only in
the children of one such node, whatever the unit, the other attributes and the
fuel are. -/
theorem nested_children_do_not_matter (fuel : Nat) (cb : ComponentBuilder)
    (build : Component → List (List Char × Dyn) → Except BindFault Built)
    (component : Component) (field : StructField) (k name : List Char)
    (attributes : List (List Char × Value)) (ch1 ch2 : List Node)
    (pre post : List (List Char × Dyn)) :
    cb.setInterfaceValue build field (Dyn.node (Node.ComponentNode name attributes ch1)) =
      cb.setInterfaceValue build field (Dyn.node (Node.ComponentNode name attributes ch2)) ∧
    (field.typeString = "templ.Component".toList →
      cb.setInterfaceValue build field (Dyn.node (Node.ComponentNode name attributes ch1)) =
        cb.setComponentNodeValue build name attributes) ∧
    (∀ cmpFunc cmp, cb.GetComponent name none = .ok cmpFunc →
      build cmpFunc (attributes.map (fun kv => (kv.1, Dyn.ofValue kv.2))) = .ok cmp →
      cb.setComponentNodeValue build name attributes = .ok (FieldValue.component cmp)) ∧
    ComponentBuilder.Build fuel cb component
        (pre ++ (k, Dyn.node (Node.ComponentNode name attributes ch1)) :: post) =
      ComponentBuilder.Build fuel cb component
        (pre ++ (k, Dyn.node (Node.ComponentNode name attributes ch2)) :: post) := by
  refine ⟨?_, ?_, ?_, ?_⟩
  · unfold ComponentBuilder.setInterfaceValue
    rfl
  · intro ht
    unfold ComponentBuilder.setInterfaceValue
    rw [if_neg (fun h => h ht)]
  · intro cmpFunc cmp h1 h2
    unfold ComponentBuilder.setComponentNodeValue
    rw [h1]
    dsimp only
    rw [h2]
  · cases fuel with
    | zero => rfl
    | succ fuel =>
      have hp : cb.buildProps (ComponentBuilder.Build fuel cb) component
          (pre ++ (k, Dyn.node (Node.ComponentNode name attributes ch1)) :: post) =
          cb.buildProps (ComponentBuilder.Build fuel cb) component
          (pre ++ (k, Dyn.node (Node.ComponentNode name attributes ch2)) :: post) := by
        unfold ComponentBuilder.buildProps
        rw [bindFields_congr (cb.setField (ComponentBuilder.Build fuel cb)) k
          (Dyn.node (Node.ComponentNode name attributes ch1))
          (Dyn.node (Node.ComponentNode name attributes ch2))
          (fun F => setField_children cb _ F name attributes ch1 ch2) pre post]
        have hl : (pre ++ (k, Dyn.node (Node.ComponentNode name attributes ch1)) :: post).length =
            (pre ++ (k, Dyn.node (Node.ComponentNode name attributes ch2)) :: post).length := by
          rw [List.length_append, List.length_append, List.length_cons, List.length_cons]
        simp only [collectAttrs_node k (Node.ComponentNode name attributes ch1)
          (Node.ComponentNode name attributes ch2) pre post, hl,
          fun used : List (List Char) => filter_names (fun n => !used.contains n) k
            (Dyn.node (Node.ComponentNode name attributes ch1))
            (Dyn.node (Node.ComponentNode name attributes ch2)) pre post]
      unfold ComponentBuilder.Build
      rw [hp]


/-! ### The layout of a page -/

/-- What `lastLayout` finds is a layout of the list with the name asked for, up
to the case of the letters. -/
theorem lastLayout_some {heap : List layout} {name : List Char} {ls : List Nat} {l : Nat}
    (h : lastLayout heap name ls = some l) :
    l ∈ ls ∧ ∃ lay, heap[l]? = some lay ∧ ToLower lay.name = ToLower name := by
  induction ls with
  | nil => cases h
  | cons l0 ls ih =>
    unfold lastLayout at h
    cases h1 : lastLayout heap name ls with
    | some found =>
      rw [h1] at h
      injection h with h
      subst h
      obtain ⟨a, b⟩ := ih h1
      exact ⟨List.mem_cons_of_mem _ a, b⟩
    | none =>
      rw [h1] at h
      dsimp only at h
      cases h2 : heap[l0]? with
      | none => rw [h2] at h; cases h
      | some lay =>
        rw [h2] at h
        dsimp only at h
        by_cases h3 : ToLower lay.name = ToLower name
        · rw [if_pos h3] at h
          injection h with h
          subst h
          exact ⟨List.mem_cons_self _ _, lay, h2, h3⟩
        · rw [if_neg h3] at h
          cases h

/-- When `lastLayout` finds nothing, no layout of the list has the name. -/
theorem lastLayout_none {heap : List layout} {name : List Char} {ls : List Nat}
    (h : lastLayout heap name ls = none) :
    ∀ l ∈ ls, ∀ lay, heap[l]? = some lay → ToLower lay.name ≠ ToLower name := by
  induction ls with
  | nil =>
    intro l hl
    cases hl
  | cons l0 ls ih =>
    unfold lastLayout at h
    cases h1 : lastLayout heap name ls with
    | some found => rw [h1] at h; cases h
    | none =>
      rw [h1] at h
      dsimp only at h
      intro l hl lay hlay
      rcases List.mem_cons.1 hl with rfl | hl
      · rw [hlay] at h
        dsimp only at h
        intro h3
        rw [if_pos h3] at h
        cases h
      · exact ih h1 l hl lay hlay

/-- The layout found in a list with one more layout in front. -/
theorem lastLayout_cons (heap : List layout) (name : List Char) (l : Nat) (ls : List Nat) :
    lastLayout heap name (l :: ls) =
      match lastLayout heap name ls with
      | some found => some found
      | none =>
        match heap[l]? with
        | some lay => if ToLower lay.name = ToLower name then some l else none
        | none => none :=
  rfl

/-- After calls of `RegisterLayout`, `Use` returns the layout registered last
under the name, or what it returned before the calls. -/
theorem Use_registerLayouts (heap : List layout) (ls : List Nat) (r0 reg : registry)
    (h : registerLayouts heap ls r0 = .ok reg) (name : List Char) :
    reg.Use name =
      match lastLayout heap name ls with
      | some l => some l
      | none => r0.Use name := by
  induction ls generalizing r0 with
  | nil =>
    unfold registerLayouts at h
    injection h with h
    subst h
    rfl
  | cons l0 ls ih =>
    unfold registerLayouts at h
    cases h1 : r0.RegisterLayout heap l0 with
    | error p => rw [h1] at h; cases h
    | ok r1 =>
      rw [h1] at h
      dsimp only at h
      rw [ih r1 h, lastLayout_cons]
      cases lastLayout heap name ls with
      | some found => rfl
      | none =>
        dsimp only
        unfold registry.RegisterLayout layout.Name at h1
        cases h2 : heap[l0]? with
        | none => rw [h2] at h1; cases h1
        | some lay =>
          rw [h2] at h1
          dsimp only at h1
          injection h1 with h1
          subst h1
          unfold registry.Use
          dsimp only
          rw [mapGet_mapSet]
          by_cases h3 : ToLower lay.name = ToLower name
          · rw [if_pos h3, if_pos h3]
          · rw [if_neg h3, if_neg h3]

/-- C35: the registry holds the layouts that calls of `RegisterLayout` have
stored in a new registry.  Then `useLayout` returns a layout and no error
exactly when the metadata has an entry `layout` whose value is a string that
is, up to the case of the letters, the name of a layout registered, and the
layout it returns is the one registered last under the name.  It returns
`ErrMissingLayout` when the entry is absent, `ErrInvalidLayoutType` when the
value is no string, and `ErrLayoutNotFound` with the name asked for when no
layout registered has the name; both structs list the layouts of the
registry. -/
theorem use_layout_selects_registered (heap : List layout) (ls : List Nat) (reg : registry)
    (fileMeta : List (List Char × MetaValue))
    (hreg : registerLayouts heap ls registry.New = .ok reg) :
    ((∃ l, useLayout reg fileMeta = .ok l) ↔
      ∃ s l lay, mapGet fileMeta "layout".toList = some (MetaValue.str s) ∧ l ∈ ls ∧
        heap[l]? = some lay ∧ ToLower lay.name = ToLower s) ∧
    (∀ s l, mapGet fileMeta "layout".toList = some (MetaValue.str s) →
      lastLayout heap s ls = some l → useLayout reg fileMeta = .ok l) ∧
    (mapGet fileMeta "layout".toList = none →
      useLayout reg fileMeta = .error (LoadError.ErrMissingLayout reg.Layouts)) ∧
    (∀ i, mapGet fileMeta "layout".toList = some (MetaValue.other i) →
      useLayout reg fileMeta = .error LoadError.ErrInvalidLayoutType) ∧
    (∀ s, mapGet fileMeta "layout".toList = some (MetaValue.str s) →
      (∀ l ∈ ls, ∀ lay, heap[l]? = some lay → ToLower lay.name ≠ ToLower s) →
      useLayout reg fileMeta = .error (LoadError.ErrLayoutNotFound s reg.Layouts)) := by
  have hU : ∀ name, reg.Use name = lastLayout heap name ls := by
    intro name
    rw [Use_registerLayouts heap ls registry.New reg hreg name]
    cases lastLayout heap name ls <;> rfl
  have hS : ∀ s, mapGet fileMeta "layout".toList = some (MetaValue.str s) →
      useLayout reg fileMeta =
        match lastLayout heap s ls with
        | none => .error (LoadError.ErrLayoutNotFound s reg.Layouts)
        | some l => .ok l := by
    intro s hs
    unfold useLayout
    rw [hs]
    dsimp only
    rw [hU]
    all_goals (cases lastLayout heap s ls <;> rfl)
  refine ⟨⟨?_, ?_⟩, ?_, ?_, ?_, ?_⟩
  · rintro ⟨l, hl⟩
    cases hm : mapGet fileMeta "layout".toList with
    | none =>
      unfold useLayout at hl
      rw [hm] at hl
      cases hl
    | some v =>
      cases v with
      | other i =>
        unfold useLayout at hl
        rw [hm] at hl
        cases hl
      | str s =>
        rw [hS s hm] at hl
        cases hf : lastLayout heap s ls with
        | none => rw [hf] at hl; cases hl
        | some l1 =>
          obtain ⟨a, lay, b, c⟩ := lastLayout_some hf
          exact ⟨s, l1, lay, rfl, a, b, c⟩
  · rintro ⟨s, l, lay, hm, hl, hlay, hn⟩
    rw [hS s hm]
    cases hf : lastLayout heap s ls with
    | none => exact absurd hn (lastLayout_none hf l hl lay hlay)
    | some l1 => exact ⟨l1, rfl⟩
  · intro s l hm hf
    rw [hS s hm, hf]
  · intro hm
    unfold useLayout
    rw [hm]
  · intro i hm
    unfold useLayout
    rw [hm]
  · intro s hm hno
    rw [hS s hm]
    cases hf : lastLayout heap s ls with
    | none => rfl
    | some l1 =>
      obtain ⟨a, lay, b, c⟩ := lastLayout_some hf
      exact absurd c (hno l1 a lay b)

/-- The layouts `Docs` and `Blog` are registered, and the page asks for the
layout `docs`. -/
theorem use_layout_selects_registered_witness :
    useLayout ⟨[("docs".toList, 0), ("blog".toList, 1)]⟩
      [("title".toList, MetaValue.str "Start".toList),
        ("layout".toList, MetaValue.str "docs".toList)] = .ok 0 :=
  (use_layout_selects_registered [NewLayout "Docs".toList, NewLayout "Blog".toList] [0, 1]
    ⟨[("docs".toList, 0), ("blog".toList, 1)]⟩
    [("title".toList, MetaValue.str "Start".toList),
      ("layout".toList, MetaValue.str "docs".toList)]
    rfl).2.1 "docs".toList 0 (by decide!) (by decide!)


/-! ### Registering a name again -/

/-- C40: the layout at `r` holds an item under the lower-casing of `name`, so
the name is registered already, under whatever casing.  A call of `Register`
with the name and a component of an accepted shape returns a new layout, which
is no layout of the heap before the call and is empty.  After the call `Get`
returns the new component and `Namespace` the new layout for every name with
the same lower-casing, so what the old sub-layout holds is not found through
`Namespace` any more.  For every name of another lower-casing `Get` and
`Namespace` on the layout return what they returned before, and every other
layout of the heap, the sub-layouts of the other items among them, is
unchanged. -/
theorem register_again_replaces (heap : List layout) (r : Nat) (name : List Char)
    (component : Component) (lay : layout) (old : item)
    (hl : heap[r]? = some lay)
    (hold : mapGet lay.components (ToLower name) = some old)
    (hc : component.type.accepted = true) :
    ∃ sub heap1, layout.Register heap r name component = .ok (sub, heap1) ∧
      sub = heap.length ∧ heap[sub]? = none ∧
      (old.subLayout < heap.length → sub ≠ old.subLayout) ∧
      (∀ m, layout.Get heap1 sub m = .ok none) ∧ layout.list heap1 sub = .ok [] ∧
      (∀ m, ToLower m = ToLower name →
        layout.Get heap r m = .ok (some old.value) ∧
        layout.Namespace heap r m = .ok (some old.subLayout) ∧
        layout.Get heap1 r m = .ok (some component) ∧
        layout.Namespace heap1 r m = .ok (some sub)) ∧
      (∀ m, ToLower m ≠ ToLower name →
        layout.Get heap1 r m = layout.Get heap r m ∧
        layout.Namespace heap1 r m = layout.Namespace heap r m) ∧
      (∀ x, x < heap.length → x ≠ r → heap1[x]? = heap[x]?) := by
  have hr : r < heap.length := by
    by_contra hn
    rw [List.getElem?_eq_none (by omega)] at hl
    cases hl
  obtain ⟨lay1, hl1, hreg⟩ := (Register_accepted hr name component).1 hc
  rw [hl] at hl1
  injection hl1 with hl1
  subst hl1
  refine ⟨_, _, hreg, rfl, List.getElem?_eq_none (Nat.le_refl _), fun h e => ?_, ?_, ?_, ?_, ?_,
    ?_⟩
  · rw [e] at h
    exact Nat.lt_irrefl _ h
  · intro m
    unfold layout.Get
    rw [Register_sub hreg]
    rfl
  · unfold layout.list
    rw [Register_sub hreg]
    rfl
  · intro m hm
    refine ⟨?_, ?_, ?_, ?_⟩
    · unfold layout.Get
      rw [hl]
      dsimp only
      rw [hm, hold]
    · unfold layout.Namespace
      rw [hl]
      dsimp only
      rw [hm, hold]
    · rw [(Get_Register hreg r hr m).2, if_pos ⟨rfl, hm.symm⟩]
    · rw [Namespace_Register hreg r hr m, if_pos ⟨rfl, hm.symm⟩]
  · intro m hm
    refine ⟨?_, ?_⟩
    · rw [(Get_Register hreg r hr m).2, if_neg (fun h => hm h.2.symm)]
    · rw [Namespace_Register hreg r hr m, if_neg (fun h => hm h.2.symm)]
  · intro x hx hxr
    exact Register_other hreg x hx hxr

/-- The layout `main` holds `hero`, whose sub-layout holds `title`; the name
`HERO` is registered again. -/
theorem register_again_replaces_witness :
    ∃ sub heap1,
      layout.Register
          [⟨"main".toList, [("hero".toList, ⟨⟨GoType.func [true] [true], 1⟩, 1⟩)]⟩,
            ⟨"Hero".toList, [("title".toList, ⟨⟨GoType.func [true] [true], 2⟩, 2⟩)]⟩,
            NewLayout "Title".toList]
          0 "HERO".toList ⟨GoType.func [true] [true], 3⟩ = .ok (sub, heap1) ∧
      sub = 3 ∧ layout.Namespace heap1 0 "hero".toList = .ok (some sub) ∧
      layout.Get heap1 sub "title".toList = .ok none ∧
      layout.Get heap1 0 "Hero".toList = .ok (some ⟨GoType.func [true] [true], 3⟩) := by
  obtain ⟨sub, heap1, h1, h2, _, _, h5, _, h7, _, _⟩ :=
    register_again_replaces
      [⟨"main".toList, [("hero".toList, ⟨⟨GoType.func [true] [true], 1⟩, 1⟩)]⟩,
        ⟨"Hero".toList, [("title".toList, ⟨⟨GoType.func [true] [true], 2⟩, 2⟩)]⟩,
        NewLayout "Title".toList]
      0 "HERO".toList ⟨GoType.func [true] [true], 3⟩
      ⟨"main".toList, [("hero".toList, ⟨⟨GoType.func [true] [true], 1⟩, 1⟩)]⟩
      ⟨⟨GoType.func [true] [true], 1⟩, 1⟩ rfl (by decide!) (by decide!)
  exact ⟨sub, heap1, h1, h2, (h7 "hero".toList (by decide!)).2.2.2, h5 "title".toList,
    (h7 "Hero".toList (by decide!)).2.2.1⟩


/-! ### Every call of `Next` makes progress -/

/-- A lexer inside its input stands behind the bytes before its position. -/
theorem At_of_le (l : Lexer) (h : l.pos ≤ l.input.length) :
    l.At (l.input.take l.pos) (l.input.drop l.pos) :=
  ⟨(List.take_append_drop _ _).symm, by rw [List.length_take]; omega⟩

/-- Where the look-ahead finds `v`, the bytes before it hold no `v`. -/
theorem lookAheadFrom_split (v t : Char) (s : List Char) (i e : Nat)
    (h : lookAheadFrom v t s i = some e) :
    ∃ a rest, s = a ++ v :: rest ∧ ∀ c ∈ a, c ≠ v := by
  induction s generalizing i with
  | nil => cases h
  | cons c s ih =>
    rw [lookAheadFrom] at h
    by_cases h1 : c = v
    · subst h1
      exact ⟨[], s, rfl, fun x hx => by cases hx⟩
    · rw [if_neg h1] at h
      by_cases h2 : c = t
      · rw [if_pos h2] at h
        cases h
      · rw [if_neg h2] at h
        obtain ⟨a, rest, e1, e2⟩ := ih _ h
        refine ⟨c :: a, rest, by rw [e1]; rfl, ?_⟩
        intro x hx
        rcases List.mem_cons.1 hx with rfl | hx
        · exact h1
        · exact e2 x hx

theorem advance_pos_le (l : Lexer) : l.pos ≤ l.advance.pos := by
  unfold Lexer.advance
  split_ifs
  · exact Nat.le_refl _
  · exact Nat.le_succ _
  · exact Nat.le_succ _

theorem advanceWhile_pos_le (cond : Char → Bool) (fuel : Nat) (l : Lexer) :
    l.pos ≤ (l.advanceWhile cond fuel).pos := by
  induction fuel generalizing l with
  | zero => exact Nat.le_refl _
  | succ n ih =>
    unfold Lexer.advanceWhile
    split_ifs
    · exact Nat.le_trans (advance_pos_le l) (ih _)
    · exact Nat.le_refl _

theorem lexStringLoop_pos_le (fuel : Nat) (c : Char) (l : Lexer) :
    l.pos ≤ (l.lexStringLoop fuel c).pos := by
  induction fuel generalizing l c with
  | zero => exact Nat.le_refl _
  | succ n ih =>
    unfold Lexer.lexStringLoop
    split_ifs
    · exact Nat.le_trans (advance_pos_le l) (ih _ _)
    · exact Nat.le_refl _

/-- A loop over the bytes that starts inside the input on a byte that passes
the test goes on by one byte at least. -/
theorem advanceWhile_pos_lt (cond : Char → Bool) (l : Lexer) (hE : ¬ (l.isEOF = true))
    (hc : cond l.current = true) :
    l.pos < (l.advanceWhile cond (l.input.length - l.pos)).pos := by
  have hlt : l.pos < l.input.length := by
    rw [isEOF_iff] at hE
    omega
  obtain ⟨n, hn⟩ : ∃ n, l.input.length - l.pos = n + 1 := ⟨l.input.length - l.pos - 1, by omega⟩
  rw [hn]
  unfold Lexer.advanceWhile
  rw [if_pos ⟨hlt, hc⟩]
  have h1 := advanceWhile_pos_le cond n l.advance
  rw [advance_pos hE] at h1
  omega

/-- The byte of a lexer at the end of its input is the byte 0. -/
theorem isEOF_of_current {l : Lexer} (h : l.current ≠ nul) : ¬ (l.isEOF = true) := by
  intro hE
  apply h
  unfold Lexer.current
  rw [if_pos (isEOF_iff.1 hE)]

theorem lexIndentSpaces_pos (n : Nat) (l l1 : Lexer) (h : l.lexIndentSpaces (n + 1) = some l1) :
    l.pos < l1.pos := by
  induction n generalizing l with
  | zero =>
    unfold Lexer.lexIndentSpaces at h
    by_cases hc : l.current = ' '
    · rw [if_pos hc] at h
      unfold Lexer.lexIndentSpaces at h
      injection h with h
      subst h
      rw [advance_pos (isEOF_of_current (by rw [hc]; decide))]
      exact Nat.lt_succ_self _
    · rw [if_neg hc] at h
      cases h
  | succ n ih =>
    unfold Lexer.lexIndentSpaces at h
    by_cases hc : l.current = ' '
    · rw [if_pos hc] at h
      have h1 := ih l.advance h
      rw [advance_pos (isEOF_of_current (by rw [hc]; decide))] at h1
      omega
    · rw [if_neg hc] at h
      cases h

theorem lexIndent_pos (l l1 : Lexer) (t : Token) (hE : ¬ (l.isEOF = true))
    (h : l.lexIndent = .ok (t, l1)) : l.pos < l1.pos := by
  unfold Lexer.lexIndent at h
  dsimp only at h
  by_cases h1 : l.current = '\t'
  · rw [if_pos h1] at h
    injection h with h
    injection h with _ h
    subst h
    rw [advance_pos hE]
    exact Nat.lt_succ_self _
  · rw [if_neg h1] at h
    cases h2 : l.lexIndentSpaces 4 with
    | none => rw [h2] at h; cases h
    | some l2 =>
      rw [h2] at h
      injection h with h
      injection h with _ h
      subst h
      exact lexIndentSpaces_pos 3 l l2 h2

/-- The method `lexProperty`, where `isProperty` holds and the byte is no
colon, goes on by one byte at least and stops before a colon. -/
theorem lexProperty_stops (l : Lexer) (hE : ¬ (l.isEOF = true)) (hP : l.isProperty = true)
    (hc : l.current ≠ ':') :
    l.pos < l.lexProperty.2.pos ∧ l.lexProperty.2.current = ':' ∧
      ¬ (l.lexProperty.2.isEOF = true) := by
  have hlt : l.pos < l.input.length := by
    rw [isEOF_iff] at hE
    omega
  have hAt := At_of_le l (Nat.le_of_lt hlt)
  unfold Lexer.isProperty at hP
  cases hla : l.lookAhead ':' '\n' with
  | none => rw [hla] at hP; cases hP
  | some e =>
    rw [hAt.lookAhead] at hla
    obtain ⟨a, rest, e1, e2⟩ := lookAheadFrom_split _ _ _ _ _ hla
    rw [e1] at hAt
    have h2 := Lexer.At.advanceWhile (fun c => decide (c ≠ ':'))
      (l.input.length - l.pos) hAt (fun x hx => decide_eq_true (e2 x hx))
      (fun x r hx => by
        injection hx with hx _
        subst hx
        decide)
      (by rw [hAt.remaining, List.length_append]; omega)
    have h3 : l.lexProperty.2 = l.advanceWhile (fun c => decide (c ≠ ':'))
        (l.input.length - l.pos) := rfl
    rw [h3]
    refine ⟨advanceWhile_pos_lt _ l hE (decide_eq_true hc), h2.current_cons, h2.isEOF_cons⟩

/-- What a call of `next` that returns has done: it is at the end of the
input and returns `EOF`; or it returns another token and has gone on by one
byte at least, stopping before a colon when the token is a property name; or
it returns an empty text and has not moved, which happens only behind a
quote. -/
theorem next_progress (k : Nat) :
    ∀ (l l1 : Lexer) (t : Token), l.input.length - l.pos = k → l.next = .ok (t, l1) →
      (t = Token.zero ∧ l1.isEOF = true) ∨
      (t.type ≠ TokenType.EOF ∧ l.pos < l1.pos ∧
        (t.type = TokenType.Property → l1.current = ':' ∧ ¬ (l1.isEOF = true))) ∨
      (t.type = TokenType.Text ∧ t.Value = [] ∧ l1.pos = l.pos ∧
        l.prev.type = TokenType.Quote ∧ ¬ (l.isEOF = true)) := by
  induction k with
  | zero =>
    intro l l1 t hk h
    have hE : l.isEOF = true := isEOF_iff.2 (by omega)
    rw [next_eof hE] at h
    injection h with h
    injection h with h1 h2
    subst h1; subst h2
    exact Or.inl ⟨rfl, hE⟩
  | succ k ih =>
    intro l l1 t hk h
    have hE : ¬ (l.isEOF = true) := by rw [isEOF_iff]; omega
    by_cases hI : l.isIndent = true
    · rw [next_indent hE hI] at h
      refine Or.inr (Or.inl ⟨?_, lexIndent_pos l l1 t hE h, ?_⟩)
      · rw [lexIndent_ok h]
        exact fun e => TokenType.noConfusion e
      · rw [lexIndent_ok h]
        exact fun e => TokenType.noConfusion e
    by_cases hS : l.Plain
    · by_cases h4 : l.current = ' '
      · rw [next_space hE hI hS h4] at h
        have hp := advance_pos hE
        rcases ih l.advance l1 t (by rw [advance_input, hp]; omega) h with
          ⟨h1, h2⟩ | ⟨h1, h2, h3⟩ | ⟨h1, h2, h3, _, _⟩
        · exact Or.inl ⟨h1, h2⟩
        · exact Or.inr (Or.inl ⟨h1, by omega, h3⟩)
        · refine Or.inr (Or.inl ⟨?_, by omega, ?_⟩)
          · rw [h1]
            exact fun e => TokenType.noConfusion e
          · rw [h1]
            exact fun e => TokenType.noConfusion e
      · rw [next_switch hE hI hS h4] at h
        have hadv : l.pos < l.advance.pos := by
          rw [advance_pos hE]
          exact Nat.lt_succ_self _
        by_cases e1 : l.current = '\\'
        · rw [if_pos e1] at h
          injection h with h
          injection h with h1 h2
          subst h1; subst h2
          refine Or.inr (Or.inl ⟨fun e => TokenType.noConfusion e, ?_,
            fun e => TokenType.noConfusion e⟩)
          exact Nat.lt_of_lt_of_le hadv (advanceWhile_pos_le _ _ _)
        rw [if_neg e1] at h
        by_cases e2 : l.current = '"'
        · rw [if_pos e2] at h
          injection h with h
          injection h with h1 h2
          subst h1; subst h2
          exact Or.inr (Or.inl ⟨fun e => TokenType.noConfusion e, hadv,
            fun e => TokenType.noConfusion e⟩)
        rw [if_neg e2] at h
        by_cases e3 : l.current = ':'
        · rw [if_pos e3] at h
          injection h with h
          injection h with h1 h2
          subst h1; subst h2
          exact Or.inr (Or.inl ⟨fun e => TokenType.noConfusion e, hadv,
            fun e => TokenType.noConfusion e⟩)
        rw [if_neg e3] at h
        by_cases e4 : l.current = '\n'
        · rw [if_pos e4] at h
          injection h with h
          injection h with h1 h2
          subst h1; subst h2
          exact Or.inr (Or.inl ⟨fun e => TokenType.noConfusion e, hadv,
            fun e => TokenType.noConfusion e⟩)
        rw [if_neg e4] at h
        by_cases e5 : l.current = '!'
        · rw [if_pos e5] at h
          injection h with h
          injection h with h1 h2
          subst h1; subst h2
          refine Or.inr (Or.inl ⟨fun e => TokenType.noConfusion e, ?_,
            fun e => TokenType.noConfusion e⟩)
          exact Nat.lt_of_lt_of_le hadv (advanceWhile_pos_le _ _ _)
        rw [if_neg e5] at h
        by_cases e6 : l.isProperty = true
        · rw [if_pos e6] at h
          injection h with h
          have hst := lexProperty_stops l hE e6 e3
          rw [h] at hst
          have ht : t = l.lexProperty.1 := by rw [h]
          refine Or.inr (Or.inl ⟨?_, hst.1, fun _ => hst.2⟩)
          rw [ht]
          exact fun e => TokenType.noConfusion e
        rw [if_neg e6] at h
        injection h with h
        injection h with h1 h2
        subst h1; subst h2
        refine Or.inr (Or.inl ⟨fun e => TokenType.noConfusion e, ?_,
          fun e => TokenType.noConfusion e⟩)
        exact advanceWhile_pos_lt _ l hE (decide_eq_true e4)
    · have hS2 := not_not.1 hS
      rw [next_string hE hI hS2] at h
      injection h with h
      injection h with h1 h2
      subst h1; subst h2
      have hle := lexStringLoop_pos_le (l.input.length - l.pos) nul l
      by_cases hm : l.pos < (l.lexStringLoop (l.input.length - l.pos) nul).pos
      · exact Or.inr (Or.inl ⟨fun e => TokenType.noConfusion e, hm,
          fun e => TokenType.noConfusion e⟩)
      · have he : (l.lexStringLoop (l.input.length - l.pos) nul).pos = l.pos :=
          Nat.le_antisymm (Nat.le_of_not_lt hm) hle
        refine Or.inr (Or.inr ⟨rfl, ?_, he, hS2.1, hE⟩)
        show unescapeQuotes (slice _ l.pos (l.lexStringLoop (l.input.length - l.pos) nul).pos) = []
        rw [he]
        unfold Margo.slice
        rw [Nat.sub_self, List.take_zero]
        rfl


/-! ### The tokens that are left -/

theorem left_of_isEOF {l : Lexer} (h : l.isEOF = true) : l.left = 0 := by
  unfold Lexer.left
  rw [if_pos (isEOF_iff.1 h)]

theorem left_of_lt {l : Lexer} (h : l.pos < l.input.length) :
    l.left = 2 * (l.input.length - l.pos) + (if l.prev.type = TokenType.Quote then 1 else 0) := by
  unfold Lexer.left
  rw [if_neg (Nat.not_le.2 h)]

theorem left_le (l : Lexer) : l.left ≤ 2 * (l.input.length - l.pos) + 1 := by
  unfold Lexer.left
  split_ifs <;> omega

/-- The byte under a lexer depends on the input and the position only. -/
theorem current_congr {l l1 : Lexer} (h1 : l1.input = l.input) (h2 : l1.pos = l.pos) :
    l1.current = l.current := by
  unfold Lexer.current
  rw [h1, h2]

theorem isEOF_congr {l l1 : Lexer} (h1 : l1.input = l.input) (h2 : l1.pos = l.pos) :
    l1.isEOF = l.isEOF := by
  unfold Lexer.isEOF
  rw [h1, h2]

/-- What a call of `Next` that returns has done to the position. -/
theorem Next_progress {l l2 : Lexer} {t : Token} (h : l.Next = .ok (t, l2)) :
    l2.input = l.input ∧ l2.prev = t ∧
    ((t = Token.zero ∧ l2.isEOF = true) ∨
      (t.type ≠ TokenType.EOF ∧ l.pos < l2.pos ∧
        (t.type = TokenType.Property → l2.current = ':' ∧ ¬ (l2.isEOF = true))) ∨
      (t.type = TokenType.Text ∧ t.Value = [] ∧ l2.pos = l.pos ∧
        l.prev.type = TokenType.Quote ∧ ¬ (l.isEOF = true))) := by
  obtain ⟨l1, h1, rfl⟩ := (Next_ok_iff l l2 t).1 h
  refine ⟨(next_frame l l1 t h1).1, rfl, ?_⟩
  rcases next_progress _ l l1 t rfl h1 with ⟨a, b⟩ | ⟨a, b, c⟩ | ⟨a, b, c, d, e⟩
  · exact Or.inl ⟨a, b⟩
  · exact Or.inr (Or.inl ⟨a, b, c⟩)
  · exact Or.inr (Or.inr ⟨a, b, c, d, e⟩)

/-- A call of `Next` that returns a token other than `EOF` leaves fewer tokens;
one that returns `EOF` leaves none. -/
theorem Next_left {l l2 : Lexer} {t : Token} (h : l.Next = .ok (t, l2)) :
    l2.input = l.input ∧
    ((t.type = TokenType.EOF ∧ l2.left = 0) ∨ (t.type ≠ TokenType.EOF ∧ l2.left < l.left)) := by
  obtain ⟨hi, hp, hc⟩ := Next_progress h
  refine ⟨hi, ?_⟩
  rcases hc with ⟨a, b⟩ | ⟨a, b, _⟩ | ⟨a, _, c, d, e⟩
  · exact Or.inl ⟨by rw [a]; rfl, left_of_isEOF b⟩
  · refine Or.inr ⟨a, ?_⟩
    have h2 : l.pos < l.input.length := by
      by_contra h2
      obtain ⟨l1, h3, _⟩ := (Next_ok_iff l l2 t).1 h
      rw [next_eof (isEOF_iff.2 (Nat.le_of_not_lt h2))] at h3
      injection h3 with h3
      injection h3 with h3 _
      rw [← h3] at a
      exact a rfl
    have h3 := left_le l2
    rw [hi] at h3
    have h4 : 2 * (l.input.length - l.pos) ≤ l.left := by
      rw [left_of_lt h2]
      exact Nat.le_add_right _ _
    by_cases h1 : l2.pos ≥ l.input.length
    · rw [left_of_isEOF (isEOF_iff.2 (by rw [hi]; exact h1))]
      omega
    · omega
  · have ht : t.type ≠ TokenType.EOF := by
      rw [a]
      exact fun x => TokenType.noConfusion x
    refine Or.inr ⟨ht, ?_⟩
    have hlt : l.pos < l.input.length := Nat.lt_of_not_le (fun x => e (isEOF_iff.2 x))
    have hq : ¬ (l2.prev.type = TokenType.Quote) := by
      rw [hp, a]
      exact fun x => TokenType.noConfusion x
    rw [left_of_lt hlt, left_of_lt (by rw [hi, c]; exact hlt), hi, c, if_pos d, if_neg hq]
    omega

/-- Behind a property name `Next` returns a colon. -/
theorem Next_after_property {l l2 : Lexer} {t : Token} (h : l.Next = .ok (t, l2))
    (ht : t.type = TokenType.Property) :
    ∃ t2 l3, l2.Next = .ok (t2, l3) ∧ t2.type = TokenType.Colon := by
  obtain ⟨_, hp, hc⟩ := Next_progress h
  have hcur : l2.current = ':' ∧ ¬ (l2.isEOF = true) := by
    rcases hc with ⟨a, _⟩ | ⟨_, _, c⟩ | ⟨a, _⟩
    · rw [a] at ht
      cases ht
    · exact c ht
    · rw [a] at ht
      cases ht
  have hI : ¬ (l2.isIndent = true) :=
    isIndent_of_current (by rw [hcur.1]; decide) (by rw [hcur.1]; decide)
  have hS : l2.Plain := Plain_of_prev (by rw [hp, ht]; exact fun x => TokenType.noConfusion x)
  have hn := next_switch hcur.2 hI hS (by rw [hcur.1]; decide)
  rw [if_neg (by rw [hcur.1]; decide), if_neg (by rw [hcur.1]; decide), if_pos hcur.1] at hn
  exact ⟨_, _, (Next_ok_iff l2 _ _).2 ⟨_, hn, rfl⟩, rfl⟩

/-- Repeated calls of `Next` come to the end with one call more than there
are tokens left. -/
theorem tokens_no_fuel (n : Nat) : ∀ l : Lexer, l.left < n → Lexer.tokens n l ≠ .error Fault.fuel := by
  induction n with
  | zero =>
    intro l h
    exact absurd h (Nat.not_lt_zero _)
  | succ n ih =>
    intro l h
    unfold Lexer.tokens
    cases hN : l.Next with
    | error f =>
      dsimp only
      obtain ⟨_, a, b, hf⟩ := next_error _ l f rfl ((Next_error_iff l f).1 hN)
      rw [hf]
      exact fun x => by cases x
    | ok r =>
      obtain ⟨t, l2⟩ := r
      dsimp only
      by_cases ht : t.type = TokenType.EOF
      · rw [if_pos ht]
        exact fun x => by cases x
      · rw [if_neg ht]
        rcases (Next_left hN).2 with ⟨a, _⟩ | ⟨_, b⟩
        · exact absurd a ht
        · have h2 := ih l2 (by omega)
          cases h3 : Lexer.tokens n l2 with
          | ok ts => exact fun x => by cases x
          | error f =>
            dsimp only
            intro x
            injection x with x
            rw [x] at h3
            exact h2 h3

theorem left_New (input : List Char) : (New input).left ≤ 2 * input.length := by
  unfold Lexer.left
  show (if 0 ≥ input.length then 0
    else 2 * (input.length - 0) +
      (if Token.zero.type = TokenType.Quote then 1 else 0)) ≤ 2 * input.length
  rw [if_neg (show ¬ Token.zero.type = TokenType.Quote from fun x => TokenType.noConfusion x),
    Nat.sub_zero]
  split_ifs <;> omega


/-! ### The parser uses up the tokens -/

/-- A fault of `Next` is the panic of `lexIndent`. -/
theorem Next_fault {l : Lexer} {f : Fault} (h : l.Next = .error f) :
    f ≠ Fault.fuel ∧ ∀ a b c, f ≠ Fault.expectedColon a b c := by
  obtain ⟨_, a0, b0, hf⟩ := next_error _ l f rfl ((Next_error_iff l f).1 h)
  rw [hf]
  exact ⟨(fun x => by cases x), (fun a b c x => by cases x)⟩

theorem Peek_of_Next_error {l : Lexer} {f : Fault} (h : l.Next = .error f) :
    l.Peek = .error f :=
  (Peek_error_iff l f).2 ((Next_error_iff l f).1 h)

/-- The tokens left behind a call of `Next`. -/
theorem Next_left_le {l l2 : Lexer} {t : Token} (h : l.Next = .ok (t, l2)) :
    l2.input = l.input ∧ l2.left ≤ l.left - 1 ∧ l2.left ≤ l.left ∧
      (t.type ≠ TokenType.EOF → l2.left < l.left) := by
  obtain ⟨hi, hc⟩ := Next_left h
  refine ⟨hi, ?_, ?_, ?_⟩
  · rcases hc with ⟨_, b⟩ | ⟨_, b⟩ <;> omega
  · rcases hc with ⟨_, b⟩ | ⟨_, b⟩ <;> omega
  · intro ht
    rcases hc with ⟨a, _⟩ | ⟨_, b⟩
    · exact absurd a ht
    · exact b

/-- The method `parseString` runs without fuel: its faults are its own errors
and the panic of the lexer, and it takes no tokens back. -/
theorem parseString_post (p : Parser) :
    (∀ f, Parser.parseString p = .error f →
      f ≠ Fault.fuel ∧ ∀ a b c, f ≠ Fault.expectedColon a b c) ∧
    (∀ s p1, Parser.parseString p = .ok (s, p1) →
      p1.lexer.input = p.lexer.input ∧ p1.lexer.left ≤ p.lexer.left) := by
  unfold Parser.parseString
  cases h1 : p.lexer.Next with
  | error f1 =>
    dsimp only
    refine ⟨fun f h => ?_, fun s p1 h => by cases h⟩
    injection h with h
    subst h
    exact Next_fault h1
  | ok r1 =>
    obtain ⟨t1, l1⟩ := r1
    dsimp only
    obtain ⟨i1, _, e1, _⟩ := Next_left_le h1
    by_cases c1 : t1.type ≠ TokenType.Quote
    · rw [if_pos c1]
      refine ⟨fun f h => ?_, fun s p1 h => by cases h⟩
      injection h with h
      subst h
      exact ⟨(fun x => by cases x), (fun a b c x => by cases x)⟩
    rw [if_neg c1]
    cases h2 : l1.Next with
    | error f2 =>
      dsimp only
      refine ⟨fun f h => ?_, fun s p1 h => by cases h⟩
      injection h with h
      subst h
      exact Next_fault h2
    | ok r2 =>
      obtain ⟨t2, l2⟩ := r2
      dsimp only
      obtain ⟨i2, _, e2, _⟩ := Next_left_le h2
      by_cases c2 : t2.type ≠ TokenType.Text
      · rw [if_pos c2]
        refine ⟨fun f h => ?_, fun s p1 h => by cases h⟩
        injection h with h
        subst h
        exact ⟨(fun x => by cases x), (fun a b c x => by cases x)⟩
      rw [if_neg c2]
      cases h3 : l2.Next with
      | error f3 =>
        dsimp only
        refine ⟨fun f h => ?_, fun s p1 h => by cases h⟩
        injection h with h
        subst h
        exact Next_fault h3
      | ok r3 =>
        obtain ⟨t3, l3⟩ := r3
        dsimp only
        obtain ⟨i3, _, e3, _⟩ := Next_left_le h3
        by_cases c3 : t3.type ≠ TokenType.Quote
        · rw [if_pos c3]
          refine ⟨fun f h => ?_, fun s p1 h => by cases h⟩
          injection h with h
          subst h
          exact ⟨(fun x => by cases x), (fun a b c x => by cases x)⟩
        rw [if_neg c3]
        refine ⟨(fun f h => by cases h), fun s p1 h => ?_⟩
        injection h with h
        injection h with _ h
        subst h
        exact ⟨i3.trans (i2.trans i1), Nat.le_trans e3 (Nat.le_trans e2 e1)⟩

/-- The faults of `propertyValueOf` are an error and a panic of its own. -/
theorem propertyValueOf_fault (next : Token) (nodes : List Node) (f : Fault)
    (h : propertyValueOf next nodes = .error f) :
    f ≠ Fault.fuel ∧ ∀ a b c, f ≠ Fault.expectedColon a b c := by
  have hT : ∀ (ns : List Node) (g : Fault), textValues ns = .error g → g = Fault.typeAssertion := by
    intro ns
    induction ns with
    | nil =>
      intro g hg
      cases hg
    | cons nd ns ih =>
      intro g hg
      cases nd with
      | ComponentNode a b c =>
        unfold textValues at hg
        injection hg with hg
        exact hg.symm
      | TextNode v =>
        unfold textValues at hg
        cases h2 : textValues ns with
        | ok vs => rw [h2] at hg; cases hg
        | error g2 =>
          rw [h2] at hg
          injection hg with hg
          rw [← hg]
          exact ih g2 h2
  unfold propertyValueOf at h
  dsimp only at h
  by_cases c1 : List.countP Node.isComponent nodes > 1
  · rw [if_pos c1] at h
    injection h with h
    subst h
    exact ⟨(fun x => by cases x), (fun a b c x => by cases x)⟩
  rw [if_neg c1] at h
  by_cases c2 : List.countP Node.isComponent nodes = 0
  · rw [if_pos c2] at h
    cases h2 : textValues nodes with
    | ok text => rw [h2] at h; cases h
    | error g =>
      rw [h2] at h
      injection h with h
      rw [← h, hT nodes g h2]
      exact ⟨(fun x => by cases x), (fun a b c x => by cases x)⟩
  rw [if_neg c2] at h
  cases nodes with
  | nil =>
    injection h with h
    subst h
    exact ⟨(fun x => by cases x), (fun a b c x => by cases x)⟩
  | cons nd ns => cases h


/-! ### The parser ends, and it finds a colon behind every property name -/

/-- A result that holds for a later state of the parser holds for an earlier
one, with the fuel of one step more. -/
theorem post_step {α : Type} {r : Except Fault (α × Parser)} {p q : Parser}
    {P1 P : Prop}
    (h : (∀ a b c, r ≠ .error (Fault.expectedColon a b c)) ∧
      (∀ x p1, r = .ok (x, p1) →
        p1.lexer.input = q.lexer.input ∧ p1.lexer.left ≤ q.lexer.left) ∧
      (P1 → r ≠ .error Fault.fuel))
    (hi : q.lexer.input = p.lexer.input) (hl : q.lexer.left ≤ p.lexer.left)
    (hb : P → P1) :
    (∀ a b c, r ≠ .error (Fault.expectedColon a b c)) ∧
      (∀ x p1, r = .ok (x, p1) →
        p1.lexer.input = p.lexer.input ∧ p1.lexer.left ≤ p.lexer.left) ∧
      (P → r ≠ .error Fault.fuel) :=
  ⟨h.1, fun x p1 e => ⟨(h.2.1 x p1 e).1.trans hi, Nat.le_trans (h.2.1 x p1 e).2 hl⟩,
    fun e => h.2.2 (hb e)⟩

/-- A fault is the same fault in a result of another type. -/
theorem error_cast {α β : Type} {f g : Fault}
    (h : (Except.error f : Except Fault α) ≠ .error g) :
    (Except.error f : Except Fault β) ≠ .error g :=
  fun e => h (by injection e with e; rw [e])

/-- A fault that is neither the fuel nor the missing colon. -/
theorem post_error {α : Type} {f : Fault} (p : Parser) (P : Prop)
    (hf : f ≠ Fault.fuel ∧ ∀ a b c, f ≠ Fault.expectedColon a b c) :
    (∀ a b c, (Except.error f : Except Fault (α × Parser)) ≠
        .error (Fault.expectedColon a b c)) ∧
      (∀ x p1, (Except.error f : Except Fault (α × Parser)) = .ok (x, p1) →
        p1.lexer.input = p.lexer.input ∧ p1.lexer.left ≤ p.lexer.left) ∧
      (P → (Except.error f : Except Fault (α × Parser)) ≠ .error Fault.fuel) :=
  ⟨fun a b c e => hf.2 a b c (by injection e), (fun x p1 e => by cases e),
    fun _ e => hf.1 (by injection e)⟩

/-- A result with the state of the call. -/
theorem post_ok {α : Type} (x0 : α) (p : Parser) (P : Prop) :
    (∀ a b c, (Except.ok (x0, p) : Except Fault (α × Parser)) ≠
        .error (Fault.expectedColon a b c)) ∧
      (∀ x p1, (Except.ok (x0, p) : Except Fault (α × Parser)) = .ok (x, p1) →
        p1.lexer.input = p.lexer.input ∧ p1.lexer.left ≤ p.lexer.left) ∧
      (P → (Except.ok (x0, p) : Except Fault (α × Parser)) ≠ .error Fault.fuel) :=
  ⟨(fun a b c e => by cases e),
    (fun x p1 e => by
      injection e with e
      injection e with _ e
      subst e
      exact ⟨rfl, Nat.le_refl _⟩),
    (fun _ e => by cases e)⟩

/-- The functions of the parser, by the fuel `n`: none returns the error of
the missing colon (`parseProperty` when it is called before a property name),
a result comes with the same input and no more tokens left than before, and
with fuel for the tokens left the fault is not the fuel. -/
theorem parser_post (n : Nat) :
    (∀ (base : Nat) (nodes : List Node) (p : Parser),
      (∀ a b c, Parser.parseBlockLoop n base nodes p ≠ .error (Fault.expectedColon a b c)) ∧
      (∀ x p1, Parser.parseBlockLoop n base nodes p = .ok (x, p1) →
        p1.lexer.input = p.lexer.input ∧ p1.lexer.left ≤ p.lexer.left) ∧
      (2 * p.lexer.left + 1 ≤ n → Parser.parseBlockLoop n base nodes p ≠ .error Fault.fuel)) ∧
    (∀ p : Parser,
      (∀ a b c, Parser.parseBlock n p ≠ .error (Fault.expectedColon a b c)) ∧
      (∀ x p1, Parser.parseBlock n p = .ok (x, p1) →
        p1.lexer.input = p.lexer.input ∧ p1.lexer.left ≤ p.lexer.left) ∧
      (2 * p.lexer.left + 2 ≤ n → Parser.parseBlock n p ≠ .error Fault.fuel)) ∧
    (∀ p : Parser,
      (∀ a b c, Parser.parsePropertyValue n p ≠ .error (Fault.expectedColon a b c)) ∧
      (∀ x p1, Parser.parsePropertyValue n p = .ok (x, p1) →
        p1.lexer.input = p.lexer.input ∧ p1.lexer.left ≤ p.lexer.left) ∧
      (2 * p.lexer.left + 1 ≤ n → Parser.parsePropertyValue n p ≠ .error Fault.fuel)) ∧
    (∀ p : Parser,
      (∀ t l1, p.lexer.Next = .ok (t, l1) → t.type = TokenType.Property →
        ∀ a b c, Parser.parseProperty n p ≠ .error (Fault.expectedColon a b c)) ∧
      (∀ x p1, Parser.parseProperty n p = .ok (x, p1) →
        p1.lexer.input = p.lexer.input ∧ p1.lexer.left < p.lexer.left) ∧
      (1 ≤ p.lexer.left → 2 * p.lexer.left ≤ n →
        Parser.parseProperty n p ≠ .error Fault.fuel)) ∧
    (∀ (base : Nat) (name : List Char) (attributes : List (List Char × Value))
        (children : List Node) (p : Parser),
      (∀ a b c, Parser.parseComponentNodeLoop n base name attributes children p ≠
        .error (Fault.expectedColon a b c)) ∧
      (∀ x p1, Parser.parseComponentNodeLoop n base name attributes children p = .ok (x, p1) →
        p1.lexer.input = p.lexer.input ∧ p1.lexer.left ≤ p.lexer.left) ∧
      (2 * p.lexer.left + 1 ≤ n →
        Parser.parseComponentNodeLoop n base name attributes children p ≠ .error Fault.fuel)) ∧
    (∀ p : Parser,
      (∀ a b c, Parser.parseComponentNode n p ≠ .error (Fault.expectedColon a b c)) ∧
      (∀ x p1, Parser.parseComponentNode n p = .ok (x, p1) →
        p1.lexer.input = p.lexer.input ∧ p1.lexer.left ≤ p.lexer.left - 1) ∧
      (1 ≤ p.lexer.left → 2 * p.lexer.left ≤ n →
        Parser.parseComponentNode n p ≠ .error Fault.fuel)) := by
  induction n with
  | zero =>
    refine ⟨?_, ?_, ?_, ?_, ?_, ?_⟩
    · intro base nodes p
      rw [Parser.parseBlockLoop]
      exact ⟨(fun a b c e => by cases e), (fun x p1 e => by cases e),
        fun e => absurd e (by omega)⟩
    · intro p
      rw [Parser.parseBlock]
      exact ⟨(fun a b c e => by cases e), (fun x p1 e => by cases e),
        fun e => absurd e (by omega)⟩
    · intro p
      rw [Parser.parsePropertyValue]
      exact ⟨(fun a b c e => by cases e), (fun x p1 e => by cases e),
        fun e => absurd e (by omega)⟩
    · intro p
      rw [Parser.parseProperty]
      exact ⟨(fun t l1 _ _ a b c e => by cases e), (fun x p1 e => by cases e),
        fun e1 e2 => absurd e2 (by omega)⟩
    · intro base name attributes children p
      rw [Parser.parseComponentNodeLoop]
      exact ⟨(fun a b c e => by cases e), (fun x p1 e => by cases e),
        fun e => absurd e (by omega)⟩
    · intro p
      rw [Parser.parseComponentNode]
      exact ⟨(fun a b c e => by cases e), (fun x p1 e => by cases e),
        fun e1 e2 => absurd e2 (by omega)⟩
  | succ n ih =>
    obtain ⟨ih1, ih2, ih3, ih4, ih5, ih6⟩ := ih
    refine ⟨?_, ?_, ?_, ?_, ?_, ?_⟩
    · -- parseBlockLoop
      intro base nodes p
      cases hN : p.lexer.Next with
      | error f =>
        rw [parseBlockLoop_fail n base nodes p f (Peek_of_Next_error hN)]
        exact post_error p _ (Next_fault hN)
      | ok r =>
        obtain ⟨token, l1⟩ := r
        obtain ⟨hi, _, hle, hlt⟩ := Next_left_le hN
        rw [parseBlockLoop_step n base nodes p token l1 hN]
        by_cases c1 : token.type = TokenType.EOF
        · rw [if_pos c1]
          exact post_ok nodes p _
        rw [if_neg c1]
        have hlt1 := hlt c1
        by_cases c2 : token.type = TokenType.Indent
        · rw [if_pos c2]
          exact post_step (ih1 base nodes { lexer := l1, indent := p.indent + 1 }) hi hle
            (fun e => by
              show 2 * l1.left + 1 ≤ n
              omega)
        rw [if_neg c2]
        by_cases c3 : token.type = TokenType.LineBreak
        · rw [if_pos c3]
          exact post_step (ih1 base nodes { lexer := l1, indent := 0 }) hi hle
            (fun e => by
              show 2 * l1.left + 1 ≤ n
              omega)
        rw [if_neg c3]
        by_cases c4 : p.indent ≤ base ∧ base ≠ 0
        · rw [if_pos c4]
          exact post_ok nodes p _
        rw [if_neg c4]
        by_cases c5 : token.type = TokenType.Component
        · rw [if_pos c5]
          have k := ih6 p
          cases hC : Parser.parseComponentNode n p with
          | error f =>
            rw [hC] at k
            dsimp only
            exact ⟨fun a b c => error_cast (k.1 a b c), (fun x p1 e => by cases e),
              fun e => error_cast (k.2.2 (by omega) (by omega))⟩
          | ok r2 =>
            obtain ⟨node, p2⟩ := r2
            obtain ⟨m1, m2⟩ := k.2.1 node p2 hC
            dsimp only
            exact post_step (ih1 base (nodes ++ [node]) p2) m1
              (Nat.le_trans m2 (Nat.sub_le _ _)) (fun e => by omega)
        rw [if_neg c5]
        by_cases c6 : token.type = TokenType.Text
        · rw [if_pos c6]
          exact post_step (ih1 base (nodes ++ [Node.TextNode token.Value])
            { p with lexer := l1 }) hi hle
            (fun e => by
              show 2 * l1.left + 1 ≤ n
              omega)
        rw [if_neg c6]
        exact post_error p _ ⟨(fun x => by cases x), (fun a b c x => by cases x)⟩
    · -- parseBlock
      intro p
      rw [Parser.parseBlock]
      exact post_step (ih1 p.indent [] { p with indent := 0 }) rfl (Nat.le_refl _)
        (fun e => by
          show 2 * p.lexer.left + 1 ≤ n
          omega)
    · -- parsePropertyValue
      intro p
      cases hN : p.lexer.Next with
      | error f =>
        rw [Parser.parsePropertyValue, Peek_of_Next_error hN]
        exact post_error p _ (Next_fault hN)
      | ok r =>
        obtain ⟨next, l1⟩ := r
        obtain ⟨hi, _, hle, hlt⟩ := Next_left_le hN
        rw [parsePropertyValue_step n p next l1 hN]
        by_cases c1 : next.type = TokenType.Quote
        · rw [if_pos c1]
          have k := parseString_post p
          cases hS : Parser.parseString p with
          | error f =>
            dsimp only
            exact post_error p _ (k.1 f hS)
          | ok r2 =>
            obtain ⟨s, p2⟩ := r2
            obtain ⟨m1, m2⟩ := k.2 s p2 hS
            dsimp only
            exact post_step (post_ok (Value.str s) p2 True) m1 m2 (fun _ => trivial)
        rw [if_neg c1]
        by_cases c2 : next.type = TokenType.LineBreak
        · rw [if_pos c2]
          have hlt1 := hlt (by rw [c2]; exact fun x => TokenType.noConfusion x)
          have k := ih2 { p with lexer := l1 }
          cases hB : Parser.parseBlock n { p with lexer := l1 } with
          | error f =>
            rw [hB] at k
            dsimp only
            exact ⟨fun a b c => error_cast (k.1 a b c), (fun x p1 e => by cases e),
              fun e => error_cast (k.2.2 (by
                show 2 * l1.left + 2 ≤ n
                omega))⟩
          | ok r2 =>
            obtain ⟨nodes, p2⟩ := r2
            obtain ⟨m1, m2⟩ := k.2.1 nodes p2 hB
            dsimp only
            cases hV : propertyValueOf next nodes with
            | error f =>
              dsimp only
              exact post_error p _ (propertyValueOf_fault next nodes f hV)
            | ok v =>
              dsimp only
              exact post_step (post_ok v p2 True) (m1.trans hi) (Nat.le_trans m2 hle)
                (fun _ => trivial)
        rw [if_neg c2]
        exact post_error p _ ⟨(fun x => by cases x), (fun a b c x => by cases x)⟩
    · -- parseProperty
      intro p
      cases hN : p.lexer.Next with
      | error f =>
        rw [Parser.parseProperty, hN]
        have hf := Next_fault hN
        exact ⟨fun t l1 _ _ a b c e => hf.2 a b c (by injection e),
          (fun x p1 e => by cases e), fun _ _ e => hf.1 (by injection e)⟩
      | ok r =>
        obtain ⟨nameToken, l1⟩ := r
        obtain ⟨hi, _, hle, _⟩ := Next_left_le hN
        cases hN2 : l1.Next with
        | error f =>
          rw [Parser.parseProperty, hN]
          dsimp only
          rw [hN2]
          have hf := Next_fault hN2
          exact ⟨fun t l1 _ _ a b c e => hf.2 a b c (by injection e),
            (fun x p1 e => by cases e), fun _ _ e => hf.1 (by injection e)⟩
        | ok r2 =>
          obtain ⟨next, l2⟩ := r2
          obtain ⟨hi2, _, hle2, hlt2⟩ := Next_left_le hN2
          rw [parseProperty_step n p nameToken next l1 l2 hN hN2]
          by_cases c1 : next.type ≠ TokenType.Colon
          · rw [if_pos c1]
            refine ⟨fun t l3 ht1 ht2 a b c _ => ?_, (fun x p1 e => by cases e),
              (fun _ _ e => by cases e)⟩
            injection ht1 with ht1
            injection ht1 with ht3 ht4
            subst ht3
            obtain ⟨t2, l4, g1, g2⟩ := Next_after_property hN ht2
            rw [hN2] at g1
            injection g1 with g1
            injection g1 with g3 _
            rw [g3] at c1
            exact c1 g2
          rw [if_neg c1]
          have hlt3 := hlt2 (by
            rw [not_not.1 c1]
            exact fun x => TokenType.noConfusion x)
          have k := ih3 { p with lexer := l2 }
          cases hV : Parser.parsePropertyValue n { p with lexer := l2 } with
          | error f =>
            rw [hV] at k
            dsimp only
            exact ⟨fun t l3 _ _ a b c => error_cast (k.1 a b c), (fun x p1 e => by cases e),
              fun e1 e2 => error_cast (k.2.2 (by
                show 2 * l2.left + 1 ≤ n
                omega))⟩
          | ok r3 =>
            obtain ⟨v, p2⟩ := r3
            obtain ⟨m1, m2⟩ := k.2.1 v p2 hV
            dsimp only
            refine ⟨(fun t l3 _ _ a b c e => by cases e), fun x p1 e => ?_,
              (fun _ _ e => by cases e)⟩
            injection e with e
            injection e with _ e
            subst e
            have m3 : p2.lexer.left ≤ l2.left := m2
            exact ⟨m1.trans (hi2.trans hi), by omega⟩
    · -- parseComponentNodeLoop
      intro base name attributes children p
      cases hN : p.lexer.Next with
      | error f =>
        rw [parseComponentNodeLoop_fail n base name attributes children p f
          (Peek_of_Next_error hN)]
        exact post_error p _ (Next_fault hN)
      | ok r =>
        obtain ⟨token, l1⟩ := r
        obtain ⟨hi, _, hle, hlt⟩ := Next_left_le hN
        rw [parseComponentNodeLoop_step n base name attributes children p token l1 hN]
        by_cases c1 : token.type = TokenType.EOF
        · rw [if_pos c1]
          exact post_ok _ p _
        rw [if_neg c1]
        have hlt1 := hlt c1
        by_cases c2 : token.type = TokenType.Indent
        · rw [if_pos c2]
          exact post_step (ih5 base name attributes children
            { lexer := l1, indent := p.indent + 1 }) hi hle
            (fun e => by
              show 2 * l1.left + 1 ≤ n
              omega)
        rw [if_neg c2]
        by_cases c3 : token.type = TokenType.LineBreak
        · rw [if_pos c3]
          exact post_step (ih5 base name attributes children { lexer := l1, indent := 0 }) hi hle
            (fun e => by
              show 2 * l1.left + 1 ≤ n
              omega)
        rw [if_neg c3]
        by_cases c4 : p.indent ≤ base
        · rw [if_pos c4]
          exact post_ok _ p _
        rw [if_neg c4]
        by_cases c5 : token.type = TokenType.Text
        · rw [if_pos c5]
          exact post_step (ih5 base name attributes (children ++ [Node.TextNode token.Value])
            { p with lexer := l1 }) hi hle
            (fun e => by
              show 2 * l1.left + 1 ≤ n
              omega)
        rw [if_neg c5]
        by_cases c6 : token.type = TokenType.Component
        · rw [if_pos c6]
          have k := ih6 p
          cases hC : Parser.parseComponentNode n p with
          | error f =>
            rw [hC] at k
            dsimp only
            exact ⟨fun a b c => error_cast (k.1 a b c), (fun x p1 e => by cases e),
              fun e => error_cast (k.2.2 (by omega) (by omega))⟩
          | ok r2 =>
            obtain ⟨child, p2⟩ := r2
            obtain ⟨m1, m2⟩ := k.2.1 child p2 hC
            dsimp only
            exact post_step (ih5 base name attributes (children ++ [child]) p2) m1
              (Nat.le_trans m2 (Nat.sub_le _ _)) (fun e => by omega)
        rw [if_neg c6]
        by_cases c7 : token.type = TokenType.Bool
        · rw [if_pos c7]
          exact post_step (ih5 base name (attributes ++ [(token.Value, Value.bool true)])
            children { p with lexer := l1 }) hi hle
            (fun e => by
              show 2 * l1.left + 1 ≤ n
              omega)
        rw [if_neg c7]
        by_cases c8 : token.type = TokenType.Property
        · rw [if_pos c8]
          have k := ih4 p
          cases hP : Parser.parseProperty n p with
          | error f =>
            rw [hP] at k
            dsimp only
            exact ⟨fun a b c => error_cast (k.1 token l1 hN c8 a b c),
              (fun x p1 e => by cases e),
              fun e => error_cast (k.2.2 (by omega) (by omega))⟩
          | ok r2 =>
            obtain ⟨kv, p2⟩ := r2
            obtain ⟨m1, m2⟩ := k.2.1 kv p2 hP
            dsimp only
            exact post_step (ih5 base name (attributes ++ [kv]) children p2) m1
              (Nat.le_of_lt m2) (fun e => by omega)
        rw [if_neg c8]
        exact post_error p _ ⟨(fun x => by cases x), (fun a b c x => by cases x)⟩
    · -- parseComponentNode
      intro p
      cases hN : p.lexer.Next with
      | error f =>
        rw [Parser.parseComponentNode, hN]
        have hf := Next_fault hN
        exact ⟨fun a b c e => hf.2 a b c (by injection e),
          (fun x p1 e => by cases e), fun _ _ e => hf.1 (by injection e)⟩
      | ok r =>
        obtain ⟨marker, l1⟩ := r
        obtain ⟨hi, hle1, hle, _⟩ := Next_left_le hN
        rw [parseComponentNode_step n p marker l1 hN]
        have k := ih5 p.indent marker.Value [] [] { p with lexer := l1 }
        refine ⟨k.1, fun x p1 e => ?_, fun e1 e2 => k.2.2 (by
          show 2 * l1.left + 1 ≤ n
          omega)⟩
        obtain ⟨m1, m2⟩ := k.2.1 x p1 e
        have m3 : p1.lexer.left ≤ l1.left := m2
        exact ⟨m1.trans hi, by omega⟩


/-! ### More fuel does not change a result -/

/-- A call of the parser that does not run out of fuel returns the same with
one unit of fuel more. -/
theorem parser_fuel_succ (n : Nat) :
    (∀ (base : Nat) (nodes : List Node) (p : Parser),
      Parser.parseBlockLoop n base nodes p ≠ .error Fault.fuel →
      Parser.parseBlockLoop (n + 1) base nodes p = Parser.parseBlockLoop n base nodes p) ∧
    (∀ p : Parser, Parser.parseBlock n p ≠ .error Fault.fuel →
      Parser.parseBlock (n + 1) p = Parser.parseBlock n p) ∧
    (∀ p : Parser, Parser.parsePropertyValue n p ≠ .error Fault.fuel →
      Parser.parsePropertyValue (n + 1) p = Parser.parsePropertyValue n p) ∧
    (∀ p : Parser, Parser.parseProperty n p ≠ .error Fault.fuel →
      Parser.parseProperty (n + 1) p = Parser.parseProperty n p) ∧
    (∀ (base : Nat) (name : List Char) (attributes : List (List Char × Value))
        (children : List Node) (p : Parser),
      Parser.parseComponentNodeLoop n base name attributes children p ≠ .error Fault.fuel →
      Parser.parseComponentNodeLoop (n + 1) base name attributes children p =
        Parser.parseComponentNodeLoop n base name attributes children p) ∧
    (∀ p : Parser, Parser.parseComponentNode n p ≠ .error Fault.fuel →
      Parser.parseComponentNode (n + 1) p = Parser.parseComponentNode n p) := by
  induction n with
  | zero =>
    refine ⟨?_, ?_, ?_, ?_, ?_, ?_⟩
    · intro base nodes p h
      rw [Parser.parseBlockLoop] at h
      exact absurd rfl h
    · intro p h
      rw [Parser.parseBlock] at h
      exact absurd rfl h
    · intro p h
      rw [Parser.parsePropertyValue] at h
      exact absurd rfl h
    · intro p h
      rw [Parser.parseProperty] at h
      exact absurd rfl h
    · intro base name attributes children p h
      rw [Parser.parseComponentNodeLoop] at h
      exact absurd rfl h
    · intro p h
      rw [Parser.parseComponentNode] at h
      exact absurd rfl h
  | succ n ih =>
    obtain ⟨ih1, ih2, ih3, ih4, ih5, ih6⟩ := ih
    refine ⟨?_, ?_, ?_, ?_, ?_, ?_⟩
    · -- parseBlockLoop
      intro base nodes p h
      cases hN : p.lexer.Next with
      | error f =>
        rw [parseBlockLoop_fail (n + 1) base nodes p f (Peek_of_Next_error hN),
          parseBlockLoop_fail n base nodes p f (Peek_of_Next_error hN)]
      | ok r =>
        obtain ⟨token, l1⟩ := r
        rw [parseBlockLoop_step n base nodes p token l1 hN] at h
        rw [parseBlockLoop_step (n + 1) base nodes p token l1 hN,
          parseBlockLoop_step n base nodes p token l1 hN]
        by_cases c1 : token.type = TokenType.EOF
        · rw [if_pos c1, if_pos c1]
        rw [if_neg c1, if_neg c1]
        rw [if_neg c1] at h
        by_cases c2 : token.type = TokenType.Indent
        · rw [if_pos c2, if_pos c2]
          rw [if_pos c2] at h
          exact ih1 _ _ _ h
        rw [if_neg c2, if_neg c2]
        rw [if_neg c2] at h
        by_cases c3 : token.type = TokenType.LineBreak
        · rw [if_pos c3, if_pos c3]
          rw [if_pos c3] at h
          exact ih1 _ _ _ h
        rw [if_neg c3, if_neg c3]
        rw [if_neg c3] at h
        by_cases c4 : p.indent ≤ base ∧ base ≠ 0
        · rw [if_pos c4, if_pos c4]
        rw [if_neg c4, if_neg c4]
        rw [if_neg c4] at h
        by_cases c5 : token.type = TokenType.Component
        · rw [if_pos c5, if_pos c5]
          rw [if_pos c5] at h
          cases hC : Parser.parseComponentNode n p with
          | error f =>
            rw [hC] at h
            dsimp only at h
            rw [ih6 p (by rw [hC]; exact error_cast h), hC]
          | ok r2 =>
            obtain ⟨node, p2⟩ := r2
            rw [hC] at h
            dsimp only at h
            rw [ih6 p (by rw [hC]; exact fun e => by cases e), hC]
            dsimp only
            exact ih1 _ _ _ h
        rw [if_neg c5, if_neg c5]
        rw [if_neg c5] at h
        by_cases c6 : token.type = TokenType.Text
        · rw [if_pos c6, if_pos c6]
          rw [if_pos c6] at h
          exact ih1 _ _ _ h
        rw [if_neg c6, if_neg c6]
    · -- parseBlock
      intro p h
      rw [Parser.parseBlock] at h
      rw [Parser.parseBlock, Parser.parseBlock]
      exact ih1 _ _ _ h
    · -- parsePropertyValue
      intro p h
      cases hN : p.lexer.Next with
      | error f =>
        rw [Parser.parsePropertyValue, Parser.parsePropertyValue, Peek_of_Next_error hN]
      | ok r =>
        obtain ⟨next, l1⟩ := r
        rw [parsePropertyValue_step n p next l1 hN] at h
        rw [parsePropertyValue_step (n + 1) p next l1 hN, parsePropertyValue_step n p next l1 hN]
        by_cases c1 : next.type = TokenType.Quote
        · rw [if_pos c1, if_pos c1]
        rw [if_neg c1, if_neg c1]
        rw [if_neg c1] at h
        by_cases c2 : next.type = TokenType.LineBreak
        · rw [if_pos c2, if_pos c2]
          rw [if_pos c2] at h
          cases hB : Parser.parseBlock n { p with lexer := l1 } with
          | error f =>
            rw [hB] at h
            dsimp only at h
            rw [ih2 _ (by rw [hB]; exact error_cast h), hB]
          | ok r2 =>
            rw [ih2 _ (by rw [hB]; exact fun e => by cases e), hB]
        rw [if_neg c2, if_neg c2]
    · -- parseProperty
      intro p h
      cases hN : p.lexer.Next with
      | error f =>
        rw [Parser.parseProperty, Parser.parseProperty, hN]
      | ok r =>
        obtain ⟨nameToken, l1⟩ := r
        cases hN2 : l1.Next with
        | error f =>
          rw [Parser.parseProperty, Parser.parseProperty, hN]
          dsimp only
          rw [hN2]
        | ok r2 =>
          obtain ⟨next, l2⟩ := r2
          rw [parseProperty_step n p nameToken next l1 l2 hN hN2] at h
          rw [parseProperty_step (n + 1) p nameToken next l1 l2 hN hN2,
            parseProperty_step n p nameToken next l1 l2 hN hN2]
          by_cases c1 : next.type ≠ TokenType.Colon
          · rw [if_pos c1, if_pos c1]
          rw [if_neg c1, if_neg c1]
          rw [if_neg c1] at h
          cases hV : Parser.parsePropertyValue n { p with lexer := l2 } with
          | error f =>
            rw [hV] at h
            dsimp only at h
            rw [ih3 _ (by rw [hV]; exact error_cast h), hV]
          | ok r3 =>
            rw [ih3 _ (by rw [hV]; exact fun e => by cases e), hV]
    · -- parseComponentNodeLoop
      intro base name attributes children p h
      cases hN : p.lexer.Next with
      | error f =>
        rw [parseComponentNodeLoop_fail (n + 1) base name attributes children p f
            (Peek_of_Next_error hN),
          parseComponentNodeLoop_fail n base name attributes children p f
            (Peek_of_Next_error hN)]
      | ok r =>
        obtain ⟨token, l1⟩ := r
        rw [parseComponentNodeLoop_step n base name attributes children p token l1 hN] at h
        rw [parseComponentNodeLoop_step (n + 1) base name attributes children p token l1 hN,
          parseComponentNodeLoop_step n base name attributes children p token l1 hN]
        by_cases c1 : token.type = TokenType.EOF
        · rw [if_pos c1, if_pos c1]
        rw [if_neg c1, if_neg c1]
        rw [if_neg c1] at h
        by_cases c2 : token.type = TokenType.Indent
        · rw [if_pos c2, if_pos c2]
          rw [if_pos c2] at h
          exact ih5 _ _ _ _ _ h
        rw [if_neg c2, if_neg c2]
        rw [if_neg c2] at h
        by_cases c3 : token.type = TokenType.LineBreak
        · rw [if_pos c3, if_pos c3]
          rw [if_pos c3] at h
          exact ih5 _ _ _ _ _ h
        rw [if_neg c3, if_neg c3]
        rw [if_neg c3] at h
        by_cases c4 : p.indent ≤ base
        · rw [if_pos c4, if_pos c4]
        rw [if_neg c4, if_neg c4]
        rw [if_neg c4] at h
        by_cases c5 : token.type = TokenType.Text
        · rw [if_pos c5, if_pos c5]
          rw [if_pos c5] at h
          exact ih5 _ _ _ _ _ h
        rw [if_neg c5, if_neg c5]
        rw [if_neg c5] at h
        by_cases c6 : token.type = TokenType.Component
        · rw [if_pos c6, if_pos c6]
          rw [if_pos c6] at h
          cases hC : Parser.parseComponentNode n p with
          | error f =>
            rw [hC] at h
            dsimp only at h
            rw [ih6 p (by rw [hC]; exact error_cast h), hC]
          | ok r2 =>
            obtain ⟨child, p2⟩ := r2
            rw [hC] at h
            dsimp only at h
            rw [ih6 p (by rw [hC]; exact fun e => by cases e), hC]
            dsimp only
            exact ih5 _ _ _ _ _ h
        rw [if_neg c6, if_neg c6]
        rw [if_neg c6] at h
        by_cases c7 : token.type = TokenType.Bool
        · rw [if_pos c7, if_pos c7]
          rw [if_pos c7] at h
          exact ih5 _ _ _ _ _ h
        rw [if_neg c7, if_neg c7]
        rw [if_neg c7] at h
        by_cases c8 : token.type = TokenType.Property
        · rw [if_pos c8, if_pos c8]
          rw [if_pos c8] at h
          cases hP : Parser.parseProperty n p with
          | error f =>
            rw [hP] at h
            dsimp only at h
            rw [ih4 p (by rw [hP]; exact error_cast h), hP]
          | ok r2 =>
            obtain ⟨kv, p2⟩ := r2
            rw [hP] at h
            dsimp only at h
            rw [ih4 p (by rw [hP]; exact fun e => by cases e), hP]
            dsimp only
            exact ih5 _ _ _ _ _ h
        rw [if_neg c8, if_neg c8]
    · -- parseComponentNode
      intro p h
      cases hN : p.lexer.Next with
      | error f =>
        rw [Parser.parseComponentNode, Parser.parseComponentNode, hN]
      | ok r =>
        obtain ⟨marker, l1⟩ := r
        rw [parseComponentNode_step n p marker l1 hN] at h
        rw [parseComponentNode_step (n + 1) p marker l1 hN, parseComponentNode_step n p marker l1 hN]
        exact ih5 _ _ _ _ _ h

/-- A call of `parseBlock` that does not run out of fuel returns the same with
any more fuel. -/
theorem parseBlock_fuel_add (n : Nat) (p : Parser)
    (h : Parser.parseBlock n p ≠ .error Fault.fuel) (k : Nat) :
    Parser.parseBlock (n + k) p = Parser.parseBlock n p := by
  induction k with
  | zero => rfl
  | succ k ih =>
    rw [← Nat.add_assoc, (parser_fuel_succ (n + k)).2.1 p (by rw [ih]; exact h), ih]


/-! ### Termination of the lexer and the parser -/

/-- The loop over the bytes that pass a test does not run out of the bytes
left as its fuel: more fuel changes nothing. -/
theorem advanceWhile_fuel (cond : Char → Bool) (fuel : Nat) :
    ∀ (l : Lexer) (k : Nat), l.input.length - l.pos ≤ fuel →
      l.advanceWhile cond (fuel + k) = l.advanceWhile cond fuel := by
  induction fuel with
  | zero =>
    intro l k h
    cases k with
    | zero => rfl
    | succ k =>
      rw [Nat.zero_add]
      unfold Lexer.advanceWhile
      rw [if_neg (fun e => by omega)]
  | succ fuel ih =>
    intro l k h
    rw [Nat.add_right_comm]
    unfold Lexer.advanceWhile
    by_cases c : l.pos < l.input.length ∧ cond l.current = true
    · rw [if_pos c, if_pos c]
      exact ih l.advance k (by
        rw [advance_input, advance_pos (fun e => by rw [isEOF_iff] at e; omega)]
        omega)
    · rw [if_neg c, if_neg c]

/-- The loop of `lexString` does not run out of the bytes left as its fuel. -/
theorem lexStringLoop_fuel (fuel : Nat) :
    ∀ (l : Lexer) (c : Char) (k : Nat), l.input.length - l.pos ≤ fuel →
      l.lexStringLoop (fuel + k) c = l.lexStringLoop fuel c := by
  induction fuel with
  | zero =>
    intro l c k h
    cases k with
    | zero => rfl
    | succ k =>
      rw [Nat.zero_add]
      unfold Lexer.lexStringLoop
      rw [if_neg (fun e => by omega)]
  | succ fuel ih =>
    intro l c k h
    rw [Nat.add_right_comm]
    unfold Lexer.lexStringLoop
    by_cases e : l.pos < l.input.length ∧ l.current ≠ '"' ∧ c ≠ '\\'
    · rw [if_pos e, if_pos e]
      exact ih l.advance l.current k (by
        rw [advance_input, advance_pos (fun x => by rw [isEOF_iff] at x; omega)]
        omega)
    · rw [if_neg e, if_neg e]

/-- The parser of an input does not run out of the fuel of `Parse`, nor of
any more fuel. -/
theorem parseBlock_no_fuel (input : List Char) (fuel : Nat) (h : parseFuel input ≤ fuel) :
    Parser.parseBlock fuel (NewMargoParser input) ≠ .error Fault.fuel := by
  apply ((parser_post fuel).2.1 (NewMargoParser input)).2.2
  have h1 := left_New input
  have h2 : (NewMargoParser input).lexer.left = (New input).left := rfl
  unfold parseFuel at h
  rw [h2]
  omega

/-- C36: `Parse` terminates on every input.  A call of `Next` that returns a
token other than `EOF` has moved on by one byte at least, or it has not moved
and the token is an empty text directly behind a quote; of two such calls in
a row the first has moved, so two tokens take one byte at least.  Repeated
calls of `Next` on an input of `n` bytes return `EOF` or panic within `2n + 1`
calls: the model of the loop does not run out of that fuel.  A call of `Next`
fails with the panic of `lexIndent` only, and its loops over the bytes do not
run out of the bytes left, which are their fuel.  The loops of
`parseBlock` and `parseComponentNode`, started in whatever state, do not run
out of a fuel of one more than twice the tokens left, because every round
takes a token or leaves the loop: a nested component or property that was
parsed has taken a token.  `Parse`, with its fuel of `4n + 8`, returns a
result or a fault of the source, never the fault of the fuel, and with any
more fuel the parser returns the same. -/
theorem parse_terminates (input : List Char) :
    (∀ (l l2 : Lexer) (t : Token), l.Next = .ok (t, l2) → t.type ≠ TokenType.EOF →
      l.pos < l2.pos ∨
        (l2.pos = l.pos ∧ t.type = TokenType.Text ∧ t.Value = [] ∧
          l.prev.type = TokenType.Quote)) ∧
    (∀ (l l2 l3 : Lexer) (t t2 : Token), l.Next = .ok (t, l2) → l2.Next = .ok (t2, l3) →
      t.type ≠ TokenType.EOF → t2.type ≠ TokenType.EOF → l.pos < l3.pos) ∧
    (∀ (l l2 : Lexer) (t : Token), l.Next = .ok (t, l2) → t.type ≠ TokenType.EOF →
      l2.left < l.left) ∧
    (New input).left ≤ 2 * input.length ∧
    Lexer.tokens (2 * input.length + 1) (New input) ≠ .error Fault.fuel ∧
    (∀ (l : Lexer) (f : Fault), l.Next = .error f → ∃ a b, f = Fault.invalidIndent a b) ∧
    (∀ (cond : Char → Bool) (l : Lexer) (k : Nat),
      l.advanceWhile cond (l.input.length - l.pos + k) =
        l.advanceWhile cond (l.input.length - l.pos)) ∧
    (∀ (l : Lexer) (c : Char) (k : Nat),
      l.lexStringLoop (l.input.length - l.pos + k) c =
        l.lexStringLoop (l.input.length - l.pos) c) ∧
    (∀ (n base : Nat) (nodes : List Node) (p : Parser), 2 * p.lexer.left + 1 ≤ n →
      Parser.parseBlockLoop n base nodes p ≠ .error Fault.fuel) ∧
    (∀ (n base : Nat) (name : List Char) (attributes : List (List Char × Value))
        (children : List Node) (p : Parser), 2 * p.lexer.left + 1 ≤ n →
      Parser.parseComponentNodeLoop n base name attributes children p ≠ .error Fault.fuel) ∧
    (∀ (n : Nat) (p p1 : Parser) (node : Node),
      Parser.parseComponentNode n p = .ok (node, p1) →
        p1.lexer.left ≤ p.lexer.left - 1) ∧
    (∀ (n : Nat) (p p1 : Parser) (kv : List Char × Value),
      Parser.parseProperty n p = .ok (kv, p1) → p1.lexer.left < p.lexer.left) ∧
    (∀ fuel, parseFuel input ≤ fuel →
      Parser.parseBlock fuel (NewMargoParser input) ≠ .error Fault.fuel ∧
      Parser.parseBlock fuel (NewMargoParser input) =
        Parser.parseBlock (parseFuel input) (NewMargoParser input)) ∧
    Parse input ≠ .error Fault.fuel := by
  have hA : ∀ (l l2 : Lexer) (t : Token), l.Next = .ok (t, l2) → t.type ≠ TokenType.EOF →
      l.pos < l2.pos ∨
        (l2.pos = l.pos ∧ t.type = TokenType.Text ∧ t.Value = [] ∧
          l.prev.type = TokenType.Quote) := by
    intro l l2 t h ht
    rcases (Next_progress h).2.2 with ⟨a, _⟩ | ⟨_, b, _⟩ | ⟨a, b, c, d, _⟩
    · rw [a] at ht
      exact absurd rfl ht
    · exact Or.inl b
    · exact Or.inr ⟨c, a, b, d⟩
  refine ⟨hA, ?_, ?_, left_New input, ?_, ?_, ?_, ?_, ?_, ?_, ?_, ?_, ?_, ?_⟩
  · intro l l2 l3 t t2 h1 h2 ht ht2
    have hp : l2.prev = t := (Next_progress h1).2.1
    rcases hA l l2 t h1 ht with a | ⟨a, b, _, _⟩
    · rcases hA l2 l3 t2 h2 ht2 with c | ⟨c, _, _, _⟩
      · omega
      · omega
    · rcases hA l2 l3 t2 h2 ht2 with c | ⟨_, _, _, d⟩
      · omega
      · rw [hp, b] at d
        cases d
  · intro l l2 t h ht
    exact (Next_left_le h).2.2.2 ht
  · exact tokens_no_fuel _ _ (Nat.lt_succ_of_le (left_New input))
  · intro l f h
    exact (next_error _ l f rfl ((Next_error_iff l f).1 h)).2
  · intro cond l k
    exact advanceWhile_fuel cond _ l k (Nat.le_refl _)
  · intro l c k
    exact lexStringLoop_fuel _ l c k (Nat.le_refl _)
  · intro n base nodes p h
    exact ((parser_post n).1 base nodes p).2.2 h
  · intro n base name attributes children p h
    exact ((parser_post n).2.2.2.2.1 base name attributes children p).2.2 h
  · intro n p p1 node h
    exact (((parser_post n).2.2.2.2.2 p).2.1 node p1 h).2
  · intro n p p1 kv h
    exact (((parser_post n).2.2.2.1 p).2.1 kv p1 h).2
  · intro fuel h
    refine ⟨parseBlock_no_fuel input fuel h, ?_⟩
    obtain ⟨k, rfl⟩ : ∃ k, fuel = parseFuel input + k := ⟨fuel - parseFuel input, by omega⟩
    exact parseBlock_fuel_add _ _ (parseBlock_no_fuel input _ (Nat.le_refl _)) k
  · have h := parseBlock_no_fuel input (parseFuel input) (Nat.le_refl _)
    unfold Parse
    cases hP : Parser.parseBlock (parseFuel input) (NewMargoParser input) with
    | ok r => exact fun e => by cases e
    | error f =>
      rw [hP] at h
      exact error_cast h

/-- C37: whenever `Next` returns a property name, for whatever lexer, the
next call of `Next` returns a colon; calls of `Peek` in between change
nothing.  So `parseProperty`, which the parser calls where `Peek` has shown a
property name, finds the colon: `Parse` returns the error "expected colon
after property name" for no input, with whatever fuel. -/
theorem colon_follows_property_name :
    (∀ (l l2 : Lexer) (t : Token), l.Next = .ok (t, l2) → t.type = TokenType.Property →
      ∃ t2 l3, l2.Next = .ok (t2, l3) ∧ t2.type = TokenType.Colon ∧
        l2.Peek = .ok (t2, l2)) ∧
    (∀ (fuel : Nat) (content : List Char) (a b : Int) (c : List Char),
      Parser.parseBlock fuel (NewMargoParser content) ≠
        .error (Fault.expectedColon a b c)) ∧
    (∀ (content : List Char) (a b : Int) (c : List Char),
      Parse content ≠ .error (Fault.expectedColon a b c)) := by
  refine ⟨?_, ?_, ?_⟩
  · intro l l2 t h ht
    obtain ⟨t2, l3, h2, h3⟩ := Next_after_property h ht
    exact ⟨t2, l3, h2, h3, Next_Peek h2⟩
  · intro fuel content a b c
    exact ((parser_post fuel).2.1 (NewMargoParser content)).1 a b c
  · intro content a b c
    have h := ((parser_post (parseFuel content)).2.1 (NewMargoParser content)).1 a b c
    unfold Parse
    cases hP : Parser.parseBlock (parseFuel content) (NewMargoParser content) with
    | ok r => exact fun e => by cases e
    | error f =>
      rw [hP] at h
      exact error_cast h

end Margo
